import Mathlib

/-!
# EJDB BSON codec (`src/tcejdb/bson.c`): a shallow embedding

The builder (`bson`), the zero-copy iterator (`bson_iterator`) and the
field-path resolver of `bson.c` are translated into Lean functions over byte
lists, and the properties of the specification are proved about them.

Conventions of the embedding

* A byte is a `Nat` (below 256 for every byte the code computes itself).
* A `const char *` argument is the list of bytes found at the pointer; the
  memory after the listed bytes reads as `0`, so a list without a zero byte is
  a C string with its terminator, and `strlen` stops at the first zero byte.
* A pointer into a buffer is the buffer together with an offset.
* C `int` values are `Int`; the places where the code itself relies on 32-bit
  behaviour (`bson_ensure_space`, the little-endian stores) reduce explicitly.
  A `char` the code returns as an `int` is sign-extended (`char_to_int`).
* `malloc`/`realloc` succeed (their failure is a process exit in the source),
  and fresh memory reads as `0`.
* The section *The builder in memory* is a second embedding, one level lower,
  for the properties that are about the memory itself: buffers have addresses,
  `malloc` and `realloc` can fail and `realloc` can move a block, fresh memory
  holds arbitrary bytes, and a store outside an allocation is recorded.
-/

namespace Bson

/-! ## Machine integers and raw memory -/

/-- The largest C `int`. -/
def INT_MAX : Int := 2147483647

/-- The smallest C `int`. -/
def INT_MIN : Int := -2147483648

/-- Two's-complement reduction of an integer to a signed 32-bit `int`. -/
def wrap32 (x : Int) : Int := (x + 2147483648) % 4294967296 - 2147483648

/-- Two's-complement reduction of an integer to a signed 64-bit `int64_t`. -/
def wrap64 (x : Int) : Int :=
  (x + 9223372036854775808) % 18446744073709551616 - 9223372036854775808

/-- Byte `i` of a memory block; memory outside the listed bytes reads as `0`. -/
def byteAt (m : List Nat) (i : Nat) : Nat := m.getD i 0

/-- The conversion of a `char` to `int`: `char` is signed on the target (x86-64),
so the bytes from 128 on are the negative values. -/
def char_to_int (c : Nat) : Int := if c < 128 then (c : Int) else (c : Int) - 256

/-- The `n` bytes found at a pointer whose memory is `src` (`memcpy`'s source). -/
def mem_take (src : List Nat) (n : Nat) : List Nat :=
  src.take n ++ List.replicate (n - src.length) 0

/-- C `strlen` on the bytes found at a pointer. -/
def strlen : List Nat → Nat
  | [] => 0
  | c :: cs => if c = 0 then 0 else strlen cs + 1

/-- C `strlen` at offset `off` of a memory block. -/
def strlen_at (m : List Nat) (off : Nat) : Nat := strlen (m.drop off)

/-- The C string found at a pointer: the bytes before the first zero byte. -/
def cstr (s : List Nat) : List Nat := s.take (strlen s)

/-- The C string found at offset `off` of a memory block. -/
def cstr_at (m : List Nat) (off : Nat) : List Nat := cstr (m.drop off)

/-- The four bytes `bson_little_endian32` stores for a 32-bit value. -/
def le32_bytes (v : Int) : List Nat :=
  let n := (v % 4294967296).toNat
  [n % 256, n / 256 % 256, n / 65536 % 256, n / 16777216 % 256]

/-- The eight bytes `bson_little_endian64` stores for a 64-bit value. -/
def le64_bytes (v : Int) : List Nat :=
  let n := (v % 18446744073709551616).toNat
  [n % 256, n / 256 % 256, n / 65536 % 256, n / 16777216 % 256,
   n / 4294967296 % 256, n / 1099511627776 % 256, n / 281474976710656 % 256,
   n / 72057594037927936 % 256]

/-- The unsigned value of the four little-endian bytes at offset `off`. -/
def read_u32 (m : List Nat) (off : Nat) : Nat :=
  byteAt m off + 256 * byteAt m (off + 1) + 65536 * byteAt m (off + 2)
    + 16777216 * byteAt m (off + 3)

/-- The unsigned value of the eight little-endian bytes at offset `off`. -/
def read_u64 (m : List Nat) (off : Nat) : Nat :=
  read_u32 m off + 4294967296 * read_u32 m (off + 4)

/-- What `bson_little_endian32(&out, p)` leaves in the `int` `out`. -/
def read_le32 (m : List Nat) (off : Nat) : Int := wrap32 (read_u32 m off)

/-- What `bson_little_endian64(&out, p)` leaves in the `int64_t` `out`. -/
def read_le64 (m : List Nat) (off : Nat) : Int := wrap64 (read_u64 m off)

/-- Overwrite the bytes of `m` from offset `off` on with `bs`; a byte that falls
outside `m` is not represented. -/
def mem_write : List Nat → Nat → List Nat → List Nat
  | m, _, [] => m
  | m, off, c :: cs => mem_write (m.set off c) (off + 1) cs

/-- What `bson_little_endian32(m + off, &v)` does to the block `m`. -/
def write_le32 (m : List Nat) (off : Int) (v : Int) : List Nat :=
  if off < 0 then m else mem_write m off.toNat (le32_bytes v)

/-! ## Constants of `bson.h`

The header is not part of the sources at hand; the values are those of the
BSON C library this file derives from. -/

/-- Modelled from the spec: `bson.h` is absent; success code of the builder calls. -/
def BSON_OK : Int := 0

/-- Modelled from the spec: `bson.h` is absent; failure code of the builder calls. -/
def BSON_ERROR : Int := -1

/-- Modelled from the spec: `bson.h` is absent; error bit SizeOverflow. -/
def BSON_SIZE_OVERFLOW : Nat := 1

/-- Modelled from the spec: `bson.h` is absent; error bit for bytes that are not UTF-8. -/
def BSON_NOT_UTF8 : Nat := 2

/-- Modelled from the spec: `bson.h` is absent; error bit for a field name holding a dot. -/
def BSON_FIELD_HAS_DOT : Nat := 4

/-- Modelled from the spec: `bson.h` is absent; error bit for a field name starting with a dollar. -/
def BSON_FIELD_INIT_DOLLAR : Nat := 8

/-- Modelled from the spec: `bson.h` is absent; error bit AlreadyFinished. -/
def BSON_ALREADY_FINISHED : Nat := 16

/-- Modelled from the spec: `bson.h` is absent; the flag of a buffer created in query mode. -/
def BSON_FLAG_QUERY_MODE : Nat := 1

/-- Modelled from the spec: `bson.h` is absent; the legacy binary subtype, which
carries an extra embedded length field. -/
def BSON_BIN_BINARY_OLD : Nat := 2

/-- Modelled from the spec: `bson.h` is absent; the element type tags, numbered in
the order of the type set of the data model. -/
def BSON_EOO : Nat := 0
def BSON_DOUBLE : Nat := 1
def BSON_STRING : Nat := 2
def BSON_OBJECT : Nat := 3
def BSON_ARRAY : Nat := 4
def BSON_BINDATA : Nat := 5
def BSON_UNDEFINED : Nat := 6
def BSON_OID : Nat := 7
def BSON_BOOL : Nat := 8
def BSON_DATE : Nat := 9
def BSON_NULL : Nat := 10
def BSON_REGEX : Nat := 11
def BSON_DBREF : Nat := 12
def BSON_CODE : Nat := 13
def BSON_SYMBOL : Nat := 14
def BSON_CODEWSCOPE : Nat := 15
def BSON_INT : Nat := 16
def BSON_TIMESTAMP : Nat := 17
def BSON_LONG : Nat := 18

/-- The initial capacity `bson_init` allocates. -/
def initialBufferSize : Int := 128

/-! ## The builder state -/

/-- The C struct `bson`.  `data` lists the bytes at the offsets `[0, cur - data)`
of the allocation, so the cursor offset `cur - data` is its length; the bytes of
the allocation at and after the cursor are never read by the code and are not
represented.  `dataSize` is the capacity, `data_null` says that the pointer
`data` is `NULL`.  `stack` lists the slots of the frame stack from index `0`
(slots not listed read as `0`), `stackPos` is the C index. -/
structure bson where
  data : List Nat
  data_null : Bool
  dataSize : Int
  finished : Bool
  stack : List Int
  stackPos : Int
  err : Nat
  flags : Nat
deriving DecidableEq

/-- The cursor offset `b->cur - b->data`. -/
def bson.cur (b : bson) : Nat := b.data.length

/-- Read slot `i` of the frame stack. -/
def stack_get (s : List Int) (i : Int) : Int :=
  if i < 0 then 0 else s.getD i.toNat 0

/-- Store `v` into slot `i` of the frame stack. -/
def stack_set (s : List Int) (i : Int) (v : Int) : List Int :=
  if i < 0 then s
  else if i.toNat < s.length then s.set i.toNat v
  else s ++ List.replicate (i.toNat - s.length) 0 ++ [v]

/-- `_bson_reset`. -/
def _bson_reset (b : bson) : bson :=
  { b with finished := false, stackPos := 0, err := 0, flags := 0 }

/-- `_bson_init_size`: the four bytes before the initial cursor are fresh memory. -/
def _bson_init_size (size : Int) : bson :=
  _bson_reset
    { data := [0, 0, 0, 0], data_null := decide (size = 0), dataSize := size,
      finished := false, stack := [], stackPos := 0, err := 0, flags := 0 }

/-- `bson_init`. -/
def bson_init : bson := _bson_init_size initialBufferSize

/-- `bson_init_as_query`. -/
def bson_init_as_query : bson :=
  let b := bson_init
  { b with flags := b.flags ||| BSON_FLAG_QUERY_MODE }

/-- `bson_init_size`. -/
def bson_init_size (size : Int) : bson := _bson_init_size size

/-- `bson_size`: `b` is `none` for a `NULL` pointer. -/
def bson_size (b : Option bson) : Int :=
  match b with
  | none => 0
  | some b => if b.data_null then 0 else read_le32 b.data 0

/-- `bson_append_byte`. -/
def bson_append_byte (b : bson) (c : Nat) : bson :=
  { b with data := b.data ++ [c] }

/-- `bson_append`: `memcpy` of `len` bytes, then the cursor moves by `len`. -/
def bson_append (b : bson) (data : List Nat) (len : Nat) : bson :=
  { b with data := b.data ++ mem_take data len }

/-- `bson_append32`. -/
def bson_append32 (b : bson) (v : Int) : bson :=
  { b with data := b.data ++ le32_bytes v }

/-- `bson_append64`. -/
def bson_append64 (b : bson) (v : Int) : bson :=
  { b with data := b.data ++ le64_bytes v }

/-- The conversion of the `double` value `x / 2` to `int` in
`new_size = 1.5 * (...)`: truncation toward zero; a value outside the range of
`int` converts to `INT_MIN` (the result of the x86 conversion instruction). -/
def double_to_int_half (x : Int) : Int :=
  let t := Int.tdiv x 2
  if t < INT_MIN ∨ INT_MAX < t then INT_MIN else t

/-- `bson_ensure_space`.  The sums of two `int`s wrap to 32 bits. -/
def bson_ensure_space (b : bson) (bytesNeeded : Int) : Int × bson :=
  let pos : Int := b.cur
  if wrap32 (pos + bytesNeeded) ≤ b.dataSize then (BSON_OK, b)
  else
    let new_size := double_to_int_half (3 * wrap32 (b.dataSize + bytesNeeded))
    if new_size < b.dataSize then
      if wrap32 (b.dataSize + bytesNeeded) < INT_MAX then
        (BSON_OK, { b with data_null := false, dataSize := INT_MAX })
      else (BSON_ERROR, { b with err := BSON_SIZE_OVERFLOW })
    else (BSON_OK, { b with data_null := false, dataSize := new_size })

/-- `bson_finish`. -/
def bson_finish (b : bson) : Int × bson :=
  if b.err &&& BSON_NOT_UTF8 ≠ 0 then (BSON_ERROR, b)
  else if ¬ b.finished then
    match bson_ensure_space b 1 with
    | (r, b1) =>
      if r = BSON_ERROR then (BSON_ERROR, b1)
      else
        let b2 := bson_append_byte b1 0
        let i : Int := b2.cur
        (BSON_OK, { b2 with data := write_le32 b2.data 0 i, finished := true })
  else (BSON_OK, b)

/-! ## Name and string checks (`encoding.c`) -/

/-- UTF-8 well-formedness scan: `k` continuation bytes are still owed, the next
one within `[lo, hi]`. -/
def utf8_scan : List Nat → Nat → Nat → Nat → Bool
  | [], k, _, _ => decide (k = 0)
  | c :: cs, 0, _, _ =>
    if c < 128 then utf8_scan cs 0 128 191
    else if 194 ≤ c ∧ c ≤ 223 then utf8_scan cs 1 128 191
    else if c = 224 then utf8_scan cs 2 160 191
    else if (225 ≤ c ∧ c ≤ 236) ∨ c = 238 ∨ c = 239 then utf8_scan cs 2 128 191
    else if c = 237 then utf8_scan cs 2 128 159
    else if c = 240 then utf8_scan cs 3 144 191
    else if 241 ≤ c ∧ c ≤ 243 then utf8_scan cs 3 128 191
    else if c = 244 then utf8_scan cs 3 128 143
    else false
  | c :: cs, k + 1, lo, hi =>
    if lo ≤ c ∧ c ≤ hi then utf8_scan cs k 128 191 else false

/-- Modelled from the spec: the UTF-8 test of `encoding.c`, which is absent;
"valid UTF-8" is taken as well-formed UTF-8. -/
def utf8_valid (s : List Nat) : Bool := utf8_scan s 0 128 191

/-- Modelled from the spec: `bson_check_field_name` is defined in `encoding.c`,
which is absent.  "Field-name legality (no leading '$', no embedded '.', valid
UTF-8) is enforced at append time"; an illegal name is an error that sets a flag
on the builder.  `check_dot` and `check_dollar` switch the two checks on. -/
def bson_check_field_name (b : bson) (name : List Nat) (len : Nat)
    (check_dot check_dollar : Bool) : Int × bson :=
  if check_dollar = true ∧ byteAt name 0 = 36 then
    (BSON_ERROR, { b with err := b.err ||| BSON_FIELD_INIT_DOLLAR })
  else if check_dot = true ∧ 46 ∈ mem_take name len then
    (BSON_ERROR, { b with err := b.err ||| BSON_FIELD_HAS_DOT })
  else if utf8_valid (mem_take name len) = false then
    (BSON_ERROR, { b with err := b.err ||| BSON_NOT_UTF8 })
  else (BSON_OK, b)

/-- Modelled from the spec: `bson_check_string` is defined in `encoding.c`, which
is absent.  A string value has to be valid UTF-8; a value that is not sets the
flag `BSON_NOT_UTF8` (the flag `bson_finish` tests) and is an error. -/
def bson_check_string (b : bson) (value : List Nat) (len : Nat) : Int × bson :=
  if utf8_valid (mem_take value len) = false then
    (BSON_ERROR, { b with err := b.err ||| BSON_NOT_UTF8 })
  else (BSON_OK, b)

/-- `bson_builder_error`: calls the process-wide error handler when one is set;
the builder is not touched. -/
def bson_builder_error (b : bson) : bson := b

/-! ## Appending elements -/

/-- `bson_append_estart`. -/
def bson_append_estart (b : bson) (type : Nat) (name : List Nat) (dataSize : Int) :
    Int × bson :=
  let len : Nat := strlen name + 1
  if b.finished then
    (BSON_ERROR, { b with err := b.err ||| BSON_ALREADY_FINISHED })
  else
    match bson_ensure_space b (1 + (len : Int) + dataSize) with
    | (r, b1) =>
      if r = BSON_ERROR then (BSON_ERROR, b1)
      else
        match bson_check_field_name b1 name (len - 1)
            (decide (b1.flags &&& BSON_FLAG_QUERY_MODE = 0))
            (decide (b1.flags &&& BSON_FLAG_QUERY_MODE = 0)) with
        | (r2, b2) =>
          if r2 = BSON_ERROR then (BSON_ERROR, bson_builder_error b2)
          else (BSON_OK, bson_append (bson_append_byte b2 type) name len)

/-- `bson_append_int`. -/
def bson_append_int (b : bson) (name : List Nat) (i : Int) : Int × bson :=
  match bson_append_estart b BSON_INT name 4 with
  | (r, b1) => if r = BSON_ERROR then (BSON_ERROR, b1) else (BSON_OK, bson_append32 b1 i)

/-- `bson_append_long`. -/
def bson_append_long (b : bson) (name : List Nat) (i : Int) : Int × bson :=
  match bson_append_estart b BSON_LONG name 8 with
  | (r, b1) => if r = BSON_ERROR then (BSON_ERROR, b1) else (BSON_OK, bson_append64 b1 i)

/-- `bson_append_double`: `d` is the 64-bit pattern of the `double`. -/
def bson_append_double (b : bson) (name : List Nat) (d : Nat) : Int × bson :=
  match bson_append_estart b BSON_DOUBLE name 8 with
  | (r, b1) => if r = BSON_ERROR then (BSON_ERROR, b1) else (BSON_OK, bson_append64 b1 d)

/-- `bson_append_bool`. -/
def bson_append_bool (b : bson) (name : List Nat) (i : Int) : Int × bson :=
  match bson_append_estart b BSON_BOOL name 1 with
  | (r, b1) =>
    if r = BSON_ERROR then (BSON_ERROR, b1)
    else (BSON_OK, bson_append_byte b1 (if i ≠ 0 then 1 else 0))

/-- `bson_append_null`. -/
def bson_append_null (b : bson) (name : List Nat) : Int × bson :=
  match bson_append_estart b BSON_NULL name 0 with
  | (r, b1) => if r = BSON_ERROR then (BSON_ERROR, b1) else (BSON_OK, b1)

/-- `bson_append_undefined`. -/
def bson_append_undefined (b : bson) (name : List Nat) : Int × bson :=
  match bson_append_estart b BSON_UNDEFINED name 0 with
  | (r, b1) => if r = BSON_ERROR then (BSON_ERROR, b1) else (BSON_OK, b1)

/-- `bson_append_string_base`.  The length is a `Nat`: a negative `len` makes the
size argument of `memcpy` wrap, which is undefined. -/
def bson_append_string_base (b : bson) (name value : List Nat) (len : Nat) (type : Nat) :
    Int × bson :=
  let sl : Int := (len : Int) + 1
  match bson_check_string b value (sl - 1).toNat with
  | (r0, b0) =>
    if r0 = BSON_ERROR then (BSON_ERROR, b0)
    else
      match bson_append_estart b0 type name (4 + sl) with
      | (r, b1) =>
        if r = BSON_ERROR then (BSON_ERROR, b1)
        else
          (BSON_OK,
            bson_append (bson_append (bson_append32 b1 sl) value (sl - 1).toNat) [0] 1)

/-- `bson_append_string`. -/
def bson_append_string (b : bson) (name value : List Nat) : Int × bson :=
  bson_append_string_base b name value (strlen value) BSON_STRING

/-- `bson_append_symbol`. -/
def bson_append_symbol (b : bson) (name value : List Nat) : Int × bson :=
  bson_append_string_base b name value (strlen value) BSON_SYMBOL

/-- `bson_append_code`. -/
def bson_append_code (b : bson) (name value : List Nat) : Int × bson :=
  bson_append_string_base b name value (strlen value) BSON_CODE

/-- `bson_append_string_n`. -/
def bson_append_string_n (b : bson) (name value : List Nat) (len : Nat) : Int × bson :=
  bson_append_string_base b name value len BSON_STRING

/-- `bson_append_symbol_n`. -/
def bson_append_symbol_n (b : bson) (name value : List Nat) (len : Nat) : Int × bson :=
  bson_append_string_base b name value len BSON_SYMBOL

/-- `bson_append_code_n`. -/
def bson_append_code_n (b : bson) (name value : List Nat) (len : Nat) : Int × bson :=
  bson_append_string_base b name value len BSON_CODE

/-- `bson_append_code_w_scope_n`: `scope` is `none` for a `NULL` pointer. -/
def bson_append_code_w_scope_n (b : bson) (name code : List Nat) (len : Nat)
    (scope : Option bson) : Int × bson :=
  match scope with
  | none => (BSON_ERROR, b)
  | some sc =>
    let sl : Int := (len : Int) + 1
    let size : Int := 4 + 4 + sl + bson_size scope
    match bson_append_estart b BSON_CODEWSCOPE name size with
    | (r, b1) =>
      if r = BSON_ERROR then (BSON_ERROR, b1)
      else
        (BSON_OK,
          bson_append (bson_append (bson_append32 (bson_append32 b1 size) sl) code sl.toNat)
            sc.data (bson_size scope).toNat)

/-- `bson_append_code_w_scope`. -/
def bson_append_code_w_scope (b : bson) (name code : List Nat) (scope : Option bson) :
    Int × bson :=
  bson_append_code_w_scope_n b name code (strlen code) scope

/-- `bson_append_binary`. -/
def bson_append_binary (b : bson) (name : List Nat) (type : Nat) (str : List Nat)
    (len : Nat) : Int × bson :=
  if type = BSON_BIN_BINARY_OLD then
    let subtwolen : Int := (len : Int) + 4
    match bson_append_estart b BSON_BINDATA name (4 + 1 + 4 + (len : Int)) with
    | (r, b1) =>
      if r = BSON_ERROR then (BSON_ERROR, b1)
      else
        (BSON_OK,
          bson_append (bson_append32 (bson_append_byte (bson_append32 b1 subtwolen) type) len)
            str len)
  else
    match bson_append_estart b BSON_BINDATA name (4 + 1 + (len : Int)) with
    | (r, b1) =>
      if r = BSON_ERROR then (BSON_ERROR, b1)
      else (BSON_OK, bson_append (bson_append_byte (bson_append32 b1 len) type) str len)

/-- `bson_append_oid`: `oid` lists the bytes at the pointer. -/
def bson_append_oid (b : bson) (name : List Nat) (oid : List Nat) : Int × bson :=
  match bson_append_estart b BSON_OID name 12 with
  | (r, b1) => if r = BSON_ERROR then (BSON_ERROR, b1) else (BSON_OK, bson_append b1 oid 12)

/-- `bson_append_regex`. -/
def bson_append_regex (b : bson) (name pattern opts : List Nat) : Int × bson :=
  let plen : Nat := strlen pattern + 1
  let olen : Nat := strlen opts + 1
  match bson_append_estart b BSON_REGEX name ((plen : Int) + (olen : Int)) with
  | (r, b1) =>
    if r = BSON_ERROR then (BSON_ERROR, b1)
    else
      match bson_check_string b1 pattern (plen - 1) with
      | (r2, b2) =>
        if r2 = BSON_ERROR then (BSON_ERROR, b2)
        else (BSON_OK, bson_append (bson_append b2 pattern plen) opts olen)

/-- `bson_append_bson`: `sub` is `none` for a `NULL` pointer. -/
def bson_append_bson (b : bson) (name : List Nat) (sub : Option bson) : Int × bson :=
  match sub with
  | none => (BSON_ERROR, b)
  | some s =>
    match bson_append_estart b BSON_OBJECT name (bson_size sub) with
    | (r, b1) =>
      if r = BSON_ERROR then (BSON_ERROR, b1)
      else (BSON_OK, bson_append b1 s.data (bson_size sub).toNat)

/-- `bson_append_timestamp`: `i` and `t` are the two fields of `*ts`. -/
def bson_append_timestamp (b : bson) (name : List Nat) (i t : Int) : Int × bson :=
  match bson_append_estart b BSON_TIMESTAMP name 8 with
  | (r, b1) =>
    if r = BSON_ERROR then (BSON_ERROR, b1)
    else (BSON_OK, bson_append32 (bson_append32 b1 i) t)

/-- `bson_append_timestamp2`. -/
def bson_append_timestamp2 (b : bson) (name : List Nat) (time increment : Int) :
    Int × bson :=
  match bson_append_estart b BSON_TIMESTAMP name 8 with
  | (r, b1) =>
    if r = BSON_ERROR then (BSON_ERROR, b1)
    else (BSON_OK, bson_append32 (bson_append32 b1 increment) time)

/-- `bson_append_date`. -/
def bson_append_date (b : bson) (name : List Nat) (millis : Int) : Int × bson :=
  match bson_append_estart b BSON_DATE name 8 with
  | (r, b1) => if r = BSON_ERROR then (BSON_ERROR, b1) else (BSON_OK, bson_append64 b1 millis)

/-- `bson_append_time_t`. -/
def bson_append_time_t (b : bson) (name : List Nat) (secs : Int) : Int × bson :=
  bson_append_date b name (wrap64 (secs * 1000))

/-- `bson_append_start_object`. -/
def bson_append_start_object (b : bson) (name : List Nat) : Int × bson :=
  match bson_append_estart b BSON_OBJECT name 5 with
  | (r, b1) =>
    if r = BSON_ERROR then (BSON_ERROR, b1)
    else
      (BSON_OK,
        bson_append32
          { b1 with stack := stack_set b1.stack b1.stackPos b1.cur,
                    stackPos := b1.stackPos + 1 } 0)

/-- `bson_append_start_array`. -/
def bson_append_start_array (b : bson) (name : List Nat) : Int × bson :=
  match bson_append_estart b BSON_ARRAY name 5 with
  | (r, b1) =>
    if r = BSON_ERROR then (BSON_ERROR, b1)
    else
      (BSON_OK,
        bson_append32
          { b1 with stack := stack_set b1.stack b1.stackPos b1.cur,
                    stackPos := b1.stackPos + 1 } 0)

/-- `bson_append_finish_object`. -/
def bson_append_finish_object (b : bson) : Int × bson :=
  match bson_ensure_space b 1 with
  | (r, b1) =>
    if r = BSON_ERROR then (BSON_ERROR, b1)
    else
      let b2 := bson_append_byte b1 0
      let b3 := { b2 with stackPos := b2.stackPos - 1 }
      let start : Int := stack_get b3.stack b3.stackPos
      let i : Int := (b3.cur : Int) - start
      (BSON_OK, { b3 with data := write_le32 b3.data start i })

/-- `bson_append_finish_array`. -/
def bson_append_finish_array (b : bson) : Int × bson := bson_append_finish_object b

/-! ## The iterator -/

/-- The C struct `bson_iterator`: the pointer `cur` is the block `buf` it points
into together with the offset `cur`; `first` is the first-element flag. -/
structure bson_iterator where
  buf : List Nat
  cur : Nat
  first : Bool
deriving DecidableEq

/-- `bson_iterator_init`. -/
def bson_iterator_init (b : bson) : bson_iterator :=
  { buf := b.data, cur := 4, first := true }

/-- `bson_iterator_from_buffer`: the pointer `buffer` is offset `off` of `buf`. -/
def bson_iterator_from_buffer (buf : List Nat) (off : Nat) : bson_iterator :=
  { buf := buf, cur := off + 4, first := true }

/-- `bson_iterator_type`. -/
def bson_iterator_type (i : bson_iterator) : Nat := byteAt i.buf i.cur

/-- `bson_iterator_key`: the offset of the key in `i.buf`. -/
def bson_iterator_key (i : bson_iterator) : Nat := i.cur + 1

/-- The key as a C string. -/
def bson_iterator_key_str (i : bson_iterator) : List Nat :=
  cstr_at i.buf (bson_iterator_key i)

/-- `bson_iterator_value`: the offset of the payload in `i.buf`. -/
def bson_iterator_value (i : bson_iterator) : Nat :=
  let t := i.cur + 1
  t + (strlen_at i.buf t + 1)

/-- `bson_iterator_int_raw`. -/
def bson_iterator_int_raw (i : bson_iterator) : Int :=
  read_le32 i.buf (bson_iterator_value i)

/-- `bson_iterator_long_raw`. -/
def bson_iterator_long_raw (i : bson_iterator) : Int :=
  read_le64 i.buf (bson_iterator_value i)

/-- `bson_iterator_double_raw`: the 64-bit pattern of the `double`. -/
def bson_iterator_double_raw (i : bson_iterator) : Nat :=
  read_u64 i.buf (bson_iterator_value i)

/-- `bson_iterator_bool_raw`: the `char` at the value, returned as a
`bson_bool_t` (an `int`). -/
def bson_iterator_bool_raw (i : bson_iterator) : Int :=
  char_to_int (byteAt i.buf (bson_iterator_value i))

/-- The conversion of an integer to `double` (IEEE-754 binary64, round to
nearest, ties to even): the 64-bit pattern of the result. -/
def double_of_int (x : Int) : Nat :=
  if x = 0 then 0
  else
    let a := x.natAbs
    let k := Nat.log2 a
    let sign := if x < 0 then 9223372036854775808 else 0
    if k ≤ 52 then sign + (k + 1023) * 4503599627370496 + (a * 2 ^ (52 - k) - 4503599627370496)
    else
      let sh := k - 52
      let q := a / 2 ^ sh
      let r := a % 2 ^ sh
      let half := 2 ^ (sh - 1)
      let q1 := if half < r ∨ (r = half ∧ q % 2 = 1) then q + 1 else q
      sign + (k + 1023) * 4503599627370496 + (q1 - 4503599627370496)

/-- The rational number a finite binary64 pattern denotes; `none` for the
infinities and NaN. -/
def double_value (bits : Nat) : Option ℚ :=
  let s := bits / 9223372036854775808 % 2
  let e := bits / 4503599627370496 % 2048
  let f := bits % 4503599627370496
  if e = 2047 then none
  else
    let m : ℚ := if e = 0 then (f : ℚ) else 4503599627370496 + (f : ℚ)
    let ex : Int := (if e = 0 then 1 else (e : Int)) - 1075
    some ((if s = 1 then -1 else 1) * m * 2 ^ ex)

/-- The conversion of a `double` to a signed integer type with the range
`[lo, hi]`: truncation toward zero; a value outside the range, an infinity or a
NaN converts to `lo` (the result of the x86 conversion instructions). -/
def double_to_int (bits : Nat) (lo hi : Int) : Int :=
  match double_value bits with
  | none => lo
  | some q =>
    let t := Int.tdiv q.num q.den
    if t < lo ∨ hi < t then lo else t

/-- `bson_iterator_int`. -/
def bson_iterator_int (i : bson_iterator) : Int :=
  let t := bson_iterator_type i
  if t = BSON_INT then bson_iterator_int_raw i
  else if t = BSON_LONG then wrap32 (bson_iterator_long_raw i)
  else if t = BSON_DOUBLE then double_to_int (bson_iterator_double_raw i) INT_MIN INT_MAX
  else 0

/-- `bson_iterator_double`: the 64-bit pattern of the returned `double`. -/
def bson_iterator_double (i : bson_iterator) : Nat :=
  let t := bson_iterator_type i
  if t = BSON_INT then double_of_int (bson_iterator_int_raw i)
  else if t = BSON_LONG then double_of_int (bson_iterator_long_raw i)
  else if t = BSON_DOUBLE then bson_iterator_double_raw i
  else 0

/-- `bson_iterator_long`. -/
def bson_iterator_long (i : bson_iterator) : Int :=
  let t := bson_iterator_type i
  if t = BSON_INT then bson_iterator_int_raw i
  else if t = BSON_LONG then bson_iterator_long_raw i
  else if t = BSON_DOUBLE then
    double_to_int (bson_iterator_double_raw i) (-9223372036854775808) 9223372036854775807
  else 0

/-- `bson_iterator_more`: the `char` at the cursor, returned as a `bson_bool_t`
(an `int`). -/
def bson_iterator_more (i : bson_iterator) : Int := char_to_int (byteAt i.buf i.cur)

/-- The `switch` of `bson_iterator_next`: the payload length `ds` for the type
under the cursor, `none` for the `default` branch (`bson_fatal_msg`). -/
def bson_iterator_ds (i : bson_iterator) : Option Int :=
  let t := bson_iterator_type i
  if t = BSON_UNDEFINED ∨ t = BSON_NULL then some 0
  else if t = BSON_BOOL then some 1
  else if t = BSON_INT then some 4
  else if t = BSON_LONG ∨ t = BSON_DOUBLE ∨ t = BSON_TIMESTAMP ∨ t = BSON_DATE then some 8
  else if t = BSON_OID then some 12
  else if t = BSON_STRING ∨ t = BSON_SYMBOL ∨ t = BSON_CODE then
    some (4 + bson_iterator_int_raw i)
  else if t = BSON_BINDATA then some (5 + bson_iterator_int_raw i)
  else if t = BSON_OBJECT ∨ t = BSON_ARRAY ∨ t = BSON_CODEWSCOPE then
    some (bson_iterator_int_raw i)
  else if t = BSON_DBREF then some (4 + 12 + bson_iterator_int_raw i)
  else if t = BSON_REGEX then
    let s := bson_iterator_value i
    let p := s + (strlen_at i.buf s + 1)
    let p2 := p + (strlen_at i.buf p + 1)
    some ((p2 : Int) - (s : Int))
  else none

/-- `bson_iterator_next`: the returned type and the iterator after the call;
`none` when the type under the cursor is unknown, which is a fatal exit. -/
def bson_iterator_next (i : bson_iterator) : Option (Nat × bson_iterator) :=
  if i.first then
    some (byteAt i.buf i.cur, { i with first := false })
  else if bson_iterator_type i = BSON_EOO then some (BSON_EOO, i)
  else
    match bson_iterator_ds i with
    | none => none
    | some ds =>
      let cur : Int := (i.cur : Int) + (1 + (strlen_at i.buf (i.cur + 1) : Int) + 1 + ds)
      let i1 := { i with cur := cur.toNat }
      some (byteAt i1.buf i1.cur, i1)

/-- `bson_iterator_subiterator`. -/
def bson_iterator_subiterator (i : bson_iterator) : bson_iterator :=
  bson_iterator_from_buffer i.buf (bson_iterator_value i)

/-- `bson_append_element`: `name_or_null` is `none` for `NULL`.  The result is
`none` when `bson_iterator_next` stops fatally. -/
def bson_append_element (b : bson) (name_or_null : Option (List Nat))
    (elem : bson_iterator) : Option (Int × bson) :=
  match bson_iterator_next elem with
  | none => none
  | some (_, next) =>
    let size : Int := (next.cur : Int) - (elem.cur : Int)
    match name_or_null with
    | none =>
      match bson_ensure_space b size with
      | (r, b1) =>
        if r = BSON_ERROR then some (BSON_ERROR, b1)
        else some (BSON_OK, bson_append b1 (elem.buf.drop elem.cur) size.toNat)
    | some name =>
      let data_size : Int := size - 2 - (strlen_at elem.buf (bson_iterator_key elem) : Int)
      let b1 := (bson_append_estart b (byteAt elem.buf elem.cur) name data_size).2
      some (BSON_OK,
        bson_append b1 (elem.buf.drop (bson_iterator_value elem)) data_size.toNat)

/-! ## The field-path resolver -/

/-- The comparison loop of `bson_find_fieldpath_value_impl`:
`for (i = 0; i < curr && i < fplen && pstack[i] == fpath[i]; ++i);`
run for at most `n` more steps from `i`. -/
def fpath_match (pstack fpath : List Nat) (curr fplen : Nat) : Nat → Nat → Nat
  | 0, i => i
  | n + 1, i =>
    if i < curr ∧ i < fplen ∧ byteAt pstack i = byteAt fpath i then
      fpath_match pstack fpath curr fplen n (i + 1)
    else i

/-- `bson_find_fieldpath_value_impl`; the limit `BSON_MAX_FPATH_LEN` of the absent
header is a parameter.  The result is the returned type, the path buffer and the
iterator `*it` after the call.  Every turn of the `while` loop and every
recursive call uses one unit of `fuel`; `none` when the fuel runs out or an
iterator stops fatally. -/
def bson_find_fieldpath_value_impl (BSON_MAX_FPATH_LEN : Nat) :
    Nat → List Nat → Nat → List Nat → Nat → bson_iterator →
      Option (Nat × List Nat × bson_iterator)
  | 0, _, _, _, _, _ => none
  | fuel + 1, pstack, curr, fpath, fplen, it =>
    match bson_iterator_next it with
    | none => none
    | some (t, it1) =>
      if t = BSON_EOO then some (BSON_EOO, pstack, it1)
      else
        let key := bson_iterator_key it1
        let klen := strlen_at it1.buf key
        if curr + klen > fplen ∨ curr + klen + 1 ≥ BSON_MAX_FPATH_LEN then
          bson_find_fieldpath_value_impl BSON_MAX_FPATH_LEN fuel pstack curr fpath fplen it1
        else
          let pstack1 := if curr > 0 then mem_write pstack curr [46] else pstack
          let curr1 := if curr > 0 then curr + 1 else curr
          let pstack2 := mem_write pstack1 curr1 (mem_take (it1.buf.drop key) klen)
          let curr2 := curr1 + klen
          let i := fpath_match pstack2 fpath curr2 fplen curr2 0
          if i = curr2 ∧ i = fplen then some (t, pstack2, it1)
          else
            let pop (n : Nat) : Nat := if n - klen > 0 then n - klen - 1 else n - klen
            if i = curr2 ∧ i < fplen ∧ (t = BSON_OBJECT ∨ t = BSON_ARRAY) then
              match bson_find_fieldpath_value_impl BSON_MAX_FPATH_LEN fuel pstack2 curr2 fpath
                  fplen (bson_iterator_subiterator it1) with
              | none => none
              | some (st, pstack3, sit) =>
                if st ≠ BSON_EOO then some (st, pstack3, sit)
                else
                  bson_find_fieldpath_value_impl BSON_MAX_FPATH_LEN fuel pstack3 (pop curr2)
                    fpath fplen it1
            else
              bson_find_fieldpath_value_impl BSON_MAX_FPATH_LEN fuel pstack2 (pop curr2) fpath
                fplen it1

/-- `bson_find_fieldpath_value2`: the returned type and the iterator after the
call.  The path buffer `pstack` is fresh memory of `BSON_MAX_FPATH_LEN` bytes. -/
def bson_find_fieldpath_value2 (BSON_MAX_FPATH_LEN : Nat) (fuel : Nat) (fpath : List Nat)
    (fplen : Nat) (it : bson_iterator) : Option (Nat × bson_iterator) :=
  if fplen ≥ BSON_MAX_FPATH_LEN then some (BSON_EOO, it)
  else
    (bson_find_fieldpath_value_impl BSON_MAX_FPATH_LEN fuel
        (List.replicate BSON_MAX_FPATH_LEN 0) 0 fpath fplen it).map
      (fun r => (r.1, r.2.2))

/-- `bson_find_fieldpath_value`. -/
def bson_find_fieldpath_value (BSON_MAX_FPATH_LEN : Nat) (fuel : Nat) (fpath : List Nat)
    (it : bson_iterator) : Option (Nat × bson_iterator) :=
  bson_find_fieldpath_value2 BSON_MAX_FPATH_LEN fuel fpath (strlen fpath) it

/-! ## Sequences of builder calls -/

/-- One call of a typed append operation, with its arguments. -/
inductive Field where
  | int (name : List Nat) (i : Int)
  | long (name : List Nat) (i : Int)
  | double (name : List Nat) (d : Nat)
  | bool (name : List Nat) (i : Int)
  | null (name : List Nat)
  | undefined (name : List Nat)
  | string (name value : List Nat)
  | symbol (name value : List Nat)
  | code (name value : List Nat)
  | string_n (name value : List Nat) (len : Nat)
  | symbol_n (name value : List Nat) (len : Nat)
  | code_n (name value : List Nat) (len : Nat)
  | code_w_scope (name code : List Nat) (scope : Option bson)
  | code_w_scope_n (name code : List Nat) (len : Nat) (scope : Option bson)
  | binary (name : List Nat) (type : Nat) (str : List Nat) (len : Nat)
  | oid (name bytes : List Nat)
  | regex (name pattern opts : List Nat)
  | subdoc (name : List Nat) (sub : Option bson)
  | timestamp (name : List Nat) (i t : Int)
  | timestamp2 (name : List Nat) (time increment : Int)
  | date (name : List Nat) (millis : Int)
  | time_t (name : List Nat) (secs : Int)

/-- Perform the call on the builder `b`. -/
def Field.append (b : bson) : Field → Int × bson
  | .int name i => bson_append_int b name i
  | .long name i => bson_append_long b name i
  | .double name d => bson_append_double b name d
  | .bool name i => bson_append_bool b name i
  | .null name => bson_append_null b name
  | .undefined name => bson_append_undefined b name
  | .string name value => bson_append_string b name value
  | .symbol name value => bson_append_symbol b name value
  | .code name value => bson_append_code b name value
  | .string_n name value len => bson_append_string_n b name value len
  | .symbol_n name value len => bson_append_symbol_n b name value len
  | .code_n name value len => bson_append_code_n b name value len
  | .code_w_scope name js scope => bson_append_code_w_scope b name js scope
  | .code_w_scope_n name js len scope => bson_append_code_w_scope_n b name js len scope
  | .binary name type str len => bson_append_binary b name type str len
  | .oid name bytes => bson_append_oid b name bytes
  | .regex name pattern opts => bson_append_regex b name pattern opts
  | .subdoc name sub => bson_append_bson b name sub
  | .timestamp name i t => bson_append_timestamp b name i t
  | .timestamp2 name time increment => bson_append_timestamp2 b name time increment
  | .date name millis => bson_append_date b name millis
  | .time_t name secs => bson_append_time_t b name secs

/-- The type tag the call passes to `bson_append_estart`. -/
def Field.type : Field → Nat
  | .int _ _ => BSON_INT
  | .long _ _ => BSON_LONG
  | .double _ _ => BSON_DOUBLE
  | .bool _ _ => BSON_BOOL
  | .null _ => BSON_NULL
  | .undefined _ => BSON_UNDEFINED
  | .string _ _ => BSON_STRING
  | .symbol _ _ => BSON_SYMBOL
  | .code _ _ => BSON_CODE
  | .string_n _ _ _ => BSON_STRING
  | .symbol_n _ _ _ => BSON_SYMBOL
  | .code_n _ _ _ => BSON_CODE
  | .code_w_scope _ _ _ => BSON_CODEWSCOPE
  | .code_w_scope_n _ _ _ _ => BSON_CODEWSCOPE
  | .binary _ _ _ _ => BSON_BINDATA
  | .oid _ _ => BSON_OID
  | .regex _ _ _ => BSON_REGEX
  | .subdoc _ _ => BSON_OBJECT
  | .timestamp _ _ _ => BSON_TIMESTAMP
  | .timestamp2 _ _ _ => BSON_TIMESTAMP
  | .date _ _ => BSON_DATE
  | .time_t _ _ => BSON_DATE

/-- The field name the call passes. -/
def Field.name : Field → List Nat
  | .int name _ => name
  | .long name _ => name
  | .double name _ => name
  | .bool name _ => name
  | .null name => name
  | .undefined name => name
  | .string name _ => name
  | .symbol name _ => name
  | .code name _ => name
  | .string_n name _ _ => name
  | .symbol_n name _ _ => name
  | .code_n name _ _ => name
  | .code_w_scope name _ _ => name
  | .code_w_scope_n name _ _ _ => name
  | .binary name _ _ _ => name
  | .oid name _ => name
  | .regex name _ _ => name
  | .subdoc name _ => name
  | .timestamp name _ _ => name
  | .timestamp2 name _ _ => name
  | .date name _ => name
  | .time_t name _ => name

/-- The calls whose argument checks come before `bson_append_estart` and reject
the call there: a `NULL` scope or sub-document, a string value that fails
`bson_check_string`. -/
def Field.rejected_before_estart : Field → Bool
  | .string _ value => !utf8_valid (mem_take value (strlen value))
  | .symbol _ value => !utf8_valid (mem_take value (strlen value))
  | .code _ value => !utf8_valid (mem_take value (strlen value))
  | .string_n _ value len => !utf8_valid (mem_take value len)
  | .symbol_n _ value len => !utf8_valid (mem_take value len)
  | .code_n _ value len => !utf8_valid (mem_take value len)
  | .code_w_scope _ _ scope => scope.isNone
  | .code_w_scope_n _ _ _ scope => scope.isNone
  | .subdoc _ sub => sub.isNone
  | _ => false

/-- The `dataSize` argument the call passes to `bson_append_estart`. -/
def Field.dsize : Field → Int
  | .int _ _ => 4
  | .long _ _ => 8
  | .double _ _ => 8
  | .bool _ _ => 1
  | .null _ => 0
  | .undefined _ => 0
  | .string _ value => 4 + ((strlen value : Int) + 1)
  | .symbol _ value => 4 + ((strlen value : Int) + 1)
  | .code _ value => 4 + ((strlen value : Int) + 1)
  | .string_n _ _ len => 4 + ((len : Int) + 1)
  | .symbol_n _ _ len => 4 + ((len : Int) + 1)
  | .code_n _ _ len => 4 + ((len : Int) + 1)
  | .code_w_scope _ js scope => 4 + 4 + ((strlen js : Int) + 1) + bson_size scope
  | .code_w_scope_n _ _ len scope => 4 + 4 + ((len : Int) + 1) + bson_size scope
  | .binary _ type _ len =>
    if type = BSON_BIN_BINARY_OLD then 4 + 1 + 4 + (len : Int) else 4 + 1 + (len : Int)
  | .oid _ _ => 12
  | .regex _ pattern opts => ((strlen pattern + 1 : Nat) : Int) + ((strlen opts + 1 : Nat) : Int)
  | .subdoc _ sub => bson_size sub
  | .timestamp _ _ _ => 8
  | .timestamp2 _ _ _ => 8
  | .date _ _ => 8
  | .time_t _ _ => 8

/-- The checks of a call on its value arguments pass: the scope or sub-document
is not `NULL`, the string value (the pattern of a regex) passes
`bson_check_string`. -/
def Field.value_ok : Field → Bool
  | .string _ value => utf8_valid (mem_take value (strlen value))
  | .symbol _ value => utf8_valid (mem_take value (strlen value))
  | .code _ value => utf8_valid (mem_take value (strlen value))
  | .string_n _ value len => utf8_valid (mem_take value len)
  | .symbol_n _ value len => utf8_valid (mem_take value len)
  | .code_n _ value len => utf8_valid (mem_take value len)
  | .code_w_scope _ _ scope => scope.isSome
  | .code_w_scope_n _ _ _ scope => scope.isSome
  | .subdoc _ sub => sub.isSome
  | .regex _ pattern _ => utf8_valid (mem_take pattern (strlen pattern))
  | _ => true

/-- Append the fields in order, stopping at the first call that returns
`BSON_ERROR`. -/
def append_fields : List Field → bson → Int × bson
  | [], b => (BSON_OK, b)
  | f :: fs, b =>
    match f.append b with
    | (r, b1) => if r = BSON_ERROR then (BSON_ERROR, b1) else append_fields fs b1

/-- A balanced piece of a builder program: one typed append, or
`bson_append_start_object` / `bson_append_start_array`, the pieces of the
container, and the matching `bson_append_finish_object` /
`bson_append_finish_array`. -/
inductive Item where
  | field (f : Field)
  | object (name : List Nat) (items : List Item)
  | array (name : List Nat) (items : List Item)

mutual
/-- Run the calls of one piece, stopping at the first that returns `BSON_ERROR`. -/
def Item.build : Item → bson → Int × bson
  | .field f, b => f.append b
  | .object name items, b =>
    match bson_append_start_object b name with
    | (r, b1) =>
      if r = BSON_ERROR then (BSON_ERROR, b1)
      else
        match Item.buildList items b1 with
        | (r2, b2) =>
          if r2 = BSON_ERROR then (BSON_ERROR, b2) else bson_append_finish_object b2
  | .array name items, b =>
    match bson_append_start_array b name with
    | (r, b1) =>
      if r = BSON_ERROR then (BSON_ERROR, b1)
      else
        match Item.buildList items b1 with
        | (r2, b2) =>
          if r2 = BSON_ERROR then (BSON_ERROR, b2) else bson_append_finish_array b2
/-- Run the pieces in order, stopping at the first call that returns `BSON_ERROR`. -/
def Item.buildList : List Item → bson → Int × bson
  | [], b => (BSON_OK, b)
  | i :: is, b =>
    match Item.build i b with
    | (r, b1) => if r = BSON_ERROR then (BSON_ERROR, b1) else Item.buildList is b1
end

/-- `n` successive calls of `bson_iterator_next`: the returned types, each with
the key under the cursor after the call (no key once `BSON_EOO` is returned). -/
def bson_iterator_trace : Nat → bson_iterator → Option (List (Nat × List Nat))
  | 0, _ => some []
  | n + 1, it =>
    match bson_iterator_next it with
    | none => none
    | some (t, it1) =>
      (bson_iterator_trace n it1).map
        (fun l => (t, if t = BSON_EOO then [] else bson_iterator_key_str it1) :: l)

/-- The copy loop
`while (bson_iterator_next(&it) != BSON_EOO) bson_append_element(b, NULL, &it);`
stopping at the first append that returns `BSON_ERROR`; `none` when the fuel
runs out or an iterator stops fatally. -/
def copy_elements : Nat → bson_iterator → bson → Option (Int × bson)
  | 0, _, _ => none
  | fuel + 1, it, b =>
    match bson_iterator_next it with
    | none => none
    | some (t, it1) =>
      if t = BSON_EOO then some (BSON_OK, b)
      else
        match bson_append_element b none it1 with
        | none => none
        | some (r, b1) =>
          if r = BSON_ERROR then some (BSON_ERROR, b1) else copy_elements fuel it1 b1

/-! ## The byte layout of a document, as the data model states it -/

/-- The payload bytes the data model prescribes for a typed append. -/
def Field.payload : Field → List Nat
  | .int _ i => le32_bytes i
  | .long _ i => le64_bytes i
  | .double _ d => le64_bytes d
  | .bool _ i => [if i ≠ 0 then 1 else 0]
  | .null _ => []
  | .undefined _ => []
  | .string _ value => le32_bytes ((strlen value : Int) + 1) ++ cstr value ++ [0]
  | .symbol _ value => le32_bytes ((strlen value : Int) + 1) ++ cstr value ++ [0]
  | .code _ value => le32_bytes ((strlen value : Int) + 1) ++ cstr value ++ [0]
  | .string_n _ value len => le32_bytes ((len : Int) + 1) ++ mem_take value len ++ [0]
  | .symbol_n _ value len => le32_bytes ((len : Int) + 1) ++ mem_take value len ++ [0]
  | .code_n _ value len => le32_bytes ((len : Int) + 1) ++ mem_take value len ++ [0]
  | .code_w_scope _ js scope =>
    le32_bytes (4 + 4 + ((strlen js : Int) + 1) + bson_size scope)
      ++ le32_bytes ((strlen js : Int) + 1) ++ (cstr js ++ [0])
      ++ mem_take (scope.elim [] bson.data) (bson_size scope).toNat
  | .code_w_scope_n _ js len scope =>
    le32_bytes (4 + 4 + ((len : Int) + 1) + bson_size scope)
      ++ le32_bytes ((len : Int) + 1) ++ mem_take js (len + 1)
      ++ mem_take (scope.elim [] bson.data) (bson_size scope).toNat
  | .binary _ type str len =>
    if type = BSON_BIN_BINARY_OLD then
      le32_bytes ((len : Int) + 4) ++ [type] ++ le32_bytes len ++ mem_take str len
    else le32_bytes len ++ [type] ++ mem_take str len
  | .oid _ bytes => mem_take bytes 12
  | .regex _ pattern opts => (cstr pattern ++ [0]) ++ (cstr opts ++ [0])
  | .subdoc _ sub => mem_take (sub.elim [] bson.data) (bson_size sub).toNat
  | .timestamp _ i t => le32_bytes i ++ le32_bytes t
  | .timestamp2 _ time increment => le32_bytes increment ++ le32_bytes time
  | .date _ millis => le64_bytes millis
  | .time_t _ secs => le64_bytes (wrap64 (secs * 1000))

/-- An element of the data model: a scalar with its payload bytes, or a
container (`BSON_OBJECT`, `BSON_ARRAY`) with its elements. -/
inductive Elt where
  | leaf (t : Nat) (key : List Nat) (payload : List Nat)
  | node (t : Nat) (key : List Nat) (kids : List Elt)

mutual
/-- The bytes of an element: type tag, NUL-terminated name, payload; the payload
of a container is its length, its elements and a terminator. -/
def Elt.bytes : Elt → List Nat
  | .leaf t key payload => t :: (key ++ 0 :: payload)
  | .node t key kids =>
    t :: (key ++ 0 ::
      (le32_bytes (((Elt.bytesList kids).length : Int) + 5) ++ (Elt.bytesList kids ++ [0])))
/-- The bytes of a sequence of elements. -/
def Elt.bytesList : List Elt → List Nat
  | [] => []
  | e :: es => Elt.bytes e ++ Elt.bytesList es
end

/-- The type tag of an element. -/
def Elt.type : Elt → Nat
  | .leaf t _ _ => t
  | .node t _ _ => t

/-- The key of an element. -/
def Elt.key : Elt → List Nat
  | .leaf _ key _ => key
  | .node _ key _ => key

/-- The payload bytes of an element. -/
def Elt.payload : Elt → List Nat
  | .leaf _ _ payload => payload
  | .node _ _ kids =>
    le32_bytes (((Elt.bytesList kids).length : Int) + 5) ++ (Elt.bytesList kids ++ [0])

mutual
/-- The element a balanced piece of a builder program stands for. -/
def Item.elt : Item → Elt
  | .field f => .leaf f.type (cstr f.name) f.payload
  | .object name items => .node BSON_OBJECT (cstr name) (Item.elts items)
  | .array name items => .node BSON_ARRAY (cstr name) (Item.elts items)
/-- The elements a sequence of pieces stands for. -/
def Item.elts : List Item → List Elt
  | [] => []
  | i :: is => Item.elt i :: Item.elts is
end

/-! ## Well-formed elements -/

/-- The part of the builder state an append leaves alone, with the bytes it adds
at the cursor. -/
def Appended (b b1 : bson) (bytes : List Nat) : Prop :=
  b.finished = false ∧ b1.data = b.data ++ bytes ∧ b1.finished = false ∧
    b1.stack = b.stack ∧ b1.stackPos = b.stackPos ∧ b1.err = b.err ∧ b1.flags = b.flags

/-- The part of the builder state a balanced piece of a builder program leaves
alone, with the bytes it adds at the cursor: the stack index is back where it
was and the slots below it are untouched. -/
def Built (b b1 : bson) (bytes : List Nat) : Prop :=
  b.finished = false ∧ b1.data = b.data ++ bytes ∧ b1.finished = false ∧
    b1.stackPos = b.stackPos ∧ (∀ j : Int, j < b.stackPos → stack_get b1.stack j = stack_get b.stack j) ∧
    b1.err = b.err ∧ b1.flags = b.flags

/-- What a successful `bson_append_start_object` / `bson_append_start_array` does:
the element header, a zero placeholder of four bytes at the offset it pushes. -/
def Started (b b' : bson) (t : Nat) (name : List Nat) : Prop :=
  b.finished = false ∧ b'.data = b.data ++ t :: (cstr name ++ [0]) ++ [0, 0, 0, 0] ∧
    b'.finished = false ∧ b'.stackPos = b.stackPos + 1 ∧
    b'.stack = stack_set b.stack b.stackPos ((b.data ++ t :: (cstr name ++ [0])).length : Nat) ∧
    b'.err = b.err ∧ b'.flags = b.flags

/-- The result `r` of a builder call on `b` is a rejection: `BSON_ERROR`, and the
buffer bytes, the cursor and the frame stack are those of `b`. -/
def Rejected (b : bson) (r : Int × bson) : Prop :=
  r.1 = BSON_ERROR ∧ r.2.data = b.data ∧ r.2.cur = b.cur ∧ r.2.stack = b.stack ∧
    r.2.stackPos = b.stackPos

/-- The payload `p` of an element of type `t` has the length its own bytes
announce: fixed width for scalars, a 4-byte length prefix for strings, binary
data, containers and code with scope, two NUL-terminated strings for a regex. -/
def payload_wf (t : Nat) (p : List Nat) : Prop :=
  if t = BSON_UNDEFINED ∨ t = BSON_NULL then p.length = 0
  else if t = BSON_BOOL then p.length = 1
  else if t = BSON_INT then p.length = 4
  else if t = BSON_LONG ∨ t = BSON_DOUBLE ∨ t = BSON_TIMESTAMP ∨ t = BSON_DATE then
    p.length = 8
  else if t = BSON_OID then p.length = 12
  else if t = BSON_STRING ∨ t = BSON_SYMBOL ∨ t = BSON_CODE then
    4 ≤ p.length ∧ 4 + read_le32 p 0 = (p.length : Int)
  else if t = BSON_BINDATA then 4 ≤ p.length ∧ 5 + read_le32 p 0 = (p.length : Int)
  else if t = BSON_OBJECT ∨ t = BSON_ARRAY ∨ t = BSON_CODEWSCOPE then
    4 ≤ p.length ∧ read_le32 p 0 = (p.length : Int)
  else if t = BSON_DBREF then 4 ≤ p.length ∧ 4 + 12 + read_le32 p 0 = (p.length : Int)
  else if t = BSON_REGEX then
    ∃ a o : List Nat, p = a ++ 0 :: (o ++ [0]) ∧ (∀ c ∈ a, c ≠ 0) ∧ (∀ c ∈ o, c ≠ 0)
  else False

mutual
/-- A well-formed element: a known type tag, a key without zero byte, a payload
of the announced length; a container is an object or an array shorter than
2^31 bytes whose elements are well-formed. -/
def Elt.WF : Elt → Prop
  | .leaf t key payload => t ≠ BSON_EOO ∧ (∀ c ∈ key, c ≠ 0) ∧ payload_wf t payload
  | .node t key kids =>
    (t = BSON_OBJECT ∨ t = BSON_ARRAY) ∧ (∀ c ∈ key, c ≠ 0) ∧
      ((Elt.bytesList kids).length : Int) + 5 ≤ INT_MAX ∧ Elt.WFs kids
/-- Every element of the sequence is well-formed. -/
def Elt.WFs : List Elt → Prop
  | [] => True
  | e :: es => Elt.WF e ∧ Elt.WFs es
end

/-- The condition on the documents handed to a typed append: an embedded
document announces at least its own four length bytes, and the length a scope
document announces is not negative. -/
def Field.args_ok : Field → Prop
  | .subdoc _ sub => 4 ≤ bson_size sub
  | .code_w_scope _ _ scope => 0 ≤ bson_size scope
  | .code_w_scope_n _ _ _ scope => 0 ≤ bson_size scope
  | _ => True

mutual
/-- The condition `Field.args_ok` on every typed append of a piece. -/
def Item.args_ok : Item → Prop
  | .field f => f.args_ok
  | .object _ items => Item.args_ok_list items
  | .array _ items => Item.args_ok_list items
/-- The condition `Field.args_ok` on every typed append of the pieces. -/
def Item.args_ok_list : List Item → Prop
  | [] => True
  | i :: is => Item.args_ok i ∧ Item.args_ok_list is
end

/-! ## Sample inputs -/

/-- The empty document `bson_init` and `bson_finish` build. -/
def sample_empty : bson := (bson_finish bson_init).2

/-- A list of typed appends: `a: INT 1`, `s: "hi"`, `d: {}` (embedded), a regex
`r: /x/i` and legacy binary data `z`. -/
def sample_fields : List Field :=
  [.int [97] 1, .string [115] [104, 105], .subdoc [100] (some sample_empty),
   .regex [114] [120] [105], .binary [122] 2 [7, 8] 2]

/-- The finished document `{a: INT 1}`. -/
def sample_int_doc : bson := (bson_finish (bson_append_int bson_init [97] 1).2).2

/-- An iterator on the element `a` of `sample_int_doc`. -/
def sample_int_it : bson_iterator := { buf := sample_int_doc.data, cur := 4, first := false }

/-- The finished document `{a: INT 5}`. -/
def sample_five_doc : bson := (bson_finish (bson_append_int bson_init [97] 5).2).2

/-- A balanced builder program: `a: INT 1`, `o: {s: "hi", x: []}` and the embedded
empty document `d`. -/
def sample_items : List Item :=
  [.field (.int [97] 1),
   .object [111] [.field (.string [115] [104, 105]), .array [120] []],
   .field (.subdoc [100] (some sample_empty))]

/-- The finished document of `sample_items`. -/
def sample_doc : bson := (bson_finish (Item.buildList sample_items bson_init).2).2

/-! ## Lookup by key -/

/-- The difference of the first pair of differing bytes of two byte sequences,
`0` when there is none within the shorter one. -/
def first_diff : List Nat → List Nat → Int
  | x :: xs, y :: ys => if x ≠ y then (x : Int) - (y : Int) else first_diff xs ys
  | _, _ => 0

/-- The library function `strcmp` on two C strings: the bytes are compared as
`unsigned char` up to and including the first terminator. -/
def strcmp (a b : List Nat) : Int := first_diff (cstr a ++ [0]) (cstr b ++ [0])

/-- The library function `memcmp` on the first `n` bytes of two blocks; the C
standard fixes the sign of the result, taken here as the byte difference. -/
def memcmp (a b : List Nat) (n : Nat) : Int := first_diff (mem_take a n) (mem_take b n)

/-- The loop of `bson_find` and `bson_find_from_buffer`:
`while (bson_iterator_next(it)) { if (strcmp(name, key) == 0) break; }`.
Every turn uses one unit of `fuel`. -/
def bson_find_loop (name : List Nat) : Nat → bson_iterator → Option bson_iterator
  | 0, _ => none
  | fuel + 1, it =>
    match bson_iterator_next it with
    | none => none
    | some (t, it1) =>
      if t = BSON_EOO then some it1
      else if strcmp name (it1.buf.drop (bson_iterator_key it1)) = 0 then some it1
      else bson_find_loop name fuel it1

/-- `bson_find`: the returned type and the iterator `*it` after the call. -/
def bson_find (fuel : Nat) (obj : bson) (name : List Nat) : Option (Nat × bson_iterator) :=
  (bson_find_loop name fuel (bson_iterator_init obj)).map
    (fun it => (bson_iterator_type it, it))

/-- `bson_find_from_buffer`: the pointer `buffer` is offset `off` of `buf`. -/
def bson_find_from_buffer (fuel : Nat) (buf : List Nat) (off : Nat) (name : List Nat) :
    Option (Nat × bson_iterator) :=
  (bson_find_loop name fuel (bson_iterator_from_buffer buf off)).map
    (fun it => (bson_iterator_type it, it))

/-! ## More accessors -/

/-- `bson_iterator_long_ext`. -/
def bson_iterator_long_ext (i : bson_iterator) : Int :=
  let t := bson_iterator_type i
  if t = BSON_INT then bson_iterator_int_raw i
  else if t = BSON_LONG ∨ t = BSON_DATE ∨ t = BSON_TIMESTAMP then bson_iterator_long_raw i
  else if t = BSON_DOUBLE then
    double_to_int (bson_iterator_double_raw i) (-9223372036854775808) 9223372036854775807
  else 0

/-- `bson_iterator_timestamp`: the fields `i` and `t` of the result. -/
def bson_iterator_timestamp (i : bson_iterator) : Int × Int :=
  (read_le32 i.buf (bson_iterator_value i), read_le32 i.buf (bson_iterator_value i + 4))

/-- The test `d != 0` on the 64-bit pattern of a `double`: false for the two
zeros only. -/
def double_ne_zero (bits : Nat) : Bool := decide (bits % 9223372036854775808 ≠ 0)

/-- `bson_iterator_bool`. -/
def bson_iterator_bool (i : bson_iterator) : Int :=
  let t := bson_iterator_type i
  if t = BSON_BOOL then (bson_iterator_bool_raw i : Int)
  else if t = BSON_INT then (if bson_iterator_int_raw i ≠ 0 then 1 else 0)
  else if t = BSON_LONG then (if bson_iterator_long_raw i ≠ 0 then 1 else 0)
  else if t = BSON_DOUBLE then (if double_ne_zero (bson_iterator_double_raw i) then 1 else 0)
  else if t = BSON_EOO ∨ t = BSON_NULL ∨ t = BSON_UNDEFINED then 0
  else 1

/-- `bson_iterator_string`: the memory the returned pointer points to. -/
def bson_iterator_string (i : bson_iterator) : List Nat :=
  let t := bson_iterator_type i
  if t = BSON_STRING ∨ t = BSON_SYMBOL then i.buf.drop (bson_iterator_value i + 4)
  else []

/-- `bson_iterator_string_len`. -/
def bson_iterator_string_len (i : bson_iterator) : Int := bson_iterator_int_raw i

/-- `bson_iterator_code`: the memory the returned pointer points to, `none` for
`NULL`. -/
def bson_iterator_code (i : bson_iterator) : Option (List Nat) :=
  let t := bson_iterator_type i
  if t = BSON_STRING ∨ t = BSON_CODE then some (i.buf.drop (bson_iterator_value i + 4))
  else if t = BSON_CODEWSCOPE then some (i.buf.drop (bson_iterator_value i + 8))
  else none

/-- `bson_iterator_date`. -/
def bson_iterator_date (i : bson_iterator) : Int := bson_iterator_long_raw i

/-- `bson_iterator_bin_type`. -/
def bson_iterator_bin_type (i : bson_iterator) : Nat :=
  byteAt i.buf (bson_iterator_value i + 4)

/-- `bson_iterator_bin_len`. -/
def bson_iterator_bin_len (i : bson_iterator) : Int :=
  if bson_iterator_bin_type i = BSON_BIN_BINARY_OLD then bson_iterator_int_raw i - 4
  else bson_iterator_int_raw i

/-- `bson_iterator_bin_data`: the memory the returned pointer points to. -/
def bson_iterator_bin_data (i : bson_iterator) : List Nat :=
  if bson_iterator_bin_type i = BSON_BIN_BINARY_OLD then i.buf.drop (bson_iterator_value i + 9)
  else i.buf.drop (bson_iterator_value i + 5)

/-- `bson_iterator_regex`: the memory the returned pointer points to. -/
def bson_iterator_regex (i : bson_iterator) : List Nat :=
  i.buf.drop (bson_iterator_value i)

/-- `bson_iterator_regex_opts`: the memory the returned pointer points to. -/
def bson_iterator_regex_opts (i : bson_iterator) : List Nat :=
  let p := bson_iterator_value i
  i.buf.drop (p + strlen_at i.buf p + 1)

/-- `bson_iterator_oid`: the memory the returned pointer points to. -/
def bson_iterator_oid (i : bson_iterator) : List Nat :=
  i.buf.drop (bson_iterator_value i)

/-! ## The comparator -/

/-- Whether a 64-bit pattern is a NaN. -/
def double_is_nan (bits : Nat) : Bool :=
  decide (bits / 4503599627370496 % 2048 = 2047 ∧ bits % 4503599627370496 ≠ 0)

/-- The place of a 64-bit pattern that is no NaN in the order of the `double`s:
the magnitude bits with the sign, the two zeros at `0`. -/
def double_key (bits : Nat) : Int :=
  if bits / 9223372036854775808 % 2 = 1 then -((bits % 9223372036854775808 : Nat) : Int)
  else ((bits % 9223372036854775808 : Nat) : Int)

/-- The comparison `a < b` of two `double`s given by their 64-bit patterns; false
when one of them is a NaN. -/
def double_lt (a b : Nat) : Bool :=
  !double_is_nan a && !double_is_nan b && decide (double_key a < double_key b)

/-- Modelled from the spec: the macro `TCCMPLEXICAL` of `tcutil.h`, which is
absent.  Two values are "compared lexically over their declared byte length (not
C-string length, so embedded NULs participate)": the result is the difference of
the first pair of differing bytes within the shorter length and, when there is
none, the difference of the two lengths. -/
def TCCMPLEXICAL (aptr : List Nat) (asiz : Int) (bptr : List Nat) (bsiz : Int) : Int :=
  let rv := first_diff (mem_take aptr (min asiz bsiz).toNat) (mem_take bptr (min asiz bsiz).toNat)
  if rv = 0 then asiz - bsiz else rv

/-- `bson_compare_fpaths`: `bsdata1` and `bsdata2` are the two buffers, the limit
`BSON_MAX_FPATH_LEN` and the fuel are those of the resolver; `none` when a
resolver call gives no result. -/
def bson_compare_fpaths (BSON_MAX_FPATH_LEN : Nat) (fuel : Nat) (bsdata1 bsdata2 : List Nat)
    (fpath1 : List Nat) (fplen1 : Nat) (fpath2 : List Nat) (fplen2 : Nat) : Option Int :=
  match bson_find_fieldpath_value2 BSON_MAX_FPATH_LEN fuel fpath1 fplen1
      (bson_iterator_from_buffer bsdata1 0) with
  | none => none
  | some (t1, it1) =>
    match bson_find_fieldpath_value2 BSON_MAX_FPATH_LEN fuel fpath2 fplen2
        (bson_iterator_from_buffer bsdata2 0) with
    | none => none
    | some (t2, it2) =>
      if t1 = BSON_BOOL ∨ t1 = BSON_EOO ∨ t1 = BSON_NULL ∨ t1 = BSON_UNDEFINED then
        let v1 := bson_iterator_bool it1
        let v2 := bson_iterator_bool it2
        some (if v1 > v2 then 1 else if v1 < v2 then -1 else 0)
      else if t1 = BSON_INT ∨ t1 = BSON_LONG ∨ t1 = BSON_DATE ∨ t1 = BSON_TIMESTAMP then
        let v1 := bson_iterator_long_ext it1
        let v2 := bson_iterator_long_ext it2
        some (if v1 > v2 then 1 else if v1 < v2 then -1 else 0)
      else if t1 = BSON_DOUBLE then
        let v1 := bson_iterator_double_raw it1
        let v2 := bson_iterator_double it2
        some (if double_lt v2 v1 then 1 else if double_lt v1 v2 then -1 else 0)
      else if t1 = BSON_STRING ∨ t1 = BSON_SYMBOL then
        let v1 := bson_iterator_string it1
        let l1 := bson_iterator_string_len it1
        let v2 := bson_iterator_string it2
        let l2 : Int :=
          if t2 = BSON_STRING ∨ t2 = BSON_SYMBOL then bson_iterator_string_len it2
          else (strlen v2 : Int)
        some (TCCMPLEXICAL v1 l1 v2 l2)
      else if t1 = BSON_BINDATA ∧ t2 = BSON_BINDATA then
        let l1 := bson_iterator_bin_len it1
        let l2 := bson_iterator_bin_len it2
        some (memcmp (bson_iterator_bin_data it1) (bson_iterator_bin_data it2) (min l1 l2).toNat)
      else some 0

/-- `bson_compare`. -/
def bson_compare (BSON_MAX_FPATH_LEN : Nat) (fuel : Nat) (bsdata1 bsdata2 : List Nat)
    (fpath : List Nat) (fplen : Nat) : Option Int :=
  bson_compare_fpaths BSON_MAX_FPATH_LEN fuel bsdata1 bsdata2 fpath fplen fpath fplen

/-- `bson_compare_string`: the probe document is built on a `bson_init` builder
under the key `"$"`; the results of the append and of `bson_finish` are not
looked at. -/
def bson_compare_string (BSON_MAX_FPATH_LEN : Nat) (fuel : Nat) (cv : List Nat)
    (bsdata : List Nat) (fpath : List Nat) : Option Int :=
  let bs1 := bson_init
  let bs2 := (bson_append_string bs1 [36] cv).2
  let bs3 := (bson_finish bs2).2
  bson_compare_fpaths BSON_MAX_FPATH_LEN fuel bs3.data bsdata [36] 1 fpath (strlen fpath)

/-! ## Merging -/

mutual

/-- `bson_append_field_from_iterator`: the builder `into` after the call (the C
function returns nothing and looks at no result of the appends it makes).  Every
call and every turn of a loop uses one unit of `fuel`; `none` when the fuel runs
out or an iterator stops fatally. -/
def bson_append_field_from_iterator : Nat → bson_iterator → bson → Option bson
  | 0, _, _ => none
  | fuel + 1, src, into =>
    let t := bson_iterator_type src
    if t = BSON_EOO then some into
    else
      let key := src.buf.drop (bson_iterator_key src)
      if t = BSON_STRING ∨ t = BSON_SYMBOL then
        some (bson_append_string into key (bson_iterator_string src)).2
      else if t = BSON_CODE then
        some (bson_append_code into key ((bson_iterator_code src).getD [])).2
      else if t = BSON_INT then some (bson_append_int into key (bson_iterator_int_raw src)).2
      else if t = BSON_DOUBLE then
        some (bson_append_double into key (bson_iterator_double_raw src)).2
      else if t = BSON_LONG then some (bson_append_long into key (bson_iterator_long_raw src)).2
      else if t = BSON_UNDEFINED then some (bson_append_undefined into key).2
      else if t = BSON_NULL then some (bson_append_null into key).2
      else if t = BSON_BOOL then
        some (bson_append_bool into key (bson_iterator_bool_raw src : Int)).2
      else if t = BSON_TIMESTAMP then
        let ts := bson_iterator_timestamp src
        some (bson_append_timestamp into key ts.1 ts.2).2
      else if t = BSON_DATE then some (bson_append_date into key (bson_iterator_date src)).2
      else if t = BSON_REGEX then
        some (bson_append_regex into key (bson_iterator_regex src)
          (bson_iterator_regex_opts src)).2
      else if t = BSON_OID then some (bson_append_oid into key (bson_iterator_oid src)).2
      else if t = BSON_OBJECT then
        match bson_append_fields_from_iterator fuel (bson_iterator_subiterator src)
            (bson_append_start_object into key).2 with
        | none => none
        | some into1 => some (bson_append_finish_object into1).2
      else if t = BSON_ARRAY then
        match bson_append_fields_from_iterator fuel (bson_iterator_subiterator src)
            (bson_append_start_array into key).2 with
        | none => none
        | some into1 => some (bson_append_finish_array into1).2
      else some into

/-- The loop `while (bson_iterator_next(&sit) != BSON_EOO)
bson_append_field_from_iterator(&sit, into);` of
`bson_append_field_from_iterator`. -/
def bson_append_fields_from_iterator : Nat → bson_iterator → bson → Option bson
  | 0, _, _ => none
  | fuel + 1, sit, into =>
    match bson_iterator_next sit with
    | none => none
    | some (t, sit1) =>
      if t = BSON_EOO then some into
      else
        match bson_append_field_from_iterator fuel sit1 into with
        | none => none
        | some into1 => bson_append_fields_from_iterator fuel sit1 into1

end

/-- The first loop of `bson_merge`: the fields of `b1`, each one taken from `b2`
when `overwrite` is set and `bson_find` finds its key there. -/
def bson_merge_first (b2 : bson) (overwrite : Bool) :
    Nat → bson_iterator → bson → Option bson
  | 0, _, _ => none
  | fuel + 1, it1, out =>
    match bson_iterator_next it1 with
    | none => none
    | some (bt1, it1a) =>
      if bt1 = BSON_EOO then some out
      else
        let k1 := it1a.buf.drop (bson_iterator_key it1a)
        if overwrite then
          match bson_find fuel b2 k1 with
          | none => none
          | some (bt2, it2) =>
            match bson_append_field_from_iterator fuel (if bt2 ≠ BSON_EOO then it2 else it1a)
                out with
            | none => none
            | some out1 => bson_merge_first b2 overwrite fuel it1a out1
        else
          match bson_append_field_from_iterator fuel it1a out with
          | none => none
          | some out1 => bson_merge_first b2 overwrite fuel it1a out1

/-- The second loop of `bson_merge`: the fields of `b2` whose key `bson_find`
does not find in `b1`. -/
def bson_merge_second (b1 : bson) : Nat → bson_iterator → bson → Option bson
  | 0, _, _ => none
  | fuel + 1, it2, out =>
    match bson_iterator_next it2 with
    | none => none
    | some (bt2, it2a) =>
      if bt2 = BSON_EOO then some out
      else
        let k2 := it2a.buf.drop (bson_iterator_key it2a)
        match bson_find fuel b1 k2 with
        | none => none
        | some (bt1, _) =>
          if bt1 = BSON_EOO then
            match bson_append_field_from_iterator fuel it2a out with
            | none => none
            | some out1 => bson_merge_second b1 fuel it2a out1
          else bson_merge_second b1 fuel it2a out

/-- `bson_merge`: the returned code and the builder `out` after the call. -/
def bson_merge (fuel : Nat) (b1 b2 : bson) (overwrite : Bool) (out : bson) :
    Option (Int × bson) :=
  if b1.finished = false ∨ b2.finished = false ∨ out.finished = true then
    some (BSON_ERROR, out)
  else
    match bson_merge_first b2 overwrite fuel (bson_iterator_init b1) out with
    | none => none
    | some out1 =>
      match bson_merge_second b1 fuel (bson_iterator_init b2) out1 with
      | none => none
      | some out2 => some (BSON_OK, out2)

/-! ## More sample inputs -/

/-- The document `{"": {"a": 1}}`: an object under the empty key. -/
def sample_empty_key_doc : bson :=
  (bson_finish (Item.buildList [.object [] [.field (.int [97] 1)]] bson_init).2).2

/-- The document `{k: 1}` whose key `k` is 255 letters `a`. -/
def sample_long_key_doc : bson :=
  (bson_finish (bson_append_int bson_init (List.replicate 255 97) 1).2).2

/-- Three typed appends, the first and the last under the same name. -/
def sample_dup_items : List Item :=
  [.field (.int [97] 1), .field (.int [98] 2), .field (.int [97] 3)]

/-- The document `{a: 1, b: 2, a: 3}`. -/
def sample_dup_doc : bson := (bson_finish (Item.buildList sample_dup_items bson_init).2).2

/-- The document `{a: 5}` with a `BSON_LONG` value. -/
def sample_long_five_doc : bson := (bson_finish (bson_append_long bson_init [97] 5).2).2

/-- The document `{s: "apple"}`. -/
def sample_apple_doc : bson :=
  (bson_finish (bson_append_string bson_init [115] [97, 112, 112, 108, 101]).2).2

/-- The document `{a: false}`. -/
def sample_false_doc : bson := (bson_finish (bson_append_bool bson_init [97] 0).2).2

/-- The document `{a: true}`. -/
def sample_true_doc : bson := (bson_finish (bson_append_bool bson_init [97] 1).2).2

/-- The document `{z: <1 2 3>}`, the binary value of the legacy subtype. -/
def sample_bin_old_doc : bson :=
  (bson_finish (bson_append_binary bson_init [122] 2 [1, 2, 3] 3).2).2

/-- The document `{z: <1 2>}`, the binary value of the subtype `0`. -/
def sample_bin_doc : bson :=
  (bson_finish (bson_append_binary bson_init [122] 0 [1, 2] 2).2).2

/-! ## Merging: the documents and the expected result -/

/-- A key every builder accepts as a field name: no leading `$`, no `.`, valid
UTF-8. -/
def key_legal (key : List Nat) : Prop :=
  byteAt key 0 ≠ 36 ∧ 46 ∉ key ∧ utf8_valid key = true

/-- The payload of a scalar element as the typed appends write it: an INT, a
LONG, a DATE, a BOOL, a NULL, an UNDEFINED, an OID, or a STRING without zero byte
that is valid UTF-8. -/
def scalar_payload (t : Nat) (p : List Nat) : Prop :=
  (t = BSON_INT ∧ ∃ v : Int, p = le32_bytes v) ∨
  ((t = BSON_LONG ∨ t = BSON_DATE) ∧ ∃ v : Int, p = le64_bytes v) ∨
  (t = BSON_BOOL ∧ (p = [0] ∨ p = [1])) ∨
  ((t = BSON_NULL ∨ t = BSON_UNDEFINED) ∧ p = []) ∨
  (t = BSON_OID ∧ p.length = 12) ∨
  (t = BSON_STRING ∧ ∃ s : List Nat, (∀ c ∈ s, c ≠ 0) ∧ utf8_valid s = true ∧
    p = le32_bytes ((s.length : Int) + 1) ++ s ++ [0])

/-- A scalar element under a legal key. -/
def Elt.scalar : Elt → Prop
  | .leaf t key p => key_legal key ∧ scalar_payload t p
  | .node _ _ _ => False

/-- The typed appends of scalar values: INT, LONG, BOOL, NULL, UNDEFINED, DATE,
OID and STRING. -/
def Field.scalar : Field → Bool
  | .int _ _ => true
  | .long _ _ => true
  | .bool _ _ => true
  | .null _ => true
  | .undefined _ => true
  | .string _ _ => true
  | .oid _ _ => true
  | .date _ _ => true
  | .time_t _ _ => true
  | _ => false

/-- The field the first loop of a merge emits for the field `e` of the first
document: with `overwrite`, the first field of the second document under the
same key when there is one. -/
def merge_pick (es2 : List Elt) (overwrite : Bool) (e : Elt) : Elt :=
  if overwrite then (es2.find? (fun g => decide (g.key = e.key))).getD e else e

/-- The fields of a merged document: one for each field of the first document,
then the fields of the second document whose key the first one does not hold. -/
def merge_elts (es1 es2 : List Elt) (overwrite : Bool) : List Elt :=
  es1.map (merge_pick es2 overwrite)
    ++ es2.filter (fun g => es1.all (fun e => decide (e.key ≠ g.key)))

/-- What a run of successful appends does to a builder: the bytes it adds, a
capacity that stays a non-negative C int, no finish and no new error flag. -/
def Grown (b b1 : bson) (bytes : List Nat) : Prop :=
  b1.data = b.data ++ bytes ∧ 0 ≤ b1.dataSize ∧ b1.dataSize ≤ INT_MAX ∧
    b1.finished = false ∧ b1.err = b.err

/-- The bytes of a finished document with the elements `es`: the total length,
the elements, the terminator. -/
def doc_bytes (es : List Elt) : List Nat :=
  le32_bytes (((Elt.bytesList es).length : Int) + 5) ++ (Elt.bytesList es ++ [0])

/-- The elements of a document of INT fields, given as pairs of key and value. -/
def int_elts (l : List (List Nat × Int)) : List Elt :=
  l.map (fun p => Elt.leaf BSON_INT p.1 (le32_bytes p.2))

/-- The merge of two documents of INT fields, as pairs of key and value: each
field of the first document, with the value of the first field of the second
document under the same key when `overwrite` is set and there is one; then the
fields of the second document whose key the first one does not hold. -/
def merge_ints (l1 l2 : List (List Nat × Int)) (overwrite : Bool) : List (List Nat × Int) :=
  l1.map (fun p =>
      if overwrite then
        match l2.find? (fun q => decide (q.1 = p.1)) with
        | some q => (p.1, q.2)
        | none => p
      else p)
    ++ l2.filter (fun q => l1.all (fun p => decide (p.1 ≠ q.1)))

/-- The document `{a: 1, b: 2}`. -/
def sample_ab_doc : bson :=
  (bson_finish (append_fields [.int [97] 1, .int [98] 2] bson_init).2).2

/-- The document `{b: 3, c: 4}`. -/
def sample_bc_doc : bson :=
  (bson_finish (append_fields [.int [98] 3, .int [99] 4] bson_init).2).2

/-- The document `{a: 1, b: 3, c: 4}`. -/
def sample_ab3c_doc : bson :=
  (bson_finish (append_fields [.int [97] 1, .int [98] 3, .int [99] 4] bson_init).2).2

/-- The document `{a: 1, b: 2, c: 4}`. -/
def sample_ab2c_doc : bson :=
  (bson_finish (append_fields [.int [97] 1, .int [98] 2, .int [99] 4] bson_init).2).2

/-- The fields of the document `{a: 1, s: "hi", a: true}`. -/
def sample_mixed_fields : List Field :=
  [.int [97] 1, .string [115] [104, 105], .bool [97] 1]

/-- The document `{a: 1, s: "hi", a: true}`. -/
def sample_mixed_doc : bson := (bson_finish (append_fields sample_mixed_fields bson_init).2).2

/-- The fields of the document `{n: 7, s: null, m: null, n: 8}`, the values of
`n` of the type LONG. -/
def sample_other_fields : List Field :=
  [.long [110] 7, .null [115], .null [109], .long [110] 8]

/-- The document `{n: 7, s: null, m: null, n: 8}`. -/
def sample_other_doc : bson := (bson_finish (append_fields sample_other_fields bson_init).2).2

/-! ## Object ids -/

/-- `bson_swap_endian32`: the four bytes at `inp`, in reverse order. -/
def bson_swap_endian32 (inp : List Nat) : List Nat :=
  [byteAt inp 3, byteAt inp 2, byteAt inp 1, byteAt inp 0]

/-- Modelled from the spec: the macro `bson_big_endian32` of `bson.h`, which is
absent.  An OID holds "4-byte big-endian unix seconds" and a "4-byte big-endian
counter"; on the little-endian host of this model, where an `int` lies in memory
as `le32_bytes`, the macro is `bson_swap_endian32`. -/
def bson_big_endian32 (inp : List Nat) : List Nat := bson_swap_endian32 inp

/-- The function-local statics `incr` and `fuzz` of `bson_oid_gen`. -/
structure oid_statics where
  incr : Int
  fuzz : Int
deriving DecidableEq

/-- What one call of `bson_oid_gen` finds around it: the value `time(NULL)`
returns, the value the injected increment function returns (`none` when
`oid_inc_func` is `NULL`), the value the injected fuzz function returns (`none`
when `oid_fuzz_func` is `NULL`), and the value `rand()` returns after
`srand(t)`. -/
structure oid_env where
  time : Int
  inc_func : Option Int
  fuzz_func : Option Int
  rand : Int
deriving DecidableEq

/-- The outcome of one call of `bson_oid_gen`: the twelve bytes written to
`*oid`, the statics after the call, and how many times the call consulted the
fuzz source (the injected function, or `srand` and `rand`). -/
structure oid_result where
  oid : List Nat
  statics : oid_statics
  fuzz_calls : Nat
deriving DecidableEq

/-- `bson_oid_gen`.  An `int` wraps to 32 bits. -/
def bson_oid_gen (env : oid_env) (s : oid_statics) : oid_result :=
  let t : Int := wrap32 env.time
  let i : Int :=
    match env.inc_func with
    | some v => wrap32 v
    | none => s.incr
  let incr : Int :=
    match env.inc_func with
    | some _ => s.incr
    | none => wrap32 (s.incr + 1)
  let consult : Bool := decide (s.fuzz = 0)
  let fuzz : Int :=
    if consult then
      match env.fuzz_func with
      | some v => wrap32 v
      | none => wrap32 env.rand
    else s.fuzz
  { oid := bson_big_endian32 (le32_bytes t) ++ le32_bytes fuzz ++ bson_big_endian32 (le32_bytes i),
    statics := { incr := incr, fuzz := fuzz },
    fuzz_calls := if consult then 1 else 0 }

/-- A run of calls of `bson_oid_gen`, one for each entry of `envs`: the outcomes
in order. -/
def bson_oid_gen_run : List oid_env → oid_statics → List oid_result
  | [], _ => []
  | env :: envs, s =>
    bson_oid_gen env s :: bson_oid_gen_run envs (bson_oid_gen env s).statics

/-- `bson_oid_generated_time`.  The type `time_t` comes from a system header:
its size in bytes, 4 or 8, is the parameter `time_t_size`, and `out0` lists the
bytes the local `out` holds before the call writes to it, which the code does not
set. -/
def bson_oid_generated_time (time_t_size : Nat) (out0 : List Nat) (oid : List Nat) : Int :=
  let out := mem_write (mem_take out0 time_t_size) 0 (bson_big_endian32 oid)
  if time_t_size = 4 then read_le32 out 0 else read_le64 out 0

/-- The four bytes of a 32-bit value in big-endian order. -/
def be32_bytes (v : Int) : List Nat :=
  let n := (v % 4294967296).toNat
  [n / 16777216 % 256, n / 65536 % 256, n / 256 % 256, n % 256]

/-! ## More sample inputs -/

/-- `n` nested calls of `bson_append_start_object` with the name `a` on a fresh
builder. -/
def sample_nested (n : Nat) : bson :=
  (fun b => (bson_append_start_object b [97]).2)^[n] bson_init

/-- A builder after a rejected append: the name `a.b` is illegal. -/
def sample_flagged : bson := (bson_append_int bson_init [97, 46, 98] 1).2

/-- Twenty INT fields `a`, `b`, ... with the values `0`, `1`, ... -/
def sample_many_items : List Item :=
  (List.range 20).map (fun i => Item.field (.int [97 + i] i))

/-- A builder after a rejected append: the value, the single byte 255, is no
valid UTF-8. -/
def sample_flagged_value : bson := (bson_append_string bson_init [97] [255]).2

/-! ## Merging: the fields a copy keeps as they are -/

/-- The payload of a leaf element that `bson_append_field_from_iterator` writes
again as it reads it: a scalar payload, a DOUBLE, a TIMESTAMP, a CODE that is a
string without zero byte and valid UTF-8, or a REGEX whose pattern is valid
UTF-8. -/
def copy_payload (t : Nat) (p : List Nat) : Prop :=
  scalar_payload t p ∨
  (t = BSON_DOUBLE ∧ ∃ v : Int, p = le64_bytes v) ∨
  (t = BSON_TIMESTAMP ∧ ∃ i t : Int, p = le32_bytes i ++ le32_bytes t) ∨
  (t = BSON_CODE ∧ ∃ s : List Nat, (∀ c ∈ s, c ≠ 0) ∧ utf8_valid s = true ∧
    p = le32_bytes ((s.length : Int) + 1) ++ s ++ [0]) ∨
  (t = BSON_REGEX ∧ ∃ a o : List Nat, (∀ c ∈ a, c ≠ 0) ∧ (∀ c ∈ o, c ≠ 0) ∧
    utf8_valid a = true ∧ p = a ++ 0 :: (o ++ [0]))

mutual
/-- An element `bson_append_field_from_iterator` copies as it is: a leaf of
`copy_payload` under a legal key, or an object or an array under a legal key
whose elements are all of this kind. -/
def Elt.copyable : Elt → Prop
  | .leaf t key p => key_legal key ∧ copy_payload t p
  | .node _ key kids => key_legal key ∧ Elt.copyables kids
/-- Every element of the sequence is copied as it is. -/
def Elt.copyables : List Elt → Prop
  | [] => True
  | e :: es => Elt.copyable e ∧ Elt.copyables es
end

mutual
/-- The number of calls and loop turns `bson_append_field_from_iterator` spends
on an element. -/
def Elt.cost : Elt → Nat
  | .leaf _ _ _ => 1
  | .node _ _ kids => 1 + Elt.costs kids
/-- The number of calls and loop turns the loop of
`bson_append_field_from_iterator` spends on a sequence of elements. -/
def Elt.costs : List Elt → Nat
  | [] => 1
  | e :: es => 1 + Elt.cost e + Elt.costs es
end

/-- What a copy that succeeds does to a builder: it is a balanced piece that
adds the bytes, and the capacity stays a non-negative C int. -/
def Copied (b b1 : bson) (bytes : List Nat) : Prop :=
  Built b b1 bytes ∧ 0 ≤ b1.dataSize ∧ b1.dataSize ≤ INT_MAX

/-- The typed appends of a BINDATA `b`, a SYMBOL `s`, a CODEWSCOPE `c` and the
STRING `t` of the three bytes `a`, zero, `b`. -/
def sample_exotic_fields : List Field :=
  [.binary [98] 0 [1, 2] 2, .symbol [115] [104, 105],
    .code_w_scope [99] [120] (some sample_empty), .string_n [116] [97, 0, 98] 3]

/-- The finished document of `sample_exotic_fields`. -/
def sample_exotic_doc : bson := (bson_finish (append_fields sample_exotic_fields bson_init).2).2

/-- `hexbyte`. -/
def hexbyte (hex : Nat) : Nat :=
  if 48 ≤ hex ∧ hex ≤ 57 then hex - 48
  else if 65 ≤ hex ∧ hex ≤ 70 then hex - 65 + 10
  else if 97 ≤ hex ∧ hex ≤ 102 then hex - 97 + 10
  else 0

/-- `bson_oid_from_string`: the twelve bytes written to `oid->bytes`. -/
def bson_oid_from_string (str : List Nat) : List Nat :=
  (List.range 12).map (fun i =>
    ((hexbyte (byteAt str (2 * i)) <<< 4) ||| hexbyte (byteAt str (2 * i + 1))) % 256)

/-- The table `hex` of `bson_oid_to_string`. -/
def oid_hex : List Nat := [48, 49, 50, 51, 52, 53, 54, 55, 56, 57, 97, 98, 99, 100, 101, 102]

/-- `bson_oid_to_string`: the twenty-five bytes written to `str`. -/
def bson_oid_to_string (oid : List Nat) : List Nat :=
  ((List.range 12).map (fun i =>
    [byteAt oid_hex ((byteAt oid i &&& 240) >>> 4), byteAt oid_hex (byteAt oid i &&& 15)])).flatten
    ++ [0]

/-- A hexadecimal digit in either case. -/
def is_hex_digit (c : Nat) : Bool :=
  decide ((48 ≤ c ∧ c ≤ 57) ∨ (65 ≤ c ∧ c ≤ 70) ∨ (97 ≤ c ∧ c ≤ 102))

/-- A lowercase hexadecimal digit. -/
def is_lower_hex (c : Nat) : Bool := decide ((48 ≤ c ∧ c ≤ 57) ∨ (97 ≤ c ∧ c ≤ 102))

/-- The lowercase form of an ASCII letter. -/
def ascii_lower (c : Nat) : Nat := if 65 ≤ c ∧ c ≤ 90 then c + 32 else c

/-! ## The path buffer of the resolver -/

/-- What the resolver does to its path buffer: `push curr writes pushed` is a key
pushed when the index was `curr`, with the indices of `pstack` written (the dot
and the key bytes) and the index after the push; `pop curr pushed popped` is the
same key popped, with the index after the pop. -/
inductive fpath_event where
  | push (curr : Nat) (writes : List Nat) (pushed : Nat)
  | pop (curr : Nat) (pushed : Nat) (popped : Nat)
deriving DecidableEq

/-- `bson_find_fieldpath_value_impl` with a record of what it does to `pstack`
and `curr`: the events in order, also of a call that gives no result, and the
result of `bson_find_fieldpath_value_impl`. -/
def bson_find_fieldpath_value_impl_log (BSON_MAX_FPATH_LEN : Nat) :
    Nat → List Nat → Nat → List Nat → Nat → bson_iterator →
      List fpath_event × Option (Nat × List Nat × bson_iterator)
  | 0, _, _, _, _, _ => ([], none)
  | fuel + 1, pstack, curr, fpath, fplen, it =>
    match bson_iterator_next it with
    | none => ([], none)
    | some (t, it1) =>
      if t = BSON_EOO then ([], some (BSON_EOO, pstack, it1))
      else
        let key := bson_iterator_key it1
        let klen := strlen_at it1.buf key
        if curr + klen > fplen ∨ curr + klen + 1 ≥ BSON_MAX_FPATH_LEN then
          bson_find_fieldpath_value_impl_log BSON_MAX_FPATH_LEN fuel pstack curr fpath fplen it1
        else
          let pstack1 := if curr > 0 then mem_write pstack curr [46] else pstack
          let curr1 := if curr > 0 then curr + 1 else curr
          let pstack2 := mem_write pstack1 curr1 (mem_take (it1.buf.drop key) klen)
          let curr2 := curr1 + klen
          let ev := fpath_event.push curr
            ((if curr > 0 then [curr] else []) ++ List.range' curr1 klen) curr2
          let i := fpath_match pstack2 fpath curr2 fplen curr2 0
          if i = curr2 ∧ i = fplen then ([ev], some (t, pstack2, it1))
          else
            let pop (n : Nat) : Nat := if n - klen > 0 then n - klen - 1 else n - klen
            if i = curr2 ∧ i < fplen ∧ (t = BSON_OBJECT ∨ t = BSON_ARRAY) then
              match bson_find_fieldpath_value_impl_log BSON_MAX_FPATH_LEN fuel pstack2 curr2
                  fpath fplen (bson_iterator_subiterator it1) with
              | (log1, none) => (ev :: log1, none)
              | (log1, some (st, pstack3, sit)) =>
                if st ≠ BSON_EOO then (ev :: log1, some (st, pstack3, sit))
                else
                  match bson_find_fieldpath_value_impl_log BSON_MAX_FPATH_LEN fuel pstack3
                      (pop curr2) fpath fplen it1 with
                  | (log2, r) =>
                    (ev :: (log1 ++ fpath_event.pop curr curr2 (pop curr2) :: log2), r)
            else
              match bson_find_fieldpath_value_impl_log BSON_MAX_FPATH_LEN fuel pstack2
                  (pop curr2) fpath fplen it1 with
              | (log2, r) => (ev :: fpath_event.pop curr curr2 (pop curr2) :: log2, r)

/-- `bson_find_fieldpath_value2` with the record of
`bson_find_fieldpath_value_impl_log`. -/
def bson_find_fieldpath_value2_log (BSON_MAX_FPATH_LEN : Nat) (fuel : Nat) (fpath : List Nat)
    (fplen : Nat) (it : bson_iterator) : List fpath_event × Option (Nat × bson_iterator) :=
  if fplen ≥ BSON_MAX_FPATH_LEN then ([], some (BSON_EOO, it))
  else
    match bson_find_fieldpath_value_impl_log BSON_MAX_FPATH_LEN fuel
        (List.replicate BSON_MAX_FPATH_LEN 0) 0 fpath fplen it with
    | (log, r) => (log, r.map (fun r => (r.1, r.2.2)))

/-- An event that stays inside the path buffer: a push writes below
`BSON_MAX_FPATH_LEN` only and leaves the index between the one it found and
`fplen + 1`; a pop gives the index back that the push found. -/
def fpath_event.safe (BSON_MAX_FPATH_LEN fplen : Nat) : fpath_event → Bool
  | .push curr writes pushed =>
    decide (curr ≤ pushed ∧ pushed ≤ fplen + 1) &&
      writes.all (fun i => decide (i < BSON_MAX_FPATH_LEN))
  | .pop curr _ popped => decide (popped = curr ∧ popped ≤ fplen + 1)

/-! ## Documents whose containers are given by their elements -/

mutual
/-- An element whose nested documents are all given by their elements: no leaf
is of the type OBJECT or ARRAY. -/
def Elt.exposed : Elt → Prop
  | .leaf t _ _ => t ≠ BSON_OBJECT ∧ t ≠ BSON_ARRAY
  | .node _ _ kids => Elt.exposeds kids
/-- Every element of the sequence is `Elt.exposed`. -/
def Elt.exposeds : List Elt → Prop
  | [] => True
  | e :: es => Elt.exposed e ∧ Elt.exposeds es
end

/-! ## More sample inputs -/

/-- The builder `bson_init_size(b, 0)`: no allocation, the cursor is `NULL + 4`. -/
def sample_zero_size : bson := bson_init_size 0

/-- The document `{a: {x: 1, y: {z: "s"}}, g: true}`. -/
def sample_tree_items : List Item :=
  [.object [97] [.field (.int [120] 1), .object [121] [.field (.string [122] [115])]],
    .field (.bool [103] 1)]

/-- The finished document of `sample_tree_items`. -/
def sample_tree_doc : bson := (bson_finish (Item.buildList sample_tree_items bson_init).2).2

/-! ## The builder in memory

A second embedding of the builder, one level lower: the allocation of the buffer
is kept apart from the cursor, `malloc` and `realloc` hand out addresses, and
`bson_ensure_space` moves the buffer and re-bases the cursor as the source does.
The functions carry the names of the source in the namespace `Mem`; the
embedding above is its image under `Mem.bson.abs` as long as every store stays
inside the allocation. -/

/-- Modelled from libc: the state of the allocator behind `malloc` and
`realloc`.  `brk` is the first address not handed out yet, `limit` the end of
the memory the allocator owns, `fill` the bytes found in fresh memory, and
`moves` says whether `realloc` moves a block it could also grow in place. -/
structure allocator where
  brk : Nat
  limit : Nat
  fill : List Nat
  moves : Bool
deriving DecidableEq

/-- Modelled from libc: `malloc(size)`.  The result is the address of a fresh
block above every block handed out before, with the bytes of the block, or the
address `0` (`NULL`) when the request does not fit the memory left; the `int`
argument converts to `size_t`, so a negative size is a request no allocator
grants. -/
def libc_malloc (a : allocator) (size : Int) : Nat × List Nat × allocator :=
  if size < 0 ∨ a.limit < a.brk + size.toNat then (0, [], a)
  else (a.brk, mem_take a.fill size.toNat, { a with brk := a.brk + size.toNat + 1 })

/-- Modelled from libc: `realloc(ptr, size)` for the block `old` at `ptr`.  The
new block keeps the first `min(old size, size)` bytes of the old one, the bytes
behind them are fresh; it stays at `ptr` when it is the last block handed out
and the allocator does not move, and is a new block otherwise.  On failure the
result is `NULL` and the old block is as it was. -/
def libc_realloc (a : allocator) (ptr : Nat) (old : List Nat) (size : Int) :
    Nat × List Nat × allocator :=
  if ptr = 0 then libc_malloc a size
  else if size < 0 then (0, old, a)
  else if a.moves = false ∧ ptr + old.length + 1 = a.brk ∧ ptr + size.toNat ≤ a.limit then
    (ptr, mem_take (old ++ a.fill) size.toNat, { a with brk := ptr + size.toNat + 1 })
  else if a.limit < a.brk + size.toNat then (0, old, a)
  else (a.brk, mem_take (old ++ a.fill) size.toNat, { a with brk := a.brk + size.toNat + 1 })

/-- The C struct `bson` with its allocation.  `data` is the address in
`b->data` (`0` for `NULL`), `block` lists the bytes of the allocation at that
address, `cur` is the address in `b->cur`.  `overrun` records that a store went
outside the allocation, which is undefined in C; the bytes of such a store are
not represented. -/
structure Mem.bson where
  data : Nat
  block : List Nat
  cur : Nat
  dataSize : Int
  finished : Bool
  stack : List Int
  stackPos : Int
  err : Nat
  flags : Nat
  overrun : Bool
deriving DecidableEq

/-- `bson_malloc`: `none` is the fatal exit on a `NULL` result. -/
def Mem.bson_malloc (a : allocator) (size : Int) : Option (Nat × List Nat × allocator) :=
  match libc_malloc a size with
  | (p, blk, a1) => if p = 0 then none else some (p, blk, a1)

/-- `bson_realloc`: `none` is the fatal exit on a `NULL` result. -/
def Mem.bson_realloc (a : allocator) (ptr : Nat) (old : List Nat) (size : Int) :
    Option (Nat × List Nat × allocator) :=
  match libc_realloc a ptr old size with
  | (p, blk, a1) => if p = 0 then none else some (p, blk, a1)

/-- A store of the bytes `bs` at the address `p`: into the allocation of `b` when
all of them fall inside it, an overrun otherwise. -/
def Mem.bson.store (b : Mem.bson) (p : Nat) (bs : List Nat) : Mem.bson :=
  if b.data ≠ 0 ∧ b.data ≤ p ∧ p - b.data + bs.length ≤ b.block.length then
    { b with block := mem_write b.block (p - b.data) bs }
  else { b with overrun := true }

/-- `_bson_reset`. -/
def Mem._bson_reset (b : Mem.bson) : Mem.bson :=
  { b with finished := false, stackPos := 0, err := 0, flags := 0 }

/-- `_bson_init_size`: `NULL` for the size `0`, a `bson_malloc` block otherwise;
the cursor is `data + 4` in both cases. -/
def Mem._bson_init_size (a : allocator) (size : Int) : Option (Mem.bson × allocator) :=
  if size = 0 then
    some (Mem._bson_reset
      { data := 0, block := [], cur := 0 + 4, dataSize := size, finished := false, stack := [],
        stackPos := 0, err := 0, flags := 0, overrun := false }, a)
  else
    match Mem.bson_malloc a size with
    | none => none
    | some (p, blk, a1) =>
      some (Mem._bson_reset
        { data := p, block := blk, cur := p + 4, dataSize := size, finished := false,
          stack := [], stackPos := 0, err := 0, flags := 0, overrun := false }, a1)

/-- `bson_init`. -/
def Mem.bson_init (a : allocator) : Option (Mem.bson × allocator) :=
  Mem._bson_init_size a initialBufferSize

/-- `bson_init_size`. -/
def Mem.bson_init_size (a : allocator) (size : Int) : Option (Mem.bson × allocator) :=
  Mem._bson_init_size a size

/-- `bson_create`: the address of the block of `sizeof (bson)` bytes that holds
the struct; the size is the one of the header `bson.h`, which is absent. -/
def Mem.bson_create (a : allocator) (sizeof_bson : Int) : Option (Nat × allocator) :=
  match Mem.bson_malloc a sizeof_bson with
  | none => none
  | some (p, _, a1) => some (p, a1)

/-- `bson_size`: `b` is `none` for a `NULL` pointer. -/
def Mem.bson_size (b : Option Mem.bson) : Int :=
  match b with
  | none => 0
  | some b => if b.data = 0 then 0 else read_le32 b.block 0

/-- `bson_data`: the pointer `b->data`, with the memory it points to. -/
def Mem.bson_data (b : Mem.bson) : Nat × List Nat := (b.data, b.block)

/-- `bson_append_byte`. -/
def Mem.bson_append_byte (b : Mem.bson) (c : Nat) : Mem.bson :=
  { b.store b.cur [c] with cur := b.cur + 1 }

/-- `bson_append`: `memcpy` of `len` bytes to the cursor, then the cursor moves
by `len`. -/
def Mem.bson_append (b : Mem.bson) (data : List Nat) (len : Nat) : Mem.bson :=
  { b.store b.cur (mem_take data len) with cur := b.cur + len }

/-- `bson_append32`. -/
def Mem.bson_append32 (b : Mem.bson) (v : Int) : Mem.bson :=
  { b.store b.cur (le32_bytes v) with cur := b.cur + 4 }

/-- `bson_append64`. -/
def Mem.bson_append64 (b : Mem.bson) (v : Int) : Mem.bson :=
  { b.store b.cur (le64_bytes v) with cur := b.cur + 8 }

/-- `bson_ensure_space`.  The sums of two `int`s wrap to 32 bits; the buffer goes
through `bson_realloc` and the cursor is re-based by `b->cur += b->data - orig`. -/
def Mem.bson_ensure_space (a : allocator) (b : Mem.bson) (bytesNeeded : Int) :
    Option (Int × Mem.bson × allocator) :=
  let pos : Int := (b.cur : Int) - (b.data : Int)
  let orig := b.data
  if wrap32 (pos + bytesNeeded) ≤ b.dataSize then some (BSON_OK, b, a)
  else
    let new_size := double_to_int_half (3 * wrap32 (b.dataSize + bytesNeeded))
    let new_size2 : Option Int :=
      if new_size < b.dataSize then
        if wrap32 (b.dataSize + bytesNeeded) < INT_MAX then some INT_MAX else none
      else some new_size
    match new_size2 with
    | none => some (BSON_ERROR, { b with err := BSON_SIZE_OVERFLOW }, a)
    | some sz =>
      match Mem.bson_realloc a b.data b.block sz with
      | none => none
      | some (p, blk, a1) =>
        some (BSON_OK,
          { b with data := p, block := blk, dataSize := sz, cur := b.cur + p - orig }, a1)

/-- `bson_finish`. -/
def Mem.bson_finish (a : allocator) (b : Mem.bson) : Option (Int × Mem.bson × allocator) :=
  if b.err &&& BSON_NOT_UTF8 ≠ 0 then some (BSON_ERROR, b, a)
  else if ¬ b.finished then
    match Mem.bson_ensure_space a b 1 with
    | none => none
    | some (r, b1, a1) =>
      if r = BSON_ERROR then some (BSON_ERROR, b1, a1)
      else
        let b2 := Mem.bson_append_byte b1 0
        let i : Int := (b2.cur : Int) - (b2.data : Int)
        some (BSON_OK, { b2.store b2.data (le32_bytes i) with finished := true }, a1)
  else some (BSON_OK, b, a)

/-- Modelled from the spec: `bson_check_field_name` of the absent `encoding.c`,
as in the embedding above. -/
def Mem.bson_check_field_name (b : Mem.bson) (name : List Nat) (len : Nat)
    (check_dot check_dollar : Bool) : Int × Mem.bson :=
  if check_dollar = true ∧ byteAt name 0 = 36 then
    (BSON_ERROR, { b with err := b.err ||| BSON_FIELD_INIT_DOLLAR })
  else if check_dot = true ∧ 46 ∈ mem_take name len then
    (BSON_ERROR, { b with err := b.err ||| BSON_FIELD_HAS_DOT })
  else if utf8_valid (mem_take name len) = false then
    (BSON_ERROR, { b with err := b.err ||| BSON_NOT_UTF8 })
  else (BSON_OK, b)

/-- Modelled from the spec: `bson_check_string` of the absent `encoding.c`, as in
the embedding above. -/
def Mem.bson_check_string (b : Mem.bson) (value : List Nat) (len : Nat) : Int × Mem.bson :=
  if utf8_valid (mem_take value len) = false then
    (BSON_ERROR, { b with err := b.err ||| BSON_NOT_UTF8 })
  else (BSON_OK, b)

/-- `bson_builder_error`: the builder is not touched. -/
def Mem.bson_builder_error (b : Mem.bson) : Mem.bson := b

/-- `bson_append_estart`. -/
def Mem.bson_append_estart (a : allocator) (b : Mem.bson) (type : Nat) (name : List Nat)
    (dataSize : Int) : Option (Int × Mem.bson × allocator) :=
  let len : Nat := strlen name + 1
  if b.finished then
    some (BSON_ERROR, { b with err := b.err ||| BSON_ALREADY_FINISHED }, a)
  else
    match Mem.bson_ensure_space a b (1 + (len : Int) + dataSize) with
    | none => none
    | some (r, b1, a1) =>
      if r = BSON_ERROR then some (BSON_ERROR, b1, a1)
      else
        match Mem.bson_check_field_name b1 name (len - 1)
            (decide (b1.flags &&& BSON_FLAG_QUERY_MODE = 0))
            (decide (b1.flags &&& BSON_FLAG_QUERY_MODE = 0)) with
        | (r2, b2) =>
          if r2 = BSON_ERROR then some (BSON_ERROR, Mem.bson_builder_error b2, a1)
          else some (BSON_OK, Mem.bson_append (Mem.bson_append_byte b2 type) name len, a1)

/-- `bson_append_int`. -/
def Mem.bson_append_int (a : allocator) (b : Mem.bson) (name : List Nat) (i : Int) :
    Option (Int × Mem.bson × allocator) :=
  match Mem.bson_append_estart a b BSON_INT name 4 with
  | none => none
  | some (r, b1, a1) =>
    if r = BSON_ERROR then some (BSON_ERROR, b1, a1)
    else some (BSON_OK, Mem.bson_append32 b1 i, a1)

/-- `bson_append_long`. -/
def Mem.bson_append_long (a : allocator) (b : Mem.bson) (name : List Nat) (i : Int) :
    Option (Int × Mem.bson × allocator) :=
  match Mem.bson_append_estart a b BSON_LONG name 8 with
  | none => none
  | some (r, b1, a1) =>
    if r = BSON_ERROR then some (BSON_ERROR, b1, a1)
    else some (BSON_OK, Mem.bson_append64 b1 i, a1)

/-- `bson_append_double`: `d` is the 64-bit pattern of the `double`. -/
def Mem.bson_append_double (a : allocator) (b : Mem.bson) (name : List Nat) (d : Nat) :
    Option (Int × Mem.bson × allocator) :=
  match Mem.bson_append_estart a b BSON_DOUBLE name 8 with
  | none => none
  | some (r, b1, a1) =>
    if r = BSON_ERROR then some (BSON_ERROR, b1, a1)
    else some (BSON_OK, Mem.bson_append64 b1 d, a1)

/-- `bson_append_bool`. -/
def Mem.bson_append_bool (a : allocator) (b : Mem.bson) (name : List Nat) (i : Int) :
    Option (Int × Mem.bson × allocator) :=
  match Mem.bson_append_estart a b BSON_BOOL name 1 with
  | none => none
  | some (r, b1, a1) =>
    if r = BSON_ERROR then some (BSON_ERROR, b1, a1)
    else some (BSON_OK, Mem.bson_append_byte b1 (if i ≠ 0 then 1 else 0), a1)

/-- `bson_append_null`. -/
def Mem.bson_append_null (a : allocator) (b : Mem.bson) (name : List Nat) :
    Option (Int × Mem.bson × allocator) :=
  match Mem.bson_append_estart a b BSON_NULL name 0 with
  | none => none
  | some (r, b1, a1) =>
    if r = BSON_ERROR then some (BSON_ERROR, b1, a1) else some (BSON_OK, b1, a1)

/-- `bson_append_undefined`. -/
def Mem.bson_append_undefined (a : allocator) (b : Mem.bson) (name : List Nat) :
    Option (Int × Mem.bson × allocator) :=
  match Mem.bson_append_estart a b BSON_UNDEFINED name 0 with
  | none => none
  | some (r, b1, a1) =>
    if r = BSON_ERROR then some (BSON_ERROR, b1, a1) else some (BSON_OK, b1, a1)

/-- `bson_append_string_base`. -/
def Mem.bson_append_string_base (a : allocator) (b : Mem.bson) (name value : List Nat)
    (len : Nat) (type : Nat) : Option (Int × Mem.bson × allocator) :=
  let sl : Int := (len : Int) + 1
  match Mem.bson_check_string b value (sl - 1).toNat with
  | (r0, b0) =>
    if r0 = BSON_ERROR then some (BSON_ERROR, b0, a)
    else
      match Mem.bson_append_estart a b0 type name (4 + sl) with
      | none => none
      | some (r, b1, a1) =>
        if r = BSON_ERROR then some (BSON_ERROR, b1, a1)
        else
          some (BSON_OK,
            Mem.bson_append (Mem.bson_append (Mem.bson_append32 b1 sl) value (sl - 1).toNat)
              [0] 1, a1)

/-- `bson_append_string`. -/
def Mem.bson_append_string (a : allocator) (b : Mem.bson) (name value : List Nat) :
    Option (Int × Mem.bson × allocator) :=
  Mem.bson_append_string_base a b name value (strlen value) BSON_STRING

/-- `bson_append_symbol`. -/
def Mem.bson_append_symbol (a : allocator) (b : Mem.bson) (name value : List Nat) :
    Option (Int × Mem.bson × allocator) :=
  Mem.bson_append_string_base a b name value (strlen value) BSON_SYMBOL

/-- `bson_append_code`. -/
def Mem.bson_append_code (a : allocator) (b : Mem.bson) (name value : List Nat) :
    Option (Int × Mem.bson × allocator) :=
  Mem.bson_append_string_base a b name value (strlen value) BSON_CODE

/-- `bson_append_string_n`. -/
def Mem.bson_append_string_n (a : allocator) (b : Mem.bson) (name value : List Nat)
    (len : Nat) : Option (Int × Mem.bson × allocator) :=
  Mem.bson_append_string_base a b name value len BSON_STRING

/-- `bson_append_symbol_n`. -/
def Mem.bson_append_symbol_n (a : allocator) (b : Mem.bson) (name value : List Nat)
    (len : Nat) : Option (Int × Mem.bson × allocator) :=
  Mem.bson_append_string_base a b name value len BSON_SYMBOL

/-- `bson_append_code_n`. -/
def Mem.bson_append_code_n (a : allocator) (b : Mem.bson) (name value : List Nat)
    (len : Nat) : Option (Int × Mem.bson × allocator) :=
  Mem.bson_append_string_base a b name value len BSON_CODE

/-- `bson_append_code_w_scope_n`: the scope document is only read and is given
as in the embedding above, `none` for a `NULL` pointer. -/
def Mem.bson_append_code_w_scope_n (a : allocator) (b : Mem.bson) (name code : List Nat)
    (len : Nat) (scope : Option Bson.bson) : Option (Int × Mem.bson × allocator) :=
  match scope with
  | none => some (BSON_ERROR, b, a)
  | some sc =>
    let sl : Int := (len : Int) + 1
    let size : Int := 4 + 4 + sl + Bson.bson_size scope
    match Mem.bson_append_estart a b BSON_CODEWSCOPE name size with
    | none => none
    | some (r, b1, a1) =>
      if r = BSON_ERROR then some (BSON_ERROR, b1, a1)
      else
        some (BSON_OK,
          Mem.bson_append
            (Mem.bson_append (Mem.bson_append32 (Mem.bson_append32 b1 size) sl) code sl.toNat)
            sc.data (Bson.bson_size scope).toNat, a1)

/-- `bson_append_code_w_scope`. -/
def Mem.bson_append_code_w_scope (a : allocator) (b : Mem.bson) (name code : List Nat)
    (scope : Option Bson.bson) : Option (Int × Mem.bson × allocator) :=
  Mem.bson_append_code_w_scope_n a b name code (strlen code) scope

/-- `bson_append_binary`. -/
def Mem.bson_append_binary (a : allocator) (b : Mem.bson) (name : List Nat) (type : Nat)
    (str : List Nat) (len : Nat) : Option (Int × Mem.bson × allocator) :=
  if type = BSON_BIN_BINARY_OLD then
    let subtwolen : Int := (len : Int) + 4
    match Mem.bson_append_estart a b BSON_BINDATA name (4 + 1 + 4 + (len : Int)) with
    | none => none
    | some (r, b1, a1) =>
      if r = BSON_ERROR then some (BSON_ERROR, b1, a1)
      else
        some (BSON_OK,
          Mem.bson_append
            (Mem.bson_append32 (Mem.bson_append_byte (Mem.bson_append32 b1 subtwolen) type) len)
            str len, a1)
  else
    match Mem.bson_append_estart a b BSON_BINDATA name (4 + 1 + (len : Int)) with
    | none => none
    | some (r, b1, a1) =>
      if r = BSON_ERROR then some (BSON_ERROR, b1, a1)
      else
        some (BSON_OK,
          Mem.bson_append (Mem.bson_append_byte (Mem.bson_append32 b1 len) type) str len, a1)

/-- `bson_append_oid`: `oid` lists the bytes at the pointer. -/
def Mem.bson_append_oid (a : allocator) (b : Mem.bson) (name : List Nat) (oid : List Nat) :
    Option (Int × Mem.bson × allocator) :=
  match Mem.bson_append_estart a b BSON_OID name 12 with
  | none => none
  | some (r, b1, a1) =>
    if r = BSON_ERROR then some (BSON_ERROR, b1, a1)
    else some (BSON_OK, Mem.bson_append b1 oid 12, a1)

/-- `bson_append_regex`. -/
def Mem.bson_append_regex (a : allocator) (b : Mem.bson) (name pattern opts : List Nat) :
    Option (Int × Mem.bson × allocator) :=
  let plen : Nat := strlen pattern + 1
  let olen : Nat := strlen opts + 1
  match Mem.bson_append_estart a b BSON_REGEX name ((plen : Int) + (olen : Int)) with
  | none => none
  | some (r, b1, a1) =>
    if r = BSON_ERROR then some (BSON_ERROR, b1, a1)
    else
      match Mem.bson_check_string b1 pattern (plen - 1) with
      | (r2, b2) =>
        if r2 = BSON_ERROR then some (BSON_ERROR, b2, a1)
        else some (BSON_OK, Mem.bson_append (Mem.bson_append b2 pattern plen) opts olen, a1)

/-- `bson_append_bson`: the document `sub` is only read and is given as in the
embedding above, `none` for a `NULL` pointer. -/
def Mem.bson_append_bson (a : allocator) (b : Mem.bson) (name : List Nat)
    (sub : Option Bson.bson) : Option (Int × Mem.bson × allocator) :=
  match sub with
  | none => some (BSON_ERROR, b, a)
  | some s =>
    match Mem.bson_append_estart a b BSON_OBJECT name (Bson.bson_size sub) with
    | none => none
    | some (r, b1, a1) =>
      if r = BSON_ERROR then some (BSON_ERROR, b1, a1)
      else some (BSON_OK, Mem.bson_append b1 s.data (Bson.bson_size sub).toNat, a1)

/-- `bson_append_timestamp`: `i` and `t` are the two fields of `*ts`. -/
def Mem.bson_append_timestamp (a : allocator) (b : Mem.bson) (name : List Nat) (i t : Int) :
    Option (Int × Mem.bson × allocator) :=
  match Mem.bson_append_estart a b BSON_TIMESTAMP name 8 with
  | none => none
  | some (r, b1, a1) =>
    if r = BSON_ERROR then some (BSON_ERROR, b1, a1)
    else some (BSON_OK, Mem.bson_append32 (Mem.bson_append32 b1 i) t, a1)

/-- `bson_append_timestamp2`. -/
def Mem.bson_append_timestamp2 (a : allocator) (b : Mem.bson) (name : List Nat)
    (time increment : Int) : Option (Int × Mem.bson × allocator) :=
  match Mem.bson_append_estart a b BSON_TIMESTAMP name 8 with
  | none => none
  | some (r, b1, a1) =>
    if r = BSON_ERROR then some (BSON_ERROR, b1, a1)
    else some (BSON_OK, Mem.bson_append32 (Mem.bson_append32 b1 increment) time, a1)

/-- `bson_append_date`. -/
def Mem.bson_append_date (a : allocator) (b : Mem.bson) (name : List Nat) (millis : Int) :
    Option (Int × Mem.bson × allocator) :=
  match Mem.bson_append_estart a b BSON_DATE name 8 with
  | none => none
  | some (r, b1, a1) =>
    if r = BSON_ERROR then some (BSON_ERROR, b1, a1)
    else some (BSON_OK, Mem.bson_append64 b1 millis, a1)

/-- `bson_append_time_t`. -/
def Mem.bson_append_time_t (a : allocator) (b : Mem.bson) (name : List Nat) (secs : Int) :
    Option (Int × Mem.bson × allocator) :=
  Mem.bson_append_date a b name (wrap64 (secs * 1000))

/-- `bson_append_start_object`: the offset `b->cur - b->data` goes onto the frame
stack. -/
def Mem.bson_append_start_object (a : allocator) (b : Mem.bson) (name : List Nat) :
    Option (Int × Mem.bson × allocator) :=
  match Mem.bson_append_estart a b BSON_OBJECT name 5 with
  | none => none
  | some (r, b1, a1) =>
    if r = BSON_ERROR then some (BSON_ERROR, b1, a1)
    else
      some (BSON_OK,
        Mem.bson_append32
          { b1 with stack := stack_set b1.stack b1.stackPos ((b1.cur : Int) - (b1.data : Int)),
                    stackPos := b1.stackPos + 1 } 0, a1)

/-- `bson_append_start_array`. -/
def Mem.bson_append_start_array (a : allocator) (b : Mem.bson) (name : List Nat) :
    Option (Int × Mem.bson × allocator) :=
  match Mem.bson_append_estart a b BSON_ARRAY name 5 with
  | none => none
  | some (r, b1, a1) =>
    if r = BSON_ERROR then some (BSON_ERROR, b1, a1)
    else
      some (BSON_OK,
        Mem.bson_append32
          { b1 with stack := stack_set b1.stack b1.stackPos ((b1.cur : Int) - (b1.data : Int)),
                    stackPos := b1.stackPos + 1 } 0, a1)

/-- `bson_append_finish_object`: `start` is the address `b->data` plus the offset
popped from the frame stack; a `start` below the allocation is an overrun. -/
def Mem.bson_append_finish_object (a : allocator) (b : Mem.bson) :
    Option (Int × Mem.bson × allocator) :=
  match Mem.bson_ensure_space a b 1 with
  | none => none
  | some (r, b1, a1) =>
    if r = BSON_ERROR then some (BSON_ERROR, b1, a1)
    else
      let b2 := Mem.bson_append_byte b1 0
      let b3 := { b2 with stackPos := b2.stackPos - 1 }
      let start : Int := (b3.data : Int) + stack_get b3.stack b3.stackPos
      let i : Int := (b3.cur : Int) - start
      some (BSON_OK,
        (if start < 0 then { b3 with overrun := true }
          else b3.store start.toNat (le32_bytes i)), a1)

/-- `bson_append_finish_array`. -/
def Mem.bson_append_finish_array (a : allocator) (b : Mem.bson) :
    Option (Int × Mem.bson × allocator) :=
  Mem.bson_append_finish_object a b

/-- Perform the call of a typed append on the builder in memory. -/
def Mem.Field.append (a : allocator) (b : Mem.bson) : Field → Option (Int × Mem.bson × allocator)
  | .int name i => Mem.bson_append_int a b name i
  | .long name i => Mem.bson_append_long a b name i
  | .double name d => Mem.bson_append_double a b name d
  | .bool name i => Mem.bson_append_bool a b name i
  | .null name => Mem.bson_append_null a b name
  | .undefined name => Mem.bson_append_undefined a b name
  | .string name value => Mem.bson_append_string a b name value
  | .symbol name value => Mem.bson_append_symbol a b name value
  | .code name value => Mem.bson_append_code a b name value
  | .string_n name value len => Mem.bson_append_string_n a b name value len
  | .symbol_n name value len => Mem.bson_append_symbol_n a b name value len
  | .code_n name value len => Mem.bson_append_code_n a b name value len
  | .code_w_scope name js scope => Mem.bson_append_code_w_scope a b name js scope
  | .code_w_scope_n name js len scope => Mem.bson_append_code_w_scope_n a b name js len scope
  | .binary name type str len => Mem.bson_append_binary a b name type str len
  | .oid name bytes => Mem.bson_append_oid a b name bytes
  | .regex name pattern opts => Mem.bson_append_regex a b name pattern opts
  | .subdoc name sub => Mem.bson_append_bson a b name sub
  | .timestamp name i t => Mem.bson_append_timestamp a b name i t
  | .timestamp2 name time increment => Mem.bson_append_timestamp2 a b name time increment
  | .date name millis => Mem.bson_append_date a b name millis
  | .time_t name secs => Mem.bson_append_time_t a b name secs

mutual
/-- Run the calls of one piece of a builder program on the builder in memory,
stopping at the first that returns `BSON_ERROR`. -/
def Mem.Item.build (a : allocator) : Item → Mem.bson → Option (Int × Mem.bson × allocator)
  | .field f, b => Mem.Field.append a b f
  | .object name items, b =>
    match Mem.bson_append_start_object a b name with
    | none => none
    | some (r, b1, a1) =>
      if r = BSON_ERROR then some (BSON_ERROR, b1, a1)
      else
        match Mem.Item.buildList a1 items b1 with
        | none => none
        | some (r2, b2, a2) =>
          if r2 = BSON_ERROR then some (BSON_ERROR, b2, a2)
          else Mem.bson_append_finish_object a2 b2
  | .array name items, b =>
    match Mem.bson_append_start_array a b name with
    | none => none
    | some (r, b1, a1) =>
      if r = BSON_ERROR then some (BSON_ERROR, b1, a1)
      else
        match Mem.Item.buildList a1 items b1 with
        | none => none
        | some (r2, b2, a2) =>
          if r2 = BSON_ERROR then some (BSON_ERROR, b2, a2)
          else Mem.bson_append_finish_array a2 b2
/-- Run the pieces in order on the builder in memory, stopping at the first call
that returns `BSON_ERROR`. -/
def Mem.Item.buildList (a : allocator) :
    List Item → Mem.bson → Option (Int × Mem.bson × allocator)
  | [], b => some (BSON_OK, b, a)
  | i :: is, b =>
    match Mem.Item.build a i b with
    | none => none
    | some (r, b1, a1) =>
      if r = BSON_ERROR then some (BSON_ERROR, b1, a1) else Mem.Item.buildList a1 is b1
end

/-- `bson_dup`: the address of the new struct, the struct, and the allocator
after the call; the results of `bson_ensure_space` and `bson_finish` are not
looked at. -/
def Mem.bson_dup (sizeof_bson : Int) (a : allocator) (src : Mem.bson) :
    Option (Nat × Mem.bson × allocator) :=
  match Mem.bson_create a sizeof_bson with
  | none => none
  | some (rv, a0) =>
    let raw := Mem.bson_data src
    let sz : Int := Mem.bson_size (some src)
    match Mem.bson_init_size a0 sz with
    | none => none
    | some (b0, a1) =>
      match Mem.bson_ensure_space a1 b0 (sz - 4) with
      | none => none
      | some (_, b1, a2) =>
        let b2 := Mem.bson_append b1 (raw.2.drop 4) (sz - (4 + 1)).toNat
        match Mem.bson_finish a2 b2 with
        | none => none
        | some (_, b3, a3) => some (rv, b3, a3)

/-- `bson_create_from_buffer`: `buf` lists the bytes at the pointer; `none` when
the assertion `bufsz - 4 > 0` fails or an allocation does. -/
def Mem.bson_create_from_buffer (sizeof_bson : Int) (a : allocator) (buf : List Nat)
    (bufsz : Int) : Option (Nat × Mem.bson × allocator) :=
  if bufsz - 4 > 0 then
    match Mem.bson_create a sizeof_bson with
    | none => none
    | some (rv, a0) =>
      match Mem.bson_init_size a0 bufsz with
      | none => none
      | some (b0, a1) =>
        match Mem.bson_ensure_space a1 b0 (bufsz - 4) with
        | none => none
        | some (_, b1, a2) =>
          let b2 := Mem.bson_append b1 (buf.drop 4) (bufsz - (4 + 1)).toNat
          match Mem.bson_finish a2 b2 with
          | none => none
          | some (_, b3, a3) => some (rv, b3, a3)
  else none

/-! ## The two embeddings side by side -/

/-- The builder of the embedding above that a builder in memory stands for: its
bytes are the bytes of the allocation before the cursor. -/
def Mem.bson.abs (m : Mem.bson) : Bson.bson :=
  { data := m.block.take (m.cur - m.data), data_null := decide (m.data = 0),
    dataSize := m.dataSize, finished := m.finished, stack := m.stack,
    stackPos := m.stackPos, err := m.err, flags := m.flags }

/-- The cursor of `m` lies inside the allocation with at least `r` bytes behind
it: no store went outside so far, the allocation has the size `dataSize`, a C
`int`, and the cursor offset plus `r` does not exceed it. -/
def Mem.bson.Room (m : Mem.bson) (r : Int) : Prop :=
  m.overrun = false ∧ m.data ≠ 0 ∧ m.data ≤ m.cur ∧
    ((m.cur - m.data : Nat) : Int) + r ≤ m.block.length ∧
    (m.block.length : Int) = m.dataSize ∧ m.dataSize ≤ INT_MAX

/-! ## Sample allocators -/

/-- An allocator that moves every block it reallocates; fresh memory holds the
bytes 170, 187, 204, 221, 238 and zeros behind them. -/
def sample_moving : allocator :=
  { brk := 4096, limit := 1048576, fill := [170, 187, 204, 221, 238], moves := true }

/-- An allocator that grows the last block in place. -/
def sample_staying : allocator :=
  { brk := 4096, limit := 1048576, fill := [170, 187, 204, 221, 238], moves := false }

/-- The finished document `{a: {x: 1, y: {z: "s"}}, g: true}` of 41 bytes in a
buffer of 44 bytes at the address 1024. -/
def sample_tree_src : Mem.bson :=
  { data := 1024, block := sample_tree_doc.data ++ [7, 7, 7], cur := 1024 + 41, dataSize := 44,
    finished := true, stack := [], stackPos := 0, err := 0, flags := 0, overrun := false }

/-- The builder `bson_init_size(b, size)` leaves on the allocator `a`, with the
allocator after the call. -/
def sample_start (a : allocator) (size : Int) : Mem.bson × allocator :=
  (Mem.bson_init_size a size).getD (sample_tree_src, a)

/-- The builder after the twenty appends of `sample_many_items` on
`sample_start a size`, with the result of the last call and the allocator. -/
def sample_body (a : allocator) (size : Int) : Int × Mem.bson × allocator :=
  (Mem.Item.buildList (sample_start a size).2 sample_many_items (sample_start a size).1).getD
    (BSON_ERROR, sample_tree_src, a)

/-- The document `bson_finish` makes of `sample_body a size`. -/
def sample_end (a : allocator) (size : Int) : Int × Mem.bson × allocator :=
  (Mem.bson_finish (sample_body a size).2.2 (sample_body a size).2.1).getD
    (BSON_ERROR, sample_tree_src, a)

/-- The builder of `bson_init` on `sample_moving` after
`bson_append_start_object(b, "a")`: one open frame, whose placeholder is at the
offset 7. -/
def sample_open : Int × Mem.bson × allocator :=
  (Mem.bson_append_start_object (sample_start sample_moving 128).2
    (sample_start sample_moving 128).1 [97]).getD (BSON_ERROR, sample_tree_src, sample_moving)

/-- The builder `bson_ensure_space(b, 200)` makes of `sample_open`. -/
def sample_regrown : Int × Mem.bson × allocator :=
  (Mem.bson_ensure_space sample_open.2.2 sample_open.2.1 200).getD
    (BSON_ERROR, sample_tree_src, sample_moving)

/-! ## Lemmas on machine integers and raw memory -/

theorem wrap32_of_range (x : Int) (h0 : -2147483648 ≤ x) (h1 : x < 2147483648) :
    wrap32 x = x := by
  unfold wrap32; omega

theorem wrap64_of_range (x : Int) (h0 : -9223372036854775808 ≤ x)
    (h1 : x < 9223372036854775808) : wrap64 x = x := by
  unfold wrap64; omega

theorem le32_bytes_length (v : Int) : (le32_bytes v).length = 4 := by simp [le32_bytes]

theorem le64_bytes_length (v : Int) : (le64_bytes v).length = 8 := by simp [le64_bytes]

theorem byteAt_append_left (a b : List Nat) (i : Nat) (h : i < a.length) :
    byteAt (a ++ b) i = byteAt a i := by
  simp [byteAt, List.getD_eq_getElem?_getD, List.getElem?_append_left h]

theorem byteAt_append_right (a b : List Nat) (i : Nat) :
    byteAt (a ++ b) (a.length + i) = byteAt b i := by
  simp [byteAt, List.getD_eq_getElem?_getD, List.getElem?_append_right]

theorem read_u32_append_right (a b : List Nat) (i : Nat) :
    read_u32 (a ++ b) (a.length + i) = read_u32 b i := by
  simp only [read_u32, Nat.add_assoc, byteAt_append_right]

theorem read_u32_le32_bytes (v : Int) (suf : List Nat) :
    read_u32 (le32_bytes v ++ suf) 0 = (v % 4294967296).toNat := by
  simp only [read_u32, le32_bytes, byteAt]
  simp
  omega

theorem read_le32_le32_bytes (pre suf : List Nat) (v : Int) :
    read_le32 (pre ++ (le32_bytes v ++ suf)) pre.length = wrap32 v := by
  have h := read_u32_append_right pre (le32_bytes v ++ suf) 0
  simp only [Nat.add_zero] at h
  rw [read_le32, h, read_u32_le32_bytes]
  unfold wrap32; omega

theorem mem_write_length (bs : List Nat) : ∀ (m : List Nat) (off : Nat),
    (mem_write m off bs).length = m.length := by
  induction bs with
  | nil => intro m off; rfl
  | cons c cs ih => intro m off; simp [mem_write, ih]

theorem mem_write_append (new : List Nat) : ∀ (a old c : List Nat),
    old.length = new.length → mem_write (a ++ old ++ c) a.length new = a ++ new ++ c := by
  induction new with
  | nil =>
    intro a old c h
    have : old = [] := List.length_eq_zero.mp h
    simp [mem_write, this]
  | cons x xs ih =>
    intro a old c h
    cases old with
    | nil => simp at h
    | cons y ys =>
      simp only [List.length_cons, Nat.add_right_cancel_iff] at h
      simp only [mem_write]
      have h1 : (a ++ y :: ys ++ c).set a.length x = (a ++ [x]) ++ ys ++ c := by
        simp [List.set_append]
      rw [h1]
      have h2 : a.length + 1 = (a ++ [x]).length := by simp
      rw [h2, ih (a ++ [x]) ys c h]
      simp

theorem strlen_append_zero (key rest : List Nat) (h : ∀ c ∈ key, c ≠ 0) :
    strlen (key ++ 0 :: rest) = key.length := by
  induction key with
  | nil => simp [strlen]
  | cons c cs ih =>
    have hc : c ≠ 0 := h c (by simp)
    simp [strlen, hc, ih (fun x hx => h x (by simp [hx]))]

theorem strlen_le (s : List Nat) : strlen s ≤ s.length := by
  induction s with
  | nil => simp [strlen]
  | cons c cs ih =>
    simp only [strlen]
    split
    · simp
    · simp only [List.length_cons]; omega

theorem cstr_nonzero (s : List Nat) : ∀ c ∈ cstr s, c ≠ 0 := by
  induction s with
  | nil => simp [cstr, strlen]
  | cons x xs ih =>
    unfold cstr at ih ⊢
    simp only [strlen]
    split
    · simp
    · rename_i hx
      intro c hc
      simp only [List.take_succ_cons, List.mem_cons] at hc
      rcases hc with rfl | hc
      · exact hx
      · exact ih c hc

theorem cstr_length (s : List Nat) : (cstr s).length = strlen s := by
  simp [cstr, strlen_le]

theorem cstr_append_zero (key rest : List Nat) (h : ∀ c ∈ key, c ≠ 0) :
    cstr (key ++ 0 :: rest) = key := by
  simp [cstr, strlen_append_zero key rest h]

theorem mem_take_cstr (s : List Nat) : mem_take s (strlen s + 1) = cstr s ++ [0] := by
  induction s with
  | nil => simp [mem_take, cstr, strlen]
  | cons x xs ih =>
    unfold mem_take cstr at *
    simp only [strlen]
    split
    · rename_i hx; subst hx; simp
    · simp only [List.take_succ_cons, List.length_cons, Nat.add_sub_add_right, List.cons_append,
        List.cons.injEq, true_and]
      exact ih

theorem mem_take_length (s : List Nat) (n : Nat) : (mem_take s n).length = n := by
  simp [mem_take]; omega

theorem mem_take_strlen (s : List Nat) : mem_take s (strlen s) = cstr s := by
  have := strlen_le s
  simp [mem_take, cstr, Nat.sub_eq_zero_of_le this]

theorem write_le32_zero (p : List Nat) (rest : List Nat) (hp : p.length = 4) (v : Int) :
    write_le32 (p ++ rest) 0 v = le32_bytes v ++ rest := by
  have h := mem_write_append (le32_bytes v) [] p rest (by simp [hp, le32_bytes_length])
  simpa [write_le32] using h

theorem list_split4 (l : List Nat) (h : 4 ≤ l.length) :
    ∃ p rest, l = p ++ rest ∧ p.length = 4 :=
  ⟨l.take 4, l.drop 4, (List.take_append_drop 4 l).symm, by simp [h]⟩

/-! ## Lemmas on the builder -/

/-- The builder fields `bson_ensure_space` leaves alone when it succeeds. -/
theorem bson_ensure_space_ok (b b1 : bson) (n r : Int) (h : bson_ensure_space b n = (r, b1))
    (hr : r ≠ BSON_ERROR) :
    b1.data = b.data ∧ b1.finished = b.finished ∧ b1.stack = b.stack ∧
      b1.stackPos = b.stackPos ∧ b1.err = b.err ∧ b1.flags = b.flags ∧ r = BSON_OK := by
  unfold bson_ensure_space at h
  simp only at h
  split at h
  · cases h; simp
  · split at h
    · split at h
      · cases h; simp
      · cases h; exact absurd rfl hr
    · cases h; simp

/-- The builder fields `bson_ensure_space` never touches. -/
theorem bson_ensure_space_frame (b b1 : bson) (n r : Int)
    (h : bson_ensure_space b n = (r, b1)) :
    b1.data = b.data ∧ b1.finished = b.finished ∧ b1.stack = b.stack ∧
      b1.stackPos = b.stackPos ∧ b1.flags = b.flags := by
  unfold bson_ensure_space at h
  simp only at h
  split at h
  · cases h; simp
  · split at h
    · split at h
      · cases h; simp
      · cases h; simp
    · cases h; simp

/-- What a successful `bson_finish` does to an open builder. -/
theorem bson_finish_open (b d : bson) (hopen : b.finished = false) (h4 : 4 ≤ b.cur)
    (h : bson_finish b = (BSON_OK, d)) :
    d.data = le32_bytes ((b.cur : Int) + 1) ++ (b.data.drop 4 ++ [0]) ∧ d.finished = true ∧
      d.stack = b.stack ∧ d.stackPos = b.stackPos ∧ d.err = b.err ∧ d.flags = b.flags := by
  unfold bson_finish at h
  split at h
  · cases h
  · simp only [hopen, Bool.false_eq_true, not_false_eq_true, ↓reduceIte] at h
    rcases hes : bson_ensure_space b 1 with ⟨r, b1⟩
    rw [hes] at h
    simp only at h
    split at h
    · cases h
    · rename_i hr
      obtain ⟨hd, hf, hs, hsp, he, hfl, _⟩ := bson_ensure_space_ok b b1 1 r hes hr
      cases h
      obtain ⟨p, rest, hpr, hp⟩ := list_split4 b.data h4
      simp only [bson_append_byte, bson.cur, hd, hs, hsp, he, hfl, and_true, List.length_append,
        List.length_singleton]
      rw [hpr, List.append_assoc, write_le32_zero p _ hp]
      simp [hp]

/-! ## The length prefix and `bson_finish` -/

/-- C3: after `bson_finish` returns `BSON_OK` on an open builder whose document
fits a 32-bit length, the little-endian int32 in the first four bytes (the value
`bson_size` returns) equals the number of bytes written `cur - data`, which
counts the 4-byte prefix, every element byte written before and the single
terminating zero byte, and the last written byte is zero. -/
theorem bson_finish_length_prefix (b d : bson) (hopen : b.finished = false)
    (h4 : 4 ≤ b.cur) (hnull : b.data_null = true → b.dataSize = 0)
    (hsz : (b.cur : Int) + 1 ≤ INT_MAX) (h : bson_finish b = (BSON_OK, d)) :
    read_le32 d.data 0 = (d.cur : Int) ∧ bson_size (some d) = (d.cur : Int) ∧
      d.cur = 4 + (b.cur - 4) + 1 ∧ d.data.drop 4 = b.data.drop 4 ++ [0] ∧
      byteAt d.data (d.cur - 1) = 0 := by
  obtain ⟨hd, -, -, -, -, -⟩ := bson_finish_open b d hopen h4 h
  have hlen : d.cur = b.cur + 1 := by
    simp only [bson.cur, hd, List.length_append, le32_bytes_length, List.length_drop,
      List.length_singleton]
    simp only [bson.cur] at h4
    omega
  have hread : read_le32 d.data 0 = (d.cur : Int) := by
    have := read_le32_le32_bytes [] (b.data.drop 4 ++ [0]) ((b.cur : Int) + 1)
    simp only [List.nil_append, List.length_nil] at this
    rw [hd, this, hlen, wrap32_of_range _ (by omega) (by simp only [INT_MAX] at hsz; omega)]
    simp
  have hnn : d.data_null = false := by
    unfold bson_finish at h
    split at h
    · cases h
    · simp only [hopen, Bool.false_eq_true, not_false_eq_true, ↓reduceIte] at h
      rcases hes : bson_ensure_space b 1 with ⟨r, b1⟩
      rw [hes] at h
      simp only at h
      split at h
      · cases h
      · cases h
        simp only [bson_append_byte]
        unfold bson_ensure_space at hes
        simp only at hes
        split at hes
        · rename_i hle
          cases hes
          cases hn : b.data_null
          · rfl
          · have h0 := hnull hn
            rw [wrap32_of_range _ (by omega) (by simp only [INT_MAX] at hsz; omega)] at hle
            simp only [bson.cur] at h4
            omega
        · split at hes
          · split at hes
            · cases hes; rfl
            · cases hes; rename_i hr; exact absurd rfl hr
          · cases hes; rfl
  refine ⟨hread, ?_, by omega, ?_, ?_⟩
  · simp [bson_size, hnn, hread]
  · rw [hd]
    have : (le32_bytes ((b.cur : Int) + 1)).length = 4 := le32_bytes_length _
    rw [List.drop_append_of_le_length (by omega), ← this, List.drop_length]
    simp
  · have h1 : d.data = (le32_bytes ((b.cur : Int) + 1) ++ b.data.drop 4) ++ [0] := by
      rw [hd, List.append_assoc]
    have h2 : d.cur - 1 = (le32_bytes ((b.cur : Int) + 1) ++ b.data.drop 4).length + 0 := by
      simp only [List.length_append, le32_bytes_length, List.length_drop, Nat.add_zero]
      simp only [bson.cur] at h4 hlen ⊢
      omega
    rw [h1, h2, byteAt_append_right]
    rfl

/-- Witness of C3: the empty document built by `bson_init` and `bson_finish`. -/
theorem bson_finish_length_prefix_witness :
    read_le32 (bson_finish bson_init).2.data 0 = ((bson_finish bson_init).2.cur : Int) ∧
      bson_size (some (bson_finish bson_init).2) = ((bson_finish bson_init).2.cur : Int) ∧
      (bson_finish bson_init).2.cur = 4 + (bson_init.cur - 4) + 1 ∧
      (bson_finish bson_init).2.data.drop 4 = bson_init.data.drop 4 ++ [0] ∧
      byteAt (bson_finish bson_init).2.data ((bson_finish bson_init).2.cur - 1) = 0 :=
  bson_finish_length_prefix bson_init (bson_finish bson_init).2 (by decide) (by decide)
    (by decide) (by decide) (by decide)

/-- C5: `bson_finish` is idempotent: whenever a first `bson_finish` returns
`BSON_OK`, a second one returns `BSON_OK` too and leaves the whole builder state
(buffer bytes, cursor, length prefix, finished flag) as the first call left it. -/
theorem bson_finish_idempotent (b d : bson) (h : bson_finish b = (BSON_OK, d)) :
    bson_finish d = (BSON_OK, d) := by
  have key : d.finished = true ∧ d.err = b.err := by
    unfold bson_finish at h
    split at h
    · cases h
    · split at h
      · rcases hes : bson_ensure_space b 1 with ⟨r, b1⟩
        rw [hes] at h
        simp only at h
        split at h
        · cases h
        · rename_i hr
          obtain ⟨-, -, -, -, he, -, -⟩ := bson_ensure_space_ok b b1 1 r hes hr
          cases h
          simp [bson_append_byte, he]
      · rename_i hf
        cases h
        simpa using hf
  have herr : ¬ (b.err &&& BSON_NOT_UTF8 ≠ 0) := by
    intro hc
    unfold bson_finish at h
    rw [if_pos hc] at h
    cases h
  unfold bson_finish
  rw [key.2, if_neg herr]
  simp [key.1]

/-- Witness of C5: finishing the empty builder twice. -/
theorem bson_finish_idempotent_witness :
    bson_finish (bson_finish bson_init).2 = (BSON_OK, (bson_finish bson_init).2) :=
  bson_finish_idempotent bson_init (bson_finish bson_init).2 (by decide)

/-! ## What a successful append writes -/

theorem bson_check_field_name_ok (b b1 : bson) (name : List Nat) (len : Nat) (cd cs : Bool)
    (r : Int) (h : bson_check_field_name b name len cd cs = (r, b1)) (hr : r ≠ BSON_ERROR) :
    b1 = b := by
  unfold bson_check_field_name at h
  split at h
  · cases h; exact absurd rfl hr
  · split at h
    · cases h; exact absurd rfl hr
    · split at h
      · cases h; exact absurd rfl hr
      · cases h; rfl

theorem bson_check_string_ok (b b1 : bson) (value : List Nat) (len : Nat)
    (r : Int) (h : bson_check_string b value len = (r, b1)) (hr : r ≠ BSON_ERROR) :
    b1 = b := by
  unfold bson_check_string at h
  split at h
  · cases h; exact absurd rfl hr
  · cases h; rfl

theorem bson_append_estart_ok (b b1 : bson) (t : Nat) (name : List Nat) (ds r : Int)
    (h : bson_append_estart b t name ds = (r, b1)) (hr : r ≠ BSON_ERROR) :
    Appended b b1 (t :: (cstr name ++ [0])) := by
  unfold bson_append_estart at h
  simp only at h
  split at h
  · cases h; exact absurd rfl hr
  · rename_i hfin
    rcases hes : bson_ensure_space b (1 + ((strlen name + 1 : Nat) : Int) + ds) with ⟨r1, b2⟩
    rw [hes] at h
    simp only at h
    split at h
    · cases h; exact absurd rfl hr
    · rename_i hr1
      obtain ⟨hd, hf, hs, hsp, he, hfl, _⟩ := bson_ensure_space_ok b b2 _ r1 hes hr1
      rcases hck : bson_check_field_name b2 name (strlen name + 1 - 1)
        (decide (b2.flags &&& BSON_FLAG_QUERY_MODE = 0))
        (decide (b2.flags &&& BSON_FLAG_QUERY_MODE = 0)) with ⟨r2, b3⟩
      rw [hck] at h
      simp only at h
      split at h
      · cases h; exact absurd rfl hr
      · rename_i hr2
        have := bson_check_field_name_ok _ _ _ _ _ _ _ hck hr2
        subst this
        cases h
        simp only [Bool.not_eq_true] at hfin
        refine ⟨hfin, ?_, ?_, ?_, ?_, ?_, ?_⟩ <;>
          simp [bson_append, bson_append_byte, mem_take_cstr, hd, hf, hs, hsp, he, hfl, hfin]

/-- The common shape of the typed appends: `bson_append_estart`, then writes. -/
theorem estart_then (b b' : bson) (t : Nat) (name : List Nat) (ds r : Int) (g : bson → bson)
    (h : (match bson_append_estart b t name ds with
          | (r, b1) => if r = BSON_ERROR then (BSON_ERROR, b1) else (BSON_OK, g b1)) = (r, b'))
    (hr : r ≠ BSON_ERROR) :
    ∃ b1, Appended b b1 (t :: (cstr name ++ [0])) ∧ b' = g b1 ∧ r = BSON_OK := by
  rcases hes : bson_append_estart b t name ds with ⟨r1, b1⟩
  rw [hes] at h
  simp only at h
  split at h
  · cases h; exact absurd rfl hr
  · rename_i hr1
    cases h
    exact ⟨b1, bson_append_estart_ok _ _ _ _ _ _ hes hr1, rfl, rfl⟩

theorem Appended.extend {b b1 : bson} {bs : List Nat} (h : Appended b b1 bs)
    (g : List Nat) (b2 : bson) (h2 : b2 = { b1 with data := b1.data ++ g }) :
    Appended b b2 (bs ++ g) := by
  obtain ⟨h1, hd, hf, hs, hsp, he, hfl⟩ := h
  subst h2
  exact ⟨h1, by simp [hd], hf, hs, hsp, he, hfl⟩

theorem bson_append_string_base_ok (b b' : bson) (name value : List Nat) (len t : Nat)
    (r : Int) (h : bson_append_string_base b name value len t = (r, b'))
    (hr : r ≠ BSON_ERROR) :
    Appended b b' (t :: (cstr name ++ 0 ::
      (le32_bytes ((len : Int) + 1) ++ mem_take value len ++ [0]))) := by
  unfold bson_append_string_base at h
  simp only at h
  rcases hck : bson_check_string b value ((len : Int) + 1 - 1).toNat with ⟨r0, b0⟩
  rw [hck] at h
  simp only at h
  split at h
  · cases h; exact absurd rfl hr
  · rename_i hr0
    have := bson_check_string_ok _ _ _ _ _ hck hr0
    subst this
    obtain ⟨b1, hA, rfl, -⟩ := estart_then b0 b' t name (4 + ((len : Int) + 1)) r
      (fun b1 => bson_append (bson_append (bson_append32 b1 ((len : Int) + 1)) value
        ((len : Int) + 1 - 1).toNat) [0] 1) h hr
    have hl : ((len : Int) + 1 - 1).toNat = len := by omega
    have := hA.extend (le32_bytes ((len : Int) + 1) ++ mem_take value len ++ [0])
      (bson_append (bson_append (bson_append32 b1 ((len : Int) + 1)) value
        ((len : Int) + 1 - 1).toNat) [0] 1)
      (by simp [bson_append, bson_append32, hl, mem_take])
    simpa using this

/-- A successful typed append adds the type tag, the name with its terminator
and the payload of the data model, and nothing else changes. -/
theorem Field.append_ok (f : Field) (b b' : bson) (r : Int) (h : f.append b = (r, b'))
    (hr : r ≠ BSON_ERROR) :
    Appended b b' (f.type :: (cstr f.name ++ 0 :: f.payload)) := by
  cases f with
  | int name i =>
    obtain ⟨b1, hA, rfl, -⟩ := estart_then b b' BSON_INT name 4 r (fun b1 => bson_append32 b1 i) h hr
    simpa [Field.type, Field.name, Field.payload] using hA.extend (le32_bytes i) _ rfl
  | long name i =>
    obtain ⟨b1, hA, rfl, -⟩ := estart_then b b' BSON_LONG name 8 r (fun b1 => bson_append64 b1 i) h hr
    simpa [Field.type, Field.name, Field.payload] using hA.extend (le64_bytes i) _ rfl
  | double name d =>
    obtain ⟨b1, hA, rfl, -⟩ :=
      estart_then b b' BSON_DOUBLE name 8 r (fun b1 => bson_append64 b1 d) h hr
    simpa [Field.type, Field.name, Field.payload] using hA.extend (le64_bytes d) _ rfl
  | bool name i =>
    obtain ⟨b1, hA, rfl, -⟩ := estart_then b b' BSON_BOOL name 1 r
      (fun b1 => bson_append_byte b1 (if i ≠ 0 then 1 else 0)) h hr
    simpa [Field.type, Field.name, Field.payload] using
      hA.extend [if i ≠ 0 then 1 else 0] _ rfl
  | null name =>
    obtain ⟨b1, hA, rfl, -⟩ := estart_then b b' BSON_NULL name 0 r (fun b1 => b1) h hr
    simpa [Field.type, Field.name, Field.payload] using hA
  | undefined name =>
    obtain ⟨b1, hA, rfl, -⟩ := estart_then b b' BSON_UNDEFINED name 0 r (fun b1 => b1) h hr
    simpa [Field.type, Field.name, Field.payload] using hA
  | string name value =>
    simpa [Field.type, Field.name, Field.payload, mem_take_strlen] using
      bson_append_string_base_ok _ _ _ _ _ _ _ h hr
  | symbol name value =>
    simpa [Field.type, Field.name, Field.payload, mem_take_strlen] using
      bson_append_string_base_ok _ _ _ _ _ _ _ h hr
  | code name value =>
    simpa [Field.type, Field.name, Field.payload, mem_take_strlen] using
      bson_append_string_base_ok _ _ _ _ _ _ _ h hr
  | string_n name value len =>
    simpa [Field.type, Field.name, Field.payload] using
      bson_append_string_base_ok _ _ _ _ _ _ _ h hr
  | symbol_n name value len =>
    simpa [Field.type, Field.name, Field.payload] using
      bson_append_string_base_ok _ _ _ _ _ _ _ h hr
  | code_n name value len =>
    simpa [Field.type, Field.name, Field.payload] using
      bson_append_string_base_ok _ _ _ _ _ _ _ h hr
  | code_w_scope name js scope =>
    cases scope with
    | none => cases h; exact absurd rfl hr
    | some sc =>
      obtain ⟨b1, hA, rfl, -⟩ := estart_then b b' BSON_CODEWSCOPE name
        (4 + 4 + ((strlen js : Int) + 1) + bson_size (some sc)) r
        (fun b1 => bson_append (bson_append (bson_append32 (bson_append32 b1
          (4 + 4 + ((strlen js : Int) + 1) + bson_size (some sc))) ((strlen js : Int) + 1)) js
          ((strlen js : Int) + 1).toNat) sc.data (bson_size (some sc)).toNat) h hr
      have hl : ((strlen js : Int) + 1).toNat = strlen js + 1 := by omega
      have := hA.extend (Field.payload (.code_w_scope name js (some sc)))
        (bson_append (bson_append (bson_append32 (bson_append32 b1
          (4 + 4 + ((strlen js : Int) + 1) + bson_size (some sc))) ((strlen js : Int) + 1)) js
          ((strlen js : Int) + 1).toNat) sc.data (bson_size (some sc)).toNat)
        (by simp [bson_append, bson_append32, hl, Field.payload, mem_take_cstr])
      simpa [Field.type, Field.name] using this
  | code_w_scope_n name js len scope =>
    cases scope with
    | none => cases h; exact absurd rfl hr
    | some sc =>
      obtain ⟨b1, hA, rfl, -⟩ := estart_then b b' BSON_CODEWSCOPE name
        (4 + 4 + ((len : Int) + 1) + bson_size (some sc)) r
        (fun b1 => bson_append (bson_append (bson_append32 (bson_append32 b1
          (4 + 4 + ((len : Int) + 1) + bson_size (some sc))) ((len : Int) + 1)) js
          ((len : Int) + 1).toNat) sc.data (bson_size (some sc)).toNat) h hr
      have hl : ((len : Int) + 1).toNat = len + 1 := by omega
      have := hA.extend (Field.payload (.code_w_scope_n name js len (some sc)))
        (bson_append (bson_append (bson_append32 (bson_append32 b1
          (4 + 4 + ((len : Int) + 1) + bson_size (some sc))) ((len : Int) + 1)) js
          ((len : Int) + 1).toNat) sc.data (bson_size (some sc)).toNat)
        (by simp [bson_append, bson_append32, hl, Field.payload])
      simpa [Field.type, Field.name] using this
  | binary name type str len =>
    simp only [Field.append, bson_append_binary] at h
    split at h
    · rename_i ht
      obtain ⟨b1, hA, rfl, -⟩ := estart_then b b' BSON_BINDATA name (4 + 1 + 4 + (len : Int)) r
        (fun b1 => bson_append (bson_append32 (bson_append_byte
          (bson_append32 b1 ((len : Int) + 4)) type) len) str len) h hr
      have := hA.extend (Field.payload (.binary name type str len))
        (bson_append (bson_append32 (bson_append_byte (bson_append32 b1 ((len : Int) + 4))
          type) len) str len)
        (by simp [bson_append, bson_append32, bson_append_byte, Field.payload, ht])
      simpa [Field.type, Field.name] using this
    · rename_i ht
      obtain ⟨b1, hA, rfl, -⟩ := estart_then b b' BSON_BINDATA name (4 + 1 + (len : Int)) r
        (fun b1 => bson_append (bson_append_byte (bson_append32 b1 len) type) str len) h hr
      have := hA.extend (Field.payload (.binary name type str len))
        (bson_append (bson_append_byte (bson_append32 b1 len) type) str len)
        (by simp [bson_append, bson_append32, bson_append_byte, Field.payload, ht])
      simpa [Field.type, Field.name] using this
  | oid name bytes =>
    obtain ⟨b1, hA, rfl, -⟩ :=
      estart_then b b' BSON_OID name 12 r (fun b1 => bson_append b1 bytes 12) h hr
    simpa [Field.type, Field.name, Field.payload] using hA.extend (mem_take bytes 12) _ rfl
  | regex name pattern opts =>
    simp only [Field.append, bson_append_regex] at h
    rcases hes : bson_append_estart b BSON_REGEX name
      (((strlen pattern + 1 : Nat) : Int) + ((strlen opts + 1 : Nat) : Int)) with ⟨r1, b1⟩
    rw [hes] at h
    simp only at h
    split at h
    · cases h; exact absurd rfl hr
    · rename_i hr1
      have hA := bson_append_estart_ok _ _ _ _ _ _ hes hr1
      rcases hck : bson_check_string b1 pattern (strlen pattern + 1 - 1) with ⟨r2, b2⟩
      rw [hck] at h
      simp only at h
      split at h
      · cases h; exact absurd rfl hr
      · rename_i hr2
        have := bson_check_string_ok _ _ _ _ _ hck hr2
        subst this
        cases h
        have := hA.extend (Field.payload (.regex name pattern opts))
          (bson_append (bson_append b2 pattern (strlen pattern + 1)) opts (strlen opts + 1))
          (by simp [bson_append, Field.payload, mem_take_cstr])
        simpa [Field.type, Field.name] using this
  | subdoc name sub =>
    cases sub with
    | none => cases h; exact absurd rfl hr
    | some s =>
      obtain ⟨b1, hA, rfl, -⟩ := estart_then b b' BSON_OBJECT name (bson_size (some s)) r
        (fun b1 => bson_append b1 s.data (bson_size (some s)).toNat) h hr
      simpa [Field.type, Field.name, Field.payload] using
        hA.extend (mem_take s.data (bson_size (some s)).toNat) _ rfl
  | timestamp name i t =>
    obtain ⟨b1, hA, rfl, -⟩ := estart_then b b' BSON_TIMESTAMP name 8 r
      (fun b1 => bson_append32 (bson_append32 b1 i) t) h hr
    have := hA.extend (le32_bytes i ++ le32_bytes t) (bson_append32 (bson_append32 b1 i) t)
      (by simp [bson_append32])
    simpa [Field.type, Field.name, Field.payload] using this
  | timestamp2 name time increment =>
    obtain ⟨b1, hA, rfl, -⟩ := estart_then b b' BSON_TIMESTAMP name 8 r
      (fun b1 => bson_append32 (bson_append32 b1 increment) time) h hr
    have := hA.extend (le32_bytes increment ++ le32_bytes time)
      (bson_append32 (bson_append32 b1 increment) time) (by simp [bson_append32])
    simpa [Field.type, Field.name, Field.payload] using this
  | date name millis =>
    obtain ⟨b1, hA, rfl, -⟩ :=
      estart_then b b' BSON_DATE name 8 r (fun b1 => bson_append64 b1 millis) h hr
    simpa [Field.type, Field.name, Field.payload] using hA.extend (le64_bytes millis) _ rfl
  | time_t name secs =>
    obtain ⟨b1, hA, rfl, -⟩ := estart_then b b' BSON_DATE name 8 r
      (fun b1 => bson_append64 b1 (wrap64 (secs * 1000))) h hr
    simpa [Field.type, Field.name, Field.payload] using
      hA.extend (le64_bytes (wrap64 (secs * 1000))) _ rfl

/-! ## The iterator on well-formed elements -/

theorem drop_of_drop_append (buf a r : List Nat) (off : Nat) (h : buf.drop off = a ++ r) :
    buf.drop (off + a.length) = r := by
  have : buf.drop (off + a.length) = (buf.drop off).drop a.length := by
    rw [List.drop_drop]
  rw [this, h, List.drop_left]

theorem byteAt_of_drop (buf r : List Nat) (off c : Nat) (h : buf.drop off = c :: r) :
    byteAt buf off = c := by
  have h1 : byteAt (buf.drop off) 0 = byteAt buf off := by
    simp [byteAt, List.getD_eq_getElem?_getD, List.getElem?_drop]
  rw [← h1, h]; rfl

theorem byteAt_drop (buf : List Nat) (off i : Nat) :
    byteAt (buf.drop off) i = byteAt buf (off + i) := by
  simp [byteAt, List.getD_eq_getElem?_getD, List.getElem?_drop]

theorem read_u32_drop (buf : List Nat) (off : Nat) :
    read_u32 (buf.drop off) 0 = read_u32 buf off := by
  simp [read_u32, byteAt_drop]

theorem read_u32_append_left (p suf : List Nat) (h : 4 ≤ p.length) :
    read_u32 (p ++ suf) 0 = read_u32 p 0 := by
  simp only [read_u32, Nat.zero_add]
  rw [byteAt_append_left _ _ _ (by omega), byteAt_append_left _ _ _ (by omega),
    byteAt_append_left _ _ _ (by omega), byteAt_append_left _ _ _ (by omega)]

theorem read_le32_of_drop (buf p suf : List Nat) (off : Nat) (h : buf.drop off = p ++ suf)
    (h4 : 4 ≤ p.length) : read_le32 buf off = read_le32 p 0 := by
  rw [read_le32, read_le32, ← read_u32_drop, h, read_u32_append_left p suf h4]

/-- The layout facts the iterator relies on, for an element found at offset `off`. -/
theorem elem_layout (buf key p suf : List Nat) (off t : Nat)
    (h : buf.drop off = t :: (key ++ 0 :: (p ++ suf))) (hkey : ∀ c ∈ key, c ≠ 0)
    (f : Bool) :
    bson_iterator_type ⟨buf, off, f⟩ = t ∧ strlen_at buf (off + 1) = key.length ∧
      bson_iterator_key_str ⟨buf, off, f⟩ = key ∧
      bson_iterator_value ⟨buf, off, f⟩ = off + 1 + (key.length + 1) ∧
      buf.drop (off + 1 + (key.length + 1)) = p ++ suf ∧
      buf.drop (off + 1 + (key.length + 1) + p.length) = suf := by
  have h1 : buf.drop (off + 1) = key ++ 0 :: (p ++ suf) :=
    drop_of_drop_append buf [t] _ off h
  have h2 : buf.drop (off + 1 + (key.length + 1)) = p ++ suf := by
    have := drop_of_drop_append buf (key ++ [0]) (p ++ suf) (off + 1) (by simpa using h1)
    simpa using this
  have h3 := drop_of_drop_append buf p suf _ h2
  have hs : strlen_at buf (off + 1) = key.length := by
    rw [strlen_at, h1, strlen_append_zero key _ hkey]
  refine ⟨byteAt_of_drop _ _ _ _ h, hs, ?_, ?_, h2, h3⟩
  · simp [bson_iterator_key_str, bson_iterator_key, cstr_at, h1, cstr_append_zero key _ hkey]
  · simp [bson_iterator_value, hs]

/-- The payload length `bson_iterator_next` computes equals the length of a
well-formed payload. -/
theorem bson_iterator_ds_of_wf (buf key p suf : List Nat) (off t : Nat)
    (h : buf.drop off = t :: (key ++ 0 :: (p ++ suf))) (hkey : ∀ c ∈ key, c ≠ 0)
    (hp : payload_wf t p) (f : Bool) :
    bson_iterator_ds ⟨buf, off, f⟩ = some (p.length : Int) := by
  obtain ⟨ht, hs, -, hv, h2, -⟩ := elem_layout buf key p suf off t h hkey f
  have hraw : 4 ≤ p.length → bson_iterator_int_raw ⟨buf, off, f⟩ = read_le32 p 0 := by
    intro h4
    rw [bson_iterator_int_raw, hv, read_le32_of_drop buf p suf _ h2 h4]
  by_cases c1 : t = BSON_UNDEFINED ∨ t = BSON_NULL
  · simp only [payload_wf, if_pos c1] at hp
    simp only [bson_iterator_ds, ht, if_pos c1, hp, Nat.cast_zero]
  by_cases c2 : t = BSON_BOOL
  · simp only [payload_wf, if_neg c1, if_pos c2] at hp
    simp only [bson_iterator_ds, ht, if_neg c1, if_pos c2, hp, Nat.cast_one]
  by_cases c3 : t = BSON_INT
  · simp only [payload_wf, if_neg c1, if_neg c2, if_pos c3] at hp
    simp only [bson_iterator_ds, ht, if_neg c1, if_neg c2, if_pos c3, hp, Nat.cast_ofNat]
  by_cases c4 : t = BSON_LONG ∨ t = BSON_DOUBLE ∨ t = BSON_TIMESTAMP ∨ t = BSON_DATE
  · simp only [payload_wf, if_neg c1, if_neg c2, if_neg c3, if_pos c4] at hp
    simp only [bson_iterator_ds, ht, if_neg c1, if_neg c2, if_neg c3, if_pos c4, hp,
      Nat.cast_ofNat]
  by_cases c5 : t = BSON_OID
  · simp only [payload_wf, if_neg c1, if_neg c2, if_neg c3, if_neg c4, if_pos c5] at hp
    simp only [bson_iterator_ds, ht, if_neg c1, if_neg c2, if_neg c3, if_neg c4, if_pos c5, hp,
      Nat.cast_ofNat]
  by_cases c6 : t = BSON_STRING ∨ t = BSON_SYMBOL ∨ t = BSON_CODE
  · simp only [payload_wf, if_neg c1, if_neg c2, if_neg c3, if_neg c4, if_neg c5, if_pos c6] at hp
    simp only [bson_iterator_ds, ht, if_neg c1, if_neg c2, if_neg c3, if_neg c4, if_neg c5,
      if_pos c6, hraw hp.1, hp.2]
  by_cases c7 : t = BSON_BINDATA
  · simp only [payload_wf, if_neg c1, if_neg c2, if_neg c3, if_neg c4, if_neg c5, if_neg c6,
      if_pos c7] at hp
    simp only [bson_iterator_ds, ht, if_neg c1, if_neg c2, if_neg c3, if_neg c4, if_neg c5,
      if_neg c6, if_pos c7, hraw hp.1, hp.2]
  by_cases c8 : t = BSON_OBJECT ∨ t = BSON_ARRAY ∨ t = BSON_CODEWSCOPE
  · simp only [payload_wf, if_neg c1, if_neg c2, if_neg c3, if_neg c4, if_neg c5, if_neg c6,
      if_neg c7, if_pos c8] at hp
    simp only [bson_iterator_ds, ht, if_neg c1, if_neg c2, if_neg c3, if_neg c4, if_neg c5,
      if_neg c6, if_neg c7, if_pos c8, hraw hp.1, hp.2]
  by_cases c9 : t = BSON_DBREF
  · simp only [payload_wf, if_neg c1, if_neg c2, if_neg c3, if_neg c4, if_neg c5, if_neg c6,
      if_neg c7, if_neg c8, if_pos c9] at hp
    simp only [bson_iterator_ds, ht, if_neg c1, if_neg c2, if_neg c3, if_neg c4, if_neg c5,
      if_neg c6, if_neg c7, if_neg c8, if_pos c9, hraw hp.1, hp.2]
  by_cases c10 : t = BSON_REGEX
  · simp only [payload_wf, if_neg c1, if_neg c2, if_neg c3, if_neg c4, if_neg c5, if_neg c6,
      if_neg c7, if_neg c8, if_neg c9, if_pos c10] at hp
    simp only [bson_iterator_ds, ht, if_neg c1, if_neg c2, if_neg c3, if_neg c4, if_neg c5,
      if_neg c6, if_neg c7, if_neg c8, if_neg c9, if_pos c10]
    obtain ⟨a, o, hpe, ha, ho⟩ := hp
    subst hpe
    simp only [hv]
    have e1 : strlen_at buf (off + 1 + (key.length + 1)) = a.length := by
      rw [strlen_at, h2]
      simp only [List.append_assoc, List.cons_append]
      exact strlen_append_zero a _ ha
    have h3 : buf.drop (off + 1 + (key.length + 1) + (a.length + 1)) = o ++ 0 :: suf := by
      have := drop_of_drop_append buf (a ++ [0]) (o ++ 0 :: suf) (off + 1 + (key.length + 1))
        (by simpa using h2)
      simpa using this
    have e2 : strlen_at buf (off + 1 + (key.length + 1) + (a.length + 1)) = o.length := by
      rw [strlen_at, h3]
      exact strlen_append_zero o _ ho
    rw [e1, e2]
    simp only [List.length_append, List.length_cons, List.length_nil]
    congr 1
    push_cast
    omega
  · simp only [payload_wf, if_neg c1, if_neg c2, if_neg c3, if_neg c4, if_neg c5, if_neg c6,
      if_neg c7, if_neg c8, if_neg c9, if_neg c10] at hp

/-- `bson_iterator_next` on an iterator that stands on a well-formed element and
has been started: it moves the cursor by the length of the element and returns
the byte found there. -/
theorem bson_iterator_next_leaf (buf key p suf : List Nat) (off t : Nat)
    (h : buf.drop off = t :: (key ++ 0 :: (p ++ suf))) (ht : t ≠ BSON_EOO)
    (hkey : ∀ c ∈ key, c ≠ 0) (hp : payload_wf t p) :
    bson_iterator_next ⟨buf, off, false⟩ =
      some (byteAt buf (off + (1 + (key.length + 1) + p.length)),
        ⟨buf, off + (1 + (key.length + 1) + p.length), false⟩) := by
  obtain ⟨hty, hs, -, -, -, -⟩ := elem_layout buf key p suf off t h hkey false
  have hds := bson_iterator_ds_of_wf buf key p suf off t h hkey hp false
  unfold bson_iterator_next
  simp only [Bool.false_eq_true, ↓reduceIte, hty, if_neg ht, hds, hs]
  have : ((off : Int) + (1 + (key.length : Int) + 1 + (p.length : Int))).toNat
      = off + (1 + (key.length + 1) + p.length) := by omega
  rw [this]

/-! ## Well-formed elements and the iterator -/

theorem Elt.bytes_eq (e : Elt) : e.bytes = e.type :: (e.key ++ 0 :: e.payload) := by
  cases e <;> simp [Elt.bytes, Elt.type, Elt.key, Elt.payload]

theorem Elt.bytes_length (e : Elt) :
    e.bytes.length = 1 + (e.key.length + 1) + e.payload.length := by
  rw [Elt.bytes_eq]; simp; omega

theorem read_le32_le32_bytes_zero (v : Int) (rest : List Nat) :
    read_le32 (le32_bytes v ++ rest) 0 = wrap32 v := by
  have := read_le32_le32_bytes [] rest v
  simpa using this

/-- A well-formed element has a known type, a key without zero byte and a
payload of the announced length. -/
theorem Elt.WF.parts {e : Elt} (h : e.WF) :
    e.type ≠ BSON_EOO ∧ (∀ c ∈ e.key, c ≠ 0) ∧ payload_wf e.type e.payload := by
  cases e with
  | leaf t key p => simpa [Elt.WF, Elt.type, Elt.key, Elt.payload] using h
  | node t key kids =>
    simp only [Elt.WF] at h
    obtain ⟨ht, hk, hsz, -⟩ := h
    refine ⟨?_, hk, ?_⟩
    · rcases ht with ht | ht <;> simp [Elt.type, ht, BSON_OBJECT, BSON_ARRAY, BSON_EOO]
    · have hlen : (Elt.payload (.node t key kids)).length = (Elt.bytesList kids).length + 5 := by
        simp [Elt.payload, le32_bytes_length]; omega
      have hread : read_le32 (Elt.payload (.node t key kids)) 0
          = (((Elt.bytesList kids).length + 5 : Nat) : Int) := by
        simp only [Elt.payload]
        rw [read_le32_le32_bytes_zero, wrap32_of_range _ (by omega)
          (by simp only [INT_MAX] at hsz; omega)]
        push_cast; rfl
      have h8 : t = BSON_OBJECT ∨ t = BSON_ARRAY ∨ t = BSON_CODEWSCOPE := by
        rcases ht with ht | ht
        · exact Or.inl ht
        · exact Or.inr (Or.inl ht)
      have hgoal : 4 ≤ (Elt.payload (.node t key kids)).length ∧
          read_le32 (Elt.payload (.node t key kids)) 0
            = ((Elt.payload (.node t key kids)).length : Int) := by
        rw [hread, hlen]
        exact ⟨by omega, rfl⟩
      simp only [Elt.type]
      rcases ht with ht | ht <;>
      · subst ht
        simp only [payload_wf, BSON_OBJECT, BSON_ARRAY, BSON_UNDEFINED, BSON_NULL, BSON_BOOL,
          BSON_INT, BSON_LONG, BSON_DOUBLE, BSON_TIMESTAMP, BSON_DATE, BSON_OID, BSON_STRING,
          BSON_SYMBOL, BSON_CODE, BSON_BINDATA, BSON_CODEWSCOPE]
        simp only [Nat.reduceEqDiff, or_self, ↓reduceIte, or_false, or_true, true_or]
        exact hgoal

/-- `bson_iterator_next` steps over a well-formed element. -/
theorem bson_iterator_next_elt (buf suf : List Nat) (off : Nat) (e : Elt) (he : e.WF)
    (h : buf.drop off = e.bytes ++ suf) :
    bson_iterator_next ⟨buf, off, false⟩ =
      some (byteAt buf (off + e.bytes.length), ⟨buf, off + e.bytes.length, false⟩) ∧
    buf.drop (off + e.bytes.length) = suf ∧
    bson_iterator_type ⟨buf, off, false⟩ = e.type ∧
    bson_iterator_key_str ⟨buf, off, false⟩ = e.key := by
  obtain ⟨ht, hk, hp⟩ := he.parts
  have h' : buf.drop off = e.type :: (e.key ++ 0 :: (e.payload ++ suf)) := by
    rw [h, Elt.bytes_eq]; simp
  have hn := bson_iterator_next_leaf buf e.key e.payload suf off e.type h' ht hk hp
  obtain ⟨hty, -, hks, -, -, -⟩ := elem_layout buf e.key e.payload suf off e.type h' hk false
  rw [Elt.bytes_length]
  exact ⟨hn, by rw [← Elt.bytes_length]; exact drop_of_drop_append buf _ _ off h, hty, hks⟩

theorem Elt.bytesList_cons (e : Elt) (es : List Elt) :
    Elt.bytesList (e :: es) = e.bytes ++ Elt.bytesList es := by
  simp [Elt.bytesList]

/-- The (type, key) pairs of a sequence of elements. -/
theorem trace_from_elt (es : List Elt) : ∀ (buf suf : List Nat) (off : Nat) (e : Elt),
    e.WF → Elt.WFs es → buf.drop off = e.bytes ++ (Elt.bytesList es ++ 0 :: suf) →
    ∀ k, bson_iterator_trace (es.length + k) ⟨buf, off, false⟩ =
      some (es.map (fun x => (x.type, x.key)) ++ List.replicate k (BSON_EOO, [])) := by
  induction es with
  | nil =>
    intro buf suf off e he _ h k
    obtain ⟨hn, hd, -, -⟩ := bson_iterator_next_elt buf _ off e he h
    simp only [Elt.bytesList, List.nil_append] at hd hn
    have h0 : byteAt buf (off + e.bytes.length) = 0 := byteAt_of_drop _ _ _ _ hd
    have hz : ∀ k, bson_iterator_trace k ⟨buf, off + e.bytes.length, false⟩ =
        some (List.replicate k (BSON_EOO, [])) := by
      intro k
      induction k with
      | zero => rfl
      | succ k ih =>
        have : bson_iterator_next ⟨buf, off + e.bytes.length, false⟩ =
            some (BSON_EOO, ⟨buf, off + e.bytes.length, false⟩) := by
          simp [bson_iterator_next, bson_iterator_type, h0, BSON_EOO]
        simp only [bson_iterator_trace, this, ih]
        simp [List.replicate_succ]
    cases k with
    | zero => rfl
    | succ k =>
      simp only [List.length_nil, Nat.zero_add, bson_iterator_trace, hn, h0, hz k]
      simp [List.replicate_succ, BSON_EOO, hz k]
  | cons e' es ih =>
    intro buf suf off e he hes h k
    simp only [Elt.WFs] at hes
    obtain ⟨hn, hd, -, -⟩ := bson_iterator_next_elt buf _ off e he h
    rw [Elt.bytesList_cons, List.append_assoc] at hd
    obtain ⟨-, -, hty, hks⟩ := bson_iterator_next_elt buf _ _ e' hes.1 hd
    have htb : byteAt buf (off + e.bytes.length) = e'.type := hty
    have ht0 : e'.type ≠ BSON_EOO := hes.1.parts.1
    have := ih buf suf (off + e.bytes.length) e' hes.1 hes.2 hd k
    have hlen : (e' :: es).length + k = (es.length + k) + 1 := by simp; omega
    rw [hlen]
    simp only [bson_iterator_trace, hn, this, htb, if_neg ht0, hks]
    simp

/-- The calls of `bson_iterator_next` on a cursor placed by `bson_iterator_init`
or `bson_iterator_from_buffer` in front of a sequence of well-formed elements:
the first call returns the type of the first element without moving, the
following ones return the (type, key) pairs in order and then `BSON_EOO`. -/
theorem trace_elts (es : List Elt) (buf suf : List Nat) (off : Nat) (hes : Elt.WFs es)
    (h : buf.drop off = Elt.bytesList es ++ 0 :: suf) :
    bson_iterator_next ⟨buf, off, true⟩ =
      some (((es.head?).map Elt.type).getD BSON_EOO, ⟨buf, off, false⟩) ∧
    ∀ k, bson_iterator_trace (es.length + k) ⟨buf, off, true⟩ =
      some (es.map (fun x => (x.type, x.key)) ++ List.replicate k (BSON_EOO, [])) := by
  cases es with
  | nil =>
    simp only [Elt.bytesList, List.nil_append] at h
    have h0 : byteAt buf off = 0 := byteAt_of_drop _ _ _ _ h
    have hz : ∀ k, bson_iterator_trace k ⟨buf, off, false⟩ =
        some (List.replicate k (BSON_EOO, [])) := by
      intro k
      induction k with
      | zero => rfl
      | succ k ih =>
        have : bson_iterator_next ⟨buf, off, false⟩ = some (BSON_EOO, ⟨buf, off, false⟩) := by
          simp [bson_iterator_next, bson_iterator_type, h0, BSON_EOO]
        simp only [bson_iterator_trace, this, ih]
        simp [List.replicate_succ]
    have hn : bson_iterator_next ⟨buf, off, true⟩ = some (BSON_EOO, ⟨buf, off, false⟩) := by
      simp [bson_iterator_next, h0, BSON_EOO]
    refine ⟨by simpa using hn, ?_⟩
    intro k
    cases k with
    | zero => rfl
    | succ k =>
      simp only [List.length_nil, Nat.zero_add, bson_iterator_trace, hn, hz k]
      simp [List.replicate_succ, BSON_EOO, hz k]
  | cons e es =>
    simp only [Elt.WFs] at hes
    rw [Elt.bytesList_cons, List.append_assoc] at h
    obtain ⟨-, -, hty, hks⟩ := bson_iterator_next_elt buf _ off e hes.1 h
    have htb : byteAt buf off = e.type := hty
    have ht0 : e.type ≠ BSON_EOO := hes.1.parts.1
    have hn : bson_iterator_next ⟨buf, off, true⟩ = some (e.type, ⟨buf, off, false⟩) := by
      simp [bson_iterator_next, htb]
    refine ⟨by simpa using hn, ?_⟩
    intro k
    have := trace_from_elt es buf suf off e hes.1 hes.2 h k
    have hlen : (e :: es).length + k = (es.length + k) + 1 := by simp; omega
    rw [hlen]
    simp only [bson_iterator_trace, hn, this, if_neg ht0, hks]
    simp

/-! ## The payloads of the typed appends are well-formed -/

theorem byteAt_mem_take (m : List Nat) (n i : Nat) (h : i < n) :
    byteAt (mem_take m n) i = byteAt m i := by
  unfold mem_take byteAt
  simp only [List.getD_eq_getElem?_getD]
  by_cases hi : i < m.length
  · rw [List.getElem?_append_left (by simp; omega), List.getElem?_take_of_lt h]
  · have hl : (m.take n).length ≤ i := by simp; omega
    rw [List.getElem?_append_right hl]
    have : m[i]? = none := List.getElem?_eq_none (by omega)
    rw [this]
    simp only [Option.getD_none]
    cases hx : (List.replicate (n - m.length) 0)[i - (m.take n).length]? with
    | none => rfl
    | some x =>
      have := List.getElem?_eq_some_iff.mp hx
      obtain ⟨_, hx2⟩ := this
      simp at hx2
      simp [← hx2]

theorem read_le32_mem_take (m : List Nat) (n : Nat) (h : 4 ≤ n) :
    read_le32 (mem_take m n) 0 = read_le32 m 0 := by
  simp only [read_le32, read_u32, Nat.zero_add]
  rw [byteAt_mem_take _ _ _ (by omega), byteAt_mem_take _ _ _ (by omega),
    byteAt_mem_take _ _ _ (by omega), byteAt_mem_take _ _ _ (by omega)]

theorem Field.type_ne_eoo (f : Field) : f.type ≠ BSON_EOO := by
  cases f <;> simp [Field.type, BSON_EOO, BSON_INT, BSON_LONG, BSON_DOUBLE, BSON_BOOL,
    BSON_NULL, BSON_UNDEFINED, BSON_STRING, BSON_SYMBOL, BSON_CODE, BSON_CODEWSCOPE,
    BSON_BINDATA, BSON_OID, BSON_REGEX, BSON_OBJECT, BSON_TIMESTAMP, BSON_DATE]

theorem string_payload_wf (t : Nat) (ht : t = BSON_STRING ∨ t = BSON_SYMBOL ∨ t = BSON_CODE)
    (len : Nat) (x : List Nat) (hx : x.length = len)
    (hsz : ((le32_bytes ((len : Int) + 1) ++ x ++ [0]).length : Int) ≤ INT_MAX) :
    payload_wf t (le32_bytes ((len : Int) + 1) ++ x ++ [0]) := by
  have hlen : (le32_bytes ((len : Int) + 1) ++ x ++ [0]).length = 4 + len + 1 := by
    simp [le32_bytes_length, hx]; omega
  rw [hlen] at hsz
  have hread : read_le32 (le32_bytes ((len : Int) + 1) ++ x ++ [0]) 0 = (len : Int) + 1 := by
    rw [List.append_assoc, read_le32_le32_bytes_zero,
      wrap32_of_range _ (by omega) (by simp only [INT_MAX] at hsz; omega)]
  have hgoal : 4 ≤ (le32_bytes ((len : Int) + 1) ++ x ++ [0]).length ∧
      4 + read_le32 (le32_bytes ((len : Int) + 1) ++ x ++ [0]) 0
        = ((le32_bytes ((len : Int) + 1) ++ x ++ [0]).length : Int) := by
    rw [hread, hlen]
    exact ⟨by omega, by push_cast; omega⟩
  rcases ht with ht | ht | ht <;>
  · subst ht
    simp only [payload_wf, BSON_OBJECT, BSON_ARRAY, BSON_UNDEFINED, BSON_NULL, BSON_BOOL,
      BSON_INT, BSON_LONG, BSON_DOUBLE, BSON_TIMESTAMP, BSON_DATE, BSON_OID, BSON_STRING,
      BSON_SYMBOL, BSON_CODE, BSON_BINDATA, BSON_CODEWSCOPE]
    simp only [Nat.reduceEqDiff, or_self, ↓reduceIte, or_false, or_true, true_or]
    exact hgoal

theorem codewscope_payload_wf (sl n : Int) (x y : List Nat) (hsl : 0 ≤ sl) (hn : 0 ≤ n)
    (hx : x.length = sl.toNat) (hy : y.length = n.toNat)
    (hsz : ((le32_bytes (4 + 4 + sl + n) ++ le32_bytes sl ++ x ++ y).length : Int) ≤ INT_MAX) :
    payload_wf BSON_CODEWSCOPE (le32_bytes (4 + 4 + sl + n) ++ le32_bytes sl ++ x ++ y) := by
  have hlen : (le32_bytes (4 + 4 + sl + n) ++ le32_bytes sl ++ x ++ y).length
      = 8 + sl.toNat + n.toNat := by
    simp [le32_bytes_length, hx, hy]; omega
  rw [hlen] at hsz
  have hread : read_le32 (le32_bytes (4 + 4 + sl + n) ++ le32_bytes sl ++ x ++ y) 0
      = 4 + 4 + sl + n := by
    rw [List.append_assoc, List.append_assoc, read_le32_le32_bytes_zero,
      wrap32_of_range _ (by omega) (by simp only [INT_MAX] at hsz; omega)]
  have hgoal : 4 ≤ (le32_bytes (4 + 4 + sl + n) ++ le32_bytes sl ++ x ++ y).length ∧
      read_le32 (le32_bytes (4 + 4 + sl + n) ++ le32_bytes sl ++ x ++ y) 0
        = ((le32_bytes (4 + 4 + sl + n) ++ le32_bytes sl ++ x ++ y).length : Int) := by
    rw [hread, hlen]
    exact ⟨by omega, by push_cast; omega⟩
  simp only [payload_wf, BSON_OBJECT, BSON_ARRAY, BSON_UNDEFINED, BSON_NULL, BSON_BOOL,
    BSON_INT, BSON_LONG, BSON_DOUBLE, BSON_TIMESTAMP, BSON_DATE, BSON_OID, BSON_STRING,
    BSON_SYMBOL, BSON_CODE, BSON_BINDATA, BSON_CODEWSCOPE]
  simp only [Nat.reduceEqDiff, or_self, ↓reduceIte, or_false, or_true, true_or]
  exact hgoal

theorem bindata_payload_wf (v : Int) (rest : List Nat) (hv : 0 ≤ v)
    (hlen : ((le32_bytes v ++ rest).length : Int) = 5 + v)
    (hsz : ((le32_bytes v ++ rest).length : Int) ≤ INT_MAX) :
    payload_wf BSON_BINDATA (le32_bytes v ++ rest) := by
  have hread : read_le32 (le32_bytes v ++ rest) 0 = v := by
    rw [read_le32_le32_bytes_zero,
      wrap32_of_range _ (by omega) (by simp only [INT_MAX] at hsz; omega)]
  have hgoal : 4 ≤ (le32_bytes v ++ rest).length ∧
      5 + read_le32 (le32_bytes v ++ rest) 0 = ((le32_bytes v ++ rest).length : Int) := by
    rw [hread, hlen]
    exact ⟨by simp [le32_bytes_length], rfl⟩
  simp only [payload_wf, BSON_OBJECT, BSON_ARRAY, BSON_UNDEFINED, BSON_NULL, BSON_BOOL,
    BSON_INT, BSON_LONG, BSON_DOUBLE, BSON_TIMESTAMP, BSON_DATE, BSON_OID, BSON_STRING,
    BSON_SYMBOL, BSON_CODE, BSON_BINDATA, BSON_CODEWSCOPE]
  simp only [Nat.reduceEqDiff, or_self, ↓reduceIte, or_false, or_true, true_or]
  exact hgoal

/-- The payload a typed append writes has the length the iterator will compute
for it, when the documents handed in are documents and the payload fits a
32-bit length. -/
theorem Field.payload_wf_of (f : Field) (hargs : f.args_ok)
    (hsz : (f.payload.length : Int) ≤ INT_MAX) : payload_wf f.type f.payload := by
  cases f with
  | int name i => simp [payload_wf, Field.type, Field.payload, le32_bytes_length, BSON_INT,
      BSON_UNDEFINED, BSON_NULL, BSON_BOOL]
  | long name i => simp [payload_wf, Field.type, Field.payload, le64_bytes_length, BSON_INT,
      BSON_UNDEFINED, BSON_NULL, BSON_BOOL, BSON_LONG]
  | double name d => simp [payload_wf, Field.type, Field.payload, le64_bytes_length, BSON_INT,
      BSON_UNDEFINED, BSON_NULL, BSON_BOOL, BSON_LONG, BSON_DOUBLE]
  | bool name i => simp [payload_wf, Field.type, Field.payload, BSON_INT,
      BSON_UNDEFINED, BSON_NULL, BSON_BOOL]
  | null name => simp [payload_wf, Field.type, Field.payload, BSON_NULL]
  | undefined name => simp [payload_wf, Field.type, Field.payload, BSON_UNDEFINED]
  | string name value =>
    exact string_payload_wf _ (Or.inl rfl) _ _ (cstr_length value) hsz
  | symbol name value =>
    exact string_payload_wf _ (Or.inr (Or.inl rfl)) _ _ (cstr_length value) hsz
  | code name value =>
    exact string_payload_wf _ (Or.inr (Or.inr rfl)) _ _ (cstr_length value) hsz
  | string_n name value len =>
    exact string_payload_wf _ (Or.inl rfl) _ _ (mem_take_length value len) hsz
  | symbol_n name value len =>
    exact string_payload_wf _ (Or.inr (Or.inl rfl)) _ _ (mem_take_length value len) hsz
  | code_n name value len =>
    exact string_payload_wf _ (Or.inr (Or.inr rfl)) _ _ (mem_take_length value len) hsz
  | code_w_scope name js scope =>
    simp only [Field.args_ok] at hargs
    exact codewscope_payload_wf _ _ _ _ (by omega) hargs
      (by simp [cstr_length]) (mem_take_length _ _) hsz
  | code_w_scope_n name js len scope =>
    simp only [Field.args_ok] at hargs
    exact codewscope_payload_wf _ _ _ _ (by omega) hargs
      (by simp [mem_take_length]) (mem_take_length _ _) hsz
  | binary name type str len =>
    simp only [Field.type, Field.payload] at hsz ⊢
    split
    · rename_i ht
      rw [if_pos ht] at hsz
      simp only [List.append_assoc] at hsz ⊢
      exact bindata_payload_wf _ _ (by omega)
        (by simp [le32_bytes_length, mem_take_length]; omega) hsz
    · rename_i ht
      rw [if_neg ht] at hsz
      simp only [List.append_assoc] at hsz ⊢
      exact bindata_payload_wf _ _ (by omega)
        (by simp [le32_bytes_length, mem_take_length]; omega) hsz
  | oid name bytes => simp [payload_wf, Field.type, Field.payload, mem_take_length, BSON_INT,
      BSON_UNDEFINED, BSON_NULL, BSON_BOOL, BSON_LONG, BSON_DOUBLE, BSON_TIMESTAMP, BSON_DATE,
      BSON_OID]
  | regex name pattern opts =>
    simp only [payload_wf, Field.type, Field.payload, BSON_OBJECT, BSON_ARRAY, BSON_UNDEFINED,
      BSON_NULL, BSON_BOOL, BSON_INT, BSON_LONG, BSON_DOUBLE, BSON_TIMESTAMP, BSON_DATE,
      BSON_OID, BSON_STRING, BSON_SYMBOL, BSON_CODE, BSON_BINDATA, BSON_CODEWSCOPE, BSON_DBREF,
      BSON_REGEX]
    simp only [Nat.reduceEqDiff, or_self, ↓reduceIte, or_false, or_true, true_or]
    exact ⟨cstr pattern, cstr opts, by simp, cstr_nonzero pattern, cstr_nonzero opts⟩
  | subdoc name sub =>
    simp only [Field.args_ok] at hargs
    cases sub with
    | none => simp [bson_size] at hargs
    | some s =>
      have hnn : s.data_null = false := by
        cases hd : s.data_null
        · rfl
        · simp [bson_size, hd] at hargs
      have hsize : bson_size (some s) = read_le32 s.data 0 := by simp [bson_size, hnn]
      have hlen : (mem_take s.data (bson_size (some s)).toNat).length
          = (bson_size (some s)).toNat := mem_take_length _ _
      have hgoal : 4 ≤ (mem_take s.data (bson_size (some s)).toNat).length ∧
          read_le32 (mem_take s.data (bson_size (some s)).toNat) 0
            = ((mem_take s.data (bson_size (some s)).toNat).length : Int) := by
        rw [hlen, read_le32_mem_take _ _ (by omega), ← hsize]
        exact ⟨by omega, by omega⟩
      simp only [payload_wf, Field.type, Field.payload, BSON_OBJECT, BSON_ARRAY, BSON_UNDEFINED,
        BSON_NULL, BSON_BOOL, BSON_INT, BSON_LONG, BSON_DOUBLE, BSON_TIMESTAMP, BSON_DATE,
        BSON_OID, BSON_STRING, BSON_SYMBOL, BSON_CODE, BSON_BINDATA, BSON_CODEWSCOPE]
      simp only [Nat.reduceEqDiff, or_self, ↓reduceIte, or_false, or_true, true_or]
      exact hgoal
  | timestamp name i t => simp [payload_wf, Field.type, Field.payload, le32_bytes_length,
      BSON_INT, BSON_UNDEFINED, BSON_NULL, BSON_BOOL, BSON_LONG, BSON_DOUBLE, BSON_TIMESTAMP]
  | timestamp2 name time increment => simp [payload_wf, Field.type, Field.payload,
      le32_bytes_length, BSON_INT, BSON_UNDEFINED, BSON_NULL, BSON_BOOL, BSON_LONG, BSON_DOUBLE,
      BSON_TIMESTAMP]
  | date name millis => simp [payload_wf, Field.type, Field.payload, le64_bytes_length,
      BSON_INT, BSON_UNDEFINED, BSON_NULL, BSON_BOOL, BSON_LONG, BSON_DOUBLE, BSON_TIMESTAMP,
      BSON_DATE]
  | time_t name secs => simp [payload_wf, Field.type, Field.payload, le64_bytes_length,
      BSON_INT, BSON_UNDEFINED, BSON_NULL, BSON_BOOL, BSON_LONG, BSON_DOUBLE, BSON_TIMESTAMP,
      BSON_DATE]

/-! ## The frame stack and balanced pieces of builder programs -/

theorem stack_get_set_eq (s : List Int) (i v : Int) (hi : 0 ≤ i) :
    stack_get (stack_set s i v) i = v := by
  unfold stack_get stack_set
  rw [if_neg (by omega), if_neg (by omega)]
  split
  · rename_i h
    simp [List.getD_eq_getElem?_getD, List.getElem?_set_self, h]
  · rename_i h
    have hl : (s ++ List.replicate (i.toNat - s.length) 0).length = i.toNat := by
      simp; omega
    simp only [List.getD_eq_getElem?_getD]
    rw [List.getElem?_append_right (by omega), hl]
    simp

theorem getD_replicate_zero (n i : Nat) : (List.replicate n (0 : Int)).getD i 0 = 0 := by
  simp only [List.getD_eq_getElem?_getD]
  cases hx : (List.replicate n (0 : Int))[i]? with
  | none => rfl
  | some x =>
    obtain ⟨_, hx2⟩ := List.getElem?_eq_some_iff.mp hx
    simp at hx2
    simp [← hx2]

theorem stack_get_set_ne (s : List Int) (i j v : Int) (hij : j ≠ i) :
    stack_get (stack_set s i v) j = stack_get s j := by
  unfold stack_get stack_set
  by_cases hj : j < 0
  · simp [hj]
  rw [if_neg hj, if_neg hj]
  by_cases hi : i < 0
  · simp [hi]
  rw [if_neg hi]
  have hne : j.toNat ≠ i.toNat := by omega
  split
  · simp only [List.getD_eq_getElem?_getD]
    rw [List.getElem?_set_ne (by omega)]
  · rename_i h
    simp only [List.getD_eq_getElem?_getD]
    by_cases hjl : j.toNat < s.length
    · rw [List.append_assoc, List.getElem?_append_left hjl]
    · have hn : s[j.toNat]? = none := List.getElem?_eq_none (by omega)
      rw [hn, List.append_assoc, List.getElem?_append_right (by omega)]
      simp only [Option.getD_none]
      by_cases hjr : j.toNat - s.length < i.toNat - s.length
      · rw [List.getElem?_append_left (by simpa using hjr)]
        have := getD_replicate_zero (i.toNat - s.length) (j.toNat - s.length)
        simpa [List.getD_eq_getElem?_getD] using this
      · rw [List.getElem?_append_right (by simpa using hjr)]
        have : j.toNat - s.length - (List.replicate (i.toNat - s.length) (0 : Int)).length ≠ 0 := by
          simp; omega
        cases hk : j.toNat - s.length - (List.replicate (i.toNat - s.length) (0 : Int)).length with
        | zero => exact absurd hk this
        | succ k => simp

theorem le32_bytes_zero : le32_bytes 0 = [0, 0, 0, 0] := by decide

theorem start_container_ok (b b' : bson) (t : Nat) (name : List Nat) (r : Int)
    (h : (match bson_append_estart b t name 5 with
          | (r, b1) =>
            if r = BSON_ERROR then (BSON_ERROR, b1)
            else
              (BSON_OK,
                bson_append32
                  { b1 with stack := stack_set b1.stack b1.stackPos b1.cur,
                            stackPos := b1.stackPos + 1 } 0)) = (r, b'))
    (hr : r ≠ BSON_ERROR) : Started b b' t name ∧ r = BSON_OK := by
  obtain ⟨b1, ⟨hf, hd, hf1, hs, hsp, he, hfl⟩, rfl, hrr⟩ := estart_then b b' t name 5 r
    (fun b1 => bson_append32
      { b1 with stack := stack_set b1.stack b1.stackPos b1.cur, stackPos := b1.stackPos + 1 } 0)
    h hr
  refine ⟨⟨hf, ?_, hf1, ?_, ?_, he, hfl⟩, hrr⟩
  · simp [bson_append32, hd, le32_bytes_zero]
  · simp [bson_append32, hsp]
  · simp [bson_append32, hs, hsp, bson.cur, hd]

theorem bson_append_start_object_ok (b b' : bson) (name : List Nat) (r : Int)
    (h : bson_append_start_object b name = (r, b')) (hr : r ≠ BSON_ERROR) :
    Started b b' BSON_OBJECT name ∧ r = BSON_OK :=
  start_container_ok b b' BSON_OBJECT name r h hr

theorem bson_append_start_array_ok (b b' : bson) (name : List Nat) (r : Int)
    (h : bson_append_start_array b name = (r, b')) (hr : r ≠ BSON_ERROR) :
    Started b b' BSON_ARRAY name ∧ r = BSON_OK :=
  start_container_ok b b' BSON_ARRAY name r h hr

/-- What a successful `bson_append_finish_object` does. -/
theorem finish_object_ok (b b' : bson) (r : Int) (h : bson_append_finish_object b = (r, b'))
    (hr : r ≠ BSON_ERROR) :
    b'.data = write_le32 (b.data ++ [0]) (stack_get b.stack (b.stackPos - 1))
        ((b.cur : Int) + 1 - stack_get b.stack (b.stackPos - 1)) ∧
      b'.finished = b.finished ∧ b'.stackPos = b.stackPos - 1 ∧ b'.stack = b.stack ∧
      b'.err = b.err ∧ b'.flags = b.flags ∧ r = BSON_OK := by
  unfold bson_append_finish_object at h
  rcases hes : bson_ensure_space b 1 with ⟨r1, b1⟩
  rw [hes] at h
  simp only at h
  split at h
  · cases h; exact absurd rfl hr
  · rename_i hr1
    obtain ⟨hd, hf, hs, hsp, he, hfl, _⟩ := bson_ensure_space_ok b b1 1 r1 hes hr1
    cases h
    simp [bson_append_byte, bson.cur, hd, hf, hs, hsp, he, hfl]

theorem write_le32_mid (a c : List Nat) (p : List Nat) (hp : p.length = 4) (v : Int) :
    write_le32 (a ++ p ++ c) (a.length : Nat) v = a ++ le32_bytes v ++ c := by
  unfold write_le32
  rw [if_neg (by omega)]
  simp only [Int.toNat_ofNat]
  exact mem_write_append (le32_bytes v) a p c (by simp [hp, le32_bytes_length])

theorem Appended.toBuilt {b b' : bson} {bs : List Nat} (h : Appended b b' bs) :
    Built b b' bs := by
  obtain ⟨h1, hd, hf, hs, hsp, he, hfl⟩ := h
  exact ⟨h1, hd, hf, hsp, fun j _ => by rw [hs], he, hfl⟩

theorem Built.refl (b : bson) (h : b.finished = false) : Built b b [] :=
  ⟨h, by simp, h, rfl, fun _ _ => rfl, rfl, rfl⟩

theorem Built.trans {b b1 b2 : bson} {x y : List Nat} (h1 : Built b b1 x)
    (h2 : Built b1 b2 y) : Built b b2 (x ++ y) := by
  obtain ⟨ha, hd, hf, hsp, hst, he, hfl⟩ := h1
  obtain ⟨_, hd2, hf2, hsp2, hst2, he2, hfl2⟩ := h2
  refine ⟨ha, by rw [hd2, hd, List.append_assoc], hf2, by rw [hsp2, hsp], ?_,
    by rw [he2, he], by rw [hfl2, hfl]⟩
  intro j hj
  rw [hst2 j (by omega), hst j hj]

/-- A container: start, a balanced body, finish. -/
theorem container_ok (b b1 b2 b' : bson) (t : Nat) (name kids : List Nat) (r : Int)
    (h0 : 0 ≤ b.stackPos)
    (hstart : Started b b1 t name)
    (hbody : Built b1 b2 kids)
    (hfin : bson_append_finish_object b2 = (r, b')) (hr : r ≠ BSON_ERROR) :
    Built b b' (t :: (cstr name ++ 0 :: (le32_bytes ((kids.length : Int) + 5) ++ (kids ++ [0]))))
      := by
  obtain ⟨hf, hd1, hf1, hsp1, hst1, he1, hfl1⟩ := hstart
  obtain ⟨-, hd2, hf2, hsp2, hst2, he2, hfl2⟩ := hbody
  obtain ⟨hd3, hf3, hsp3, hst3, he3, hfl3, -⟩ := finish_object_ok b2 b' r hfin hr
  have hslot : stack_get b2.stack (b2.stackPos - 1)
      = ((b.data ++ t :: (cstr name ++ [0])).length : Nat) := by
    rw [hsp2, hsp1, hst2 _ (by omega), hst1]
    have : b.stackPos + 1 - 1 = b.stackPos := by omega
    rw [this, stack_get_set_eq _ _ _ h0]
  refine ⟨hf, ?_, by rw [hf3, hf2], by rw [hsp3, hsp2, hsp1]; omega, ?_,
    by rw [he3, he2, he1], by rw [hfl3, hfl2, hfl1]⟩
  · rw [hd3, hslot]
    have hdata : b2.data ++ [0]
        = (b.data ++ t :: (cstr name ++ [0])) ++ [0, 0, 0, 0] ++ (kids ++ [0]) := by
      rw [hd2, hd1]; simp
    rw [hdata, write_le32_mid _ _ _ (by simp)]
    have hv : ((b2.cur : Int) + 1 - ((b.data ++ t :: (cstr name ++ [0])).length : Nat))
        = (kids.length : Int) + 5 := by
      simp only [bson.cur, hd2, hd1, List.length_append, List.length_cons, List.length_nil]
      push_cast
      omega
    rw [hv]
    simp
  · intro j hj
    rw [hst3, hst2 j (by omega), hst1, stack_get_set_ne _ _ _ _ (by omega)]

mutual
/-- A balanced piece of a builder program whose calls all succeed adds the
bytes of the element it stands for. -/
theorem Item.build_ok : ∀ (i : Item) (b b' : bson) (r : Int), 0 ≤ b.stackPos →
    Item.build i b = (r, b') → r ≠ BSON_ERROR → Built b b' (Item.elt i).bytes
  | .field f, b, b', r, _, h, hr => by
    simp only [Item.build] at h
    simpa [Item.elt, Elt.bytes] using (Field.append_ok f b b' r h hr).toBuilt
  | .object name items, b, b', r, h0, h, hr => by
    simp only [Item.build] at h
    rcases hs : bson_append_start_object b name with ⟨r1, b1⟩
    rw [hs] at h
    simp only at h
    split at h
    · cases h; exact absurd rfl hr
    · rename_i hr1
      obtain ⟨hst, -⟩ := bson_append_start_object_ok b b1 name r1 hs hr1
      rcases hb : Item.buildList items b1 with ⟨r2, b2⟩
      rw [hb] at h
      simp only at h
      split at h
      · cases h; exact absurd rfl hr
      · rename_i hr2
        have hbody := Item.buildList_ok items b1 b2 r2 (by rw [hst.2.2.2.1]; omega) hb hr2
          hst.2.2.1
        have := container_ok b b1 b2 b' BSON_OBJECT name _ r h0 hst hbody h hr
        simpa [Item.elt, Elt.bytes] using this
  | .array name items, b, b', r, h0, h, hr => by
    simp only [Item.build, bson_append_finish_array] at h
    rcases hs : bson_append_start_array b name with ⟨r1, b1⟩
    rw [hs] at h
    simp only at h
    split at h
    · cases h; exact absurd rfl hr
    · rename_i hr1
      obtain ⟨hst, -⟩ := bson_append_start_array_ok b b1 name r1 hs hr1
      rcases hb : Item.buildList items b1 with ⟨r2, b2⟩
      rw [hb] at h
      simp only at h
      split at h
      · cases h; exact absurd rfl hr
      · rename_i hr2
        have hbody := Item.buildList_ok items b1 b2 r2 (by rw [hst.2.2.2.1]; omega) hb hr2
          hst.2.2.1
        have := container_ok b b1 b2 b' BSON_ARRAY name _ r h0 hst hbody h hr
        simpa [Item.elt, Elt.bytes] using this
/-- A sequence of balanced pieces whose calls all succeed adds the bytes of the
elements it stands for (when the builder is open). -/
theorem Item.buildList_ok : ∀ (is : List Item) (b b' : bson) (r : Int), 0 ≤ b.stackPos →
    Item.buildList is b = (r, b') → r ≠ BSON_ERROR →
    (b.finished = false → Built b b' (Elt.bytesList (Item.elts is)))
  | [], b, b', r, _, h, _ => by
    simp only [Item.buildList] at h
    cases h
    intro hf
    simpa [Item.elts, Elt.bytesList] using Built.refl b hf
  | i :: is, b, b', r, h0, h, hr => by
    simp only [Item.buildList] at h
    rcases hb : Item.build i b with ⟨r1, b1⟩
    rw [hb] at h
    simp only at h
    split at h
    · cases h; exact absurd rfl hr
    · rename_i hr1
      have h1 := Item.build_ok i b b1 r1 h0 hb hr1
      have h2 := Item.buildList_ok is b1 b' r (by rw [h1.2.2.2.1]; exact h0) h hr h1.2.2.1
      intro _
      simpa [Item.elts, Elt.bytesList] using h1.trans h2
end

/-! ## Documents produced by the builder -/

mutual
/-- The element of a balanced piece is well-formed when the documents handed
to its appends are documents and its bytes fit a 32-bit length. -/
theorem Item.elt_wf : ∀ (i : Item), Item.args_ok i →
    ((Item.elt i).bytes.length : Int) ≤ INT_MAX → (Item.elt i).WF
  | .field f, ha, hsz => by
    simp only [Item.args_ok] at ha
    simp only [Item.elt, Elt.bytes, List.length_cons, List.length_append] at hsz
    simp only [Item.elt, Elt.WF]
    exact ⟨f.type_ne_eoo, cstr_nonzero f.name, f.payload_wf_of ha (by push_cast at hsz ⊢; omega)⟩
  | .object name items, ha, hsz => by
    simp only [Item.args_ok] at ha
    simp only [Item.elt, Elt.bytes, List.length_cons, List.length_append, le32_bytes_length,
      List.length_nil] at hsz
    simp only [Item.elt, Elt.WF]
    exact ⟨Or.inl trivial, cstr_nonzero name, by push_cast at hsz ⊢; omega,
      Item.elts_wf items ha (by push_cast at hsz ⊢; omega)⟩
  | .array name items, ha, hsz => by
    simp only [Item.args_ok] at ha
    simp only [Item.elt, Elt.bytes, List.length_cons, List.length_append, le32_bytes_length,
      List.length_nil] at hsz
    simp only [Item.elt, Elt.WF]
    exact ⟨Or.inr trivial, cstr_nonzero name, by push_cast at hsz ⊢; omega,
      Item.elts_wf items ha (by push_cast at hsz ⊢; omega)⟩
/-- The elements of a sequence of balanced pieces are well-formed. -/
theorem Item.elts_wf : ∀ (is : List Item), Item.args_ok_list is →
    ((Elt.bytesList (Item.elts is)).length : Int) ≤ INT_MAX → Elt.WFs (Item.elts is)
  | [], _, _ => by simp [Item.elts, Elt.WFs]
  | i :: is, ha, hsz => by
    simp only [Item.args_ok_list] at ha
    simp only [Item.elts, Elt.bytesList, List.length_append] at hsz
    simp only [Item.elts, Elt.WFs]
    exact ⟨Item.elt_wf i ha.1 (by push_cast at hsz ⊢; omega),
      Item.elts_wf is ha.2 (by push_cast at hsz ⊢; omega)⟩
end

/-- The bytes of a document built from `bson_init` by a balanced builder
program and `bson_finish`: length prefix, elements, terminator. -/
theorem built_doc_layout (items : List Item) (b d : bson)
    (hb : Item.buildList items bson_init = (BSON_OK, b)) (hf : bson_finish b = (BSON_OK, d)) :
    d.data = le32_bytes (((Elt.bytesList (Item.elts items)).length : Int) + 5)
      ++ (Elt.bytesList (Item.elts items) ++ [0]) := by
  have h1 := Item.buildList_ok items bson_init b BSON_OK (by decide) hb (by decide) (by decide)
  obtain ⟨-, hd, hfin, -⟩ := h1
  have h4 : 4 ≤ b.cur := by
    simp only [bson.cur, hd, List.length_append]
    have : bson_init.data.length = 4 := by decide
    omega
  obtain ⟨hdd, -⟩ := bson_finish_open b d hfin h4 hf
  rw [hdd]
  have hinit : bson_init.data = [0, 0, 0, 0] := by decide
  have hcur : ((b.cur : Int) + 1) = ((Elt.bytesList (Item.elts items)).length : Int) + 5 := by
    simp only [bson.cur, hd, hinit, List.length_append, List.length_cons, List.length_nil]
    push_cast
    omega
  rw [hcur, hd, hinit]
  simp

theorem append_fields_eq (fs : List Field) : ∀ b : bson,
    append_fields fs b = Item.buildList (fs.map Item.field) b := by
  induction fs with
  | nil => intro b; simp [append_fields, Item.buildList]
  | cons f fs ih =>
    intro b
    simp only [append_fields, List.map_cons, Item.buildList, Item.build]
    rcases f.append b with ⟨r, b1⟩
    simp only
    split
    · rfl
    · exact ih b1

theorem elts_map_field (fs : List Field) :
    Item.elts (fs.map Item.field) = fs.map (fun f => Elt.leaf f.type (cstr f.name) f.payload) := by
  induction fs with
  | nil => simp [Item.elts]
  | cons f fs ih => simp [Item.elts, Item.elt, ih]

theorem args_ok_map_field (fs : List Field) (h : ∀ f ∈ fs, f.args_ok) :
    Item.args_ok_list (fs.map Item.field) := by
  induction fs with
  | nil => simp [Item.args_ok_list]
  | cons f fs ih =>
    simp only [List.map_cons, Item.args_ok_list, Item.args_ok]
    exact ⟨h f (by simp), ih (fun g hg => h g (by simp [hg]))⟩

/-- The iterator on a document built by a balanced builder program. -/
theorem built_doc_trace (items : List Item) (b d : bson) (hargs : Item.args_ok_list items)
    (hb : Item.buildList items bson_init = (BSON_OK, b)) (hf : bson_finish b = (BSON_OK, d))
    (hsz : (d.cur : Int) ≤ INT_MAX) :
    bson_iterator_next (bson_iterator_init d) =
      some ((((Item.elts items).head?).map Elt.type).getD BSON_EOO,
        { bson_iterator_init d with first := false }) ∧
    ∀ k, bson_iterator_trace ((Item.elts items).length + k) (bson_iterator_init d) =
      some ((Item.elts items).map (fun x => (x.type, x.key))
        ++ List.replicate k (BSON_EOO, [])) := by
  have hl := built_doc_layout items b d hb hf
  have hlen : d.cur = (Elt.bytesList (Item.elts items)).length + 5 := by
    simp only [bson.cur, hl, List.length_append, le32_bytes_length, List.length_cons,
      List.length_nil]
    omega
  have hwf := Item.elts_wf items hargs (by rw [hlen] at hsz; push_cast at hsz; omega)
  have hdrop : d.data.drop 4 = Elt.bytesList (Item.elts items) ++ 0 :: [] := by
    rw [hl]
    have : (le32_bytes (((Elt.bytesList (Item.elts items)).length : Int) + 5)).length = 4 :=
      le32_bytes_length _
    rw [← this, List.drop_left]
  exact trace_elts (Item.elts items) d.data [] 4 hwf hdrop

/-! ## Encoder and iterator agree on element boundaries -/

theorem append_fields_split (pre : List Field) : ∀ (f : Field) (post : List Field)
    (b bF : bson) (r : Int), append_fields (pre ++ f :: post) b = (r, bF) → r ≠ BSON_ERROR →
    (append_fields pre b).1 ≠ BSON_ERROR ∧ (f.append (append_fields pre b).2).1 ≠ BSON_ERROR ∧
      append_fields post (f.append (append_fields pre b).2).2 = (r, bF) := by
  induction pre with
  | nil =>
    intro f post b bF r h hr
    simp only [List.nil_append, append_fields] at h ⊢
    rcases hfa : f.append b with ⟨r1, b1⟩
    rw [hfa] at h
    simp only at h ⊢
    split at h
    · cases h; exact absurd rfl hr
    · rename_i hr1
      exact ⟨by decide, hr1, h⟩
  | cons g pre ih =>
    intro f post b bF r h hr
    simp only [List.cons_append, append_fields] at h ⊢
    rcases hga : g.append b with ⟨r1, b1⟩
    rw [hga] at h
    simp only at h ⊢
    split at h
    · cases h; exact absurd rfl hr
    · rename_i hr1
      rw [if_neg hr1]
      exact ih f post b1 bF r h hr

theorem append_fields_built (fs : List Field) (b b1 : bson) (r : Int)
    (h : append_fields fs b = (r, b1)) (hr : r ≠ BSON_ERROR) (h0 : 0 ≤ b.stackPos)
    (hopen : b.finished = false) :
    Built b b1 (Elt.bytesList (fs.map (fun f => Elt.leaf f.type (cstr f.name) f.payload))) := by
  rw [append_fields_eq] at h
  have := Item.buildList_ok (fs.map Item.field) b b1 r h0 h hr hopen
  rwa [elts_map_field] at this

/-- C1: for every list of typed appends (int, long, double, bool, null,
undefined, date, timestamp, oid, string/symbol/code, regex, binary of any
subtype, code with scope, embedded document) performed on a fresh builder, all
returning `BSON_OK`, followed by a successful `bson_finish` of a document that
fits a 32-bit length, the first `bson_iterator_next` on a cursor from
`bson_iterator_init` returns the type of element 0 without advancing, and any
number of successive calls returns exactly the appended (type tag, key) pairs in
append order and then `BSON_EOO`; and at each element the skip length
`bson_iterator_next` derives from the type tag equals the number of payload
bytes the matching append wrote (the advance of the cursor less the type byte,
the name and its terminator).  The documents handed to the appends are
documents: an embedded document announces at least its four length bytes, a
scope a length that is not negative. -/
theorem encoder_iterator_agree (fs : List Field) (b d : bson)
    (hargs : ∀ f ∈ fs, f.args_ok)
    (happ : append_fields fs bson_init = (BSON_OK, b))
    (hfin : bson_finish b = (BSON_OK, d))
    (hsz : (d.cur : Int) ≤ INT_MAX) :
    bson_iterator_next (bson_iterator_init d) =
      some (((fs.head?).map Field.type).getD BSON_EOO,
        { bson_iterator_init d with first := false }) ∧
    (∀ k, bson_iterator_trace (fs.length + k) (bson_iterator_init d) =
      some (fs.map (fun f => (f.type, cstr f.name)) ++ List.replicate k (BSON_EOO, []))) ∧
    (∀ (pre post : List Field) (f : Field), fs = pre ++ f :: post →
      bson_iterator_ds ⟨d.data, (append_fields pre bson_init).2.cur, false⟩ =
        some (((f.append (append_fields pre bson_init).2).2.cur : Int)
          - ((append_fields pre bson_init).2.cur : Int)
          - (1 + ((strlen f.name : Int) + 1)))) := by
  have happ0 := happ
  rw [append_fields_eq] at happ
  have h := built_doc_trace (fs.map Item.field) b d (args_ok_map_field fs hargs) happ hfin hsz
  rw [elts_map_field] at h
  obtain ⟨h1, h2⟩ := h
  refine ⟨?_, ?_, ?_⟩
  · rw [h1]
    cases fs <;> simp [Elt.type]
  · intro k
    have := h2 k
    simp only [List.length_map, List.map_map] at this
    rw [this]
    congr 1
  · intro pre post f hfs
    subst hfs
    obtain ⟨hp, hf, hpost⟩ :=
      append_fields_split pre f post bson_init b BSON_OK happ0 (by decide)
    have hB0 := append_fields_built pre bson_init (append_fields pre bson_init).2 _ rfl hp
      (by decide) (by decide)
    have hA := Field.append_ok f (append_fields pre bson_init).2
      (f.append (append_fields pre bson_init).2).2 _ rfl hf
    have hB1 := append_fields_built post (f.append (append_fields pre bson_init).2).2 b _
      hpost (by decide) (by rw [hA.2.2.2.2.1, hB0.2.2.2.1]; decide) hA.2.2.1
    generalize (append_fields pre bson_init).2 = b0 at *
    generalize (f.append b0).2 = b1 at *
    obtain ⟨hopen, hd0, -⟩ := hB0
    obtain ⟨-, hd1, -⟩ := hA
    obtain ⟨-, hdF, hfF, -⟩ := hB1
    have h4 : 4 ≤ b0.cur := by
      simp only [bson.cur, hd0, List.length_append]
      have : bson_init.data.length = 4 := by decide
      omega
    have h4b : 4 ≤ b.cur := by
      simp only [bson.cur, hdF, hd1, List.length_append] at h4 ⊢
      omega
    obtain ⟨hdd, -⟩ := bson_finish_open b d hfF h4b hfin
    obtain ⟨p4, rest, hpr, hp4⟩ := list_split4 b0.data h4
    have hdrop : d.data.drop b0.cur
        = f.type :: (cstr f.name ++ 0 :: (f.payload ++
            (Elt.bytesList (post.map (fun f => Elt.leaf f.type (cstr f.name) f.payload))
              ++ [0]))) := by
      have hd' : d.data = (le32_bytes ((b.cur : Int) + 1) ++ rest)
          ++ (f.type :: (cstr f.name ++ 0 :: (f.payload ++
            (Elt.bytesList (post.map (fun f => Elt.leaf f.type (cstr f.name) f.payload))
              ++ [0])))) := by
        rw [hdd, hdF, hd1, hpr]
        simp [hp4]
      have hlen : b0.cur = (le32_bytes ((b.cur : Int) + 1) ++ rest).length := by
        simp only [bson.cur, hpr, List.length_append, hp4, le32_bytes_length]
      rw [hd', hlen, List.drop_left]
    have hsize : (f.payload.length : Int) ≤ INT_MAX := by
      have : d.cur = b.cur + 1 := by
        simp only [bson.cur, hdd, List.length_append, le32_bytes_length, List.length_drop,
          List.length_cons, List.length_nil]
        simp only [bson.cur] at h4b
        omega
      rw [this] at hsz
      simp only [bson.cur, hdF, hd1, List.length_append, List.length_cons] at hsz
      push_cast at hsz ⊢
      omega
    have hwf := f.payload_wf_of (hargs f (by simp)) hsize
    rw [bson_iterator_ds_of_wf d.data (cstr f.name) f.payload _ b0.cur f.type hdrop
      (cstr_nonzero f.name) hwf false]
    congr 1
    simp only [bson.cur, hd1, List.length_append, List.length_cons, cstr_length]
    push_cast
    omega

/-- Witness of C1: five appends of different types, iterated six times; the skip
length at the second element (the string `s`) is the seven payload bytes
`bson_append_string` wrote. -/
theorem encoder_iterator_agree_witness :
    bson_iterator_next
        (bson_iterator_init (bson_finish (append_fields sample_fields bson_init).2).2) =
      some (BSON_INT,
        { bson_iterator_init (bson_finish (append_fields sample_fields bson_init).2).2 with
          first := false }) ∧
    bson_iterator_trace 6
        (bson_iterator_init (bson_finish (append_fields sample_fields bson_init).2).2) =
      some [(BSON_INT, [97]), (BSON_STRING, [115]), (BSON_OBJECT, [100]), (BSON_REGEX, [114]),
        (BSON_BINDATA, [122]), (BSON_EOO, [])] ∧
    bson_iterator_ds ⟨(bson_finish (append_fields sample_fields bson_init).2).2.data,
        (append_fields [.int [97] 1] bson_init).2.cur, false⟩ =
      some ((((Field.string [115] [104, 105]).append
            (append_fields [.int [97] 1] bson_init).2).2.cur : Int)
          - ((append_fields [.int [97] 1] bson_init).2.cur : Int)
          - (1 + ((strlen (Field.string [115] [104, 105]).name : Int) + 1))) :=
  have h := encoder_iterator_agree sample_fields (append_fields sample_fields bson_init).2
    (bson_finish (append_fields sample_fields bson_init).2).2
    (by
      intro f hf
      simp only [sample_fields, List.mem_cons, List.mem_singleton, List.not_mem_nil,
        or_false] at hf
      rcases hf with rfl | rfl | rfl | rfl | rfl
      · trivial
      · trivial
      · show 4 ≤ bson_size (some sample_empty)
        decide
      · trivial
      · trivial)
    (by decide) (by decide) (by decide)
  ⟨h.1, h.2.1 1,
    h.2.2 [.int [97] 1]
      [.subdoc [100] (some sample_empty), .regex [114] [120] [105], .binary [122] 2 [7, 8] 2]
      (.string [115] [104, 105]) rfl⟩

/-! ## Backpatching of nested lengths -/

theorem testBit_already_finished : Nat.testBit BSON_ALREADY_FINISHED 4 = true := by decide

theorem or_already_finished (e : Nat) :
    (e ||| BSON_ALREADY_FINISHED) &&& BSON_ALREADY_FINISHED ≠ 0 := by
  have h : ((e ||| BSON_ALREADY_FINISHED) &&& BSON_ALREADY_FINISHED).testBit 4 = true := by
    simp only [Nat.testBit_and, Nat.testBit_or, testBit_already_finished, Bool.or_true,
      Bool.and_self]
  intro hc
  rw [hc] at h
  simp at h

theorem bson_append_estart_finished (b : bson) (hfin : b.finished = true) (t : Nat)
    (name : List Nat) (ds : Int) :
    bson_append_estart b t name ds
      = (BSON_ERROR, { b with err := b.err ||| BSON_ALREADY_FINISHED }) := by
  simp [bson_append_estart, hfin]

theorem rejected_by_estart (b : bson) :
    Rejected b (BSON_ERROR, { b with err := b.err ||| BSON_ALREADY_FINISHED }) ∧
      ((BSON_ERROR, { b with err := b.err ||| BSON_ALREADY_FINISHED }) : Int × bson).2.err
        &&& BSON_ALREADY_FINISHED ≠ 0 :=
  ⟨⟨rfl, rfl, rfl, rfl, rfl⟩, or_already_finished b.err⟩

theorem string_base_finished (b : bson) (hfin : b.finished = true) (name value : List Nat)
    (len t : Nat) :
    Rejected b (bson_append_string_base b name value len t) ∧
      (utf8_valid (mem_take value len) = true →
        (bson_append_string_base b name value len t).2.err &&& BSON_ALREADY_FINISHED ≠ 0) := by
  have hl : ((len : Int) + 1 - 1).toNat = len := by omega
  unfold bson_append_string_base bson_check_string
  simp only [hl]
  cases hv : utf8_valid (mem_take value len)
  · simp [Rejected, bson.cur]
  · simp only [Bool.true_eq_false, ↓reduceIte, forall_const]
    have hne : BSON_OK ≠ BSON_ERROR := by decide
    rw [if_neg hne, bson_append_estart_finished b hfin]
    simp only [↓reduceIte]
    exact rejected_by_estart b

/-- C6, as the code has it: on a finished builder every typed append that goes
through `bson_append_estart` (int, long, double, bool, null, undefined,
string/symbol/code, code with scope, binary, oid, regex, timestamp, date,
embedded document, start_object, start_array) returns `BSON_ERROR` and leaves the
buffer bytes, the cursor and the frame stack unchanged; it sets the
`BSON_ALREADY_FINISHED` bit of `err` unless an argument check that comes before
`bson_append_estart` rejects the call first (a `NULL` scope or sub-document, a
string value that fails `bson_check_string`). -/
theorem append_after_finish_rejected (b : bson) (hfin : b.finished = true) :
    (∀ f : Field, Rejected b (f.append b) ∧
      (f.rejected_before_estart = false →
        (f.append b).2.err &&& BSON_ALREADY_FINISHED ≠ 0)) ∧
    (∀ name, Rejected b (bson_append_start_object b name) ∧
      (bson_append_start_object b name).2.err &&& BSON_ALREADY_FINISHED ≠ 0) ∧
    (∀ name, Rejected b (bson_append_start_array b name) ∧
      (bson_append_start_array b name).2.err &&& BSON_ALREADY_FINISHED ≠ 0) := by
  have hE := rejected_by_estart b
  refine ⟨?_, ?_, ?_⟩
  · intro f
    cases f with
    | int name i =>
      simp only [Field.append, bson_append_int, bson_append_estart_finished b hfin, ↓reduceIte]
      exact ⟨hE.1, fun _ => hE.2⟩
    | long name i =>
      simp only [Field.append, bson_append_long, bson_append_estart_finished b hfin, ↓reduceIte]
      exact ⟨hE.1, fun _ => hE.2⟩
    | double name d =>
      simp only [Field.append, bson_append_double, bson_append_estart_finished b hfin,
        ↓reduceIte]
      exact ⟨hE.1, fun _ => hE.2⟩
    | bool name i =>
      simp only [Field.append, bson_append_bool, bson_append_estart_finished b hfin, ↓reduceIte]
      exact ⟨hE.1, fun _ => hE.2⟩
    | null name =>
      simp only [Field.append, bson_append_null, bson_append_estart_finished b hfin, ↓reduceIte]
      exact ⟨hE.1, fun _ => hE.2⟩
    | undefined name =>
      simp only [Field.append, bson_append_undefined, bson_append_estart_finished b hfin,
        ↓reduceIte]
      exact ⟨hE.1, fun _ => hE.2⟩
    | string name value =>
      have := string_base_finished b hfin name value (strlen value) BSON_STRING
      simpa [Field.append, bson_append_string, Field.rejected_before_estart] using this
    | symbol name value =>
      have := string_base_finished b hfin name value (strlen value) BSON_SYMBOL
      simpa [Field.append, bson_append_symbol, Field.rejected_before_estart] using this
    | code name value =>
      have := string_base_finished b hfin name value (strlen value) BSON_CODE
      simpa [Field.append, bson_append_code, Field.rejected_before_estart] using this
    | string_n name value len =>
      have := string_base_finished b hfin name value len BSON_STRING
      simpa [Field.append, bson_append_string_n, Field.rejected_before_estart] using this
    | symbol_n name value len =>
      have := string_base_finished b hfin name value len BSON_SYMBOL
      simpa [Field.append, bson_append_symbol_n, Field.rejected_before_estart] using this
    | code_n name value len =>
      have := string_base_finished b hfin name value len BSON_CODE
      simpa [Field.append, bson_append_code_n, Field.rejected_before_estart] using this
    | code_w_scope name js scope =>
      cases scope with
      | none =>
        simp [Field.append, bson_append_code_w_scope, bson_append_code_w_scope_n, Rejected,
          Field.rejected_before_estart]
      | some sc =>
        simp only [Field.append, bson_append_code_w_scope, bson_append_code_w_scope_n,
          bson_append_estart_finished b hfin, ↓reduceIte]
        exact ⟨hE.1, fun _ => hE.2⟩
    | code_w_scope_n name js len scope =>
      cases scope with
      | none =>
        simp [Field.append, bson_append_code_w_scope_n, Rejected, Field.rejected_before_estart]
      | some sc =>
        simp only [Field.append, bson_append_code_w_scope_n,
          bson_append_estart_finished b hfin, ↓reduceIte]
        exact ⟨hE.1, fun _ => hE.2⟩
    | binary name type str len =>
      simp only [Field.append, bson_append_binary, bson_append_estart_finished b hfin,
        ↓reduceIte]
      split <;> exact ⟨hE.1, fun _ => hE.2⟩
    | oid name bytes =>
      simp only [Field.append, bson_append_oid, bson_append_estart_finished b hfin, ↓reduceIte]
      exact ⟨hE.1, fun _ => hE.2⟩
    | regex name pattern opts =>
      simp only [Field.append, bson_append_regex, bson_append_estart_finished b hfin,
        ↓reduceIte]
      exact ⟨hE.1, fun _ => hE.2⟩
    | subdoc name sub =>
      cases sub with
      | none => simp [Field.append, bson_append_bson, Rejected, Field.rejected_before_estart]
      | some s =>
        simp only [Field.append, bson_append_bson, bson_append_estart_finished b hfin,
          ↓reduceIte]
        exact ⟨hE.1, fun _ => hE.2⟩
    | timestamp name i t =>
      simp only [Field.append, bson_append_timestamp, bson_append_estart_finished b hfin,
        ↓reduceIte]
      exact ⟨hE.1, fun _ => hE.2⟩
    | timestamp2 name time increment =>
      simp only [Field.append, bson_append_timestamp2, bson_append_estart_finished b hfin,
        ↓reduceIte]
      exact ⟨hE.1, fun _ => hE.2⟩
    | date name millis =>
      simp only [Field.append, bson_append_date, bson_append_estart_finished b hfin, ↓reduceIte]
      exact ⟨hE.1, fun _ => hE.2⟩
    | time_t name secs =>
      simp only [Field.append, bson_append_time_t, bson_append_date,
        bson_append_estart_finished b hfin, ↓reduceIte]
      exact ⟨hE.1, fun _ => hE.2⟩
  · intro name
    simp only [bson_append_start_object, bson_append_estart_finished b hfin, ↓reduceIte]
    exact hE
  · intro name
    simp only [bson_append_start_array, bson_append_estart_finished b hfin, ↓reduceIte]
    exact hE

/-- Witness of C6 as amended: the finished empty document. -/
theorem append_after_finish_rejected_witness :
    Rejected sample_empty ((Field.int [97] 1).append sample_empty) ∧
      ((Field.int [97] 1).append sample_empty).2.err &&& BSON_ALREADY_FINISHED ≠ 0 :=
  have h := (append_after_finish_rejected sample_empty (by decide)).1 (Field.int [97] 1)
  ⟨h.1, h.2 rfl⟩

/-- Counterexample to C6 as stated: on the finished empty document,
`bson_append_code_w_scope` with a `NULL` scope returns `BSON_ERROR` without
setting the `BSON_ALREADY_FINISHED` bit, and so does `bson_append_string` with
the value `\xff`, which fails `bson_check_string`. -/
theorem append_after_finish_counterexample :
    sample_empty.finished = true ∧
      bson_append_code_w_scope sample_empty [97] [120] none = (BSON_ERROR, sample_empty) ∧
      (bson_append_code_w_scope sample_empty [97] [120] none).2.err
        &&& BSON_ALREADY_FINISHED = 0 ∧
      (bson_append_string sample_empty [97] [255]).1 = BSON_ERROR ∧
      (bson_append_string sample_empty [97] [255]).2.err &&& BSON_ALREADY_FINISHED = 0 := by
  decide

/-! ## `bson_append_element` after `bson_finish` -/

/-- C7, the code at the failing input: on the finished empty document,
`bson_append_element` with the iterator on the element `a` of `{a: INT 1}`
returns `BSON_OK` and writes the seven bytes of the element (`NULL` name), and
with the replacement name `b` it returns `BSON_OK` too, sets the
`BSON_ALREADY_FINISHED` bit and still writes the four payload bytes. -/
theorem append_element_after_finish_writes :
    sample_empty.finished = true ∧
      bson_iterator_next (bson_iterator_init sample_int_doc) = some (BSON_INT, sample_int_it) ∧
      bson_append_element sample_empty none sample_int_it
        = some (BSON_OK,
            { sample_empty with data := sample_empty.data ++ [16, 97, 0, 1, 0, 0, 0] }) ∧
      bson_append_element sample_empty (some [98]) sample_int_it
        = some (BSON_OK,
            { sample_empty with data := sample_empty.data ++ [1, 0, 0, 0],
                                err := BSON_ALREADY_FINISHED }) := by
  decide

/-! ## Field-name legality -/

theorem mem_take_pred (name : List Nat) :
    mem_take name (strlen name + 1 - 1) = cstr name := by
  rw [Nat.add_sub_cancel, mem_take_strlen]

theorem check_field_name_illegal (b : bson) (name : List Nat)
    (hbad : byteAt name 0 = 36 ∨ 46 ∈ cstr name) :
    (bson_check_field_name b name (strlen name + 1 - 1) true true).1 = BSON_ERROR ∧
      (bson_check_field_name b name (strlen name + 1 - 1) true true).2.data = b.data := by
  unfold bson_check_field_name
  rw [mem_take_pred]
  by_cases h36 : byteAt name 0 = 36
  · rw [if_pos ⟨rfl, h36⟩]
    exact ⟨rfl, rfl⟩
  · have h46 : 46 ∈ cstr name := by
      rcases hbad with h | h
      · exact absurd h h36
      · exact h
    rw [if_neg (fun hc => h36 hc.2), if_pos ⟨rfl, h46⟩]
    exact ⟨rfl, rfl⟩

/-- Outside query mode `bson_append_estart` rejects a name that starts with a
dollar or holds a dot, and writes nothing. -/
theorem estart_illegal_name (b : bson) (t : Nat) (name : List Nat) (ds : Int)
    (hq : b.flags &&& BSON_FLAG_QUERY_MODE = 0)
    (hbad : byteAt name 0 = 36 ∨ 46 ∈ cstr name) :
    (bson_append_estart b t name ds).1 = BSON_ERROR ∧
      (bson_append_estart b t name ds).2.data = b.data := by
  unfold bson_append_estart
  simp only
  by_cases hfin : b.finished = true
  · rw [if_pos hfin]
    exact ⟨rfl, rfl⟩
  · rw [if_neg hfin]
    rcases hes : bson_ensure_space b (1 + ((strlen name + 1 : Nat) : Int) + ds) with ⟨r1, b1⟩
    obtain ⟨hd, -, -, -, hfl⟩ := bson_ensure_space_frame b b1 _ r1 hes
    simp only
    by_cases hr1 : r1 = BSON_ERROR
    · rw [if_pos hr1]
      exact ⟨rfl, hd⟩
    · rw [if_neg hr1]
      have hq1 : decide (b1.flags &&& BSON_FLAG_QUERY_MODE = 0) = true := by
        rw [hfl]; exact decide_eq_true hq
      rw [hq1]
      obtain ⟨h1, h2⟩ := check_field_name_illegal b1 name hbad
      rcases hck : bson_check_field_name b1 name (strlen name + 1 - 1) true true with ⟨r2, b2⟩
      rw [hck] at h1 h2
      simp only at h1 h2
      subst h1
      refine ⟨?_, ?_⟩
      · simp
      · simpa [bson_builder_error] using h2.trans hd

/-- The common shape of the typed appends, for a rejected name. -/
theorem illegal_then (b : bson) (t : Nat) (name : List Nat) (ds : Int) (g : bson → bson)
    (hq : b.flags &&& BSON_FLAG_QUERY_MODE = 0)
    (hbad : byteAt name 0 = 36 ∨ 46 ∈ cstr name) :
    (match bson_append_estart b t name ds with
      | (r, b1) => if r = BSON_ERROR then (BSON_ERROR, b1) else (BSON_OK, g b1)).1 = BSON_ERROR ∧
    (match bson_append_estart b t name ds with
      | (r, b1) => if r = BSON_ERROR then (BSON_ERROR, b1) else (BSON_OK, g b1)).2.data
      = b.data := by
  obtain ⟨h1, h2⟩ := estart_illegal_name b t name ds hq hbad
  rcases hes : bson_append_estart b t name ds with ⟨r, b1⟩
  rw [hes] at h1 h2
  simp only at h1 h2
  subst h1
  refine ⟨?_, ?_⟩
  · simp
  · simpa using h2

theorem string_base_illegal (b : bson) (name value : List Nat) (len t : Nat)
    (hq : b.flags &&& BSON_FLAG_QUERY_MODE = 0)
    (hbad : byteAt name 0 = 36 ∨ 46 ∈ cstr name) :
    (bson_append_string_base b name value len t).1 = BSON_ERROR ∧
      (bson_append_string_base b name value len t).2.data = b.data := by
  unfold bson_append_string_base bson_check_string
  simp only
  by_cases hv : utf8_valid (mem_take value ((len : Int) + 1 - 1).toNat) = false
  · rw [if_pos hv]
    refine ⟨?_, ?_⟩ <;> simp
  · rw [if_neg hv]
    have hne : BSON_OK ≠ BSON_ERROR := by decide
    simp only [if_neg hne]
    exact illegal_then b t name (4 + ((len : Int) + 1))
      (fun b1 => bson_append (bson_append (bson_append32 b1 ((len : Int) + 1)) value
        ((len : Int) + 1 - 1).toNat) [0] 1) hq hbad

/-- In query mode `bson_append_estart` runs the name check with the dot and
dollar checks switched off: an open builder with room takes every name that is
valid UTF-8. -/
theorem estart_query_mode (b : bson) (t : Nat) (name : List Nat) (ds : Int)
    (hq : b.flags &&& BSON_FLAG_QUERY_MODE ≠ 0) (hopen : b.finished = false)
    (hutf : utf8_valid (cstr name) = true)
    (hsp : (bson_ensure_space b (1 + ((strlen name + 1 : Nat) : Int) + ds)).1 = BSON_OK) :
    (bson_append_estart b t name ds).1 = BSON_OK ∧
      (bson_append_estart b t name ds).2.finished = false ∧
      (bson_append_estart b t name ds).2.err = b.err := by
  unfold bson_append_estart
  simp only [hopen, Bool.false_eq_true, ↓reduceIte]
  rcases hes : bson_ensure_space b (1 + ((strlen name + 1 : Nat) : Int) + ds) with ⟨r1, b1⟩
  rw [hes] at hsp
  simp only at hsp
  subst hsp
  obtain ⟨-, hf, -, -, he, hfl, -⟩ := bson_ensure_space_ok b b1 _ _ hes (by decide)
  have hne : BSON_OK ≠ BSON_ERROR := by decide
  simp only [if_neg hne]
  have hq1 : decide (b1.flags &&& BSON_FLAG_QUERY_MODE = 0) = false := by
    rw [hfl]; exact decide_eq_false hq
  rw [hq1]
  unfold bson_check_field_name
  rw [mem_take_pred]
  simp only [Bool.false_eq_true, false_and, ↓reduceIte, hutf, if_neg hne]
  simp [bson_append, bson_append_byte, hf, he, hopen, hne]

/-- The common shape of the typed appends, in query mode. -/
theorem query_then (b : bson) (t : Nat) (name : List Nat) (ds : Int) (g : bson → bson)
    (hq : b.flags &&& BSON_FLAG_QUERY_MODE ≠ 0) (hopen : b.finished = false)
    (hutf : utf8_valid (cstr name) = true)
    (hsp : (bson_ensure_space b (1 + ((strlen name + 1 : Nat) : Int) + ds)).1 = BSON_OK) :
    (match bson_append_estart b t name ds with
      | (r, b1) => if r = BSON_ERROR then (BSON_ERROR, b1) else (BSON_OK, g b1)).1 = BSON_OK := by
  obtain ⟨h1, -⟩ := estart_query_mode b t name ds hq hopen hutf hsp
  rcases hes : bson_append_estart b t name ds with ⟨r, b1⟩
  rw [hes] at h1
  simp only at h1
  subst h1
  have hne : BSON_OK ≠ BSON_ERROR := by decide
  simp only [if_neg hne]

theorem string_base_query (b : bson) (name value : List Nat) (len t : Nat)
    (hq : b.flags &&& BSON_FLAG_QUERY_MODE ≠ 0) (hopen : b.finished = false)
    (hutf : utf8_valid (cstr name) = true) (hval : utf8_valid (mem_take value len) = true)
    (hsp : (bson_ensure_space b
      (1 + ((strlen name + 1 : Nat) : Int) + (4 + ((len : Int) + 1)))).1 = BSON_OK) :
    (bson_append_string_base b name value len t).1 = BSON_OK := by
  have hl : ((len : Int) + 1 - 1).toNat = len := by omega
  unfold bson_append_string_base bson_check_string
  simp only [hl, hval, Bool.true_eq_false, ↓reduceIte]
  have hne : BSON_OK ≠ BSON_ERROR := by decide
  simp only [if_neg hne]
  exact query_then b t name (4 + ((len : Int) + 1))
    (fun b1 => bson_append (bson_append (bson_append32 b1 ((len : Int) + 1)) value len) [0] 1)
    hq hopen hutf hsp

/-- C8: outside query mode (flag clear, as after `bson_init`) every typed append
whose field name begins with `$` or contains `.` returns `BSON_ERROR` and writes
no byte; in query mode (flag set, as after `bson_init_as_query`) the same append
on an open builder with room returns `BSON_OK` and writes the element, whatever
dollars and dots its name holds, as soon as the name is valid UTF-8 and the
checks on the value arguments pass. -/
theorem field_name_legality :
    (∀ (b : bson) (f : Field), b.flags &&& BSON_FLAG_QUERY_MODE = 0 →
      (byteAt f.name 0 = 36 ∨ 46 ∈ cstr f.name) →
      (f.append b).1 = BSON_ERROR ∧ (f.append b).2.data = b.data) ∧
    (∀ (b : bson) (name : List Nat), b.flags &&& BSON_FLAG_QUERY_MODE = 0 →
      (byteAt name 0 = 36 ∨ 46 ∈ cstr name) →
      ((bson_append_start_object b name).1 = BSON_ERROR ∧
        (bson_append_start_object b name).2.data = b.data) ∧
      ((bson_append_start_array b name).1 = BSON_ERROR ∧
        (bson_append_start_array b name).2.data = b.data)) ∧
    (∀ (b : bson) (f : Field), b.flags &&& BSON_FLAG_QUERY_MODE ≠ 0 → b.finished = false →
      utf8_valid (cstr f.name) = true → f.value_ok = true →
      (bson_ensure_space b (1 + ((strlen f.name + 1 : Nat) : Int) + f.dsize)).1 = BSON_OK →
      (f.append b).1 = BSON_OK ∧
        (f.append b).2.data = b.data ++ f.type :: (cstr f.name ++ 0 :: f.payload)) := by
  refine ⟨?_, ?_, ?_⟩
  · intro b f hq hbad
    cases f with
    | int name i => exact illegal_then b BSON_INT name 4 (fun b1 => bson_append32 b1 i) hq hbad
    | long name i => exact illegal_then b BSON_LONG name 8 (fun b1 => bson_append64 b1 i) hq hbad
    | double name d =>
      exact illegal_then b BSON_DOUBLE name 8 (fun b1 => bson_append64 b1 d) hq hbad
    | bool name i =>
      exact illegal_then b BSON_BOOL name 1
        (fun b1 => bson_append_byte b1 (if i ≠ 0 then 1 else 0)) hq hbad
    | null name => exact illegal_then b BSON_NULL name 0 (fun b1 => b1) hq hbad
    | undefined name => exact illegal_then b BSON_UNDEFINED name 0 (fun b1 => b1) hq hbad
    | string name value => exact string_base_illegal b name value _ _ hq hbad
    | symbol name value => exact string_base_illegal b name value _ _ hq hbad
    | code name value => exact string_base_illegal b name value _ _ hq hbad
    | string_n name value len => exact string_base_illegal b name value _ _ hq hbad
    | symbol_n name value len => exact string_base_illegal b name value _ _ hq hbad
    | code_n name value len => exact string_base_illegal b name value _ _ hq hbad
    | code_w_scope name js scope =>
      cases scope with
      | none => simp [Field.append, bson_append_code_w_scope, bson_append_code_w_scope_n]
      | some sc =>
        exact illegal_then b BSON_CODEWSCOPE name
          (4 + 4 + ((strlen js : Int) + 1) + bson_size (some sc))
          (fun b1 => bson_append (bson_append (bson_append32 (bson_append32 b1
            (4 + 4 + ((strlen js : Int) + 1) + bson_size (some sc))) ((strlen js : Int) + 1)) js
            ((strlen js : Int) + 1).toNat) sc.data (bson_size (some sc)).toNat) hq hbad
    | code_w_scope_n name js len scope =>
      cases scope with
      | none => simp [Field.append, bson_append_code_w_scope_n]
      | some sc =>
        exact illegal_then b BSON_CODEWSCOPE name
          (4 + 4 + ((len : Int) + 1) + bson_size (some sc))
          (fun b1 => bson_append (bson_append (bson_append32 (bson_append32 b1
            (4 + 4 + ((len : Int) + 1) + bson_size (some sc))) ((len : Int) + 1)) js
            ((len : Int) + 1).toNat) sc.data (bson_size (some sc)).toNat) hq hbad
    | binary name type str len =>
      simp only [Field.append, bson_append_binary, Field.name] at hbad ⊢
      split
      · exact illegal_then b BSON_BINDATA name (4 + 1 + 4 + (len : Int))
          (fun b1 => bson_append (bson_append32 (bson_append_byte
            (bson_append32 b1 ((len : Int) + 4)) type) len) str len) hq hbad
      · exact illegal_then b BSON_BINDATA name (4 + 1 + (len : Int))
          (fun b1 => bson_append (bson_append_byte (bson_append32 b1 len) type) str len) hq hbad
    | oid name bytes =>
      exact illegal_then b BSON_OID name 12 (fun b1 => bson_append b1 bytes 12) hq hbad
    | regex name pattern opts =>
      simp only [Field.append, bson_append_regex, Field.name] at hbad ⊢
      obtain ⟨h1, h2⟩ := estart_illegal_name b BSON_REGEX name
        (((strlen pattern + 1 : Nat) : Int) + ((strlen opts + 1 : Nat) : Int)) hq hbad
      rcases hes : bson_append_estart b BSON_REGEX name
        (((strlen pattern + 1 : Nat) : Int) + ((strlen opts + 1 : Nat) : Int)) with ⟨r, b1⟩
      rw [hes] at h1 h2
      simp only at h1 h2
      subst h1
      refine ⟨?_, ?_⟩
      · simp
      · simpa using h2
    | subdoc name sub =>
      cases sub with
      | none => simp [Field.append, bson_append_bson]
      | some s =>
        exact illegal_then b BSON_OBJECT name (bson_size (some s))
          (fun b1 => bson_append b1 s.data (bson_size (some s)).toNat) hq hbad
    | timestamp name i t =>
      exact illegal_then b BSON_TIMESTAMP name 8
        (fun b1 => bson_append32 (bson_append32 b1 i) t) hq hbad
    | timestamp2 name time increment =>
      exact illegal_then b BSON_TIMESTAMP name 8
        (fun b1 => bson_append32 (bson_append32 b1 increment) time) hq hbad
    | date name millis =>
      exact illegal_then b BSON_DATE name 8 (fun b1 => bson_append64 b1 millis) hq hbad
    | time_t name secs =>
      exact illegal_then b BSON_DATE name 8
        (fun b1 => bson_append64 b1 (wrap64 (secs * 1000))) hq hbad
  · intro b name hq hbad
    exact ⟨illegal_then b BSON_OBJECT name 5
        (fun b1 => bson_append32
          { b1 with stack := stack_set b1.stack b1.stackPos b1.cur,
                    stackPos := b1.stackPos + 1 } 0) hq hbad,
      illegal_then b BSON_ARRAY name 5
        (fun b1 => bson_append32
          { b1 with stack := stack_set b1.stack b1.stackPos b1.cur,
                    stackPos := b1.stackPos + 1 } 0) hq hbad⟩
  · intro b f hq hopen hutf hval hsp
    have hok : (f.append b).1 = BSON_OK := by
      cases f with
      | int name i => exact query_then b BSON_INT name 4 (fun b1 => bson_append32 b1 i) hq hopen hutf hsp
      | long name i =>
        exact query_then b BSON_LONG name 8 (fun b1 => bson_append64 b1 i) hq hopen hutf hsp
      | double name d =>
        exact query_then b BSON_DOUBLE name 8 (fun b1 => bson_append64 b1 d) hq hopen hutf hsp
      | bool name i =>
        exact query_then b BSON_BOOL name 1
          (fun b1 => bson_append_byte b1 (if i ≠ 0 then 1 else 0)) hq hopen hutf hsp
      | null name => exact query_then b BSON_NULL name 0 (fun b1 => b1) hq hopen hutf hsp
      | undefined name =>
        exact query_then b BSON_UNDEFINED name 0 (fun b1 => b1) hq hopen hutf hsp
      | string name value => exact string_base_query b name value _ _ hq hopen hutf hval hsp
      | symbol name value => exact string_base_query b name value _ _ hq hopen hutf hval hsp
      | code name value => exact string_base_query b name value _ _ hq hopen hutf hval hsp
      | string_n name value len =>
        exact string_base_query b name value _ _ hq hopen hutf hval hsp
      | symbol_n name value len =>
        exact string_base_query b name value _ _ hq hopen hutf hval hsp
      | code_n name value len =>
        exact string_base_query b name value _ _ hq hopen hutf hval hsp
      | code_w_scope name js scope =>
        cases scope with
        | none => simp [Field.value_ok] at hval
        | some sc =>
          exact query_then b BSON_CODEWSCOPE name
            (4 + 4 + ((strlen js : Int) + 1) + bson_size (some sc))
            (fun b1 => bson_append (bson_append (bson_append32 (bson_append32 b1
              (4 + 4 + ((strlen js : Int) + 1) + bson_size (some sc))) ((strlen js : Int) + 1))
              js ((strlen js : Int) + 1).toNat) sc.data (bson_size (some sc)).toNat)
            hq hopen hutf hsp
      | code_w_scope_n name js len scope =>
        cases scope with
        | none => simp [Field.value_ok] at hval
        | some sc =>
          exact query_then b BSON_CODEWSCOPE name
            (4 + 4 + ((len : Int) + 1) + bson_size (some sc))
            (fun b1 => bson_append (bson_append (bson_append32 (bson_append32 b1
              (4 + 4 + ((len : Int) + 1) + bson_size (some sc))) ((len : Int) + 1)) js
              ((len : Int) + 1).toNat) sc.data (bson_size (some sc)).toNat) hq hopen hutf hsp
      | binary name type str len =>
        simp only [Field.append, bson_append_binary, Field.name, Field.dsize] at hutf hsp ⊢
        split
        · rename_i ht
          rw [if_pos ht] at hsp
          exact query_then b BSON_BINDATA name (4 + 1 + 4 + (len : Int))
            (fun b1 => bson_append (bson_append32 (bson_append_byte
              (bson_append32 b1 ((len : Int) + 4)) type) len) str len) hq hopen hutf hsp
        · rename_i ht
          rw [if_neg ht] at hsp
          exact query_then b BSON_BINDATA name (4 + 1 + (len : Int))
            (fun b1 => bson_append (bson_append_byte (bson_append32 b1 len) type) str len)
            hq hopen hutf hsp
      | oid name bytes =>
        exact query_then b BSON_OID name 12 (fun b1 => bson_append b1 bytes 12) hq hopen hutf hsp
      | regex name pattern opts =>
        simp only [Field.append, bson_append_regex, Field.name, Field.dsize,
          Field.value_ok] at hutf hsp hval ⊢
        obtain ⟨h1, -⟩ := estart_query_mode b BSON_REGEX name
          (((strlen pattern + 1 : Nat) : Int) + ((strlen opts + 1 : Nat) : Int)) hq hopen hutf hsp
        rcases hes : bson_append_estart b BSON_REGEX name
          (((strlen pattern + 1 : Nat) : Int) + ((strlen opts + 1 : Nat) : Int)) with ⟨r, b1⟩
        rw [hes] at h1
        simp only at h1
        subst h1
        have hne : BSON_OK ≠ BSON_ERROR := by decide
        simp only [if_neg hne, bson_check_string, Nat.add_sub_cancel, hval, Bool.true_eq_false,
          ↓reduceIte]
      | subdoc name sub =>
        cases sub with
        | none => simp [Field.value_ok] at hval
        | some s =>
          exact query_then b BSON_OBJECT name (bson_size (some s))
            (fun b1 => bson_append b1 s.data (bson_size (some s)).toNat) hq hopen hutf hsp
      | timestamp name i t =>
        exact query_then b BSON_TIMESTAMP name 8
          (fun b1 => bson_append32 (bson_append32 b1 i) t) hq hopen hutf hsp
      | timestamp2 name time increment =>
        exact query_then b BSON_TIMESTAMP name 8
          (fun b1 => bson_append32 (bson_append32 b1 increment) time) hq hopen hutf hsp
      | date name millis =>
        exact query_then b BSON_DATE name 8 (fun b1 => bson_append64 b1 millis) hq hopen hutf hsp
      | time_t name secs =>
        exact query_then b BSON_DATE name 8
          (fun b1 => bson_append64 b1 (wrap64 (secs * 1000))) hq hopen hutf hsp
    refine ⟨hok, ?_⟩
    have := Field.append_ok f b (f.append b).2 (f.append b).1 rfl (by rw [hok]; decide)
    exact this.2.1

/-- Witness of C8: the names `$or` and `a.b` on `bson_init` and on
`bson_init_as_query`. -/
theorem field_name_legality_witness :
    ((Field.int [36, 111, 114] 1).append bson_init).1 = BSON_ERROR ∧
      ((Field.int [97, 46, 98] 1).append bson_init).1 = BSON_ERROR ∧
      ((Field.int [36, 111, 114] 1).append bson_init_as_query).1 = BSON_OK ∧
      ((Field.int [97, 46, 98] 1).append bson_init_as_query).2.data
        = bson_init_as_query.data ++ BSON_INT :: ([97, 46, 98] ++ 0 :: le32_bytes 1) :=
  ⟨(field_name_legality.1 bson_init (.int [36, 111, 114] 1) (by decide)
      (Or.inl (by decide))).1,
    (field_name_legality.1 bson_init (.int [97, 46, 98] 1) (by decide)
      (Or.inr (by decide))).1,
    (field_name_legality.2.2 bson_init_as_query (.int [36, 111, 114] 1) (by decide) (by decide)
      (by decide) (by decide) (by decide)).1,
    (field_name_legality.2.2 bson_init_as_query (.int [97, 46, 98] 1) (by decide) (by decide)
      (by decide) (by decide) (by decide)).2⟩

/-! ## Numeric coercion -/

theorem double_fields (s k f : Nat) (hs : s = 0 ∨ s = 9223372036854775808) (hk : k ≤ 52)
    (hf : f < 4503599627370496) :
    (s + (k + 1023) * 4503599627370496 + f) / 4503599627370496 % 2048 = k + 1023 ∧
    (s + (k + 1023) * 4503599627370496 + f) % 4503599627370496 = f ∧
    (s + (k + 1023) * 4503599627370496 + f) / 9223372036854775808 % 2
      = s / 9223372036854775808 := by
  rcases hs with rfl | rfl
  · refine ⟨?_, ?_, ?_⟩ <;> omega
  · refine ⟨?_, ?_, ?_⟩ <;> omega

theorem double_value_fields (s k f : Nat) (hs : s = 0 ∨ s = 9223372036854775808)
    (hk : k ≤ 52) (hf : f < 4503599627370496) :
    double_value (s + (k + 1023) * 4503599627370496 + f)
      = some ((if s / 9223372036854775808 = 1 then -1 else 1)
          * (4503599627370496 + (f : ℚ)) * 2 ^ ((k : Int) - 52)) := by
  obtain ⟨e1, e2, e3⟩ := double_fields s k f hs hk hf
  unfold double_value
  simp only [e1, e2, e3]
  have h1 : ¬ (k + 1023 = 2047) := by omega
  have h2 : ¬ (k + 1023 = 0) := by omega
  rw [if_neg h1, if_neg h2, if_neg h2]
  have hex : ((k + 1023 : ℕ) : Int) - 1075 = (k : Int) - 52 := by omega
  rw [hex]

/-- The conversion of an integer below 2^53 in absolute value to `double` is
exact. -/
theorem double_of_int_exact (x : Int) (h : x.natAbs < 2 ^ 53) :
    double_value (double_of_int x) = some (x : ℚ) := by
  by_cases hx : x = 0
  · subst hx
    simp [double_of_int, double_value]
  · have ha : x.natAbs ≠ 0 := by omega
    have hk53 : Nat.log2 x.natAbs < 53 := (Nat.log2_lt ha).mpr h
    have hk : Nat.log2 x.natAbs ≤ 52 := by omega
    have hlo : 2 ^ Nat.log2 x.natAbs ≤ x.natAbs := Nat.log2_self_le ha
    have hhi : x.natAbs < 2 ^ (Nat.log2 x.natAbs + 1) := Nat.lt_log2_self
    generalize hkk : Nat.log2 x.natAbs = k at *
    generalize haa : x.natAbs = a at *
    have hm_lo : 2 ^ 52 ≤ a * 2 ^ (52 - k) := by
      calc 2 ^ 52 = 2 ^ k * 2 ^ (52 - k) := by rw [← pow_add]; congr 1; omega
        _ ≤ a * 2 ^ (52 - k) := Nat.mul_le_mul_right _ hlo
    have hm_hi : a * 2 ^ (52 - k) < 2 ^ 53 := by
      calc a * 2 ^ (52 - k) < 2 ^ (k + 1) * 2 ^ (52 - k) :=
            Nat.mul_lt_mul_of_pos_right hhi (by positivity)
        _ = 2 ^ 53 := by rw [← pow_add]; congr 1; omega
    obtain ⟨f, hf⟩ : ∃ f, a * 2 ^ (52 - k) = 4503599627370496 + f :=
      ⟨a * 2 ^ (52 - k) - 4503599627370496, by norm_num at hm_lo; omega⟩
    have hf52 : f < 4503599627370496 := by norm_num at hm_hi; omega
    have hq : ((a : ℚ) * 2 ^ (52 - k)) * 2 ^ ((k : Int) - 52) = a := by
      have : ((2 : ℚ) ^ (52 - k)) * 2 ^ ((k : Int) - 52) = 1 := by
        rw [← zpow_natCast, ← zpow_add₀ (by norm_num)]
        have : ((52 - k : ℕ) : Int) + ((k : Int) - 52) = 0 := by omega
        rw [this, zpow_zero]
      rw [mul_assoc, this, mul_one]
    have hmq : (4503599627370496 : ℚ) + f = (a : ℚ) * 2 ^ (52 - k) := by
      have := congrArg (fun n : Nat => (n : ℚ)) hf
      simp only [Nat.cast_mul, Nat.cast_pow, Nat.cast_ofNat, Nat.cast_add] at this
      rw [this]
    by_cases hneg : x < 0
    · have hbits : double_of_int x
          = 9223372036854775808 + (k + 1023) * 4503599627370496 + f := by
        unfold double_of_int
        simp only [hx, ↓reduceIte, haa, hkk, hk, hf, hneg]
        omega
      rw [hbits, double_value_fields _ k f (Or.inr rfl) hk hf52, hmq]
      have hxa : (x : ℚ) = -(a : ℚ) := by
        have : x = -(a : Int) := by omega
        rw [this]; push_cast; rfl
      rw [hxa, mul_assoc, hq]
      norm_num
    · have hbits : double_of_int x = 0 + (k + 1023) * 4503599627370496 + f := by
        unfold double_of_int
        simp only [hx, ↓reduceIte, haa, hkk, hk, hf, hneg]
        omega
      rw [hbits, double_value_fields _ k f (Or.inl rfl) hk hf52, hmq]
      have hxa : (x : ℚ) = (a : ℚ) := by
        have : x = (a : Int) := by omega
        rw [this]; push_cast; rfl
      rw [hxa, mul_assoc, hq]
      norm_num

theorem read_u64_drop (buf : List Nat) (off : Nat) :
    read_u64 (buf.drop off) 0 = read_u64 buf off := by
  simp [read_u64, read_u32, byteAt_drop]

theorem read_u64_le64_bytes (v : Int) (suf : List Nat) :
    read_u64 (le64_bytes v ++ suf) 0 = (v % 18446744073709551616).toNat := by
  simp only [read_u64, read_u32, le64_bytes, byteAt]
  simp
  omega

theorem read_le64_of_drop (buf suf : List Nat) (off : Nat) (v : Int)
    (h : buf.drop off = le64_bytes v ++ suf) : read_le64 buf off = wrap64 v := by
  rw [read_le64, ← read_u64_drop, h, read_u64_le64_bytes]
  unfold wrap64
  omega

theorem read_le32_of_drop_le32 (buf suf : List Nat) (off : Nat) (v : Int)
    (h : buf.drop off = le32_bytes v ++ suf) : read_le32 buf off = wrap32 v := by
  rw [read_le32_of_drop buf (le32_bytes v) suf off h (by simp [le32_bytes_length]),
    ← List.append_nil (le32_bytes v), read_le32_le32_bytes_zero]

/-- C9: for every signed 32-bit `v`, a field written with `bson_append_int` and
read at that element yields `v` with `bson_iterator_int`, the 64-bit sign
extension of `v` (the same integer) with `bson_iterator_long`, and a `double`
whose value is the number `v` with `bson_iterator_double`; for every signed
64-bit `w` written with `bson_append_long`, `bson_iterator_long` yields `w`.  The
element is read in any buffer `buf` that holds, at the offset where the append
started, the bytes the append wrote. -/
theorem numeric_coercion :
    (∀ (b d : bson) (name : List Nat) (v : Int) (buf suf : List Nat) (fst : Bool),
      INT_MIN ≤ v → v ≤ INT_MAX → bson_append_int b name v = (BSON_OK, d) →
      buf.drop b.cur = d.data.drop b.cur ++ suf →
      bson_iterator_type ⟨buf, b.cur, fst⟩ = BSON_INT ∧
        bson_iterator_key_str ⟨buf, b.cur, fst⟩ = cstr name ∧
        bson_iterator_int ⟨buf, b.cur, fst⟩ = v ∧
        bson_iterator_long ⟨buf, b.cur, fst⟩ = v ∧
        double_value (bson_iterator_double ⟨buf, b.cur, fst⟩) = some (v : ℚ)) ∧
    (∀ (b d : bson) (name : List Nat) (w : Int) (buf suf : List Nat) (fst : Bool),
      -9223372036854775808 ≤ w → w ≤ 9223372036854775807 →
      bson_append_long b name w = (BSON_OK, d) →
      buf.drop b.cur = d.data.drop b.cur ++ suf →
      bson_iterator_type ⟨buf, b.cur, fst⟩ = BSON_LONG ∧
        bson_iterator_key_str ⟨buf, b.cur, fst⟩ = cstr name ∧
        bson_iterator_long ⟨buf, b.cur, fst⟩ = w) := by
  constructor
  · intro b d name v buf suf fst hlo hhi happ hbuf
    have hA := Field.append_ok (.int name v) b d BSON_OK happ (by decide)
    simp only [Field.type, Field.name, Field.payload] at hA
    have hd : d.data.drop b.cur = BSON_INT :: (cstr name ++ 0 :: le32_bytes v) := by
      rw [hA.2.1, bson.cur, List.drop_left]
    rw [hd] at hbuf
    have hbuf' : buf.drop b.cur = BSON_INT :: (cstr name ++ 0 :: (le32_bytes v ++ suf)) := by
      rw [hbuf]; simp
    obtain ⟨hty, -, hks, hv, h2, -⟩ :=
      elem_layout buf (cstr name) (le32_bytes v) suf b.cur BSON_INT hbuf' (cstr_nonzero name) fst
    have hraw : bson_iterator_int_raw ⟨buf, b.cur, fst⟩ = v := by
      rw [bson_iterator_int_raw, hv, read_le32_of_drop_le32 buf suf _ v h2,
        wrap32_of_range _ (by simp only [INT_MIN] at hlo; omega)
          (by simp only [INT_MAX] at hhi; omega)]
    refine ⟨hty, hks, ?_, ?_, ?_⟩
    · simp only [bson_iterator_int, hty, ↓reduceIte, hraw]
    · simp only [bson_iterator_long, hty, ↓reduceIte, hraw]
    · simp only [bson_iterator_double, hty, ↓reduceIte, hraw]
      apply double_of_int_exact
      simp only [INT_MIN] at hlo
      simp only [INT_MAX] at hhi
      have : (2 : Nat) ^ 53 = 9007199254740992 := by norm_num
      omega
  · intro b d name w buf suf fst hlo hhi happ hbuf
    have hA := Field.append_ok (.long name w) b d BSON_OK happ (by decide)
    simp only [Field.type, Field.name, Field.payload] at hA
    have hd : d.data.drop b.cur = BSON_LONG :: (cstr name ++ 0 :: le64_bytes w) := by
      rw [hA.2.1, bson.cur, List.drop_left]
    rw [hd] at hbuf
    have hbuf' : buf.drop b.cur = BSON_LONG :: (cstr name ++ 0 :: (le64_bytes w ++ suf)) := by
      rw [hbuf]; simp
    obtain ⟨hty, -, hks, hv, h2, -⟩ :=
      elem_layout buf (cstr name) (le64_bytes w) suf b.cur BSON_LONG hbuf' (cstr_nonzero name) fst
    have hraw : bson_iterator_long_raw ⟨buf, b.cur, fst⟩ = w := by
      rw [bson_iterator_long_raw, hv, read_le64_of_drop buf suf _ w h2,
        wrap64_of_range _ (by omega) (by omega)]
    refine ⟨hty, hks, ?_⟩
    have hne : BSON_LONG ≠ BSON_INT := by decide
    simp only [bson_iterator_long, hty, if_neg hne, ↓reduceIte, hraw]

/-- Witness of C9: `INT 5` in the finished document `{a: 5}` reads as the 64-bit
integer 5 and as the `double` 5.0. -/
theorem numeric_coercion_witness :
    bson_iterator_type ⟨sample_five_doc.data, bson_init.cur, false⟩ = BSON_INT ∧
      bson_iterator_key_str ⟨sample_five_doc.data, bson_init.cur, false⟩ = cstr [97] ∧
      bson_iterator_int ⟨sample_five_doc.data, bson_init.cur, false⟩ = 5 ∧
      bson_iterator_long ⟨sample_five_doc.data, bson_init.cur, false⟩ = 5 ∧
      double_value (bson_iterator_double ⟨sample_five_doc.data, bson_init.cur, false⟩)
        = some ((5 : Int) : ℚ) :=
  numeric_coercion.1 bson_init (bson_append_int bson_init [97] 5).2 [97] 5
    sample_five_doc.data [0] false (by decide) (by decide) (by decide) (by decide)

/-! ## Round trip through `bson_append_element` -/

/-- `bson_ensure_space` succeeds, without any 32-bit overflow, while three times
the final size fits a C int. -/
theorem bson_ensure_space_room (b : bson) (n N : Int) (hn : 0 ≤ n) (hD : 0 ≤ b.dataSize)
    (hD2 : b.dataSize ≤ INT_MAX) (hN : (b.cur : Int) + n ≤ N) (h3 : 3 * N ≤ INT_MAX) :
    ∃ b1, bson_ensure_space b n = (BSON_OK, b1) ∧ 0 ≤ b1.dataSize ∧ b1.dataSize ≤ INT_MAX ∧
      b1.data = b.data ∧ b1.finished = b.finished ∧ b1.err = b.err := by
  simp only [INT_MAX] at hD2 h3
  unfold bson_ensure_space
  simp only
  have hw1 : wrap32 ((b.cur : Int) + n) = (b.cur : Int) + n :=
    wrap32_of_range _ (by omega) (by omega)
  rw [hw1]
  by_cases hfit : (b.cur : Int) + n ≤ b.dataSize
  · rw [if_pos hfit]
    exact ⟨b, rfl, hD, by simp only [INT_MAX]; exact hD2, rfl, rfl, rfl⟩
  · rw [if_neg hfit]
    have hs : wrap32 (b.dataSize + n) = b.dataSize + n :=
      wrap32_of_range _ (by omega) (by omega)
    rw [hs]
    have ht : Int.tdiv (3 * (b.dataSize + n)) 2 = (3 * (b.dataSize + n)) / 2 :=
      Int.tdiv_eq_ediv (by omega) (by omega)
    have hval : double_to_int_half (3 * (b.dataSize + n)) = (3 * (b.dataSize + n)) / 2 := by
      unfold double_to_int_half
      simp only [ht, INT_MIN, INT_MAX]
      rw [if_neg (by omega)]
    rw [hval]
    rw [if_neg (by omega)]
    exact ⟨_, rfl, by simp only; omega, by simp only [INT_MAX]; omega, rfl, rfl, rfl⟩

theorem mem_take_append_left (a r : List Nat) : mem_take (a ++ r) a.length = a := by
  simp [mem_take]

/-- `bson_append_element` with a `NULL` name copies a well-formed element. -/
theorem bson_append_element_copy (b : bson) (buf suf : List Nat) (off : Nat) (e : Elt)
    (he : e.WF) (h : buf.drop off = e.bytes ++ suf) (N : Int) (hD : 0 ≤ b.dataSize)
    (hD2 : b.dataSize ≤ INT_MAX) (hN : (b.cur : Int) + e.bytes.length ≤ N)
    (h3 : 3 * N ≤ INT_MAX) :
    ∃ b1, bson_append_element b none ⟨buf, off, false⟩ = some (BSON_OK, b1) ∧
      b1.data = b.data ++ e.bytes ∧ 0 ≤ b1.dataSize ∧ b1.dataSize ≤ INT_MAX ∧
      b1.finished = b.finished ∧ b1.err = b.err := by
  obtain ⟨hn, -, -, -⟩ := bson_iterator_next_elt buf suf off e he h
  obtain ⟨b1, hes, h0, h1, hd, hf, herr⟩ :=
    bson_ensure_space_room b (e.bytes.length : Int) N (by omega) hD hD2 hN h3
  have hsize : ((off + e.bytes.length : Nat) : Int) - (off : Int) = (e.bytes.length : Int) := by
    push_cast; omega
  have hne : BSON_OK ≠ BSON_ERROR := by decide
  refine ⟨bson_append b1 (buf.drop off) e.bytes.length, ?_, ?_, h0, h1, hf, herr⟩
  · simp only [bson_append_element, hn, hsize, hes, if_neg hne, Int.toNat_ofNat]
  · simp only [bson_append, hd, h, mem_take_append_left]

/-- The copy loop from an iterator that stands on an element already copied. -/
theorem copy_elements_from (es : List Elt) : ∀ (buf suf : List Nat) (off : Nat) (e : Elt)
    (b : bson) (N : Int) (fuel : Nat), e.WF → Elt.WFs es →
    buf.drop off = e.bytes ++ (Elt.bytesList es ++ 0 :: suf) →
    0 ≤ b.dataSize → b.dataSize ≤ INT_MAX →
    (b.cur : Int) + (Elt.bytesList es).length ≤ N → 3 * N ≤ INT_MAX → es.length + 1 ≤ fuel →
    ∃ b1, copy_elements fuel ⟨buf, off, false⟩ b = some (BSON_OK, b1) ∧
      b1.data = b.data ++ Elt.bytesList es ∧ 0 ≤ b1.dataSize ∧ b1.dataSize ≤ INT_MAX ∧
      b1.finished = b.finished ∧ b1.err = b.err := by
  induction es with
  | nil =>
    intro buf suf off e b N fuel he _ h hD hD2 _ _ hfuel
    obtain ⟨hn, hd, -, -⟩ := bson_iterator_next_elt buf _ off e he h
    simp only [Elt.bytesList, List.nil_append] at hd
    have h0 : byteAt buf (off + e.bytes.length) = 0 := byteAt_of_drop _ _ _ _ hd
    cases fuel with
    | zero => omega
    | succ fuel =>
      refine ⟨b, ?_, by simp [Elt.bytesList], hD, hD2, rfl, rfl⟩
      simp [copy_elements, hn, h0, BSON_EOO]
  | cons e' es ih =>
    intro buf suf off e b N fuel he hes h hD hD2 hN h3 hfuel
    simp only [Elt.WFs] at hes
    obtain ⟨hn, hd, -, -⟩ := bson_iterator_next_elt buf _ off e he h
    rw [Elt.bytesList_cons, List.append_assoc] at hd
    obtain ⟨-, -, hty, -⟩ := bson_iterator_next_elt buf _ _ e' hes.1 hd
    have htb : byteAt buf (off + e.bytes.length) = e'.type := hty
    have ht0 : e'.type ≠ BSON_EOO := hes.1.parts.1
    simp only [Elt.bytesList_cons, List.length_append] at hN
    obtain ⟨b1, hcp, hd1, hD1, hD12, hf1, he1⟩ := bson_append_element_copy b buf _
      (off + e.bytes.length) e' hes.1 hd N hD hD2 (by push_cast at hN; omega) h3
    cases fuel with
    | zero => omega
    | succ fuel =>
      obtain ⟨b2, hcp2, hd2, hD2', hD22, hf2, he2⟩ := ih buf suf (off + e.bytes.length) e' b1 N
        fuel hes.1 hes.2 hd hD1 hD12
        (by simp only [bson.cur, hd1, List.length_append]
            simp only [bson.cur] at hN
            push_cast at hN ⊢
            omega) h3 (by simp only [List.length_cons] at hfuel; omega)
      have hne : BSON_OK ≠ BSON_ERROR := by decide
      refine ⟨b2, ?_, ?_, hD2', hD22, by rw [hf2, hf1], by rw [he2, he1]⟩
      · simp only [copy_elements, hn, htb, if_neg ht0, hcp, if_neg hne, hcp2]
      · rw [hd2, hd1, Elt.bytesList_cons, List.append_assoc]

/-- The copy loop from a cursor placed in front of a sequence of elements. -/
theorem copy_elements_all (es : List Elt) (buf suf : List Nat) (off : Nat) (b : bson)
    (N : Int) (fuel : Nat) (hes : Elt.WFs es)
    (h : buf.drop off = Elt.bytesList es ++ 0 :: suf) (hD : 0 ≤ b.dataSize)
    (hD2 : b.dataSize ≤ INT_MAX) (hN : (b.cur : Int) + (Elt.bytesList es).length ≤ N)
    (h3 : 3 * N ≤ INT_MAX) (hfuel : es.length + 1 ≤ fuel) :
    ∃ b1, copy_elements fuel ⟨buf, off, true⟩ b = some (BSON_OK, b1) ∧
      b1.data = b.data ++ Elt.bytesList es ∧ 0 ≤ b1.dataSize ∧ b1.dataSize ≤ INT_MAX ∧
      b1.finished = b.finished ∧ b1.err = b.err := by
  obtain ⟨hn, -⟩ := trace_elts es buf suf off hes h
  cases fuel with
  | zero => omega
  | succ fuel =>
    cases es with
    | nil =>
      refine ⟨b, ?_, by simp [Elt.bytesList], hD, hD2, rfl, rfl⟩
      simp only [List.head?_nil, Option.map_none', Option.getD_none] at hn
      simp [copy_elements, hn]
    | cons e es =>
      simp only [Elt.WFs] at hes
      simp only [List.head?_cons, Option.map_some', Option.getD_some] at hn
      have ht0 : e.type ≠ BSON_EOO := hes.1.parts.1
      rw [Elt.bytesList_cons, List.append_assoc] at h
      simp only [Elt.bytesList_cons, List.length_append] at hN
      obtain ⟨b1, hcp, hd1, hD1, hD12, hf1, he1⟩ := bson_append_element_copy b buf _ off e
        hes.1 h N hD hD2 (by push_cast at hN; omega) h3
      cases fuel with
      | zero => simp only [List.length_cons] at hfuel; omega
      | succ fuel =>
        obtain ⟨b2, hcp2, hd2, hD2', hD22, hf2, he2⟩ := copy_elements_from es buf suf off e b1 N
          (fuel + 1) hes.1 hes.2 h hD1 hD12
          (by simp only [bson.cur, hd1, List.length_append]
              simp only [bson.cur] at hN
              push_cast at hN ⊢
              omega) h3 (by simp only [List.length_cons] at hfuel; omega)
        have hne : BSON_OK ≠ BSON_ERROR := by decide
        refine ⟨b2, ?_, ?_, hD2', hD22, by rw [hf2, hf1], by rw [he2, he1]⟩
        · simp only [copy_elements, hn, if_neg ht0, hcp, if_neg hne]
          exact hcp2
        · rw [hd2, hd1, Elt.bytesList_cons, List.append_assoc]

/-- C2: for every finished document `d` produced from `bson_init` by a balanced
builder program whose calls all succeed (and whose embedded documents are
documents), of a size whose threefold fits a C int, walking `d` with
`bson_iterator_init` / `bson_iterator_next` and calling
`bson_append_element(b, NULL, it)` on every non-EOO element of a fresh builder,
then `bson_finish`, succeeds and yields a buffer byte-identical to `d`. -/
theorem round_trip_append_element (items : List Item) (b d : bson) (fuel : Nat)
    (hargs : Item.args_ok_list items)
    (hb : Item.buildList items bson_init = (BSON_OK, b)) (hf : bson_finish b = (BSON_OK, d))
    (hsz : 3 * (d.cur : Int) ≤ INT_MAX) (hfuel : (Item.elts items).length + 1 ≤ fuel) :
    ∃ b2 d2, copy_elements fuel (bson_iterator_init d) bson_init = some (BSON_OK, b2) ∧
      bson_finish b2 = (BSON_OK, d2) ∧ d2.data = d.data ∧
      d2.data.take (bson_size (some d)).toNat = d.data.take (bson_size (some d)).toNat := by
  have hl := built_doc_layout items b d hb hf
  have hlen : d.cur = (Elt.bytesList (Item.elts items)).length + 5 := by
    simp only [bson.cur, hl, List.length_append, le32_bytes_length, List.length_cons,
      List.length_nil]
    omega
  have h3 : 3 * (((Elt.bytesList (Item.elts items)).length + 5 : Nat) : Int) ≤ INT_MAX := by
    rw [← hlen]; exact hsz
  have hwf := Item.elts_wf items hargs
    (by simp only [INT_MAX] at h3 ⊢; push_cast at h3; omega)
  have hdrop : d.data.drop 4 = Elt.bytesList (Item.elts items) ++ 0 :: [] := by
    rw [hl]
    have : (le32_bytes (((Elt.bytesList (Item.elts items)).length : Int) + 5)).length = 4 :=
      le32_bytes_length _
    rw [← this, List.drop_left]
  have hinit : bson_init.data = [0, 0, 0, 0] := by decide
  obtain ⟨b2, hcp, hd2, hD, hD2, hf2, he2⟩ := copy_elements_all (Item.elts items) d.data []
    4 bson_init (((Elt.bytesList (Item.elts items)).length + 5 : Nat) : Int) fuel hwf hdrop
    (by decide) (by decide)
    (by simp only [bson.cur, hinit, List.length_cons, List.length_nil]; push_cast; omega)
    h3 hfuel
  have hopen : b2.finished = false := by rw [hf2]; decide
  have herr : b2.err = 0 := by rw [he2]; decide
  have hcur2 : b2.cur = (Elt.bytesList (Item.elts items)).length + 4 := by
    simp only [bson.cur, hd2, hinit, List.length_append, List.length_cons, List.length_nil]
    omega
  obtain ⟨b3, hes, -, -, hd3, -, -⟩ := bson_ensure_space_room b2 1
    (((Elt.bytesList (Item.elts items)).length + 5 : Nat) : Int) (by omega) hD hD2
    (by rw [hcur2]; push_cast; omega) h3
  have hne : BSON_OK ≠ BSON_ERROR := by decide
  have hfin : bson_finish b2 = (BSON_OK,
      { bson_append_byte b3 0 with
        data := write_le32 (bson_append_byte b3 0).data 0 ((bson_append_byte b3 0).cur : Int),
        finished := true }) := by
    unfold bson_finish
    rw [herr]
    simp only [hopen, hes, if_neg hne]
    simp [BSON_NOT_UTF8]
  have hdata := (bson_finish_open b2 _ hopen (by rw [hcur2]; omega) hfin).1
  have hv : ((b2.cur : Int) + 1) = ((Elt.bytesList (Item.elts items)).length : Int) + 5 := by
    rw [hcur2]; push_cast; omega
  rw [hv, hd2, hinit] at hdata
  have hsame : ({ bson_append_byte b3 0 with
        data := write_le32 (bson_append_byte b3 0).data 0 ((bson_append_byte b3 0).cur : Int),
        finished := true } : bson).data = d.data := by
    rw [hdata, hl]
    simp
  exact ⟨b2, _, hcp, hfin, hsame, by rw [hsame]⟩

/-- Witness of C2: the document of `sample_items` (a scalar, a nested object
with an array, an embedded document) copied element by element. -/
theorem round_trip_append_element_witness :
    (copy_elements 4 (bson_iterator_init sample_doc) bson_init).map
        (fun r => (r.1, (bson_finish r.2).1, (bson_finish r.2).2.data))
      = some (BSON_OK, BSON_OK, sample_doc.data) :=
  match round_trip_append_element sample_items (Item.buildList sample_items bson_init).2
      sample_doc 4
      (by
        simp only [sample_items, Item.args_ok_list, Item.args_ok, Field.args_ok, and_true,
          true_and]
        decide)
      (by decide!) (by decide!) (by decide!) (by decide) with
  | ⟨_, _, h1, h2, h3, _⟩ => by rw [h1]; simp [h2, h3]

/-! ## Path resolution at the length limit -/

theorem strlen_of_nonzero (s : List Nat) (h : ∀ c ∈ s, c ≠ 0) : strlen s = s.length := by
  have := strlen_append_zero s [] h
  induction s with
  | nil => rfl
  | cons c cs ih =>
    have hc : c ≠ 0 := h c (by simp)
    simp only [strlen, if_neg hc, List.length_cons]
    rw [ih (fun x hx => h x (by simp [hx]))]
    exact strlen_append_zero cs [] (fun x hx => h x (by simp [hx]))

theorem cstr_of_nonzero (s : List Nat) (h : ∀ c ∈ s, c ≠ 0) : cstr s = s := by
  simp [cstr, strlen_of_nonzero s h]

/-- One turn of the `while` loop of the resolver. -/
theorem bson_find_fieldpath_value_impl_unfold (M fuel : Nat) (pstack : List Nat) (curr : Nat)
    (fpath : List Nat) (fplen : Nat) (it : bson_iterator) :
  bson_find_fieldpath_value_impl M (fuel+1) pstack curr fpath fplen it = 
    match bson_iterator_next it with
    | none => none
    | some (t, it1) =>
      if t = BSON_EOO then some (BSON_EOO, pstack, it1)
      else
        let key := bson_iterator_key it1
        let klen := strlen_at it1.buf key
        if curr + klen > fplen ∨ curr + klen + 1 ≥ M then
          bson_find_fieldpath_value_impl M fuel pstack curr fpath fplen it1
        else
          let pstack1 := if curr > 0 then mem_write pstack curr [46] else pstack
          let curr1 := if curr > 0 then curr + 1 else curr
          let pstack2 := mem_write pstack1 curr1 (mem_take (it1.buf.drop key) klen)
          let curr2 := curr1 + klen
          let i := fpath_match pstack2 fpath curr2 fplen curr2 0
          if i = curr2 ∧ i = fplen then some (t, pstack2, it1)
          else
            let pop (n : Nat) : Nat := if n - klen > 0 then n - klen - 1 else n - klen
            if i = curr2 ∧ i < fplen ∧ (t = BSON_OBJECT ∨ t = BSON_ARRAY) then
              match bson_find_fieldpath_value_impl M fuel pstack2 curr2 fpath
                  fplen (bson_iterator_subiterator it1) with
              | none => none
              | some (st, pstack3, sit) =>
                if st ≠ BSON_EOO then some (st, pstack3, sit)
                else
                  bson_find_fieldpath_value_impl M fuel pstack3 (pop curr2)
                    fpath fplen it1
            else
              bson_find_fieldpath_value_impl M fuel pstack2 (pop curr2) fpath
                fplen it1 := by
  rfl

/-- The resolver stops at the terminator. -/
theorem impl_eoo (M fuel : Nat) (pstack : List Nat) (curr : Nat) (fpath : List Nat)
    (fplen : Nat) (it it1 : bson_iterator) (h : bson_iterator_next it = some (BSON_EOO, it1)) :
    bson_find_fieldpath_value_impl M (fuel + 1) pstack curr fpath fplen it
      = some (BSON_EOO, pstack, it1) := by
  rw [bson_find_fieldpath_value_impl_unfold, h]
  simp only [↓reduceIte]

/-- The resolver skips a key that fails the length test. -/
theorem impl_skip (M fuel : Nat) (pstack : List Nat) (curr : Nat) (fpath : List Nat)
    (fplen : Nat) (it it1 : bson_iterator) (t : Nat)
    (h : bson_iterator_next it = some (t, it1)) (ht : t ≠ BSON_EOO)
    (hskip : curr + strlen_at it1.buf (bson_iterator_key it1) > fplen ∨
      curr + strlen_at it1.buf (bson_iterator_key it1) + 1 ≥ M) :
    bson_find_fieldpath_value_impl M (fuel + 1) pstack curr fpath fplen it
      = bson_find_fieldpath_value_impl M fuel pstack curr fpath fplen it1 := by
  rw [bson_find_fieldpath_value_impl_unfold, h]
  simp only [if_neg ht, if_pos hskip]

theorem buildList_single (b0 b : bson) (f : Field) (h : f.append b0 = (BSON_OK, b)) :
    Item.buildList [.field f] b0 = (BSON_OK, b) := by
  have hne : BSON_OK ≠ BSON_ERROR := by decide
  simp only [Item.buildList, Item.build, h, if_neg hne]

/-- C10, the code at the failing inputs: whatever the limit `BSON_MAX_FPATH_LEN`
is, in the finished document `{k: INT v}` whose single top-level key `k` has
`BSON_MAX_FPATH_LEN - 1` bytes (no zero byte), `bson_find_fieldpath_value` with
the path `k`, which is shorter than the limit, returns `BSON_EOO` and leaves the
iterator on the terminator: the key is skipped by the test
`curr + klen + 1 >= BSON_MAX_FPATH_LEN` although no dot is added at `curr = 0`. -/
theorem fieldpath_top_level_key_at_limit (BSON_MAX_FPATH_LEN : Nat) (key : List Nat)
    (v : Int) (b d : bson) (fuel : Nat) (hkey : ∀ c ∈ key, c ≠ 0)
    (hlen : key.length + 1 = BSON_MAX_FPATH_LEN)
    (hb : bson_append_int bson_init key v = (BSON_OK, b))
    (hf : bson_finish b = (BSON_OK, d)) (hfuel : 2 ≤ fuel) :
    strlen key < BSON_MAX_FPATH_LEN ∧
      bson_iterator_trace 2 (bson_iterator_init d) = some [(BSON_INT, key), (BSON_EOO, [])] ∧
      bson_find_fieldpath_value BSON_MAX_FPATH_LEN fuel key (bson_iterator_init d)
        = some (BSON_EOO, ⟨d.data, d.cur - 1, false⟩) := by
  have hstr : strlen key = key.length := strlen_of_nonzero key hkey
  have hb' : Item.buildList [.field (.int key v)] bson_init = (BSON_OK, b) :=
    buildList_single bson_init b (.int key v) hb
  have hl := built_doc_layout [.field (.int key v)] b d hb' hf
  have helts : Item.elts [.field (.int key v)] = [Elt.leaf BSON_INT key (le32_bytes v)] := by
    simp [Item.elts, Item.elt, Field.type, Field.name, Field.payload, cstr_of_nonzero key hkey]
  rw [helts] at hl
  have hbl : Elt.bytesList [Elt.leaf BSON_INT key (le32_bytes v)]
      = BSON_INT :: (key ++ 0 :: le32_bytes v) := by
    simp [Elt.bytesList, Elt.bytes]
  have hwf : Elt.WFs [Elt.leaf BSON_INT key (le32_bytes v)] := by
    simp only [Elt.WFs, Elt.WF, and_true]
    refine ⟨by decide, hkey, ?_⟩
    simp [payload_wf, le32_bytes_length, BSON_INT, BSON_UNDEFINED, BSON_NULL, BSON_BOOL]
  have hdrop : d.data.drop 4 = Elt.bytesList [Elt.leaf BSON_INT key (le32_bytes v)] ++ 0 :: [] := by
    rw [hl]
    have : (le32_bytes (((Elt.bytesList [Elt.leaf BSON_INT key (le32_bytes v)]).length : Int)
        + 5)).length = 4 := le32_bytes_length _
    rw [← this, List.drop_left]
  obtain ⟨hn1, htr⟩ := trace_elts _ d.data [] 4 hwf hdrop
  have hdrop' : d.data.drop 4 = (Elt.leaf BSON_INT key (le32_bytes v)).bytes ++ 0 :: [] := by
    rw [hdrop]; simp [Elt.bytesList]
  obtain ⟨hn2, hd2, -, -⟩ := bson_iterator_next_elt d.data _ 4 _ hwf.1 hdrop'
  have hz : byteAt d.data (4 + (Elt.leaf BSON_INT key (le32_bytes v)).bytes.length) = 0 :=
    byteAt_of_drop _ _ _ _ hd2
  have hklen : strlen_at d.data (4 + 1) = key.length := by
    have hx : d.data.drop 4 = BSON_INT :: (key ++ 0 :: (le32_bytes v ++ [0])) := by
      rw [hdrop, hbl]; simp
    exact (elem_layout d.data key (le32_bytes v) [0] 4 BSON_INT hx hkey false).2.1
  have hcur : d.cur - 1 = 4 + (Elt.leaf BSON_INT key (le32_bytes v)).bytes.length := by
    simp only [bson.cur, hl, hbl, Elt.bytes, List.length_append, le32_bytes_length,
      List.length_cons, List.length_nil]
    omega
  refine ⟨by omega, ?_, ?_⟩
  · have := htr 1
    simpa [Elt.type, Elt.key] using this
  · obtain ⟨fuel, rfl⟩ : ∃ f, fuel = f + 2 := ⟨fuel - 2, by omega⟩
    have hlt : ¬ (strlen key ≥ BSON_MAX_FPATH_LEN) := by omega
    simp only [bson_find_fieldpath_value, bson_find_fieldpath_value2, if_neg hlt]
    have hnext1 : bson_iterator_next (bson_iterator_init d)
        = some (BSON_INT, ⟨d.data, 4, false⟩) := by
      simpa [Elt.type, bson_iterator_init] using hn1
    have hne : BSON_INT ≠ BSON_EOO := by decide
    have hn2' : bson_iterator_next ⟨d.data, 4, false⟩
        = some (BSON_EOO, ⟨d.data, d.cur - 1, false⟩) := by
      rw [hn2, hz, hcur]; rfl
    rw [impl_skip _ _ _ _ _ _ _ _ _ hnext1 hne
      (Or.inr (by simp only [bson_iterator_key, hklen]; omega)), impl_eoo _ _ _ _ _ _ _ _ hn2']
    rfl

set_option maxRecDepth 100000 in
/-- Witness of C10's failing input with the limit 255 of the BSON C library: in
`{k: INT 1}` with a top-level key `k` of 254 bytes `a`, the iterator finds the
element but the resolver does not find the path `k`. -/
theorem fieldpath_top_level_key_at_limit_witness :
    strlen (List.replicate 254 97) < 255 ∧
      bson_iterator_trace 2 (bson_iterator_init
          (bson_finish (bson_append_int bson_init (List.replicate 254 97) 1).2).2)
        = some [(BSON_INT, List.replicate 254 97), (BSON_EOO, [])] ∧
      bson_find_fieldpath_value 255 2 (List.replicate 254 97)
          (bson_iterator_init
            (bson_finish (bson_append_int bson_init (List.replicate 254 97) 1).2).2)
        = some (BSON_EOO,
            ⟨(bson_finish (bson_append_int bson_init (List.replicate 254 97) 1).2).2.data,
              (bson_finish (bson_append_int bson_init (List.replicate 254 97) 1).2).2.cur - 1,
              false⟩) :=
  fieldpath_top_level_key_at_limit 255 (List.replicate 254 97) 1
    (bson_append_int bson_init (List.replicate 254 97) 1).2
    (bson_finish (bson_append_int bson_init (List.replicate 254 97) 1).2).2 2
    (by decide!) (by decide) (by decide!) (by decide!) (by decide)

/-! ## The resolver: key chains and over-long paths -/

set_option maxRecDepth 100000 in
/-- C11 (code bug): the resolver puts a dot in front of a key only when the
accumulated path is not empty, so an empty key at the top level adds nothing to
the path of the elements below it.  In the document `{"": {"a": 1}}`, built and
finished without error, the chain of keys of the inner element joined with `.`
is `".a"`: the resolver answers `BSON_EOO` for the path `".a"`, leaving the
iterator on the terminator of the document, and answers `BSON_INT` for the path
`"a"`, which is the key chain of no element, leaving the iterator on the inner
element. -/
theorem fieldpath_empty_key_chain :
    Item.buildList [.object [] [.field (.int [97] 1)]] bson_init
        = (BSON_OK, (Item.buildList [.object [] [.field (.int [97] 1)]] bson_init).2) ∧
      (bson_finish (Item.buildList [.object [] [.field (.int [97] 1)]] bson_init).2).1
        = BSON_OK ∧
      sample_empty_key_doc.data
        = [19, 0, 0, 0, 3, 0, 12, 0, 0, 0, 16, 97, 0, 1, 0, 0, 0, 0, 0] ∧
      bson_find_fieldpath_value 255 4 [46, 97] (bson_iterator_init sample_empty_key_doc)
        = some (BSON_EOO, ⟨sample_empty_key_doc.data, 18, false⟩) ∧
      bson_find_fieldpath_value 255 4 [97] (bson_iterator_init sample_empty_key_doc)
        = some (BSON_INT, ⟨sample_empty_key_doc.data, 10, false⟩) := by
  decide!

/-- C12: a path whose length is at least `BSON_MAX_FPATH_LEN` is given up at
once: `bson_find_fieldpath_value2` returns `BSON_EOO` and the iterator is the one
it was handed, whatever the document holds; the same for
`bson_find_fieldpath_value`, which measures the path with `strlen`. -/
theorem fieldpath_overlong_gives_up (BSON_MAX_FPATH_LEN fuel : Nat) (fpath : List Nat)
    (fplen : Nat) (it : bson_iterator) (h : BSON_MAX_FPATH_LEN ≤ fplen) :
    bson_find_fieldpath_value2 BSON_MAX_FPATH_LEN fuel fpath fplen it = some (BSON_EOO, it) ∧
      (fplen = strlen fpath →
        bson_find_fieldpath_value BSON_MAX_FPATH_LEN fuel fpath it = some (BSON_EOO, it)) := by
  have h2 : bson_find_fieldpath_value2 BSON_MAX_FPATH_LEN fuel fpath fplen it
      = some (BSON_EOO, it) := by
    unfold bson_find_fieldpath_value2
    rw [if_pos h]
  refine ⟨h2, ?_⟩
  intro hl
  unfold bson_find_fieldpath_value
  rw [← hl]
  exact h2

set_option maxRecDepth 100000 in
/-- The document `{k: 1}` with a key `k` of 255 letters holds an element at the
path `k`, and the resolver with the limit 255 gives that path up. -/
theorem fieldpath_overlong_gives_up_witness :
    255 ≤ 255 ∧
      bson_iterator_trace 2 (bson_iterator_init sample_long_key_doc)
        = some [(BSON_INT, List.replicate 255 97), (BSON_EOO, [])] ∧
      (bson_find_fieldpath_value2 255 2 (List.replicate 255 97) 255
          (bson_iterator_init sample_long_key_doc)
          = some (BSON_EOO, bson_iterator_init sample_long_key_doc) ∧
        (255 = strlen (List.replicate 255 97) →
          bson_find_fieldpath_value 255 2 (List.replicate 255 97)
              (bson_iterator_init sample_long_key_doc)
            = some (BSON_EOO, bson_iterator_init sample_long_key_doc))) :=
  ⟨by decide, by decide!,
    fieldpath_overlong_gives_up 255 2 (List.replicate 255 97) 255
      (bson_iterator_init sample_long_key_doc) (by decide)⟩

/-! ## Lookup by key -/

theorem first_diff_self (a : List Nat) : first_diff a a = 0 := by
  induction a with
  | nil => rfl
  | cons x xs ih => simp [first_diff, ih]

theorem first_diff_cstr (a : List Nat) : ∀ b : List Nat, (∀ c ∈ a, c ≠ 0) →
    (∀ c ∈ b, c ≠ 0) → first_diff (a ++ [0]) (b ++ [0]) = 0 → a = b := by
  induction a with
  | nil =>
    intro b _ hb h
    cases b with
    | nil => rfl
    | cons y ys =>
      have hy : y ≠ 0 := hb y (by simp)
      have hy2 : (0 : Nat) ≠ y := fun h => hy h.symm
      simp only [List.nil_append, List.cons_append, first_diff, if_pos hy2] at h
      omega
  | cons x xs ih =>
    intro b ha hb h
    have hx : x ≠ 0 := ha x (by simp)
    cases b with
    | nil =>
      simp only [List.nil_append, List.cons_append, first_diff, if_pos hx] at h
      omega
    | cons y ys =>
      simp only [List.cons_append, first_diff] at h
      by_cases hxy : x = y
      · subst hxy
        simp only [ne_eq, not_true_eq_false, if_false] at h
        rw [ih ys (fun c hc => ha c (by simp [hc])) (fun c hc => hb c (by simp [hc])) h]
      · rw [if_pos hxy] at h
        omega

/-- `strcmp` answers zero exactly for equal C strings. -/
theorem strcmp_eq_zero (a b : List Nat) : strcmp a b = 0 ↔ cstr a = cstr b := by
  unfold strcmp
  constructor
  · exact first_diff_cstr _ _ (cstr_nonzero a) (cstr_nonzero b)
  · intro h
    rw [h]
    exact first_diff_self _

/-- The lookup loop stops on an element whose key is the name. -/
theorem find_loop_hit (name buf suf : List Nat) (off : Nat) (e : Elt) (it0 : bson_iterator)
    (fuel : Nat) (he : e.WF) (h : buf.drop off = e.bytes ++ suf) (hk : e.key = cstr name)
    (hn : bson_iterator_next it0 = some (byteAt buf off, ⟨buf, off, false⟩)) :
    bson_find_loop name (fuel + 1) it0 = some ⟨buf, off, false⟩ := by
  obtain ⟨-, -, hty, hkey⟩ := bson_iterator_next_elt buf suf off e he h
  have ht0 : byteAt buf off ≠ BSON_EOO := by
    have : byteAt buf off = e.type := hty
    rw [this]; exact he.parts.1
  have hs : strcmp name (buf.drop (off + 1)) = 0 := by
    rw [strcmp_eq_zero]
    have : cstr (buf.drop (off + 1)) = e.key := hkey
    rw [this, hk]
  simp only [bson_find_loop, hn, if_neg ht0, bson_iterator_key, hs, if_true]

/-- The lookup loop passes an element whose key is not the name. -/
theorem find_loop_pass (name buf suf : List Nat) (off : Nat) (e : Elt) (it0 : bson_iterator)
    (fuel : Nat) (he : e.WF) (h : buf.drop off = e.bytes ++ suf) (hk : e.key ≠ cstr name)
    (hn : bson_iterator_next it0 = some (byteAt buf off, ⟨buf, off, false⟩)) :
    bson_find_loop name (fuel + 1) it0 = bson_find_loop name fuel ⟨buf, off, false⟩ := by
  obtain ⟨-, -, hty, hkey⟩ := bson_iterator_next_elt buf suf off e he h
  have ht0 : byteAt buf off ≠ BSON_EOO := by
    have : byteAt buf off = e.type := hty
    rw [this]; exact he.parts.1
  have hs : ¬ strcmp name (buf.drop (off + 1)) = 0 := by
    rw [strcmp_eq_zero]
    have : cstr (buf.drop (off + 1)) = e.key := hkey
    rw [this]
    exact fun h => hk h.symm
  simp only [bson_find_loop, hn, if_neg ht0, bson_iterator_key, if_neg hs]

/-- The lookup loop stops on a terminator. -/
theorem find_loop_end (name buf : List Nat) (off : Nat) (it0 : bson_iterator) (fuel : Nat)
    (h0 : byteAt buf off = 0)
    (hn : bson_iterator_next it0 = some (byteAt buf off, ⟨buf, off, false⟩)) :
    bson_find_loop name (fuel + 1) it0 = some ⟨buf, off, false⟩ := by
  simp only [bson_find_loop, hn, h0, BSON_EOO, if_true]

/-- The lookup loop passes a run of elements none of whose keys is the name. -/
theorem find_loop_run (name buf : List Nat) (pre : List Elt) : ∀ (rest : List Nat) (off : Nat)
    (it0 : bson_iterator) (k : Nat), Elt.WFs pre → (∀ x ∈ pre, x.key ≠ cstr name) →
    buf.drop off = Elt.bytesList pre ++ rest →
    bson_iterator_next it0 = some (byteAt buf off, ⟨buf, off, false⟩) →
    ∃ it1, bson_iterator_next it1 = some (byteAt buf (off + (Elt.bytesList pre).length),
        ⟨buf, off + (Elt.bytesList pre).length, false⟩) ∧
      buf.drop (off + (Elt.bytesList pre).length) = rest ∧
      bson_find_loop name (pre.length + k) it0 = bson_find_loop name k it1 := by
  induction pre with
  | nil =>
    intro rest off it0 k _ _ h hn
    refine ⟨it0, ?_, ?_, ?_⟩
    · simpa [Elt.bytesList] using hn
    · simpa [Elt.bytesList] using h
    · simp
  | cons e pre ih =>
    intro rest off it0 k hwf hne h hn
    simp only [Elt.WFs] at hwf
    rw [Elt.bytesList_cons, List.append_assoc] at h
    obtain ⟨hnx, hd, -, -⟩ := bson_iterator_next_elt buf _ off e hwf.1 h
    have hpass := find_loop_pass name buf _ off e it0 (pre.length + k) hwf.1 h
      (hne e (by simp)) hn
    obtain ⟨it1, h1, h2, h3⟩ := ih rest (off + e.bytes.length) ⟨buf, off, false⟩ k hwf.2
      (fun x hx => hne x (by simp [hx])) hd hnx
    refine ⟨it1, ?_, ?_, ?_⟩
    · rw [Elt.bytesList_cons, List.length_append, ← Nat.add_assoc]; exact h1
    · rw [Elt.bytesList_cons, List.length_append, ← Nat.add_assoc]; exact h2
    · have : (e :: pre).length + k = (pre.length + k) + 1 := by
        simp only [List.length_cons]; omega
      rw [this, hpass, h3]

/-- The lookup loop over a sequence of elements that holds the name: it stops on
the first element whose key is the name. -/
theorem find_loop_found (name buf : List Nat) (pre : List Elt) (e : Elt) (suf : List Nat)
    (off : Nat) (it0 : bson_iterator) (fuel : Nat) (hpre : Elt.WFs pre) (he : e.WF)
    (hne : ∀ x ∈ pre, x.key ≠ cstr name) (hk : e.key = cstr name)
    (h : buf.drop off = Elt.bytesList pre ++ (e.bytes ++ suf))
    (hn : bson_iterator_next it0 = some (byteAt buf off, ⟨buf, off, false⟩))
    (hfuel : pre.length < fuel) :
    bson_find_loop name fuel it0 = some ⟨buf, off + (Elt.bytesList pre).length, false⟩ := by
  obtain ⟨it1, h1, h2, h3⟩ := find_loop_run name buf pre _ off it0 (fuel - pre.length) hpre hne
    h hn
  have hf : pre.length + (fuel - pre.length) = fuel := by omega
  rw [hf] at h3
  rw [h3]
  have hs : fuel - pre.length = (fuel - pre.length - 1) + 1 := by omega
  rw [hs]
  exact find_loop_hit name buf suf _ e it1 _ he h2 hk h1

/-- The lookup loop over a sequence of elements that does not hold the name: it
stops on the terminator. -/
theorem find_loop_missing (name buf : List Nat) (es : List Elt) (suf : List Nat)
    (off : Nat) (it0 : bson_iterator) (fuel : Nat) (hes : Elt.WFs es)
    (hne : ∀ x ∈ es, x.key ≠ cstr name)
    (h : buf.drop off = Elt.bytesList es ++ 0 :: suf)
    (hn : bson_iterator_next it0 = some (byteAt buf off, ⟨buf, off, false⟩))
    (hfuel : es.length < fuel) :
    bson_find_loop name fuel it0 = some ⟨buf, off + (Elt.bytesList es).length, false⟩ := by
  obtain ⟨it1, h1, h2, h3⟩ := find_loop_run name buf es _ off it0 (fuel - es.length) hes hne
    h hn
  have hf : es.length + (fuel - es.length) = fuel := by omega
  rw [hf] at h3
  rw [h3]
  have hs : fuel - es.length = (fuel - es.length - 1) + 1 := by omega
  rw [hs]
  exact find_loop_end name buf _ it1 _ (byteAt_of_drop _ _ _ _ h2) h1

theorem Elt.bytesList_append (a : List Elt) : ∀ b : List Elt,
    Elt.bytesList (a ++ b) = Elt.bytesList a ++ Elt.bytesList b := by
  induction a with
  | nil => intro b; simp [Elt.bytesList]
  | cons x xs ih =>
    intro b
    rw [List.cons_append, Elt.bytesList_cons, Elt.bytesList_cons, ih, List.append_assoc]

theorem Elt.WFs_append (a : List Elt) : ∀ b : List Elt,
    Elt.WFs (a ++ b) ↔ Elt.WFs a ∧ Elt.WFs b := by
  induction a with
  | nil => intro b; simp [Elt.WFs]
  | cons x xs ih =>
    intro b
    have h := ih b
    simp only [List.cons_append, Elt.WFs]
    constructor
    · intro hh; exact ⟨⟨hh.1, (h.mp hh.2).1⟩, (h.mp hh.2).2⟩
    · intro hh; exact ⟨hh.1.1, h.mpr ⟨hh.1.2, hh.2⟩⟩

theorem Elt.WFs_mem (es : List Elt) (h : Elt.WFs es) : ∀ x ∈ es, x.WF := by
  induction es with
  | nil => intro x hx; simp at hx
  | cons e es ih =>
    intro x hx
    simp only [Elt.WFs] at h
    rcases List.mem_cons.mp hx with rfl | hx
    · exact h.1
    · exact ih h.2 x hx

/-- The lookup in a block that holds a document of well-formed elements. -/
theorem find_in_layout (name buf : List Nat) (es : List Elt) (suf : List Nat) (fuel : Nat)
    (hes : Elt.WFs es) (h : buf.drop 4 = Elt.bytesList es ++ 0 :: suf)
    (hfuel : es.length < fuel) :
    (∀ pre e post, es = pre ++ e :: post → e.key = cstr name →
        (∀ x ∈ pre, x.key ≠ cstr name) →
        bson_find_loop name fuel ⟨buf, 4, true⟩
          = some ⟨buf, 4 + (Elt.bytesList pre).length, false⟩ ∧
        bson_iterator_type ⟨buf, 4 + (Elt.bytesList pre).length, false⟩ = e.type ∧
        buf.drop (4 + (Elt.bytesList pre).length)
          = e.bytes ++ (Elt.bytesList post ++ 0 :: suf)) ∧
    ((∀ x ∈ es, x.key ≠ cstr name) →
        bson_find_loop name fuel ⟨buf, 4, true⟩
          = some ⟨buf, 4 + (Elt.bytesList es).length, false⟩ ∧
        bson_iterator_type ⟨buf, 4 + (Elt.bytesList es).length, false⟩ = BSON_EOO ∧
        buf.drop (4 + (Elt.bytesList es).length) = 0 :: suf) := by
  have hn : bson_iterator_next ⟨buf, 4, true⟩ = some (byteAt buf 4, ⟨buf, 4, false⟩) := by
    simp [bson_iterator_next]
  constructor
  · intro pre e post hsplit hk hne
    rw [hsplit, Elt.WFs_append] at hes
    simp only [Elt.WFs] at hes
    rw [hsplit, Elt.bytesList_append, Elt.bytesList_cons, List.append_assoc,
      List.append_assoc] at h
    have hlen : pre.length < fuel := by
      rw [hsplit] at hfuel
      simp only [List.length_append, List.length_cons] at hfuel
      omega
    have hd := drop_of_drop_append buf _ _ 4 h
    refine ⟨find_loop_found name buf pre e _ 4 _ fuel hes.1 hes.2.1 hne hk h hn hlen, ?_, hd⟩
    exact (bson_iterator_next_elt buf _ _ e hes.2.1 hd).2.2.1
  · intro hne
    have hd := drop_of_drop_append buf _ _ 4 h
    refine ⟨find_loop_missing name buf es suf 4 _ fuel hes hne h hn hfuel, ?_, hd⟩
    exact byteAt_of_drop _ _ _ _ hd

/-- C13: in a finished document built from `bson_init` by a balanced builder
program whose calls all succeed (field names possibly repeated), `bson_find` and
`bson_find_from_buffer` return the type of the first top-level element whose key
equals `name` as a C string and leave the iterator on that element; when no
top-level key equals `name` they return `BSON_EOO` and leave the iterator on the
terminator of the document. -/
theorem bson_find_first_match (items : List Item) (b d : bson) (name : List Nat) (fuel : Nat)
    (hargs : Item.args_ok_list items)
    (hb : Item.buildList items bson_init = (BSON_OK, b)) (hf : bson_finish b = (BSON_OK, d))
    (hsz : (d.cur : Int) ≤ INT_MAX) (hfuel : (Item.elts items).length < fuel) :
    (∀ pre e post, Item.elts items = pre ++ e :: post → e.key = cstr name →
        (∀ x ∈ pre, x.key ≠ cstr name) →
        bson_find fuel d name
          = some (e.type, ⟨d.data, 4 + (Elt.bytesList pre).length, false⟩) ∧
        bson_find_from_buffer fuel d.data 0 name
          = some (e.type, ⟨d.data, 4 + (Elt.bytesList pre).length, false⟩) ∧
        d.data.drop (4 + (Elt.bytesList pre).length)
          = e.bytes ++ (Elt.bytesList post ++ [0])) ∧
    ((∀ x ∈ Item.elts items, x.key ≠ cstr name) →
        bson_find fuel d name = some (BSON_EOO, ⟨d.data, d.cur - 1, false⟩) ∧
        bson_find_from_buffer fuel d.data 0 name
          = some (BSON_EOO, ⟨d.data, d.cur - 1, false⟩) ∧
        d.data.drop (d.cur - 1) = [0]) := by
  have hl := built_doc_layout items b d hb hf
  have hlen : d.cur = (Elt.bytesList (Item.elts items)).length + 5 := by
    simp only [bson.cur, hl, List.length_append, le32_bytes_length, List.length_cons,
      List.length_nil]
    omega
  have hwf := Item.elts_wf items hargs (by rw [hlen] at hsz; push_cast at hsz; omega)
  have hdrop : d.data.drop 4 = Elt.bytesList (Item.elts items) ++ 0 :: [] := by
    rw [hl]
    have : (le32_bytes (((Elt.bytesList (Item.elts items)).length : Int) + 5)).length = 4 :=
      le32_bytes_length _
    rw [← this, List.drop_left]
  obtain ⟨hfound, hmiss⟩ := find_in_layout name d.data (Item.elts items) [] fuel hwf hdrop hfuel
  constructor
  · intro pre e post hsplit hk hne
    obtain ⟨h1, h2, h3⟩ := hfound pre e post hsplit hk hne
    refine ⟨?_, ?_, h3⟩
    · simp only [bson_find, bson_iterator_init, h1, Option.map_some', h2]
    · simp only [bson_find_from_buffer, bson_iterator_from_buffer, Nat.zero_add, h1,
        Option.map_some', h2]
  · intro hne
    obtain ⟨h1, h2, h3⟩ := hmiss hne
    have hc : d.cur - 1 = 4 + (Elt.bytesList (Item.elts items)).length := by omega
    rw [hc]
    refine ⟨?_, ?_, h3⟩
    · simp only [bson_find, bson_iterator_init, h1, Option.map_some', h2]
    · simp only [bson_find_from_buffer, bson_iterator_from_buffer, Nat.zero_add, h1,
        Option.map_some', h2]

theorem sample_dup_args : Item.args_ok_list sample_dup_items := by
  simp only [sample_dup_items, Item.args_ok_list, Item.args_ok, Field.args_ok, and_true]

/-- In `{a: 1, b: 2, a: 3}` the name `a` is found at the first element, the name
`b` at the second, and the name `z` is not found. -/
theorem bson_find_first_match_witness :
    (bson_find 4 sample_dup_doc [97] = some (BSON_INT, ⟨sample_dup_doc.data, 4, false⟩) ∧
      bson_find 4 sample_dup_doc [98] = some (BSON_INT, ⟨sample_dup_doc.data, 11, false⟩)) ∧
      bson_find 4 sample_dup_doc [122]
        = some (BSON_EOO, ⟨sample_dup_doc.data, sample_dup_doc.cur - 1, false⟩) :=
  ⟨⟨((bson_find_first_match sample_dup_items (Item.buildList sample_dup_items bson_init).2
        sample_dup_doc [97] 4 sample_dup_args (by decide) (by decide) (by decide)
        (by decide)).1 [] (.leaf BSON_INT [97] (le32_bytes 1))
        [.leaf BSON_INT [98] (le32_bytes 2), .leaf BSON_INT [97] (le32_bytes 3)]
        rfl (by decide) (by decide)).1,
    ((bson_find_first_match sample_dup_items (Item.buildList sample_dup_items bson_init).2
        sample_dup_doc [98] 4 sample_dup_args (by decide) (by decide) (by decide)
        (by decide)).1 [.leaf BSON_INT [97] (le32_bytes 1)]
        (.leaf BSON_INT [98] (le32_bytes 2)) [.leaf BSON_INT [97] (le32_bytes 3)]
        rfl (by decide) (by decide)).1⟩,
    ((bson_find_first_match sample_dup_items (Item.buildList sample_dup_items bson_init).2
        sample_dup_doc [122] 4 sample_dup_args (by decide) (by decide) (by decide)
        (by decide)).2 (by decide)).1⟩

/-! ## The comparator -/

/-- The type `bson_iterator_next` returns is the type under the cursor it
leaves. -/
theorem next_type (it it1 : bson_iterator) (t : Nat)
    (h : bson_iterator_next it = some (t, it1)) : bson_iterator_type it1 = t := by
  unfold bson_iterator_next at h
  by_cases hf : it.first = true
  · rw [if_pos hf] at h
    simp only [Option.some.injEq, Prod.mk.injEq] at h
    rw [← h.2, ← h.1]
    rfl
  · rw [if_neg hf] at h
    by_cases h0 : bson_iterator_type it = BSON_EOO
    · rw [if_pos h0] at h
      simp only [Option.some.injEq, Prod.mk.injEq] at h
      rw [← h.2, ← h.1]
      exact h0
    · rw [if_neg h0] at h
      cases hds : bson_iterator_ds it with
      | none => rw [hds] at h; simp at h
      | some ds =>
        rw [hds] at h
        simp only [Option.some.injEq, Prod.mk.injEq] at h
        rw [← h.2, ← h.1]
        rfl

/-- The type the resolver returns is the type under the cursor it leaves. -/
theorem impl_type (M : Nat) (fpath : List Nat) (fplen : Nat) : ∀ (fuel : Nat)
    (pstack : List Nat) (curr : Nat) (it : bson_iterator) (t : Nat) (ps : List Nat)
    (it' : bson_iterator),
    bson_find_fieldpath_value_impl M fuel pstack curr fpath fplen it = some (t, ps, it') →
    bson_iterator_type it' = t := by
  intro fuel
  induction fuel with
  | zero =>
    intro pstack curr it t ps it' h
    simp [bson_find_fieldpath_value_impl] at h
  | succ fuel ih =>
    intro pstack curr it t ps it' h
    rw [bson_find_fieldpath_value_impl_unfold] at h
    cases hn : bson_iterator_next it with
    | none => rw [hn] at h; simp at h
    | some p =>
      obtain ⟨t0, it1⟩ := p
      rw [hn] at h
      have hty := next_type it it1 t0 hn
      simp only at h
      by_cases ht : t0 = BSON_EOO
      · rw [if_pos ht] at h
        simp only [Option.some.injEq, Prod.mk.injEq] at h
        rw [← h.2.2, ← h.1, hty, ht]
      · rw [if_neg ht] at h
        repeat' split at h
        all_goals first
          | exact ih _ _ _ _ _ _ h
          | (simp only [Option.some.injEq, Prod.mk.injEq] at h
             rw [← h.2.2, ← h.1, hty])
          | (simp only [Option.some.injEq, Prod.mk.injEq] at h
             rw [← h.2.2, ← h.1]
             apply ih
             assumption)
          | (simp at h)

/-- The type `bson_find_fieldpath_value2` returns for a path shorter than the
limit is the type under the cursor it leaves. -/
theorem value2_type (M fuel : Nat) (fpath : List Nat) (fplen : Nat) (it it' : bson_iterator)
    (t : Nat) (hlen : fplen < M)
    (h : bson_find_fieldpath_value2 M fuel fpath fplen it = some (t, it')) :
    bson_iterator_type it' = t := by
  unfold bson_find_fieldpath_value2 at h
  rw [if_neg (by omega)] at h
  cases hr : bson_find_fieldpath_value_impl M fuel (List.replicate M 0) 0 fpath fplen it with
  | none => rw [hr] at h; simp at h
  | some r =>
    obtain ⟨t0, ps, it0⟩ := r
    rw [hr] at h
    simp only [Option.map_some', Option.some.injEq, Prod.mk.injEq] at h
    rw [← h.2, ← h.1]
    exact impl_type M fpath fplen fuel _ _ _ _ _ _ hr

/-- A type other than `BSON_EOO` comes from a path shorter than the limit. -/
theorem value2_found_len (M fuel : Nat) (fpath : List Nat) (fplen : Nat)
    (it it' : bson_iterator) (t : Nat) (ht : t ≠ BSON_EOO)
    (h : bson_find_fieldpath_value2 M fuel fpath fplen it = some (t, it')) : fplen < M := by
  by_contra hc
  unfold bson_find_fieldpath_value2 at h
  rw [if_pos (by omega)] at h
  simp only [Option.some.injEq, Prod.mk.injEq] at h
  exact ht h.1.symm

/-- C15: whenever the two paths resolve to elements of the types INT, LONG, DATE
or TIMESTAMP, the iterators the resolver leaves stand on elements of these types
and `bson_compare_fpaths` compares the two values as signed 64-bit integers, an
INT read as its sign-extended 32 bits and a LONG, DATE or TIMESTAMP as its raw 64
bits: the result is `-1`, `0` or `1` as the first value is less than, equal to or
greater than the second. -/
theorem compare_integer_class (M fuel : Nat) (bs1 bs2 fpath1 : List Nat) (fplen1 : Nat)
    (fpath2 : List Nat) (fplen2 : Nat) (t1 t2 : Nat) (it1 it2 : bson_iterator)
    (h1 : bson_find_fieldpath_value2 M fuel fpath1 fplen1 (bson_iterator_from_buffer bs1 0)
      = some (t1, it1))
    (h2 : bson_find_fieldpath_value2 M fuel fpath2 fplen2 (bson_iterator_from_buffer bs2 0)
      = some (t2, it2))
    (ht1 : t1 = BSON_INT ∨ t1 = BSON_LONG ∨ t1 = BSON_DATE ∨ t1 = BSON_TIMESTAMP)
    (ht2 : t2 = BSON_INT ∨ t2 = BSON_LONG ∨ t2 = BSON_DATE ∨ t2 = BSON_TIMESTAMP) :
    bson_iterator_type it1 = t1 ∧ bson_iterator_type it2 = t2 ∧
      ((if t1 = BSON_INT then bson_iterator_int_raw it1 else bson_iterator_long_raw it1)
          < (if t2 = BSON_INT then bson_iterator_int_raw it2 else bson_iterator_long_raw it2) →
        bson_compare_fpaths M fuel bs1 bs2 fpath1 fplen1 fpath2 fplen2 = some (-1)) ∧
      ((if t1 = BSON_INT then bson_iterator_int_raw it1 else bson_iterator_long_raw it1)
          = (if t2 = BSON_INT then bson_iterator_int_raw it2 else bson_iterator_long_raw it2) →
        bson_compare_fpaths M fuel bs1 bs2 fpath1 fplen1 fpath2 fplen2 = some 0) ∧
      ((if t2 = BSON_INT then bson_iterator_int_raw it2 else bson_iterator_long_raw it2)
          < (if t1 = BSON_INT then bson_iterator_int_raw it1 else bson_iterator_long_raw it1) →
        bson_compare_fpaths M fuel bs1 bs2 fpath1 fplen1 fpath2 fplen2 = some 1) := by
  have hne1 : t1 ≠ BSON_EOO := by
    rcases ht1 with h | h | h | h <;> rw [h] <;> decide
  have hne2 : t2 ≠ BSON_EOO := by
    rcases ht2 with h | h | h | h <;> rw [h] <;> decide
  have hty1 := value2_type M fuel fpath1 fplen1 _ it1 t1
    (value2_found_len M fuel fpath1 fplen1 _ it1 t1 hne1 h1) h1
  have hty2 := value2_type M fuel fpath2 fplen2 _ it2 t2
    (value2_found_len M fuel fpath2 fplen2 _ it2 t2 hne2 h2) h2
  have hb : ¬ (t1 = BSON_BOOL ∨ t1 = BSON_EOO ∨ t1 = BSON_NULL ∨ t1 = BSON_UNDEFINED) := by
    rcases ht1 with h | h | h | h <;> rw [h] <;> decide
  have hv1 : bson_iterator_long_ext it1
      = (if t1 = BSON_INT then bson_iterator_int_raw it1 else bson_iterator_long_raw it1) := by
    unfold bson_iterator_long_ext
    rw [hty1]
    rcases ht1 with h | h | h | h <;> rw [h] <;> simp [BSON_INT, BSON_LONG, BSON_DATE,
      BSON_TIMESTAMP]
  have hv2 : bson_iterator_long_ext it2
      = (if t2 = BSON_INT then bson_iterator_int_raw it2 else bson_iterator_long_raw it2) := by
    unfold bson_iterator_long_ext
    rw [hty2]
    rcases ht2 with h | h | h | h <;> rw [h] <;> simp [BSON_INT, BSON_LONG, BSON_DATE,
      BSON_TIMESTAMP]
  have hc : bson_compare_fpaths M fuel bs1 bs2 fpath1 fplen1 fpath2 fplen2
      = some (if bson_iterator_long_ext it1 > bson_iterator_long_ext it2 then 1
          else if bson_iterator_long_ext it1 < bson_iterator_long_ext it2 then -1 else 0) := by
    unfold bson_compare_fpaths
    rw [h1, h2]
    simp only [if_neg hb, if_pos ht1]
  rw [hv1, hv2] at hc
  refine ⟨hty1, hty2, ?_, ?_, ?_⟩
  · intro h
    rw [hc, if_neg (by omega), if_pos h]
  · intro h
    rw [hc, if_neg (by omega), if_neg (by omega)]
  · intro h
    rw [hc, if_pos h]

set_option maxRecDepth 100000 in
/-- An INT 5 against an INT 5 and an INT 5 against a LONG 5 give `0`. -/
theorem compare_integer_class_witness :
    bson_compare_fpaths 255 2 sample_five_doc.data sample_five_doc.data [97] 1 [97] 1 = some 0 ∧
      bson_compare_fpaths 255 2 sample_five_doc.data sample_long_five_doc.data [97] 1 [97] 1
        = some 0 :=
  ⟨(compare_integer_class 255 2 sample_five_doc.data sample_five_doc.data [97] 1 [97] 1
      BSON_INT BSON_INT ⟨sample_five_doc.data, 4, false⟩ ⟨sample_five_doc.data, 4, false⟩
      (by decide!) (by decide!) (by decide) (by decide)).2.2.2.1 (by decide),
    (compare_integer_class 255 2 sample_five_doc.data sample_long_five_doc.data [97] 1 [97] 1
      BSON_INT BSON_LONG ⟨sample_five_doc.data, 4, false⟩
      ⟨sample_long_five_doc.data, 4, false⟩
      (by decide!) (by decide!) (by decide) (by decide)).2.2.2.1 (by decide)⟩

/-! ## The comparator across type classes -/

set_option maxRecDepth 100000 in
/-- C16, counterexample: the three comparisons the claim names do not give `0`.
With the documents `{a: 5}` (an INT), `{a: false}` and `{s: "apple"}`: the INT
against the STRING gives `1`, the BOOL `false` against the STRING gives `-1`, and
the STRING against the missing field `x` gives `6`, the declared length of
`"apple"`. -/
theorem cross_class_not_zero :
    bson_find_fieldpath_value2 255 2 [97] 1 (bson_iterator_from_buffer sample_five_doc.data 0)
        = some (BSON_INT, ⟨sample_five_doc.data, 4, false⟩) ∧
      bson_find_fieldpath_value2 255 2 [97] 1
          (bson_iterator_from_buffer sample_false_doc.data 0)
        = some (BSON_BOOL, ⟨sample_false_doc.data, 4, false⟩) ∧
      bson_find_fieldpath_value2 255 2 [115] 1
          (bson_iterator_from_buffer sample_apple_doc.data 0)
        = some (BSON_STRING, ⟨sample_apple_doc.data, 4, false⟩) ∧
      bson_find_fieldpath_value2 255 2 [120] 1
          (bson_iterator_from_buffer sample_apple_doc.data 0)
        = some (BSON_EOO, ⟨sample_apple_doc.data, 17, false⟩) ∧
      bson_compare_fpaths 255 2 sample_five_doc.data sample_apple_doc.data [97] 1 [115] 1
        = some 1 ∧
      bson_compare_fpaths 255 2 sample_false_doc.data sample_apple_doc.data [97] 1 [115] 1
        = some (-1) ∧
      bson_compare_fpaths 255 2 sample_apple_doc.data sample_apple_doc.data [115] 1 [120] 1
        = some 6 := by
  decide!

theorem TCCMPLEXICAL_empty (v : List Nat) (l : Int) : TCCMPLEXICAL v l [] 0 = l := by
  unfold TCCMPLEXICAL
  have h : (min l 0).toNat = 0 := by
    rw [Int.toNat_eq_zero]
    exact min_le_right _ _
  simp [h, mem_take, first_diff]

/-- C16, amended: when the two paths, both shorter than the limit, resolve to
values of different type classes, `bson_compare_fpaths` compares in the class of
the first value and reads the second value through the accessor of that class.
A first value of the boolean class (BOOL, NULL, UNDEFINED, missing) is compared,
as its stored byte (a signed `char`) or `0`, with the truth value of the second: whether an INT, a
LONG or a DOUBLE is not zero, and `1` for every other type.  A first value of the
integer class is compared with `0` when the second is neither of that class nor
a DOUBLE.  A first DOUBLE is compared with `0.0` when the second is neither INT,
LONG nor DOUBLE.  A first STRING or SYMBOL gives its declared length when the
second is neither.  The result is `0` when the first value is of no class, or is
a BINDATA and the second is not. -/
theorem compare_cross_class (M fuel : Nat) (bs1 bs2 fpath1 : List Nat) (fplen1 : Nat)
    (fpath2 : List Nat) (fplen2 : Nat) (t1 t2 : Nat) (it1 it2 : bson_iterator)
    (hl1 : fplen1 < M) (hl2 : fplen2 < M)
    (h1 : bson_find_fieldpath_value2 M fuel fpath1 fplen1 (bson_iterator_from_buffer bs1 0)
      = some (t1, it1))
    (h2 : bson_find_fieldpath_value2 M fuel fpath2 fplen2 (bson_iterator_from_buffer bs2 0)
      = some (t2, it2)) :
    ((t1 = BSON_BOOL ∨ t1 = BSON_EOO ∨ t1 = BSON_NULL ∨ t1 = BSON_UNDEFINED) →
      ¬ (t2 = BSON_BOOL ∨ t2 = BSON_EOO ∨ t2 = BSON_NULL ∨ t2 = BSON_UNDEFINED) →
      bson_compare_fpaths M fuel bs1 bs2 fpath1 fplen1 fpath2 fplen2
        = some
          (if (if t1 = BSON_BOOL then (bson_iterator_bool_raw it1 : Int) else 0)
              > (if t2 = BSON_INT then (if bson_iterator_int_raw it2 ≠ 0 then 1 else 0)
                else if t2 = BSON_LONG then (if bson_iterator_long_raw it2 ≠ 0 then 1 else 0)
                else if t2 = BSON_DOUBLE then
                  (if double_ne_zero (bson_iterator_double_raw it2) then 1 else 0)
                else 1) then 1
            else if (if t1 = BSON_BOOL then (bson_iterator_bool_raw it1 : Int) else 0)
              < (if t2 = BSON_INT then (if bson_iterator_int_raw it2 ≠ 0 then 1 else 0)
                else if t2 = BSON_LONG then (if bson_iterator_long_raw it2 ≠ 0 then 1 else 0)
                else if t2 = BSON_DOUBLE then
                  (if double_ne_zero (bson_iterator_double_raw it2) then 1 else 0)
                else 1) then -1
            else 0)) ∧
    ((t1 = BSON_INT ∨ t1 = BSON_LONG ∨ t1 = BSON_DATE ∨ t1 = BSON_TIMESTAMP) →
      ¬ (t2 = BSON_INT ∨ t2 = BSON_LONG ∨ t2 = BSON_DATE ∨ t2 = BSON_TIMESTAMP) →
      t2 ≠ BSON_DOUBLE →
      bson_compare_fpaths M fuel bs1 bs2 fpath1 fplen1 fpath2 fplen2
        = some
          (if (if t1 = BSON_INT then bson_iterator_int_raw it1 else bson_iterator_long_raw it1)
              > 0 then 1
            else if (if t1 = BSON_INT then bson_iterator_int_raw it1
              else bson_iterator_long_raw it1) < 0 then -1
            else 0)) ∧
    (t1 = BSON_DOUBLE → ¬ (t2 = BSON_INT ∨ t2 = BSON_LONG ∨ t2 = BSON_DOUBLE) →
      bson_compare_fpaths M fuel bs1 bs2 fpath1 fplen1 fpath2 fplen2
        = some
          (if double_lt 0 (bson_iterator_double_raw it1) then 1
            else if double_lt (bson_iterator_double_raw it1) 0 then -1 else 0)) ∧
    ((t1 = BSON_STRING ∨ t1 = BSON_SYMBOL) → ¬ (t2 = BSON_STRING ∨ t2 = BSON_SYMBOL) →
      bson_compare_fpaths M fuel bs1 bs2 fpath1 fplen1 fpath2 fplen2
        = some (read_le32 it1.buf (bson_iterator_value it1))) ∧
    (¬ (t1 = BSON_BOOL ∨ t1 = BSON_EOO ∨ t1 = BSON_NULL ∨ t1 = BSON_UNDEFINED) →
      ¬ (t1 = BSON_INT ∨ t1 = BSON_LONG ∨ t1 = BSON_DATE ∨ t1 = BSON_TIMESTAMP) →
      t1 ≠ BSON_DOUBLE → ¬ (t1 = BSON_STRING ∨ t1 = BSON_SYMBOL) →
      (t1 = BSON_BINDATA → t2 ≠ BSON_BINDATA) →
      bson_compare_fpaths M fuel bs1 bs2 fpath1 fplen1 fpath2 fplen2 = some 0) := by
  have hty1 := value2_type M fuel fpath1 fplen1 _ it1 t1 hl1 h1
  have hty2 := value2_type M fuel fpath2 fplen2 _ it2 t2 hl2 h2
  refine ⟨?_, ?_, ?_, ?_, ?_⟩
  · intro hb1 hb2
    have hv1 : bson_iterator_bool it1
        = (if t1 = BSON_BOOL then (bson_iterator_bool_raw it1 : Int) else 0) := by
      unfold bson_iterator_bool
      rw [hty1]
      rcases hb1 with h | h | h | h <;> rw [h] <;>
        simp [BSON_BOOL, BSON_EOO, BSON_NULL, BSON_UNDEFINED, BSON_INT, BSON_LONG, BSON_DOUBLE]
    have hv2 : bson_iterator_bool it2
        = (if t2 = BSON_INT then (if bson_iterator_int_raw it2 ≠ 0 then 1 else 0)
            else if t2 = BSON_LONG then (if bson_iterator_long_raw it2 ≠ 0 then 1 else 0)
            else if t2 = BSON_DOUBLE then
              (if double_ne_zero (bson_iterator_double_raw it2) then 1 else 0)
            else 1) := by
      unfold bson_iterator_bool
      rw [hty2]
      have hn1 : t2 ≠ BSON_BOOL := fun h => hb2 (Or.inl h)
      have hn2 : ¬ (t2 = BSON_EOO ∨ t2 = BSON_NULL ∨ t2 = BSON_UNDEFINED) :=
        fun h => hb2 (Or.inr h)
      simp only [if_neg hn1, if_neg hn2]
    unfold bson_compare_fpaths
    rw [h1, h2]
    simp only [if_pos hb1, hv1, hv2]
  · intro hi1 hi2 hd2
    have hb : ¬ (t1 = BSON_BOOL ∨ t1 = BSON_EOO ∨ t1 = BSON_NULL ∨ t1 = BSON_UNDEFINED) := by
      rcases hi1 with h | h | h | h <;> rw [h] <;> decide
    have hv1 : bson_iterator_long_ext it1
        = (if t1 = BSON_INT then bson_iterator_int_raw it1
            else bson_iterator_long_raw it1) := by
      unfold bson_iterator_long_ext
      rw [hty1]
      rcases hi1 with h | h | h | h <;> rw [h] <;> simp [BSON_INT, BSON_LONG, BSON_DATE,
        BSON_TIMESTAMP]
    have hv2 : bson_iterator_long_ext it2 = 0 := by
      unfold bson_iterator_long_ext
      rw [hty2]
      have hn1 : t2 ≠ BSON_INT := fun h => hi2 (Or.inl h)
      have hn2 : ¬ (t2 = BSON_LONG ∨ t2 = BSON_DATE ∨ t2 = BSON_TIMESTAMP) :=
        fun h => hi2 (Or.inr h)
      simp only [if_neg hn1, if_neg hn2, if_neg hd2]
    unfold bson_compare_fpaths
    rw [h1, h2]
    simp only [if_neg hb, if_pos hi1, hv1, hv2]
  · intro hd1 hn2
    have hv2 : bson_iterator_double it2 = 0 := by
      unfold bson_iterator_double
      rw [hty2]
      have hn1 : t2 ≠ BSON_INT := fun h => hn2 (Or.inl h)
      have hn3 : t2 ≠ BSON_LONG := fun h => hn2 (Or.inr (Or.inl h))
      have hn4 : t2 ≠ BSON_DOUBLE := fun h => hn2 (Or.inr (Or.inr h))
      simp only [if_neg hn1, if_neg hn3, if_neg hn4]
    unfold bson_compare_fpaths
    rw [h1, h2]
    subst hd1
    simp [BSON_DOUBLE, BSON_BOOL, BSON_EOO, BSON_NULL, BSON_UNDEFINED, BSON_INT, BSON_LONG,
      BSON_DATE, BSON_TIMESTAMP, hv2]
  · intro hs1 hs2
    have hb : ¬ (t1 = BSON_BOOL ∨ t1 = BSON_EOO ∨ t1 = BSON_NULL ∨ t1 = BSON_UNDEFINED) := by
      rcases hs1 with h | h <;> rw [h] <;> decide
    have hi : ¬ (t1 = BSON_INT ∨ t1 = BSON_LONG ∨ t1 = BSON_DATE ∨ t1 = BSON_TIMESTAMP) := by
      rcases hs1 with h | h <;> rw [h] <;> decide
    have hd : t1 ≠ BSON_DOUBLE := by
      rcases hs1 with h | h <;> rw [h] <;> decide
    have hv2 : bson_iterator_string it2 = [] := by
      unfold bson_iterator_string
      rw [hty2]
      simp only [if_neg hs2]
    unfold bson_compare_fpaths
    rw [h1, h2]
    simp only [if_neg hb, if_neg hi, if_neg hd, if_pos hs1, if_neg hs2, hv2, strlen,
      Nat.cast_zero, TCCMPLEXICAL_empty, bson_iterator_string_len, bson_iterator_int_raw]
  · intro hb hi hd hs hbin
    have hbb : ¬ (t1 = BSON_BINDATA ∧ t2 = BSON_BINDATA) := fun h => hbin h.1 h.2
    unfold bson_compare_fpaths
    rw [h1, h2]
    simp only [if_neg hb, if_neg hi, if_neg hd, if_neg hs, if_neg hbb]

set_option maxRecDepth 100000 in
/-- The INT 5 of `{a: 5}` against the STRING of `{s: "apple"}` gives `1`; a BOOL
whose stored byte is 255, read as the `char` `-1`, against the INT 5 gives `-1`. -/
theorem compare_cross_class_witness :
    bson_compare_fpaths 255 2 sample_five_doc.data sample_apple_doc.data [97] 1 [115] 1
        = some 1 ∧
      bson_compare_fpaths 255 2 [9, 0, 0, 0, 8, 97, 0, 255, 0] sample_five_doc.data
        [97] 1 [97] 1 = some (-1) :=
  ⟨(compare_cross_class 255 2 sample_five_doc.data sample_apple_doc.data [97] 1 [115] 1
      BSON_INT BSON_STRING ⟨sample_five_doc.data, 4, false⟩ ⟨sample_apple_doc.data, 4, false⟩
      (by decide) (by decide) (by decide!) (by decide!)).2.1 (by decide) (by decide) (by decide),
    ((compare_cross_class 255 2 [9, 0, 0, 0, 8, 97, 0, 255, 0] sample_five_doc.data [97] 1
      [97] 1 BSON_BOOL BSON_INT ⟨[9, 0, 0, 0, 8, 97, 0, 255, 0], 4, false⟩
      ⟨sample_five_doc.data, 4, false⟩ (by decide) (by decide) (by decide!) (by decide!)).1
      (Or.inl rfl) (by decide)).trans (by decide!)⟩

/-! ## The comparator: missing values, strings and binary data -/

/-- For paths shorter than the limit that resolve to types of the boolean class
(BOOL, NULL, UNDEFINED, or `BSON_EOO` for a missing field), the comparator
compares the two truth values, a BOOL counted as its stored byte and the other
three as `0`. -/
theorem compare_boolean_class_short (M fuel : Nat) (bs1 bs2 fpath1 : List Nat) (fplen1 : Nat)
    (fpath2 : List Nat) (fplen2 : Nat) (t1 t2 : Nat) (it1 it2 : bson_iterator)
    (hl1 : fplen1 < M) (hl2 : fplen2 < M)
    (h1 : bson_find_fieldpath_value2 M fuel fpath1 fplen1 (bson_iterator_from_buffer bs1 0)
      = some (t1, it1))
    (h2 : bson_find_fieldpath_value2 M fuel fpath2 fplen2 (bson_iterator_from_buffer bs2 0)
      = some (t2, it2))
    (hb1 : t1 = BSON_BOOL ∨ t1 = BSON_EOO ∨ t1 = BSON_NULL ∨ t1 = BSON_UNDEFINED)
    (hb2 : t2 = BSON_BOOL ∨ t2 = BSON_EOO ∨ t2 = BSON_NULL ∨ t2 = BSON_UNDEFINED) :
    bson_compare_fpaths M fuel bs1 bs2 fpath1 fplen1 fpath2 fplen2
      = some
        (if (if t1 = BSON_BOOL then (bson_iterator_bool_raw it1 : Int) else 0)
            > (if t2 = BSON_BOOL then (bson_iterator_bool_raw it2 : Int) else 0) then 1
          else if (if t1 = BSON_BOOL then (bson_iterator_bool_raw it1 : Int) else 0)
            < (if t2 = BSON_BOOL then (bson_iterator_bool_raw it2 : Int) else 0) then -1
          else 0) := by
  have hty1 := value2_type M fuel fpath1 fplen1 _ it1 t1 hl1 h1
  have hty2 := value2_type M fuel fpath2 fplen2 _ it2 t2 hl2 h2
  have hv1 : bson_iterator_bool it1
      = (if t1 = BSON_BOOL then (bson_iterator_bool_raw it1 : Int) else 0) := by
    unfold bson_iterator_bool
    rw [hty1]
    rcases hb1 with h | h | h | h <;> rw [h] <;>
      simp [BSON_BOOL, BSON_EOO, BSON_NULL, BSON_UNDEFINED, BSON_INT, BSON_LONG, BSON_DOUBLE]
  have hv2 : bson_iterator_bool it2
      = (if t2 = BSON_BOOL then (bson_iterator_bool_raw it2 : Int) else 0) := by
    unfold bson_iterator_bool
    rw [hty2]
    rcases hb2 with h | h | h | h <;> rw [h] <;>
      simp [BSON_BOOL, BSON_EOO, BSON_NULL, BSON_UNDEFINED, BSON_INT, BSON_LONG, BSON_DOUBLE]
  unfold bson_compare_fpaths
  rw [h1, h2]
  simp only [if_pos hb1, hv1, hv2]

set_option maxRecDepth 100000 in
/-- C17 (code bug): a path as long as the limit is given up before the iterator
moves, so the iterator still stands on the first element of the document and the
comparator reads the truth value of that element for the missing field.  With
the limit 255, the path of 255 letters `a` resolves to `BSON_EOO` in `{a: 5}`
and the path `a` to the BOOL `true` of `{a: true}`: the comparison gives `0`,
not the `-1` of a missing field against `true`, which the missing path `b`
gives. -/
theorem compare_overlong_path_not_false :
    bson_find_fieldpath_value2 255 2 (List.replicate 255 97) 255
        (bson_iterator_from_buffer sample_five_doc.data 0)
        = some (BSON_EOO, ⟨sample_five_doc.data, 4, true⟩) ∧
      bson_find_fieldpath_value2 255 2 [97] 1
          (bson_iterator_from_buffer sample_true_doc.data 0)
        = some (BSON_BOOL, ⟨sample_true_doc.data, 4, false⟩) ∧
      bson_iterator_bool ⟨sample_five_doc.data, 4, true⟩ = 1 ∧
      bson_compare_fpaths 255 2 sample_five_doc.data sample_true_doc.data
          (List.replicate 255 97) 255 [97] 1 = some 0 ∧
      bson_find_fieldpath_value2 255 2 [98] 1
          (bson_iterator_from_buffer sample_five_doc.data 0)
        = some (BSON_EOO, ⟨sample_five_doc.data, 11, false⟩) ∧
      bson_compare_fpaths 255 2 sample_five_doc.data sample_true_doc.data [98] 1 [97] 1
        = some (-1) := by
  decide!

set_option maxRecDepth 100000 in
/-- The probe of `bson_compare_string` under the name check modelled from the
spec.  The helper builds its probe document on a `bson_init` builder under the
key `"$"` and looks at no result; the modelled check rejects that name, so in
the embedding the probe document is empty, the path `"$"` resolves to `BSON_EOO`
in it, and the comparison is the one of a missing field against a STRING.  What
the helper returns on the code depends on what the absent `encoding.c` does
with the name `"$"`. -/
theorem compare_string_probe_rejected :
    (bson_append_string bson_init [36] [98, 97, 110, 97, 110, 97]).1 = BSON_ERROR ∧
      (bson_finish (bson_append_string bson_init [36] [98, 97, 110, 97, 110, 97]).2).2.data
        = [5, 0, 0, 0, 0] ∧
      bson_find_fieldpath_value2 255 2 [115] 1
          (bson_iterator_from_buffer sample_apple_doc.data 0)
        = some (BSON_STRING, ⟨sample_apple_doc.data, 4, false⟩) ∧
      bson_iterator_string ⟨sample_apple_doc.data, 4, false⟩
        = [97, 112, 112, 108, 101, 0, 0] ∧
      bson_compare_string 255 2 [98, 97, 110, 97, 110, 97] sample_apple_doc.data [115]
        = some (-1) ∧
      bson_compare_string 255 2 [97, 112, 112, 108, 101] sample_apple_doc.data [115]
        = some (-1) ∧
      (bson_check_string bson_init [255] 1).1 = BSON_ERROR ∧
      bson_compare_string 255 2 [255] sample_apple_doc.data [115] = some (-1) := by
  decide!

/-! ## The comparator on binary data -/

theorem byteAt_cons_succ (x : Nat) (xs : List Nat) (i : Nat) :
    byteAt (x :: xs) (i + 1) = byteAt xs i := by
  simp [byteAt]

/-- The sign of `first_diff` on two sequences of one length: zero for equal
sequences, otherwise decided by the first position where they differ. -/
theorem first_diff_sign (a : List Nat) : ∀ b : List Nat, a.length = b.length →
    (first_diff a b = 0 ↔ a = b) ∧
    (first_diff a b < 0 ↔
      ∃ i, i < a.length ∧ a.take i = b.take i ∧ byteAt a i < byteAt b i) ∧
    (0 < first_diff a b ↔
      ∃ i, i < a.length ∧ a.take i = b.take i ∧ byteAt b i < byteAt a i) := by
  induction a with
  | nil =>
    intro b hb
    have hb' : b = [] := List.length_eq_zero.mp hb.symm
    subst hb'
    simp [first_diff]
  | cons x xs ih =>
    intro b hb
    cases b with
    | nil => simp at hb
    | cons y ys =>
      have hl : xs.length = ys.length := by simpa using hb
      obtain ⟨i0, i1, i2⟩ := ih ys hl
      by_cases hxy : x = y
      · subst hxy
        have hfd : first_diff (x :: xs) (x :: ys) = first_diff xs ys := by
          simp [first_diff]
        rw [hfd]
        refine ⟨?_, ?_, ?_⟩
        · rw [i0]; simp
        · rw [i1]
          constructor
          · rintro ⟨i, hi, ht, hlt⟩
            exact ⟨i + 1, by simp; omega, by simp [ht], by
              rw [byteAt_cons_succ, byteAt_cons_succ]; exact hlt⟩
          · rintro ⟨i, hi, ht, hlt⟩
            cases i with
            | zero => simp [byteAt] at hlt
            | succ i =>
              rw [byteAt_cons_succ, byteAt_cons_succ] at hlt
              simp only [List.take_succ_cons, List.cons.injEq, true_and] at ht
              exact ⟨i, by simp at hi; omega, ht, hlt⟩
        · rw [i2]
          constructor
          · rintro ⟨i, hi, ht, hlt⟩
            exact ⟨i + 1, by simp; omega, by simp [ht], by
              rw [byteAt_cons_succ, byteAt_cons_succ]; exact hlt⟩
          · rintro ⟨i, hi, ht, hlt⟩
            cases i with
            | zero => simp [byteAt] at hlt
            | succ i =>
              rw [byteAt_cons_succ, byteAt_cons_succ] at hlt
              simp only [List.take_succ_cons, List.cons.injEq, true_and] at ht
              exact ⟨i, by simp at hi; omega, ht, hlt⟩
      · have hfd : first_diff (x :: xs) (y :: ys) = (x : Int) - (y : Int) := by
          simp [first_diff, hxy]
        rw [hfd]
        have hhead : ∀ i, i < (x :: xs).length → (x :: xs).take i = (y :: ys).take i →
            i = 0 := by
          intro i _ ht
          cases i with
          | zero => rfl
          | succ i =>
            simp only [List.take_succ_cons, List.cons.injEq] at ht
            exact absurd ht.1 hxy
        refine ⟨?_, ?_, ?_⟩
        · constructor
          · intro h; exfalso; apply hxy; omega
          · intro h; simp only [List.cons.injEq] at h; exact absurd h.1 hxy
        · constructor
          · intro h
            exact ⟨0, by simp, by simp, by simp [byteAt]; omega⟩
          · rintro ⟨i, hi, ht, hlt⟩
            have := hhead i hi ht
            subst this
            simp [byteAt] at hlt
            omega
        · constructor
          · intro h
            exact ⟨0, by simp, by simp, by simp [byteAt]; omega⟩
          · rintro ⟨i, hi, ht, hlt⟩
            have := hhead i hi ht
            subst this
            simp [byteAt] at hlt
            omega

theorem byteAt_take (x : List Nat) (m i : Nat) (h : i < m) :
    byteAt (x.take m) i = byteAt x i := by
  simp [byteAt, List.getD_eq_getElem?_getD, List.getElem?_take_of_lt h]

/-- The sign of `memcmp` over the first `m` bytes of two blocks that hold at
least `m` bytes. -/
theorem memcmp_sign (x y sx sy : List Nat) (m : Nat) (hx : m ≤ x.length) (hy : m ≤ y.length) :
    memcmp (x ++ sx) (y ++ sy) m = first_diff (x.take m) (y.take m) ∧
    (first_diff (x.take m) (y.take m) = 0 ↔ x.take m = y.take m) ∧
    (first_diff (x.take m) (y.take m) < 0 ↔
      ∃ i, i < m ∧ x.take i = y.take i ∧ byteAt x i < byteAt y i) ∧
    (0 < first_diff (x.take m) (y.take m) ↔
      ∃ i, i < m ∧ x.take i = y.take i ∧ byteAt y i < byteAt x i) := by
  have hlx : (x.take m).length = m := by simp [hx]
  have hly : (y.take m).length = m := by simp [hy]
  obtain ⟨h0, h1, h2⟩ := first_diff_sign (x.take m) (y.take m) (by rw [hlx, hly])
  have hmx : mem_take (x ++ sx) m = x.take m := by
    unfold mem_take
    rw [List.take_append_of_le_length hx]
    have : m - (x ++ sx).length = 0 := by simp; omega
    rw [this]; simp
  have hmy : mem_take (y ++ sy) m = y.take m := by
    unfold mem_take
    rw [List.take_append_of_le_length hy]
    have : m - (y ++ sy).length = 0 := by simp; omega
    rw [this]; simp
  have key : ∀ (u v : List Nat) (i : Nat), i < m →
      ((u.take m).take i = (v.take m).take i ↔ u.take i = v.take i) := by
    intro u v i hi
    rw [List.take_take, List.take_take, Nat.min_eq_left (by omega)]
  refine ⟨by unfold memcmp; rw [hmx, hmy], h0, ?_, ?_⟩
  · rw [h1, hlx]
    constructor
    · rintro ⟨i, hi, ht, hlt⟩
      rw [byteAt_take _ _ _ hi, byteAt_take _ _ _ hi] at hlt
      exact ⟨i, hi, (key x y i hi).mp ht, hlt⟩
    · rintro ⟨i, hi, ht, hlt⟩
      refine ⟨i, hi, (key x y i hi).mpr ht, ?_⟩
      rw [byteAt_take _ _ _ hi, byteAt_take _ _ _ hi]
      exact hlt
  · rw [h2, hlx]
    constructor
    · rintro ⟨i, hi, ht, hlt⟩
      rw [byteAt_take _ _ _ hi, byteAt_take _ _ _ hi] at hlt
      exact ⟨i, hi, (key x y i hi).mp ht, hlt⟩
    · rintro ⟨i, hi, ht, hlt⟩
      refine ⟨i, hi, (key x y i hi).mpr ht, ?_⟩
      rw [byteAt_take _ _ _ hi, byteAt_take _ _ _ hi]
      exact hlt

/-- The length and the bytes the binary accessors read at an element
`bson_append_binary` wrote. -/
theorem bin_accessors (buf key suf x : List Nat) (off ty : Nat) (f : Bool)
    (h : buf.drop off
      = BSON_BINDATA :: (key ++ 0 :: (Field.payload (.binary [] ty x x.length) ++ suf)))
    (hk : ∀ c ∈ key, c ≠ 0) (hsz : (x.length : Int) + 4 ≤ INT_MAX) :
    bson_iterator_bin_len ⟨buf, off, f⟩ = (x.length : Int) ∧
      bson_iterator_bin_data ⟨buf, off, f⟩ = x ++ suf := by
  obtain ⟨-, -, -, hv, hd, -⟩ := elem_layout buf key _ suf off BSON_BINDATA h hk f
  have hmt : mem_take x x.length = x := by simp [mem_take]
  simp only [INT_MAX] at hsz
  by_cases hty : ty = BSON_BIN_BINARY_OLD
  · simp only [Field.payload, if_pos hty, hmt, List.append_assoc] at hd
    have hraw : read_le32 buf (off + 1 + (key.length + 1)) = (x.length : Int) + 4 := by
      rw [read_le32_of_drop_le32 buf _ _ _ hd, wrap32_of_range _ (by omega) (by omega)]
    have hd4 := drop_of_drop_append buf _ _ _ hd
    rw [le32_bytes_length] at hd4
    have hbt : byteAt buf (off + 1 + (key.length + 1) + 4) = ty :=
      byteAt_of_drop _ _ _ _ hd4
    have hd5 := drop_of_drop_append buf [ty] _ _ hd4
    have hd9 := drop_of_drop_append buf _ _ _ hd5
    rw [le32_bytes_length] at hd9
    simp only [List.length_singleton] at hd9
    have e9 : off + 1 + (key.length + 1) + 4 + 1 + 4 = off + 1 + (key.length + 1) + 9 := by
      omega
    rw [e9] at hd9
    constructor
    · simp only [bson_iterator_bin_len, bson_iterator_bin_type, bson_iterator_int_raw, hv, hbt,
        if_pos hty, hraw]
      omega
    · simp only [bson_iterator_bin_data, bson_iterator_bin_type, hv, hbt, if_pos hty, hd9]
  · simp only [Field.payload, if_neg hty, hmt, List.append_assoc] at hd
    have hraw : read_le32 buf (off + 1 + (key.length + 1)) = (x.length : Int) := by
      rw [read_le32_of_drop_le32 buf _ _ _ hd, wrap32_of_range _ (by omega) (by omega)]
    have hd4 := drop_of_drop_append buf _ _ _ hd
    rw [le32_bytes_length] at hd4
    have hbt : byteAt buf (off + 1 + (key.length + 1) + 4) = ty :=
      byteAt_of_drop _ _ _ _ hd4
    have hd5 := drop_of_drop_append buf [ty] _ _ hd4
    simp only [List.length_singleton] at hd5
    have e5 : off + 1 + (key.length + 1) + 4 + 1 = off + 1 + (key.length + 1) + 5 := by omega
    rw [e5] at hd5
    constructor
    · simp only [bson_iterator_bin_len, bson_iterator_bin_type, bson_iterator_int_raw, hv, hbt,
        if_neg hty, hraw]
    · simp only [bson_iterator_bin_data, bson_iterator_bin_type, hv, hbt, if_neg hty, hd5]

/-- C18: whenever the two paths resolve to BINDATA elements as `bson_append_binary`
writes them, of any subtype (the legacy one included), with the payloads `x1` and
`x2`, the result of `bson_compare_fpaths` is that of `memcmp` over the first
`min (|x1|, |x2|)` bytes of the two payloads: zero exactly when these bytes
agree, so whenever one payload is a prefix of the other, and otherwise negative
or positive as the byte of `x1` at the first difference is below or above that
of `x2`. -/
theorem compare_bindata (M fuel : Nat) (bs1 bs2 fpath1 : List Nat) (fplen1 : Nat)
    (fpath2 : List Nat) (fplen2 : Nat) (it1 it2 : bson_iterator)
    (key1 key2 suf1 suf2 x1 x2 : List Nat) (ty1 ty2 : Nat)
    (h1 : bson_find_fieldpath_value2 M fuel fpath1 fplen1 (bson_iterator_from_buffer bs1 0)
      = some (BSON_BINDATA, it1))
    (h2 : bson_find_fieldpath_value2 M fuel fpath2 fplen2 (bson_iterator_from_buffer bs2 0)
      = some (BSON_BINDATA, it2))
    (he1 : it1.buf.drop it1.cur
      = BSON_BINDATA :: (key1 ++ 0 :: (Field.payload (.binary [] ty1 x1 x1.length) ++ suf1)))
    (he2 : it2.buf.drop it2.cur
      = BSON_BINDATA :: (key2 ++ 0 :: (Field.payload (.binary [] ty2 x2 x2.length) ++ suf2)))
    (hk1 : ∀ c ∈ key1, c ≠ 0) (hk2 : ∀ c ∈ key2, c ≠ 0)
    (hs1 : (x1.length : Int) + 4 ≤ INT_MAX) (hs2 : (x2.length : Int) + 4 ≤ INT_MAX) :
    bson_compare_fpaths M fuel bs1 bs2 fpath1 fplen1 fpath2 fplen2
      = some (first_diff (x1.take (min x1.length x2.length))
          (x2.take (min x1.length x2.length))) ∧
    (first_diff (x1.take (min x1.length x2.length)) (x2.take (min x1.length x2.length)) = 0 ↔
      x1.take (min x1.length x2.length) = x2.take (min x1.length x2.length)) ∧
    (first_diff (x1.take (min x1.length x2.length)) (x2.take (min x1.length x2.length)) < 0 ↔
      ∃ i, i < min x1.length x2.length ∧ x1.take i = x2.take i ∧ byteAt x1 i < byteAt x2 i) ∧
    (0 < first_diff (x1.take (min x1.length x2.length)) (x2.take (min x1.length x2.length)) ↔
      ∃ i, i < min x1.length x2.length ∧ x1.take i = x2.take i ∧
        byteAt x2 i < byteAt x1 i) := by
  obtain ⟨buf1, cur1, f1⟩ := it1
  obtain ⟨buf2, cur2, f2⟩ := it2
  obtain ⟨hl1, hd1⟩ := bin_accessors buf1 key1 suf1 x1 cur1 ty1 f1 he1 hk1 hs1
  obtain ⟨hl2, hd2⟩ := bin_accessors buf2 key2 suf2 x2 cur2 ty2 f2 he2 hk2 hs2
  obtain ⟨hm, hz, hn, hp⟩ := memcmp_sign x1 x2 suf1 suf2 (min x1.length x2.length)
    (Nat.min_le_left _ _) (Nat.min_le_right _ _)
  refine ⟨?_, hz, hn, hp⟩
  have hmin : (min (x1.length : Int) (x2.length : Int)).toNat = min x1.length x2.length := by
    rw [← Nat.cast_min, Int.toNat_ofNat]
  unfold bson_compare_fpaths
  rw [h1, h2]
  simp only [hl1, hl2, hd1, hd2, hmin, hm]
  simp [BSON_BINDATA, BSON_BOOL, BSON_EOO, BSON_NULL, BSON_UNDEFINED, BSON_INT, BSON_LONG,
    BSON_DATE, BSON_TIMESTAMP, BSON_DOUBLE, BSON_STRING, BSON_SYMBOL]

set_option maxRecDepth 100000 in
/-- The legacy binary value `<1 2 3>` against the binary value `<1 2>` of the
subtype `0`, a prefix of it, gives `0`. -/
theorem compare_bindata_witness :
    bson_compare_fpaths 255 2 sample_bin_old_doc.data sample_bin_doc.data [122] 1 [122] 1
      = some 0 :=
  (compare_bindata 255 2 sample_bin_old_doc.data sample_bin_doc.data [122] 1 [122] 1
    ⟨sample_bin_old_doc.data, 4, false⟩ ⟨sample_bin_doc.data, 4, false⟩ [122] [122] [0] [0]
    [1, 2, 3] [1, 2] 2 0 (by decide!) (by decide!) (by decide) (by decide) (by decide)
    (by decide) (by decide) (by decide)).1

/-! ## Appends that succeed -/

theorem byteAt_key_head (key rest : List Nat) :
    byteAt (key ++ 0 :: rest) 0 = byteAt key 0 := by
  cases key <;> simp [byteAt]

theorem mem_take_key (key rest : List Nat) :
    mem_take (key ++ 0 :: rest) (key.length + 1) = key ++ [0] := by
  have : key ++ 0 :: rest = (key ++ [0]) ++ rest := by simp
  rw [this]
  have hl : key.length + 1 = (key ++ [0]).length := by simp
  rw [hl, mem_take_append_left]

/-- `bson_append_estart` succeeds on an open builder with room for a legal
key. -/
theorem estart_succeeds (b : bson) (t : Nat) (key rest : List Nat) (ds N : Int)
    (hk : ∀ c ∈ key, c ≠ 0) (hleg : key_legal key) (hopen : b.finished = false)
    (hds : 0 ≤ ds) (hD : 0 ≤ b.dataSize) (hD2 : b.dataSize ≤ INT_MAX)
    (hN : (b.cur : Int) + (1 + ((key.length : Int) + 1) + ds) ≤ N) (h3 : 3 * N ≤ INT_MAX) :
    ∃ b1, bson_append_estart b t (key ++ 0 :: rest) ds = (BSON_OK, b1) ∧
      Grown b b1 (t :: (key ++ [0])) := by
  obtain ⟨hl1, hl2, hl3⟩ := hleg
  have hsl : strlen (key ++ 0 :: rest) = key.length := strlen_append_zero key rest hk
  obtain ⟨b1, hes, h0, h1, hd, hf, herr⟩ := bson_ensure_space_room b
    (1 + ((key.length + 1 : Nat) : Int) + ds) N (by omega) hD hD2 (by push_cast; omega) h3
  have hmt : mem_take (key ++ 0 :: rest) key.length = key := mem_take_append_left key _
  have hck : ∀ cd : Bool,
      bson_check_field_name b1 (key ++ 0 :: rest) key.length cd cd = (BSON_OK, b1) := by
    intro cd
    unfold bson_check_field_name
    rw [byteAt_key_head, hmt]
    simp [hl1, hl2, hl3]
  have hne : BSON_OK ≠ BSON_ERROR := by decide
  refine ⟨bson_append (bson_append_byte b1 t) (key ++ 0 :: rest) (key.length + 1), ?_, ?_⟩
  · unfold bson_append_estart
    simp only [hsl, hopen, Bool.false_eq_true, if_false, hes, if_neg hne, Nat.add_sub_cancel,
      hck]
  · refine ⟨?_, h0, h1, ?_, ?_⟩
    · simp only [bson_append, bson_append_byte, mem_take_key, hd, List.append_assoc,
        List.singleton_append]
    · simp only [bson_append, bson_append_byte, hf, hopen]
    · simp only [bson_append, bson_append_byte, herr]

theorem Grown.cur {b b1 : bson} {bytes : List Nat} (h : Grown b b1 bytes) :
    b1.cur = b.cur + bytes.length := by
  simp [bson.cur, h.1]

theorem Grown.more {b b1 : bson} {bs : List Nat} (h : Grown b b1 bs) (g : List Nat)
    (b2 : bson) (h2 : b2 = { b1 with data := b1.data ++ g }) : Grown b b2 (bs ++ g) := by
  obtain ⟨hd, h0, h1, hf, he⟩ := h
  subst h2
  exact ⟨by simp [hd], h0, h1, hf, he⟩

theorem le32_bytes_wrap32 (v : Int) : le32_bytes (wrap32 v) = le32_bytes v := by
  have : wrap32 v % 4294967296 = v % 4294967296 := by
    unfold wrap32; omega
  simp only [le32_bytes, this]

theorem le64_bytes_wrap64 (v : Int) : le64_bytes (wrap64 v) = le64_bytes v := by
  have : wrap64 v % 18446744073709551616 = v % 18446744073709551616 := by
    unfold wrap64; omega
  simp only [le64_bytes, this]

/-- `bson_append_int` succeeds on an open builder with room. -/
theorem append_int_succeeds (b : bson) (key rest : List Nat) (v N : Int)
    (hk : ∀ c ∈ key, c ≠ 0) (hleg : key_legal key) (hopen : b.finished = false)
    (hD : 0 ≤ b.dataSize) (hD2 : b.dataSize ≤ INT_MAX)
    (hN : (b.cur : Int) + (1 + ((key.length : Int) + 1) + 4) ≤ N) (h3 : 3 * N ≤ INT_MAX) :
    ∃ b1, bson_append_int b (key ++ 0 :: rest) v = (BSON_OK, b1) ∧
      Grown b b1 (BSON_INT :: (key ++ 0 :: le32_bytes v)) := by
  obtain ⟨b1, hes, hg⟩ := estart_succeeds b BSON_INT key rest 4 N hk hleg hopen (by omega) hD
    hD2 hN h3
  have hne : BSON_OK ≠ BSON_ERROR := by decide
  refine ⟨bson_append32 b1 v, by simp only [bson_append_int, hes, if_neg hne], ?_⟩
  have := hg.more (le32_bytes v) (bson_append32 b1 v) rfl
  simpa using this

/-- `bson_append_long` succeeds on an open builder with room. -/
theorem append_long_succeeds (b : bson) (key rest : List Nat) (v N : Int)
    (hk : ∀ c ∈ key, c ≠ 0) (hleg : key_legal key) (hopen : b.finished = false)
    (hD : 0 ≤ b.dataSize) (hD2 : b.dataSize ≤ INT_MAX)
    (hN : (b.cur : Int) + (1 + ((key.length : Int) + 1) + 8) ≤ N) (h3 : 3 * N ≤ INT_MAX) :
    ∃ b1, bson_append_long b (key ++ 0 :: rest) v = (BSON_OK, b1) ∧
      Grown b b1 (BSON_LONG :: (key ++ 0 :: le64_bytes v)) := by
  obtain ⟨b1, hes, hg⟩ := estart_succeeds b BSON_LONG key rest 8 N hk hleg hopen (by omega) hD
    hD2 hN h3
  have hne : BSON_OK ≠ BSON_ERROR := by decide
  refine ⟨bson_append64 b1 v, by simp only [bson_append_long, hes, if_neg hne], ?_⟩
  have := hg.more (le64_bytes v) (bson_append64 b1 v) rfl
  simpa using this

/-- `bson_append_date` succeeds on an open builder with room. -/
theorem append_date_succeeds (b : bson) (key rest : List Nat) (v N : Int)
    (hk : ∀ c ∈ key, c ≠ 0) (hleg : key_legal key) (hopen : b.finished = false)
    (hD : 0 ≤ b.dataSize) (hD2 : b.dataSize ≤ INT_MAX)
    (hN : (b.cur : Int) + (1 + ((key.length : Int) + 1) + 8) ≤ N) (h3 : 3 * N ≤ INT_MAX) :
    ∃ b1, bson_append_date b (key ++ 0 :: rest) v = (BSON_OK, b1) ∧
      Grown b b1 (BSON_DATE :: (key ++ 0 :: le64_bytes v)) := by
  obtain ⟨b1, hes, hg⟩ := estart_succeeds b BSON_DATE key rest 8 N hk hleg hopen (by omega) hD
    hD2 hN h3
  have hne : BSON_OK ≠ BSON_ERROR := by decide
  refine ⟨bson_append64 b1 v, by simp only [bson_append_date, hes, if_neg hne], ?_⟩
  have := hg.more (le64_bytes v) (bson_append64 b1 v) rfl
  simpa using this

/-- `bson_append_bool` succeeds on an open builder with room. -/
theorem append_bool_succeeds (b : bson) (key rest : List Nat) (v N : Int)
    (hk : ∀ c ∈ key, c ≠ 0) (hleg : key_legal key) (hopen : b.finished = false)
    (hD : 0 ≤ b.dataSize) (hD2 : b.dataSize ≤ INT_MAX)
    (hN : (b.cur : Int) + (1 + ((key.length : Int) + 1) + 1) ≤ N) (h3 : 3 * N ≤ INT_MAX) :
    ∃ b1, bson_append_bool b (key ++ 0 :: rest) v = (BSON_OK, b1) ∧
      Grown b b1 (BSON_BOOL :: (key ++ 0 :: [if v ≠ 0 then 1 else 0])) := by
  obtain ⟨b1, hes, hg⟩ := estart_succeeds b BSON_BOOL key rest 1 N hk hleg hopen (by omega) hD
    hD2 hN h3
  have hne : BSON_OK ≠ BSON_ERROR := by decide
  refine ⟨bson_append_byte b1 (if v ≠ 0 then 1 else 0),
    by simp only [bson_append_bool, hes, if_neg hne], ?_⟩
  have := hg.more [if v ≠ 0 then 1 else 0] (bson_append_byte b1 (if v ≠ 0 then 1 else 0)) rfl
  simpa using this

/-- `bson_append_null` succeeds on an open builder with room. -/
theorem append_null_succeeds (b : bson) (key rest : List Nat) (N : Int)
    (hk : ∀ c ∈ key, c ≠ 0) (hleg : key_legal key) (hopen : b.finished = false)
    (hD : 0 ≤ b.dataSize) (hD2 : b.dataSize ≤ INT_MAX)
    (hN : (b.cur : Int) + (1 + ((key.length : Int) + 1) + 0) ≤ N) (h3 : 3 * N ≤ INT_MAX) :
    ∃ b1, bson_append_null b (key ++ 0 :: rest) = (BSON_OK, b1) ∧
      Grown b b1 (BSON_NULL :: (key ++ 0 :: [])) := by
  obtain ⟨b1, hes, hg⟩ := estart_succeeds b BSON_NULL key rest 0 N hk hleg hopen (by omega) hD
    hD2 hN h3
  have hne : BSON_OK ≠ BSON_ERROR := by decide
  exact ⟨b1, by simp only [bson_append_null, hes, if_neg hne], hg⟩

/-- `bson_append_undefined` succeeds on an open builder with room. -/
theorem append_undefined_succeeds (b : bson) (key rest : List Nat) (N : Int)
    (hk : ∀ c ∈ key, c ≠ 0) (hleg : key_legal key) (hopen : b.finished = false)
    (hD : 0 ≤ b.dataSize) (hD2 : b.dataSize ≤ INT_MAX)
    (hN : (b.cur : Int) + (1 + ((key.length : Int) + 1) + 0) ≤ N) (h3 : 3 * N ≤ INT_MAX) :
    ∃ b1, bson_append_undefined b (key ++ 0 :: rest) = (BSON_OK, b1) ∧
      Grown b b1 (BSON_UNDEFINED :: (key ++ 0 :: [])) := by
  obtain ⟨b1, hes, hg⟩ := estart_succeeds b BSON_UNDEFINED key rest 0 N hk hleg hopen
    (by omega) hD hD2 hN h3
  have hne : BSON_OK ≠ BSON_ERROR := by decide
  exact ⟨b1, by simp only [bson_append_undefined, hes, if_neg hne], hg⟩

/-- `bson_append_oid` succeeds on an open builder with room. -/
theorem append_oid_succeeds (b : bson) (key rest oid : List Nat) (N : Int)
    (hk : ∀ c ∈ key, c ≠ 0) (hleg : key_legal key) (hopen : b.finished = false)
    (hD : 0 ≤ b.dataSize) (hD2 : b.dataSize ≤ INT_MAX)
    (hN : (b.cur : Int) + (1 + ((key.length : Int) + 1) + 12) ≤ N) (h3 : 3 * N ≤ INT_MAX) :
    ∃ b1, bson_append_oid b (key ++ 0 :: rest) oid = (BSON_OK, b1) ∧
      Grown b b1 (BSON_OID :: (key ++ 0 :: mem_take oid 12)) := by
  obtain ⟨b1, hes, hg⟩ := estart_succeeds b BSON_OID key rest 12 N hk hleg hopen (by omega) hD
    hD2 hN h3
  have hne : BSON_OK ≠ BSON_ERROR := by decide
  refine ⟨bson_append b1 oid 12, by simp only [bson_append_oid, hes, if_neg hne], ?_⟩
  have := hg.more (mem_take oid 12) (bson_append b1 oid 12) rfl
  simpa using this

/-- `bson_append_string` succeeds on an open builder with room for a value that
is valid UTF-8. -/
theorem append_string_succeeds (b : bson) (key rest s srest : List Nat) (N : Int)
    (hk : ∀ c ∈ key, c ≠ 0) (hleg : key_legal key) (hs : ∀ c ∈ s, c ≠ 0)
    (hu : utf8_valid s = true) (hopen : b.finished = false)
    (hD : 0 ≤ b.dataSize) (hD2 : b.dataSize ≤ INT_MAX)
    (hN : (b.cur : Int) + (1 + ((key.length : Int) + 1) + (4 + ((s.length : Int) + 1))) ≤ N)
    (h3 : 3 * N ≤ INT_MAX) :
    ∃ b1, bson_append_string b (key ++ 0 :: rest) (s ++ 0 :: srest) = (BSON_OK, b1) ∧
      Grown b b1 (BSON_STRING :: (key ++ 0 ::
        (le32_bytes ((s.length : Int) + 1) ++ s ++ [0]))) := by
  obtain ⟨b1, hes, hg⟩ := estart_succeeds b BSON_STRING key rest (4 + ((s.length : Int) + 1)) N
    hk hleg hopen (by omega) hD hD2 hN h3
  have hne : BSON_OK ≠ BSON_ERROR := by decide
  have hsl : strlen (s ++ 0 :: srest) = s.length := strlen_append_zero s srest hs
  have hmt : mem_take (s ++ 0 :: srest) s.length = s := mem_take_append_left s _
  have hck : bson_check_string b (s ++ 0 :: srest) s.length = (BSON_OK, b) := by
    unfold bson_check_string
    rw [hmt]
    simp [hu]
  have htn : ((s.length : Int) + 1 - 1).toNat = s.length := by
    simp
  refine ⟨bson_append (bson_append (bson_append32 b1 ((s.length : Int) + 1)) (s ++ 0 :: srest)
      s.length) [0] 1, ?_, ?_⟩
  · simp only [bson_append_string, bson_append_string_base, hsl, htn, hck, if_neg hne, hes]
  · have h1 := hg.more (le32_bytes ((s.length : Int) + 1)) (bson_append32 b1 _) rfl
    have h2 := h1.more s (bson_append (bson_append32 b1 ((s.length : Int) + 1))
      (s ++ 0 :: srest) s.length) (by simp only [bson_append, hmt])
    have h3' := h2.more [0] (bson_append (bson_append (bson_append32 b1 ((s.length : Int) + 1))
      (s ++ 0 :: srest) s.length) [0] 1) (by simp [bson_append, mem_take])
    simpa using h3'

/-! ## Copying one field through its iterator -/

theorem field_from_iterator_int (fuel : Nat) (src : bson_iterator) (into : bson)
    (h : bson_iterator_type src = BSON_INT) :
    bson_append_field_from_iterator (fuel + 1) src into
      = some (bson_append_int into (src.buf.drop (bson_iterator_key src))
          (bson_iterator_int_raw src)).2 := by
  simp [bson_append_field_from_iterator, h, BSON_INT, BSON_EOO, BSON_STRING, BSON_SYMBOL,
    BSON_CODE]

theorem field_from_iterator_long (fuel : Nat) (src : bson_iterator) (into : bson)
    (h : bson_iterator_type src = BSON_LONG) :
    bson_append_field_from_iterator (fuel + 1) src into
      = some (bson_append_long into (src.buf.drop (bson_iterator_key src))
          (bson_iterator_long_raw src)).2 := by
  simp [bson_append_field_from_iterator, h, BSON_INT, BSON_EOO, BSON_STRING, BSON_SYMBOL,
    BSON_CODE, BSON_LONG, BSON_DOUBLE]

theorem field_from_iterator_date (fuel : Nat) (src : bson_iterator) (into : bson)
    (h : bson_iterator_type src = BSON_DATE) :
    bson_append_field_from_iterator (fuel + 1) src into
      = some (bson_append_date into (src.buf.drop (bson_iterator_key src))
          (bson_iterator_date src)).2 := by
  simp [bson_append_field_from_iterator, h, BSON_INT, BSON_EOO, BSON_STRING, BSON_SYMBOL,
    BSON_CODE, BSON_LONG, BSON_DOUBLE, BSON_DATE, BSON_UNDEFINED, BSON_NULL, BSON_BOOL,
    BSON_TIMESTAMP]

theorem field_from_iterator_bool (fuel : Nat) (src : bson_iterator) (into : bson)
    (h : bson_iterator_type src = BSON_BOOL) :
    bson_append_field_from_iterator (fuel + 1) src into
      = some (bson_append_bool into (src.buf.drop (bson_iterator_key src))
          (bson_iterator_bool_raw src : Int)).2 := by
  simp [bson_append_field_from_iterator, h, BSON_INT, BSON_EOO, BSON_STRING, BSON_SYMBOL,
    BSON_CODE, BSON_LONG, BSON_DOUBLE, BSON_UNDEFINED, BSON_NULL, BSON_BOOL]

theorem field_from_iterator_null (fuel : Nat) (src : bson_iterator) (into : bson)
    (h : bson_iterator_type src = BSON_NULL) :
    bson_append_field_from_iterator (fuel + 1) src into
      = some (bson_append_null into (src.buf.drop (bson_iterator_key src))).2 := by
  simp [bson_append_field_from_iterator, h, BSON_INT, BSON_EOO, BSON_STRING, BSON_SYMBOL,
    BSON_CODE, BSON_LONG, BSON_DOUBLE, BSON_UNDEFINED, BSON_NULL]

theorem field_from_iterator_undefined (fuel : Nat) (src : bson_iterator) (into : bson)
    (h : bson_iterator_type src = BSON_UNDEFINED) :
    bson_append_field_from_iterator (fuel + 1) src into
      = some (bson_append_undefined into (src.buf.drop (bson_iterator_key src))).2 := by
  simp [bson_append_field_from_iterator, h, BSON_INT, BSON_EOO, BSON_STRING, BSON_SYMBOL,
    BSON_CODE, BSON_LONG, BSON_DOUBLE, BSON_UNDEFINED]

theorem field_from_iterator_oid (fuel : Nat) (src : bson_iterator) (into : bson)
    (h : bson_iterator_type src = BSON_OID) :
    bson_append_field_from_iterator (fuel + 1) src into
      = some (bson_append_oid into (src.buf.drop (bson_iterator_key src))
          (bson_iterator_oid src)).2 := by
  simp [bson_append_field_from_iterator, h, BSON_INT, BSON_EOO, BSON_STRING, BSON_SYMBOL,
    BSON_CODE, BSON_LONG, BSON_DOUBLE, BSON_DATE, BSON_UNDEFINED, BSON_NULL, BSON_BOOL,
    BSON_TIMESTAMP, BSON_REGEX, BSON_OID]

theorem field_from_iterator_string (fuel : Nat) (src : bson_iterator) (into : bson)
    (h : bson_iterator_type src = BSON_STRING) :
    bson_append_field_from_iterator (fuel + 1) src into
      = some (bson_append_string into (src.buf.drop (bson_iterator_key src))
          (bson_iterator_string src)).2 := by
  simp [bson_append_field_from_iterator, h, BSON_EOO, BSON_STRING]

/-- `bson_append_field_from_iterator` on a scalar element under a legal key, into
an open builder with room: the element is appended as it is. -/
theorem append_field_scalar (buf suf : List Nat) (off : Nat) (f : Bool) (e : Elt) (hw : e.WF)
    (hs : e.scalar) (h : buf.drop off = e.bytes ++ suf) (into : bson) (N : Int) (fuel : Nat)
    (hopen : into.finished = false) (hD : 0 ≤ into.dataSize) (hD2 : into.dataSize ≤ INT_MAX)
    (hN : (into.cur : Int) + e.bytes.length ≤ N) (h3 : 3 * N ≤ INT_MAX) :
    ∃ into', bson_append_field_from_iterator (fuel + 1) ⟨buf, off, f⟩ into = some into' ∧
      Grown into into' e.bytes := by
  cases e with
  | node t key kids => exact absurd hs (by simp [Elt.scalar])
  | leaf t key p =>
    obtain ⟨hleg, hp⟩ := hs
    obtain ⟨-, hk, -⟩ := hw
    have h' : buf.drop off = t :: (key ++ 0 :: (p ++ suf)) := by
      simpa [Elt.bytes] using h
    obtain ⟨hty, -, -, hv, hd, -⟩ := elem_layout buf key p suf off t h' hk f
    have hkey : buf.drop (off + 1) = key ++ 0 :: (p ++ suf) :=
      drop_of_drop_append buf [t] _ off h'
    have hlen : (Elt.leaf t key p).bytes.length = 1 + (key.length + 1) + p.length := by
      simp [Elt.bytes]; omega
    rw [hlen] at hN
    push_cast at hN
    have hkk : (⟨buf, off, f⟩ : bson_iterator).buf.drop (bson_iterator_key ⟨buf, off, f⟩)
        = key ++ 0 :: (p ++ suf) := hkey
    rcases hp with ⟨rfl, v, rfl⟩ | ⟨ht, v, rfl⟩ | ⟨rfl, hpb⟩ | ⟨ht, rfl⟩ | ⟨rfl, hpl⟩ |
      ⟨rfl, s, hsn, hsu, rfl⟩
    · -- INT
      have hraw : bson_iterator_int_raw ⟨buf, off, f⟩ = wrap32 v := by
        unfold bson_iterator_int_raw
        rw [hv]
        exact read_le32_of_drop_le32 buf suf _ v hd
      obtain ⟨b1, ha, hg⟩ := append_int_succeeds into key (le32_bytes v ++ suf) (wrap32 v) N
        hk hleg hopen hD hD2 (by simp [le32_bytes_length] at hN; omega) h3
      refine ⟨b1, ?_, ?_⟩
      · rw [field_from_iterator_int fuel _ into hty, hkk, hraw, ha]
      · rw [le32_bytes_wrap32] at hg
        simpa [Elt.bytes] using hg
    · -- LONG, DATE
      have hraw : bson_iterator_long_raw ⟨buf, off, f⟩ = wrap64 v := by
        unfold bson_iterator_long_raw
        rw [hv]
        exact read_le64_of_drop buf suf _ v hd
      have hl8 : (le64_bytes v).length = 8 := le64_bytes_length v
      rw [hl8] at hN
      rcases ht with rfl | rfl
      · obtain ⟨b1, ha, hg⟩ := append_long_succeeds into key (le64_bytes v ++ suf) (wrap64 v) N
          hk hleg hopen hD hD2 (by omega) h3
        refine ⟨b1, ?_, ?_⟩
        · rw [field_from_iterator_long fuel _ into hty, hkk, hraw, ha]
        · rw [le64_bytes_wrap64] at hg
          simpa [Elt.bytes] using hg
      · obtain ⟨b1, ha, hg⟩ := append_date_succeeds into key (le64_bytes v ++ suf) (wrap64 v) N
          hk hleg hopen hD hD2 (by omega) h3
        refine ⟨b1, ?_, ?_⟩
        · rw [field_from_iterator_date fuel _ into hty, hkk, bson_iterator_date, hraw, ha]
        · rw [le64_bytes_wrap64] at hg
          simpa [Elt.bytes] using hg
    · -- BOOL
      have hraw : bson_iterator_bool_raw ⟨buf, off, f⟩ = ((byteAt p 0 : Nat) : Int) := by
        unfold bson_iterator_bool_raw
        rw [hv]
        rcases hpb with rfl | rfl
        · rw [byteAt_of_drop buf _ _ _ hd]; rfl
        · rw [byteAt_of_drop buf _ _ _ hd]; rfl
      have hpl : p.length = 1 := by rcases hpb with rfl | rfl <;> rfl
      rw [hpl] at hN
      obtain ⟨b1, ha, hg⟩ := append_bool_succeeds into key (p ++ suf) ((byteAt p 0 : Nat) : Int)
        N hk hleg hopen hD hD2 (by omega) h3
      refine ⟨b1, ?_, ?_⟩
      · rw [field_from_iterator_bool fuel _ into hty, hkk, hraw, ha]
      · rcases hpb with rfl | rfl
        · simpa [Elt.bytes, byteAt] using hg
        · simpa [Elt.bytes, byteAt] using hg
    · -- NULL, UNDEFINED
      simp only [List.length_nil] at hN
      rcases ht with rfl | rfl
      · obtain ⟨b1, ha, hg⟩ := append_null_succeeds into key ([] ++ suf) N
          hk hleg hopen hD hD2 (by omega) h3
        refine ⟨b1, ?_, ?_⟩
        · rw [field_from_iterator_null fuel _ into hty, hkk, ha]
        · simpa [Elt.bytes] using hg
      · obtain ⟨b1, ha, hg⟩ := append_undefined_succeeds into key ([] ++ suf) N
          hk hleg hopen hD hD2 (by omega) h3
        refine ⟨b1, ?_, ?_⟩
        · rw [field_from_iterator_undefined fuel _ into hty, hkk, ha]
        · simpa [Elt.bytes] using hg
    · -- OID
      rw [hpl] at hN
      obtain ⟨b1, ha, hg⟩ := append_oid_succeeds into key (p ++ suf) (p ++ suf) N
        hk hleg hopen hD hD2 (by omega) h3
      have hoid : bson_iterator_oid ⟨buf, off, f⟩ = p ++ suf := by
        unfold bson_iterator_oid
        rw [hv]
        exact hd
      have hmt : mem_take (p ++ suf) 12 = p := by
        rw [← hpl]; exact mem_take_append_left p suf
      refine ⟨b1, ?_, ?_⟩
      · rw [field_from_iterator_oid fuel _ into hty, hkk, hoid, ha]
      · rw [hmt] at hg
        simpa [Elt.bytes] using hg
    · -- STRING
      have hstr : bson_iterator_string ⟨buf, off, f⟩ = s ++ 0 :: suf := by
        unfold bson_iterator_string
        rw [hty, hv]
        simp only [true_or, if_true]
        have hd' : buf.drop (off + 1 + (key.length + 1))
            = le32_bytes ((s.length : Int) + 1) ++ (s ++ 0 :: suf) := by
          rw [hd]; simp
        have := drop_of_drop_append buf _ _ _ hd'
        rw [le32_bytes_length] at this
        exact this
      obtain ⟨b1, ha, hg⟩ := append_string_succeeds into key
        (le32_bytes ((s.length : Int) + 1) ++ s ++ [0] ++ suf) s suf N hk hleg hsn hsu hopen
        hD hD2 (by simp [le32_bytes_length] at hN; omega) h3
      refine ⟨b1, ?_, ?_⟩
      · rw [field_from_iterator_string fuel _ into hty, hkk, hstr, ha]
      · simpa [Elt.bytes] using hg

/-! ## The two loops of `bson_merge` -/

theorem Grown.chain {b b1 b2 : bson} {x y : List Nat} (h1 : Grown b b1 x) (h2 : Grown b1 b2 y) :
    Grown b b2 (x ++ y) := by
  obtain ⟨hd, -, -, -, he⟩ := h1
  obtain ⟨hd2, h0, h1', hf, he2⟩ := h2
  exact ⟨by rw [hd2, hd, List.append_assoc], h0, h1', hf, by rw [he2, he]⟩

theorem Grown.same (b : bson) (hopen : b.finished = false) (hD : 0 ≤ b.dataSize)
    (hD2 : b.dataSize ≤ INT_MAX) : Grown b b [] :=
  ⟨by simp, hD, hD2, hopen, rfl⟩

/-- The first element that satisfies a test splits a sequence; else no element
satisfies the test. -/
theorem find_split (p : Elt → Bool) (es : List Elt) :
    (∃ pre e post, es = pre ++ e :: post ∧ p e = true ∧ (∀ x ∈ pre, p x = false) ∧
      es.find? p = some e) ∨
    ((∀ x ∈ es, p x = false) ∧ es.find? p = none) := by
  induction es with
  | nil => right; simp
  | cons a as ih =>
    by_cases ha : p a = true
    · left
      exact ⟨[], a, as, rfl, ha, by simp, by simp [List.find?, ha]⟩
    · have ha' : p a = false := by simpa using ha
      rcases ih with ⟨pre, e, post, hsplit, hpe, hpre, hfind⟩ | ⟨hall, hfind⟩
      · left
        refine ⟨a :: pre, e, post, by rw [hsplit]; rfl, hpe, ?_, by simp [List.find?, ha', hfind]⟩
        intro x hx
        rcases List.mem_cons.mp hx with rfl | hx
        · exact ha'
        · exact hpre x hx
      · right
        refine ⟨?_, by simp [List.find?, ha', hfind]⟩
        intro x hx
        rcases List.mem_cons.mp hx with rfl | hx
        · exact ha'
        · exact hall x hx

/-- The key memory of an element under the cursor is the key as a C string. -/
theorem key_memory (buf suf : List Nat) (off : Nat) (e : Elt) (he : e.WF)
    (h : buf.drop off = e.bytes ++ suf) :
    cstr (buf.drop (off + 1)) = e.key := by
  exact (bson_iterator_next_elt buf suf off e he h).2.2.2

/-- What `bson_find` answers for the key of an element, in a document of
well-formed elements: the first element under that key, or the terminator. -/
theorem find_for_key (b2 : bson) (es2 : List Elt) (suf2 : List Nat) (hes2 : Elt.WFs es2)
    (hd2 : b2.data.drop 4 = Elt.bytesList es2 ++ 0 :: suf2) (k1 key : List Nat)
    (hk : cstr k1 = key) (fuel : Nat) (hfuel : es2.length < fuel) :
    (∃ pre e2 post, es2 = pre ++ e2 :: post ∧ e2.key = key ∧ (∀ x ∈ pre, x.key ≠ key) ∧
      es2.find? (fun g => decide (g.key = key)) = some e2 ∧
      bson_find fuel b2 k1
        = some (e2.type, ⟨b2.data, 4 + (Elt.bytesList pre).length, false⟩) ∧
      b2.data.drop (4 + (Elt.bytesList pre).length)
        = e2.bytes ++ (Elt.bytesList post ++ 0 :: suf2)) ∨
    ((∀ x ∈ es2, x.key ≠ key) ∧ es2.find? (fun g => decide (g.key = key)) = none ∧
      ∃ it, bson_find fuel b2 k1 = some (BSON_EOO, it)) := by
  obtain ⟨hfound, hmiss⟩ := find_in_layout k1 b2.data es2 suf2 fuel hes2 hd2 hfuel
  rcases find_split (fun g => decide (g.key = key)) es2 with
    ⟨pre, e, post, hsplit, hpe, hpre, hfind⟩ | ⟨hall, hfind⟩
  · left
    have hke : e.key = key := by simpa using hpe
    have hpre' : ∀ x ∈ pre, x.key ≠ key := by
      intro x hx
      simpa using hpre x hx
    obtain ⟨h1, h2, h3⟩ := hfound pre e post hsplit (by rw [hke, hk])
      (by rw [hk]; exact hpre')
    refine ⟨pre, e, post, hsplit, hke, hpre', hfind, ?_, h3⟩
    simp only [bson_find, bson_iterator_init, h1, Option.map_some', h2]
  · right
    have hall' : ∀ x ∈ es2, x.key ≠ key := by
      intro x hx
      simpa using hall x hx
    obtain ⟨h1, h2, -⟩ := hmiss (by rw [hk]; exact hall')
    refine ⟨hall', hfind, ⟨b2.data, 4 + (Elt.bytesList es2).length, false⟩, ?_⟩
    simp only [bson_find, bson_iterator_init, h1, Option.map_some', h2]

/-- The first loop of `bson_merge` over scalar fields. -/
theorem merge_first_run (b2 : bson) (es2 : List Elt) (suf2 : List Nat) (hes2 : Elt.WFs es2)
    (hs2 : ∀ e ∈ es2, e.scalar) (hd2 : b2.data.drop 4 = Elt.bytesList es2 ++ 0 :: suf2)
    (ow : Bool) (buf1 suf1 : List Nat) (N : Int) (h3 : 3 * N ≤ INT_MAX) (rest : List Elt) :
    ∀ (off : Nat) (it1 : bson_iterator) (out : bson) (fuel : Nat),
    Elt.WFs rest → (∀ e ∈ rest, e.scalar) →
    buf1.drop off = Elt.bytesList rest ++ 0 :: suf1 →
    bson_iterator_next it1 = some (byteAt buf1 off, ⟨buf1, off, false⟩) →
    out.finished = false → 0 ≤ out.dataSize → out.dataSize ≤ INT_MAX →
    (out.cur : Int) + (Elt.bytesList (rest.map (merge_pick es2 ow))).length ≤ N →
    rest.length + es2.length + 2 ≤ fuel →
    ∃ out', bson_merge_first b2 ow fuel it1 out = some out' ∧
      Grown out out' (Elt.bytesList (rest.map (merge_pick es2 ow))) := by
  induction rest with
  | nil =>
    intro off it1 out fuel _ _ h hn hopen hD hD2 _ hfuel
    have h0 : byteAt buf1 off = 0 := byteAt_of_drop _ _ _ _ (by simpa [Elt.bytesList] using h)
    cases fuel with
    | zero => omega
    | succ fuel =>
      refine ⟨out, ?_, ?_⟩
      · simp only [bson_merge_first, hn, h0, BSON_EOO, if_true]
      · simpa [Elt.bytesList] using Grown.same out hopen hD hD2
  | cons e rest ih =>
    intro off it1 out fuel hwf hsc h hn hopen hD hD2 hN hfuel
    simp only [Elt.WFs] at hwf
    rw [Elt.bytesList_cons, List.append_assoc] at h
    obtain ⟨hnx, hdn, hty, hkey⟩ := bson_iterator_next_elt buf1 _ off e hwf.1 h
    have ht0 : byteAt buf1 off ≠ BSON_EOO := by
      have : byteAt buf1 off = e.type := hty
      rw [this]; exact hwf.1.parts.1
    have hkm : cstr (buf1.drop (off + 1)) = e.key := hkey
    simp only [List.map_cons, Elt.bytesList_cons, List.length_append] at hN
    push_cast at hN
    cases fuel with
    | zero => omega
    | succ fuel =>
      simp only [List.length_cons] at hfuel
      -- the field the loop emits
      have hstep : ∃ out1, (if ow = true then
            match bson_find fuel b2 (buf1.drop (off + 1)) with
            | none => none
            | some (bt2, it2) =>
              bson_append_field_from_iterator fuel
                (if bt2 ≠ BSON_EOO then it2 else ⟨buf1, off, false⟩) out
          else bson_append_field_from_iterator fuel ⟨buf1, off, false⟩ out) = some out1 ∧
          Grown out out1 (merge_pick es2 ow e).bytes := by
        obtain ⟨fuel', rfl⟩ : ∃ f', fuel = f' + 1 := ⟨fuel - 1, by omega⟩
        cases ow with
        | false =>
          simp only [Bool.false_eq_true, if_false, merge_pick]
          simp only [merge_pick, Bool.false_eq_true, if_false] at hN
          exact append_field_scalar buf1 _ off false e hwf.1 (hsc e (by simp)) h out N fuel'
            hopen hD hD2 (by omega) h3
        | true =>
          simp only [if_true]
          rcases find_for_key b2 es2 suf2 hes2 hd2 (buf1.drop (off + 1)) e.key hkm (fuel' + 1)
              (by omega) with
            ⟨pre, e2, post, hsplit, hke, -, hfind, hbf, hdrop⟩ | ⟨-, hfind, it, hbf⟩
          · have hpick : merge_pick es2 true e = e2 := by
              simp [merge_pick, hfind]
            have he2mem : e2 ∈ es2 := by rw [hsplit]; simp
            have he2wf : e2.WF := Elt.WFs_mem es2 hes2 e2 he2mem
            rw [hpick] at hN ⊢
            rw [hbf]
            simp only [ne_eq, he2wf.parts.1, not_false_eq_true, if_true]
            exact append_field_scalar b2.data _ _ false e2 he2wf (hs2 e2 he2mem) hdrop out N
              fuel' hopen hD hD2 (by omega) h3
          · have hpick : merge_pick es2 true e = e := by
              simp [merge_pick, hfind]
            rw [hpick] at hN ⊢
            rw [hbf]
            simp only [ne_eq, not_true_eq_false, if_false]
            exact append_field_scalar buf1 _ off false e hwf.1 (hsc e (by simp)) h out N fuel'
              hopen hD hD2 (by omega) h3
      obtain ⟨out1, hs1, hg1⟩ := hstep
      obtain ⟨out2, hr, hg2⟩ := ih (off + e.bytes.length) ⟨buf1, off, false⟩ out1 fuel hwf.2
        (fun x hx => hsc x (by simp [hx])) hdn hnx hg1.2.2.2.1 hg1.2.1 hg1.2.2.1
        (by rw [hg1.cur]; push_cast; omega) (by omega)
      refine ⟨out2, ?_, ?_⟩
      · rw [← hr]
        cases ow with
        | false =>
          simp only [Bool.false_eq_true, if_false] at hs1
          simp only [bson_merge_first, hn, if_neg ht0, bson_iterator_key, Bool.false_eq_true,
            if_false, hs1]
        | true =>
          simp only [if_true] at hs1
          cases hbf : bson_find fuel b2 (buf1.drop (off + 1)) with
          | none => rw [hbf] at hs1; simp at hs1
          | some r =>
            obtain ⟨bt2, it2⟩ := r
            rw [hbf] at hs1
            simp only at hs1
            simp only [bson_merge_first, hn, if_neg ht0, bson_iterator_key, if_true, hbf, hs1]
      · simpa [Elt.bytesList_cons] using hg1.chain hg2

/-- One turn of the second loop of `bson_merge`. -/
theorem merge_second_step (b1 : bson) (fuel : Nat) (it2 it2a : bson_iterator) (out : bson)
    (bt2 : Nat) (hn : bson_iterator_next it2 = some (bt2, it2a)) (ht : bt2 ≠ BSON_EOO) :
    bson_merge_second b1 (fuel + 1) it2 out =
      match bson_find fuel b1 (it2a.buf.drop (bson_iterator_key it2a)) with
      | none => none
      | some (bt1, _) =>
        if bt1 = BSON_EOO then
          match bson_append_field_from_iterator fuel it2a out with
          | none => none
          | some out1 => bson_merge_second b1 fuel it2a out1
        else bson_merge_second b1 fuel it2a out := by
  simp only [bson_merge_second, hn, if_neg ht] <;> rfl

/-- The second loop of `bson_merge` over scalar fields. -/
theorem merge_second_run (b1 : bson) (es1 : List Elt) (suf1 : List Nat) (hes1 : Elt.WFs es1)
    (hd1 : b1.data.drop 4 = Elt.bytesList es1 ++ 0 :: suf1)
    (buf2 suf2 : List Nat) (N : Int) (h3 : 3 * N ≤ INT_MAX) (rest : List Elt) :
    ∀ (off : Nat) (it2 : bson_iterator) (out : bson) (fuel : Nat),
    Elt.WFs rest → (∀ e ∈ rest, e.scalar) →
    buf2.drop off = Elt.bytesList rest ++ 0 :: suf2 →
    bson_iterator_next it2 = some (byteAt buf2 off, ⟨buf2, off, false⟩) →
    out.finished = false → 0 ≤ out.dataSize → out.dataSize ≤ INT_MAX →
    (out.cur : Int) + (Elt.bytesList
        (rest.filter (fun g => es1.all (fun e => decide (e.key ≠ g.key))))).length ≤ N →
    rest.length + es1.length + 2 ≤ fuel →
    ∃ out', bson_merge_second b1 fuel it2 out = some out' ∧
      Grown out out' (Elt.bytesList
        (rest.filter (fun g => es1.all (fun e => decide (e.key ≠ g.key))))) := by
  induction rest with
  | nil =>
    intro off it2 out fuel _ _ h hn hopen hD hD2 _ hfuel
    have h0 : byteAt buf2 off = 0 := byteAt_of_drop _ _ _ _ (by simpa [Elt.bytesList] using h)
    cases fuel with
    | zero => omega
    | succ fuel =>
      refine ⟨out, ?_, ?_⟩
      · simp only [bson_merge_second, hn, h0, BSON_EOO, if_true]
      · simpa [Elt.bytesList] using Grown.same out hopen hD hD2
  | cons e rest ih =>
    intro off it2 out fuel hwf hsc h hn hopen hD hD2 hN hfuel
    simp only [Elt.WFs] at hwf
    rw [Elt.bytesList_cons, List.append_assoc] at h
    obtain ⟨hnx, hdn, hty, hkey⟩ := bson_iterator_next_elt buf2 _ off e hwf.1 h
    have ht0 : byteAt buf2 off ≠ BSON_EOO := by
      have : byteAt buf2 off = e.type := hty
      rw [this]; exact hwf.1.parts.1
    have hkm : cstr (buf2.drop (off + 1)) = e.key := hkey
    cases fuel with
    | zero => omega
    | succ fuel =>
      simp only [List.length_cons] at hfuel
      obtain ⟨fuel', rfl⟩ : ∃ f', fuel = f' + 1 := ⟨fuel - 1, by omega⟩
      rcases find_for_key b1 es1 suf1 hes1 hd1 (buf2.drop (off + 1)) e.key hkm (fuel' + 1)
          (by omega) with
        ⟨pre, e1, post, hsplit, hke, -, -, hbf, -⟩ | ⟨hall, -, it, hbf⟩
      · -- the key is in the first document: the field is passed
        have he1mem : e1 ∈ es1 := by rw [hsplit]; simp
        have he1wf : e1.WF := Elt.WFs_mem es1 hes1 e1 he1mem
        have hfalse : es1.all (fun x => decide (x.key ≠ e.key)) = false := by
          rw [List.all_eq_false]
          exact ⟨e1, he1mem, by simp [hke]⟩
        have hfil : (e :: rest).filter (fun g => es1.all (fun x => decide (x.key ≠ g.key)))
            = rest.filter (fun g => es1.all (fun x => decide (x.key ≠ g.key))) := by
          rw [List.filter_cons, hfalse]; simp
        rw [hfil] at hN ⊢
        obtain ⟨out2, hr, hg2⟩ := ih (off + e.bytes.length) ⟨buf2, off, false⟩ out (fuel' + 1)
          hwf.2 (fun x hx => hsc x (by simp [hx])) hdn hnx hopen hD hD2 hN (by omega)
        refine ⟨out2, ?_, hg2⟩
        rw [merge_second_step b1 (fuel' + 1) it2 _ out _ hn ht0]
        simp only [bson_iterator_key, hbf, if_neg he1wf.parts.1]
        exact hr
      · -- the key is not in the first document: the field is appended
        have htrue : es1.all (fun x => decide (x.key ≠ e.key)) = true := by
          rw [List.all_eq_true]
          intro x hx
          simpa using hall x hx
        have hfil : (e :: rest).filter (fun g => es1.all (fun x => decide (x.key ≠ g.key)))
            = e :: rest.filter (fun g => es1.all (fun x => decide (x.key ≠ g.key))) := by
          rw [List.filter_cons, htrue]; simp
        rw [hfil] at hN ⊢
        simp only [Elt.bytesList_cons, List.length_append] at hN
        push_cast at hN
        obtain ⟨out1, hs1, hg1⟩ := append_field_scalar buf2 _ off false e hwf.1
          (hsc e (by simp)) h out N fuel' hopen hD hD2 (by omega) h3
        obtain ⟨out2, hr, hg2⟩ := ih (off + e.bytes.length) ⟨buf2, off, false⟩ out1 (fuel' + 1)
          hwf.2 (fun x hx => hsc x (by simp [hx])) hdn hnx hg1.2.2.2.1 hg1.2.1 hg1.2.2.1
          (by rw [hg1.cur]; push_cast; omega) (by omega)
        refine ⟨out2, ?_, ?_⟩
        · rw [merge_second_step b1 (fuel' + 1) it2 _ out _ hn ht0]
          simp only [bson_iterator_key, hbf, if_true, hs1]
          exact hr
        · simpa [Elt.bytesList_cons] using hg1.chain hg2

/-- `bson_finish` on a builder grown from `bson_init`: the document of the bytes
added. -/
theorem finish_grown (b : bson) (bytes : List Nat) (hg : Grown bson_init b bytes)
    (hsz : 3 * ((bytes.length : Int) + 5) ≤ INT_MAX) :
    ∃ d, bson_finish b = (BSON_OK, d) ∧
      d.data = le32_bytes ((bytes.length : Int) + 5) ++ (bytes ++ [0]) ∧ d.finished = true := by
  obtain ⟨hd, hD, hD2, hopen, herr0⟩ := hg
  have hinit : bson_init.data = [0, 0, 0, 0] := by decide
  have herr : b.err = 0 := by rw [herr0]; decide
  have hcur : b.cur = bytes.length + 4 := by
    simp only [bson.cur, hd, hinit, List.length_append, List.length_cons, List.length_nil]
    omega
  obtain ⟨b3, hes, -, -, hd3, -, -⟩ := bson_ensure_space_room b 1
    ((bytes.length : Int) + 5) (by omega) hD hD2 (by rw [hcur]; push_cast; omega) hsz
  have hne : BSON_OK ≠ BSON_ERROR := by decide
  have hfin : bson_finish b = (BSON_OK,
      { bson_append_byte b3 0 with
        data := write_le32 (bson_append_byte b3 0).data 0 ((bson_append_byte b3 0).cur : Int),
        finished := true }) := by
    unfold bson_finish
    rw [herr]
    simp only [hopen, hes, if_neg hne]
    simp [BSON_NOT_UTF8]
  obtain ⟨hdata, hfinished, -⟩ := bson_finish_open b _ hopen (by rw [hcur]; omega) hfin
  refine ⟨_, hfin, ?_, hfinished⟩
  have hv : ((b.cur : Int) + 1) = (bytes.length : Int) + 5 := by
    rw [hcur]; push_cast; omega
  rw [hdata, hv, hd, hinit]
  simp

/-- `bson_merge` of two finished documents of scalar fields under legal keys into
a fresh builder, then `bson_finish`: the document of `merge_elts`. -/
theorem merge_layout (b1 b2 : bson) (es1 es2 : List Elt) (suf1 suf2 : List Nat) (ow : Bool)
    (fuel : Nat) (hf1 : b1.finished = true) (hf2 : b2.finished = true)
    (hd1 : b1.data.drop 4 = Elt.bytesList es1 ++ 0 :: suf1)
    (hd2 : b2.data.drop 4 = Elt.bytesList es2 ++ 0 :: suf2)
    (hw1 : Elt.WFs es1) (hw2 : Elt.WFs es2)
    (hs1 : ∀ e ∈ es1, e.scalar) (hs2 : ∀ e ∈ es2, e.scalar)
    (hsz : 3 * (((Elt.bytesList (merge_elts es1 es2 ow)).length : Int) + 5) ≤ INT_MAX)
    (hfuel : es1.length + es2.length + 2 ≤ fuel) :
    ∃ out d, bson_merge fuel b1 b2 ow bson_init = some (BSON_OK, out) ∧
      bson_finish out = (BSON_OK, d) ∧ d.finished = true ∧
      d.data = le32_bytes (((Elt.bytesList (merge_elts es1 es2 ow)).length : Int) + 5)
        ++ (Elt.bytesList (merge_elts es1 es2 ow) ++ [0]) := by
  have hml : Elt.bytesList (merge_elts es1 es2 ow)
      = Elt.bytesList (es1.map (merge_pick es2 ow))
        ++ Elt.bytesList (es2.filter (fun g => es1.all (fun e => decide (e.key ≠ g.key)))) := by
    unfold merge_elts
    rw [Elt.bytesList_append]
  rw [hml] at hsz
  simp only [List.length_append] at hsz
  push_cast at hsz
  have hinit : bson_init.data = [0, 0, 0, 0] := by decide
  have hcur0 : bson_init.cur = 4 := by decide
  have hn1 : bson_iterator_next (bson_iterator_init b1)
      = some (byteAt b1.data 4, ⟨b1.data, 4, false⟩) := by
    simp [bson_iterator_next, bson_iterator_init]
  have hn2 : bson_iterator_next (bson_iterator_init b2)
      = some (byteAt b2.data 4, ⟨b2.data, 4, false⟩) := by
    simp [bson_iterator_next, bson_iterator_init]
  obtain ⟨out1, hr1, hg1⟩ := merge_first_run b2 es2 suf2 hw2 hs2 hd2 ow b1.data suf1
    (((Elt.bytesList (es1.map (merge_pick es2 ow))).length : Int)
      + ((Elt.bytesList (es2.filter (fun g => es1.all (fun e => decide (e.key ≠ g.key))))).length
        : Int) + 5) (by omega) es1 4 (bson_iterator_init b1) bson_init fuel hw1 hs1 hd1 hn1
    (by decide) (by decide) (by decide) (by rw [hcur0]; push_cast; omega) (by omega)
  obtain ⟨out2, hr2, hg2⟩ := merge_second_run b1 es1 suf1 hw1 hd1 b2.data suf2
    (((Elt.bytesList (es1.map (merge_pick es2 ow))).length : Int)
      + ((Elt.bytesList (es2.filter (fun g => es1.all (fun e => decide (e.key ≠ g.key))))).length
        : Int) + 5) (by omega) es2 4 (bson_iterator_init b2) out1 fuel hw2 hs2 hd2 hn2
    hg1.2.2.2.1 hg1.2.1 hg1.2.2.1 (by rw [hg1.cur, hcur0]; push_cast; omega) (by omega)
  have hg := hg1.chain hg2
  rw [← hml] at hg
  obtain ⟨d, hfin, hdata, hfd⟩ := finish_grown out2 _ hg (by rw [hml]; simp only [List.length_append]; push_cast; omega)
  refine ⟨out2, d, ?_, hfin, hfd, hdata⟩
  have hopen0 : bson_init.finished = false := by decide
  simp only [bson_merge, hf1, hf2, hopen0, Bool.true_eq_false, Bool.false_eq_true, or_self,
    if_false, hr1, hr2]

/-! ## Merged documents -/

theorem doc_bytes_drop (es : List Elt) :
    (doc_bytes es).drop 4 = Elt.bytesList es ++ 0 :: [] := by
  unfold doc_bytes
  have : (le32_bytes (((Elt.bytesList es).length : Int) + 5)).length = 4 := le32_bytes_length _
  rw [← this, List.drop_left]

theorem merge_pick_key (es2 : List Elt) (ow : Bool) (e : Elt) :
    (merge_pick es2 ow e).key = e.key := by
  unfold merge_pick
  cases ow with
  | false => simp
  | true =>
    simp only [if_true]
    cases hf : es2.find? (fun g => decide (g.key = e.key)) with
    | none => simp
    | some g =>
      have := List.find?_some hf
      simpa using this

theorem merge_pick_mem (es2 : List Elt) (ow : Bool) (e : Elt) :
    merge_pick es2 ow e = e ∨ merge_pick es2 ow e ∈ es2 := by
  unfold merge_pick
  cases ow with
  | false => left; simp
  | true =>
    simp only [if_true]
    cases hf : es2.find? (fun g => decide (g.key = e.key)) with
    | none => left; simp
    | some g => right; simpa using List.mem_of_find?_eq_some hf

theorem merge_elts_mem (es1 es2 : List Elt) (ow : Bool) :
    ∀ e ∈ merge_elts es1 es2 ow, e ∈ es1 ∨ e ∈ es2 := by
  intro e he
  unfold merge_elts at he
  rcases List.mem_append.mp he with h | h
  · obtain ⟨x, hx, rfl⟩ := List.mem_map.mp h
    rcases merge_pick_mem es2 ow x with hp | hp
    · left; rw [hp]; exact hx
    · right; exact hp
  · right; exact (List.mem_filter.mp h).1

theorem Elt.WFs_of_forall (es : List Elt) (h : ∀ e ∈ es, e.WF) : Elt.WFs es := by
  induction es with
  | nil => simp [Elt.WFs]
  | cons e es ih =>
    simp only [Elt.WFs]
    exact ⟨h e (by simp), ih (fun x hx => h x (by simp [hx]))⟩

/-- The keys of a merged document: the keys of the first document, then the keys
of the second document that the first one does not hold. -/
theorem merge_elts_keys (es1 es2 : List Elt) (ow : Bool) :
    (merge_elts es1 es2 ow).map Elt.key
      = es1.map Elt.key
        ++ (es2.map Elt.key).filter (fun k => decide (k ∉ es1.map Elt.key)) := by
  unfold merge_elts
  rw [List.map_append, List.map_map]
  have h1 : es1.map (Elt.key ∘ merge_pick es2 ow) = es1.map Elt.key :=
    List.map_congr_left (fun e _ => merge_pick_key es2 ow e)
  rw [h1, List.filter_map]
  congr 2
  apply List.filter_congr
  intro g _
  simp only [Function.comp]
  have : (es1.all fun e => decide (e.key ≠ g.key)) = true ↔ g.key ∉ es1.map Elt.key := by
    rw [List.all_eq_true]
    simp only [List.mem_map, not_exists, not_and, decide_eq_true_eq]
  by_cases hg : g.key ∈ es1.map Elt.key
  · have h2 : (es1.all fun e => decide (e.key ≠ g.key)) = false := by
      rw [← Bool.not_eq_true, this]; simpa using hg
    rw [h2]; simp [hg]
  · rw [this.mpr hg]; simp [hg]

theorem Elt.key_leaf (t : Nat) (k p : List Nat) : (Elt.leaf t k p).key = k := rfl

theorem find_int_elts (l2 : List (List Nat × Int)) (k : List Nat) :
    (int_elts l2).find? (fun g => decide (g.key = k))
      = (l2.find? (fun q => decide (q.1 = k))).map
          (fun q => Elt.leaf BSON_INT q.1 (le32_bytes q.2)) := by
  induction l2 with
  | nil => rfl
  | cons a l ih =>
    have hu : int_elts (a :: l) = Elt.leaf BSON_INT a.1 (le32_bytes a.2) :: int_elts l := rfl
    rw [hu, List.find?_cons, List.find?_cons, Elt.key_leaf]
    by_cases ha : a.1 = k
    · simp [ha]
    · simp [ha, ih]

theorem all_int_elts (l1 : List (List Nat × Int)) (k : List Nat) :
    (int_elts l1).all (fun e => decide (e.key ≠ k)) = l1.all (fun p => decide (p.1 ≠ k)) := by
  induction l1 with
  | nil => rfl
  | cons a l ih =>
    have hu : int_elts (a :: l) = Elt.leaf BSON_INT a.1 (le32_bytes a.2) :: int_elts l := rfl
    rw [hu, List.all_cons, List.all_cons, Elt.key_leaf, ih]

theorem int_elts_merge (l1 l2 : List (List Nat × Int)) (ow : Bool) :
    int_elts (merge_ints l1 l2 ow) = merge_elts (int_elts l1) (int_elts l2) ow := by
  have hmap : ∀ l : List (List Nat × Int),
      int_elts l = l.map (fun p => Elt.leaf BSON_INT p.1 (le32_bytes p.2)) := fun _ => rfl
  unfold merge_ints merge_elts
  rw [hmap (_ ++ _), List.map_append, List.map_map, hmap l1, List.map_map, ← hmap l1,
    hmap l2, List.filter_map, ← hmap l2]
  congr 1
  · apply List.map_congr_left
    intro p _
    simp only [Function.comp, merge_pick, Elt.key_leaf]
    cases ow with
    | false => simp
    | true =>
      simp only [if_true]
      rw [find_int_elts]
      cases hf : l2.find? (fun q => decide (q.1 = p.1)) with
      | none => simp
      | some q =>
        have := List.find?_some hf
        simp only [decide_eq_true_eq] at this
        simp [this]
  · congr 1
    apply List.filter_congr
    intro q _
    simp only [Function.comp, Elt.key_leaf]
    rw [all_int_elts]

theorem int_elts_wf (l : List (List Nat × Int)) (hk : ∀ p ∈ l, ∀ c ∈ p.1, c ≠ 0) :
    Elt.WFs (int_elts l) := by
  apply Elt.WFs_of_forall
  intro e he
  obtain ⟨p, hp, rfl⟩ := List.mem_map.mp he
  refine ⟨by decide, hk p hp, ?_⟩
  simp [payload_wf, BSON_INT, BSON_UNDEFINED, BSON_NULL, BSON_BOOL, le32_bytes_length]

theorem int_elts_scalar (l : List (List Nat × Int)) (hk : ∀ p ∈ l, key_legal p.1) :
    ∀ e ∈ int_elts l, e.scalar := by
  intro e he
  obtain ⟨p, hp, rfl⟩ := List.mem_map.mp he
  exact ⟨hk p hp, Or.inl ⟨rfl, p.2, rfl⟩⟩

/-- C19: for finished documents `b1` and `b2` of INT fields under legal keys and
the fresh builder `bson_init`, of a merged size whose threefold fits a C int,
`bson_merge` returns `BSON_OK` and `bson_finish` then yields the document of
`merge_ints`: every field of `b1` in order, carrying the value of the first
field of `b2` under its key when `overwrite` is set and `b2` holds that key and
its own value otherwise, followed by the fields of `b2` whose key `b1` does not
hold, with their values. -/
theorem merge_int_documents (l1 l2 : List (List Nat × Int)) (b1 b2 : bson) (ow : Bool)
    (fuel : Nat) (hn1 : ∀ p ∈ l1, ∀ c ∈ p.1, c ≠ 0) (hk1 : ∀ p ∈ l1, key_legal p.1)
    (hn2 : ∀ p ∈ l2, ∀ c ∈ p.1, c ≠ 0) (hk2 : ∀ p ∈ l2, key_legal p.1)
    (hf1 : b1.finished = true) (hd1 : b1.data = doc_bytes (int_elts l1))
    (hf2 : b2.finished = true) (hd2 : b2.data = doc_bytes (int_elts l2))
    (hsz : 3 * (((Elt.bytesList (int_elts (merge_ints l1 l2 ow))).length : Int) + 5)
      ≤ INT_MAX)
    (hfuel : l1.length + l2.length + 2 ≤ fuel) :
    ∃ out d, bson_merge fuel b1 b2 ow bson_init = some (BSON_OK, out) ∧
      bson_finish out = (BSON_OK, d) ∧ d.finished = true ∧
      d.data = doc_bytes (int_elts (merge_ints l1 l2 ow)) := by
  rw [int_elts_merge] at hsz ⊢
  have hl1 : (int_elts l1).length = l1.length := by simp [int_elts]
  have hl2 : (int_elts l2).length = l2.length := by simp [int_elts]
  exact merge_layout b1 b2 (int_elts l1) (int_elts l2) [] [] ow fuel hf1 hf2
    (by rw [hd1]; exact doc_bytes_drop _) (by rw [hd2]; exact doc_bytes_drop _)
    (int_elts_wf l1 hn1) (int_elts_wf l2 hn2) (int_elts_scalar l1 hk1) (int_elts_scalar l2 hk2)
    hsz (by rw [hl1, hl2]; exact hfuel)

theorem sample_keys_legal : key_legal [97] ∧ key_legal [98] ∧ key_legal [99] := by
  unfold key_legal
  decide

/-- The merge of `{a: 1, b: 2}` and `{b: 3, c: 4}`, both built with
`bson_append_int`: with `overwrite` the bytes of `{a: 1, b: 3, c: 4}`, without
it the bytes of `{a: 1, b: 2, c: 4}`. -/
theorem merge_int_documents_witness :
    (∃ out d, bson_merge 6 sample_ab_doc sample_bc_doc true bson_init = some (BSON_OK, out) ∧
        bson_finish out = (BSON_OK, d) ∧ d.data = sample_ab3c_doc.data) ∧
      (∃ out d, bson_merge 6 sample_ab_doc sample_bc_doc false bson_init = some (BSON_OK, out) ∧
        bson_finish out = (BSON_OK, d) ∧ d.data = sample_ab2c_doc.data) :=
  ⟨match merge_int_documents [([97], 1), ([98], 2)] [([98], 3), ([99], 4)] sample_ab_doc
        sample_bc_doc true 6 (by decide)
        (by
          intro p hp
          simp only [List.mem_cons, List.mem_singleton, List.not_mem_nil, or_false] at hp
          rcases hp with rfl | rfl
          · exact sample_keys_legal.1
          · exact sample_keys_legal.2.1)
        (by decide)
        (by
          intro p hp
          simp only [List.mem_cons, List.mem_singleton, List.not_mem_nil, or_false] at hp
          rcases hp with rfl | rfl
          · exact sample_keys_legal.2.1
          · exact sample_keys_legal.2.2)
        (by decide) (by decide) (by decide) (by decide) (by decide) (by decide) with
    | ⟨out, d, h1, h2, _, h4⟩ => ⟨out, d, h1, h2, h4.trans (by decide)⟩,
   match merge_int_documents [([97], 1), ([98], 2)] [([98], 3), ([99], 4)] sample_ab_doc
        sample_bc_doc false 6 (by decide)
        (by
          intro p hp
          simp only [List.mem_cons, List.mem_singleton, List.not_mem_nil, or_false] at hp
          rcases hp with rfl | rfl
          · exact sample_keys_legal.1
          · exact sample_keys_legal.2.1)
        (by decide)
        (by
          intro p hp
          simp only [List.mem_cons, List.mem_singleton, List.not_mem_nil, or_false] at hp
          rcases hp with rfl | rfl
          · exact sample_keys_legal.2.1
          · exact sample_keys_legal.2.2)
        (by decide) (by decide) (by decide) (by decide) (by decide) (by decide) with
    | ⟨out, d, h1, h2, _, h4⟩ => ⟨out, d, h1, h2, h4.trans (by decide)⟩⟩

/-- C20: for finished documents `b1` and `b2` of scalar fields (INT, LONG, BOOL,
NULL, UNDEFINED, DATE, OID, STRING without zero byte) under legal keys and the
fresh builder `bson_init`, of a merged size whose threefold fits a C int, and
for both values of `overwrite`: `bson_merge` returns `BSON_OK`, `bson_finish`
succeeds, and the keys the iterator meets in the merged document are the keys of
`b1` in order, one for each field of `b1`, followed by the keys of `b2` that do
not occur in `b1`, in the order of `b2`. -/
theorem merge_key_order (es1 es2 : List Elt) (b1 b2 : bson) (ow : Bool) (fuel : Nat)
    (hw1 : Elt.WFs es1) (hw2 : Elt.WFs es2)
    (hs1 : ∀ e ∈ es1, e.scalar) (hs2 : ∀ e ∈ es2, e.scalar)
    (hf1 : b1.finished = true) (hd1 : b1.data = doc_bytes es1)
    (hf2 : b2.finished = true) (hd2 : b2.data = doc_bytes es2)
    (hsz : 3 * (((Elt.bytesList (merge_elts es1 es2 ow)).length : Int) + 5) ≤ INT_MAX)
    (hfuel : es1.length + es2.length + 2 ≤ fuel) :
    ∃ out d, bson_merge fuel b1 b2 ow bson_init = some (BSON_OK, out) ∧
      bson_finish out = (BSON_OK, d) ∧
      (bson_iterator_trace ((merge_elts es1 es2 ow).length + 1) (bson_iterator_init d)).map
          (fun tr => tr.map Prod.snd)
        = some (es1.map Elt.key
            ++ (es2.map Elt.key).filter (fun k => decide (k ∉ es1.map Elt.key)) ++ [[]]) := by
  obtain ⟨out, d, hm, hfin, -, hdata⟩ := merge_layout b1 b2 es1 es2 [] [] ow fuel hf1 hf2
    (by rw [hd1]; exact doc_bytes_drop _) (by rw [hd2]; exact doc_bytes_drop _)
    hw1 hw2 hs1 hs2 hsz hfuel
  refine ⟨out, d, hm, hfin, ?_⟩
  have hwf : Elt.WFs (merge_elts es1 es2 ow) := by
    apply Elt.WFs_of_forall
    intro e he
    rcases merge_elts_mem es1 es2 ow e he with h | h
    · exact Elt.WFs_mem es1 hw1 e h
    · exact Elt.WFs_mem es2 hw2 e h
  have hdrop : d.data.drop 4 = Elt.bytesList (merge_elts es1 es2 ow) ++ 0 :: [] := by
    rw [hdata]; exact doc_bytes_drop _
  have htr := (trace_elts (merge_elts es1 es2 ow) d.data [] 4 hwf hdrop).2 1
  have hinit : bson_iterator_init d = ⟨d.data, 4, true⟩ := rfl
  rw [hinit, htr]
  simp only [Option.map_some', List.map_append, List.map_map, Option.some.injEq]
  have hk := merge_elts_keys es1 es2 ow
  have hcomp : (Prod.snd ∘ fun x : Elt => (x.type, x.key)) = Elt.key := by
    funext x; rfl
  rw [hcomp, hk]
  simp [BSON_EOO]

theorem sample_mixed_scalar :
    ∀ e ∈ Item.elts (sample_mixed_fields.map Item.field), e.scalar := by
  intro e he
  have hl : Item.elts (sample_mixed_fields.map Item.field)
      = [.leaf BSON_INT [97] (le32_bytes 1),
          .leaf BSON_STRING [115] (le32_bytes (((([104, 105] : List Nat).length : Nat) : Int) + 1)
            ++ [104, 105] ++ [0]),
          .leaf BSON_BOOL [97] [1]] := rfl
  rw [hl] at he
  simp only [List.mem_cons, List.mem_singleton, List.not_mem_nil, or_false] at he
  rcases he with rfl | rfl | rfl
  · exact ⟨by unfold key_legal; decide, Or.inl ⟨rfl, 1, rfl⟩⟩
  · exact ⟨by unfold key_legal; decide,
      Or.inr (Or.inr (Or.inr (Or.inr (Or.inr ⟨rfl, [104, 105], by decide, by decide, rfl⟩))))⟩
  · exact ⟨by unfold key_legal; decide, Or.inr (Or.inr (Or.inl ⟨rfl, Or.inr rfl⟩))⟩

theorem sample_other_scalar :
    ∀ e ∈ Item.elts (sample_other_fields.map Item.field), e.scalar := by
  intro e he
  have hl : Item.elts (sample_other_fields.map Item.field)
      = [.leaf BSON_LONG [110] (le64_bytes 7), .leaf BSON_NULL [115] [],
          .leaf BSON_NULL [109] [], .leaf BSON_LONG [110] (le64_bytes 8)] := rfl
  rw [hl] at he
  simp only [List.mem_cons, List.mem_singleton, List.not_mem_nil, or_false] at he
  rcases he with rfl | rfl | rfl | rfl
  · exact ⟨by unfold key_legal; decide, Or.inr (Or.inl ⟨Or.inl rfl, 7, rfl⟩)⟩
  · exact ⟨by unfold key_legal; decide, Or.inr (Or.inr (Or.inr (Or.inl ⟨Or.inl rfl, rfl⟩)))⟩
  · exact ⟨by unfold key_legal; decide, Or.inr (Or.inr (Or.inr (Or.inl ⟨Or.inl rfl, rfl⟩)))⟩
  · exact ⟨by unfold key_legal; decide, Or.inr (Or.inl ⟨Or.inl rfl, 8, rfl⟩)⟩

theorem sample_mixed_args : ∀ f ∈ sample_mixed_fields, f.args_ok := by
  intro f hf
  simp only [sample_mixed_fields, List.mem_cons, List.mem_singleton, List.not_mem_nil,
    or_false] at hf
  rcases hf with rfl | rfl | rfl <;> trivial

theorem sample_other_args : ∀ f ∈ sample_other_fields, f.args_ok := by
  intro f hf
  simp only [sample_other_fields, List.mem_cons, List.mem_singleton, List.not_mem_nil,
    or_false] at hf
  rcases hf with rfl | rfl | rfl | rfl <;> trivial

/-- The merge of `{a: 1, s: "hi", a: true}` and `{n: 7, s: null, m: null, n: 8}`:
the keys of the result are `a, s, a, n, m, n` for both values of `overwrite`. -/
theorem merge_key_order_witness :
    (∃ out d, bson_merge 9 sample_mixed_doc sample_other_doc true bson_init
          = some (BSON_OK, out) ∧ bson_finish out = (BSON_OK, d) ∧
        (bson_iterator_trace 7 (bson_iterator_init d)).map (fun tr => tr.map Prod.snd)
          = some [[97], [115], [97], [110], [109], [110], []]) ∧
      (∃ out d, bson_merge 9 sample_mixed_doc sample_other_doc false bson_init
          = some (BSON_OK, out) ∧ bson_finish out = (BSON_OK, d) ∧
        (bson_iterator_trace 7 (bson_iterator_init d)).map (fun tr => tr.map Prod.snd)
          = some [[97], [115], [97], [110], [109], [110], []]) :=
  ⟨match merge_key_order (Item.elts (sample_mixed_fields.map Item.field))
        (Item.elts (sample_other_fields.map Item.field)) sample_mixed_doc sample_other_doc
        true 9
        (Item.elts_wf _ (args_ok_map_field _ sample_mixed_args) (by decide))
        (Item.elts_wf _ (args_ok_map_field _ sample_other_args) (by decide))
        sample_mixed_scalar sample_other_scalar (by decide) (by decide) (by decide)
        (by decide) (by decide) (by decide) with
    | ⟨out, d, h1, h2, h3⟩ => ⟨out, d, h1, h2, h3⟩,
   match merge_key_order (Item.elts (sample_mixed_fields.map Item.field))
        (Item.elts (sample_other_fields.map Item.field)) sample_mixed_doc sample_other_doc
        false 9
        (Item.elts_wf _ (args_ok_map_field _ sample_mixed_args) (by decide))
        (Item.elts_wf _ (args_ok_map_field _ sample_other_args) (by decide))
        sample_mixed_scalar sample_other_scalar (by decide) (by decide) (by decide)
        (by decide) (by decide) (by decide) with
    | ⟨out, d, h1, h2, h3⟩ => ⟨out, d, h1, h2, h3⟩⟩

/-! ## Object ids -/

theorem swap_le32_bytes (v : Int) : bson_big_endian32 (le32_bytes v) = be32_bytes v := by
  simp [bson_big_endian32, bson_swap_endian32, le32_bytes, be32_bytes, byteAt]

theorem be32_bytes_congr (a b : Int) (h : a % 4294967296 = b % 4294967296) :
    be32_bytes a = be32_bytes b := by
  simp only [be32_bytes, h]

theorem be32_bytes_inj (a b : Int) (h : be32_bytes a = be32_bytes b) :
    a % 4294967296 = b % 4294967296 := by
  have ha : 0 ≤ a % 4294967296 := Int.emod_nonneg _ (by decide)
  have hb : 0 ≤ b % 4294967296 := Int.emod_nonneg _ (by decide)
  have ha2 : a % 4294967296 < 4294967296 := Int.emod_lt_of_pos _ (by decide)
  have hb2 : b % 4294967296 < 4294967296 := Int.emod_lt_of_pos _ (by decide)
  generalize hx : (a % 4294967296).toNat = x at *
  generalize hy : (b % 4294967296).toNat = y at *
  have hxa : a % 4294967296 = (x : Int) := by omega
  have hyb : b % 4294967296 = (y : Int) := by omega
  simp only [be32_bytes, hx, hy, List.cons.injEq, and_true] at h
  obtain ⟨h0, h1, h2, h3⟩ := h
  have : x = y := by omega
  rw [hxa, hyb, this]

theorem be32_bytes_length (v : Int) : (be32_bytes v).length = 4 := by
  simp [be32_bytes]

/-- The three words of a generated OID. -/
theorem oid_parts (env : oid_env) (s : oid_statics) :
    (bson_oid_gen env s).oid
      = be32_bytes (wrap32 env.time) ++ le32_bytes (bson_oid_gen env s).statics.fuzz
        ++ be32_bytes ((env.inc_func.map wrap32).getD s.incr) := by
  cases hi : env.inc_func <;> simp [bson_oid_gen, swap_le32_bytes, hi]

/-- C22: the twelve bytes `bson_oid_gen` writes are the four bytes of the clock
value `t` (the `int` it takes from `time(NULL)`) in big-endian order, the four
bytes of the fuzz value in effect after the call as they lie in the memory of
the host, and the four bytes of the counter value `i` of the call (the value of
the injected increment function, else the static counter) in big-endian order,
whatever the clock, the fuzz source and the counter are. -/
theorem oid_layout (env : oid_env) (s : oid_statics) :
    (bson_oid_gen env s).oid
      = be32_bytes (wrap32 env.time) ++ le32_bytes (bson_oid_gen env s).statics.fuzz
        ++ be32_bytes ((env.inc_func.map wrap32).getD s.incr) ∧
    (bson_oid_gen env s).oid.length = 12 := by
  refine ⟨oid_parts env s, ?_⟩
  rw [oid_parts]
  simp [be32_bytes_length, le32_bytes_length]

/-- The counter bytes of the OIDs of a run with the default counter source. -/
theorem oid_run_counter (envs : List oid_env) : ∀ (s : oid_statics) (j : Nat),
    (∀ e ∈ envs, e.inc_func = none) → j < envs.length →
    (((bson_oid_gen_run envs s).map oid_result.oid).getD j []).drop 8
        = be32_bytes (s.incr + j) ∧
      (((bson_oid_gen_run envs s).map (fun r => r.statics.incr)).getD j 0)
        = wrap32 (s.incr + j + 1) := by
  induction envs with
  | nil => intro s j _ hj; simp at hj
  | cons e envs ih =>
    intro s j hdef hj
    have he : e.inc_func = none := hdef e (by simp)
    have hs : (bson_oid_gen e s).statics.incr = wrap32 (s.incr + 1) := by
      simp [bson_oid_gen, he]
    cases j with
    | zero =>
      constructor
      · simp only [bson_oid_gen_run, List.map_cons, List.getD_cons_zero]
        rw [oid_parts, he]
        have h8 : (be32_bytes (wrap32 e.time)
            ++ le32_bytes (bson_oid_gen e s).statics.fuzz).length = 8 := by
          simp [be32_bytes_length, le32_bytes_length]
        rw [List.drop_left' h8]
        simp
      · simp only [bson_oid_gen_run, List.map_cons, List.getD_cons_zero, hs]
        simp
    | succ j =>
      obtain ⟨h1, h2⟩ := ih (bson_oid_gen e s).statics j
        (fun x hx => hdef x (by simp [hx])) (by simpa using hj)
      constructor
      · simp only [bson_oid_gen_run, List.map_cons, List.getD_cons_succ]
        rw [h1, hs]
        apply be32_bytes_congr
        unfold wrap32
        push_cast
        omega
      · simp only [bson_oid_gen_run, List.map_cons, List.getD_cons_succ]
        rw [h2, hs]
        unfold wrap32
        push_cast
        omega

/-- C23: in every run of `bson_oid_gen` calls with the default counter source,
whatever the clock and the fuzz source return and whatever the statics hold at
the start, the call number `j` leaves the counter at its start value plus
`j + 1` modulo 2^32 (never reset), and any two OIDs of calls fewer than 2^32
calls apart are different 12-byte values. -/
theorem oid_distinct (envs : List oid_env) (s : oid_statics)
    (hdef : ∀ e ∈ envs, e.inc_func = none) :
    (∀ j k, j < k → k < envs.length → k - j < 4294967296 →
      ((bson_oid_gen_run envs s).map oid_result.oid).getD j []
        ≠ ((bson_oid_gen_run envs s).map oid_result.oid).getD k []) ∧
    (∀ j, j < envs.length →
      ((bson_oid_gen_run envs s).map (fun r => r.statics.incr)).getD j 0
        = wrap32 (s.incr + j + 1)) := by
  constructor
  · intro j k hjk hk hclose heq
    obtain ⟨hj1, -⟩ := oid_run_counter envs s j hdef (by omega)
    obtain ⟨hk1, -⟩ := oid_run_counter envs s k hdef hk
    rw [heq, hk1] at hj1
    have := be32_bytes_inj _ _ hj1
    omega
  · intro j hj
    exact (oid_run_counter envs s j hdef hj).2

/-- Three calls at one clock value with one value of `rand`: the three OIDs
differ from each other. -/
theorem oid_distinct_witness :
    ((bson_oid_gen_run [⟨5, none, none, 9⟩, ⟨5, none, none, 9⟩, ⟨5, none, none, 9⟩]
          ⟨0, 0⟩).map oid_result.oid).getD 0 []
        ≠ ((bson_oid_gen_run [⟨5, none, none, 9⟩, ⟨5, none, none, 9⟩, ⟨5, none, none, 9⟩]
          ⟨0, 0⟩).map oid_result.oid).getD 2 [] ∧
      (bson_oid_gen_run [⟨5, none, none, 9⟩, ⟨5, none, none, 9⟩, ⟨5, none, none, 9⟩]
          ⟨0, 0⟩).map oid_result.oid
        = [[0, 0, 0, 5, 9, 0, 0, 0, 0, 0, 0, 0], [0, 0, 0, 5, 9, 0, 0, 0, 0, 0, 0, 1],
            [0, 0, 0, 5, 9, 0, 0, 0, 0, 0, 0, 2]] :=
  ⟨(oid_distinct [⟨5, none, none, 9⟩, ⟨5, none, none, 9⟩, ⟨5, none, none, 9⟩] ⟨0, 0⟩
      (by decide)).1 0 2 (by decide) (by decide) (by decide), by decide⟩

/-- With a `time_t` of four bytes `bson_oid_generated_time` returns the clock
value of the call that made the OID. -/
theorem oid_time_decode_32 (env : oid_env) (s : oid_statics) (out0 : List Nat) :
    bson_oid_generated_time 4 out0 (bson_oid_gen env s).oid = wrap32 env.time := by
  have hl : (mem_take out0 4).length = 4 := mem_take_length _ _
  obtain ⟨a, b, c, d, habcd⟩ : ∃ a b c d, mem_take out0 4 = [a, b, c, d] := by
    match hm : mem_take out0 4, hl with
    | [a, b, c, d], _ => exact ⟨a, b, c, d, rfl⟩
  have hw : wrap32 (wrap32 env.time) = wrap32 env.time := by
    unfold wrap32; omega
  simp only [bson_oid_generated_time, habcd, if_true]
  simp only [bson_oid_gen, bson_big_endian32, bson_swap_endian32, le32_bytes, byteAt]
  simp only [List.cons_append, List.getD_cons_zero, List.getD_cons_succ, mem_write,
    List.set_cons_zero, List.set_cons_succ, read_le32, read_u32, byteAt, Nat.zero_add]
  have hn0 : 0 ≤ wrap32 env.time % 4294967296 := Int.emod_nonneg _ (by decide)
  have hn1 : wrap32 env.time % 4294967296 < 4294967296 := Int.emod_lt_of_pos _ (by decide)
  generalize hx : (wrap32 env.time % 4294967296).toNat = n
  have hxn : (n : Int) = wrap32 env.time % 4294967296 := by omega
  have hsum : n % 256 + 256 * (n / 256 % 256) + 65536 * (n / 65536 % 256)
      + 16777216 * (n / 16777216 % 256) = n := by omega
  rw [hsum]
  unfold wrap32 at hxn ⊢
  omega

/-- C24 (code bug): `bson_oid_generated_time` declares `time_t out` without a
value and `bson_big_endian32` writes four of its bytes; with a `time_t` of eight
bytes the upper four bytes are what the memory held.  For the OID made at the
clock value `1`: the result is `4294967297` when byte 4 of that memory is `1`,
and the clock value `1` only when the upper four bytes happen to be zero (or
`time_t` has four bytes). -/
theorem oid_time_decode_uninitialised :
    (bson_oid_gen ⟨1, none, none, 77⟩ ⟨0, 0⟩).oid = [0, 0, 0, 1, 77, 0, 0, 0, 0, 0, 0, 0] ∧
      bson_oid_generated_time 8 [0, 0, 0, 0, 1, 0, 0, 0]
          (bson_oid_gen ⟨1, none, none, 77⟩ ⟨0, 0⟩).oid = 4294967297 ∧
      bson_oid_generated_time 8 [0, 0, 0, 0, 0, 0, 0, 0]
          (bson_oid_gen ⟨1, none, none, 77⟩ ⟨0, 0⟩).oid = 1 ∧
      bson_oid_generated_time 4 [9, 9, 9, 9]
          (bson_oid_gen ⟨1, none, none, 77⟩ ⟨0, 0⟩).oid = 1 := by
  decide

/-- C25 (code bug): the static `fuzz` doubles as the mark "not drawn yet", so a
fuzz source that returns `0` is consulted again by the next call.  Two calls
with an injected fuzz function that returns `0` and then `7` both consult it,
and the two OIDs carry the bytes `0 0 0 0` and `7 0 0 0` at the offsets 4..7; the
same with `rand()` returning `0` and then `7` when no function is injected. -/
theorem oid_fuzz_zero_drawn_again :
    (bson_oid_gen_run [⟨1, none, some 0, 5⟩, ⟨1, none, some 7, 5⟩] ⟨0, 0⟩).map
        (fun r => (r.fuzz_calls, (r.oid.drop 4).take 4))
      = [(1, [0, 0, 0, 0]), (1, [7, 0, 0, 0])] ∧
    (bson_oid_gen_run [⟨1, none, none, 0⟩, ⟨1, none, none, 7⟩] ⟨0, 0⟩).map
        (fun r => (r.fuzz_calls, (r.oid.drop 4).take 4))
      = [(1, [0, 0, 0, 0]), (1, [7, 0, 0, 0])] ∧
    (bson_oid_gen_run [⟨1, none, some 3, 5⟩, ⟨1, none, some 7, 5⟩] ⟨0, 0⟩).map
        (fun r => (r.fuzz_calls, (r.oid.drop 4).take 4))
      = [(1, [3, 0, 0, 0]), (0, [3, 0, 0, 0])] := by
  decide

/-! ## Growth of the buffer -/

/-- The bytes of a document built from a fresh builder of any initial capacity
by a balanced builder program and `bson_finish`. -/
theorem built_layout_from (items : List Item) (b0 b d : bson)
    (h0 : b0.data = [0, 0, 0, 0]) (hopen : b0.finished = false) (hsp : b0.stackPos = 0)
    (hb : Item.buildList items b0 = (BSON_OK, b)) (hf : bson_finish b = (BSON_OK, d)) :
    d.data = le32_bytes (((Elt.bytesList (Item.elts items)).length : Int) + 5)
      ++ (Elt.bytesList (Item.elts items) ++ [0]) := by
  have h1 := Item.buildList_ok items b0 b BSON_OK (by rw [hsp]) hb (by decide) hopen
  obtain ⟨-, hd, hfin, -⟩ := h1
  have h4 : 4 ≤ b.cur := by
    simp only [bson.cur, hd, h0, List.length_append, List.length_cons, List.length_nil]
    omega
  obtain ⟨hdd, -⟩ := bson_finish_open b d hfin h4 hf
  rw [hdd]
  have hcur : ((b.cur : Int) + 1) = ((Elt.bytesList (Item.elts items)).length : Int) + 5 := by
    simp only [bson.cur, hd, h0, List.length_append, List.length_cons, List.length_nil]
    push_cast
    omega
  rw [hcur, hd, h0]
  simp

/-- C27, counterexample: growing `bson_init` (capacity 128, cursor offset 4) for
200 bytes gives the capacity 492, which is 1.5 x (128 + 200) and not
max (1.5 x 128 + 200, 200) = 392; and growing a builder of capacity 1000000000
for 1000000000 bytes, where 1.5 x capacity + needed is 2500000000 and exceeds
`INT_MAX` while capacity + needed does not, returns `BSON_OK` with the capacity
`INT_MAX` and no error flag. -/
theorem ensure_space_size_counterexample :
    bson_ensure_space bson_init 200
        = (BSON_OK, { bson_init with data_null := false, dataSize := 492 }) ∧
      max (3 * bson_init.dataSize / 2 + 200) 200 = 392 ∧
      bson_ensure_space (bson_init_size 1000000000) 1000000000
        = (BSON_OK,
            { bson_init_size 1000000000 with data_null := false, dataSize := INT_MAX }) ∧
      INT_MAX < max (3 * (bson_init_size 1000000000).dataSize / 2 + 1000000000) 1000000000 ∧
      (bson_init_size 1000000000).dataSize + 1000000000 < INT_MAX := by
  decide

/-- C27, amended: when `bson_ensure_space(b, needed)` has to grow (the cursor
offset plus `needed` exceeds the capacity), for a capacity and a `needed` that
are not negative and with cursor offset + `needed` and capacity + `needed` not
above `INT_MAX`, the new capacity is 1.5 x (capacity + needed), rounded down, or
`INT_MAX` when that product exceeds `INT_MAX`, and the call fails with
`BSON_ERROR` and `err = BSON_SIZE_OVERFLOW`, leaving data, capacity and cursor
as they were, exactly when capacity + needed is not below `INT_MAX`. -/
theorem ensure_space_growth (b : bson) (n : Int) (hD0 : 0 ≤ b.dataSize) (hn0 : 0 ≤ n)
    (hsum : b.dataSize + n ≤ INT_MAX) (hpos : (b.cur : Int) + n ≤ INT_MAX)
    (hgrow : b.dataSize < (b.cur : Int) + n) :
    (3 * (b.dataSize + n) / 2 ≤ INT_MAX →
      bson_ensure_space b n
        = (BSON_OK, { b with data_null := false, dataSize := 3 * (b.dataSize + n) / 2 })) ∧
    (INT_MAX < 3 * (b.dataSize + n) / 2 → b.dataSize + n < INT_MAX →
      bson_ensure_space b n = (BSON_OK, { b with data_null := false, dataSize := INT_MAX })) ∧
    (¬ (b.dataSize + n < INT_MAX) →
      bson_ensure_space b n = (BSON_ERROR, { b with err := BSON_SIZE_OVERFLOW })) ∧
    ((bson_ensure_space b n).1 = BSON_ERROR ↔ ¬ (b.dataSize + n < INT_MAX)) := by
  simp only [INT_MAX] at hsum hpos ⊢
  have hwp : wrap32 ((b.cur : Int) + n) = (b.cur : Int) + n :=
    wrap32_of_range _ (by omega) (by omega)
  have hng : ¬ wrap32 ((b.cur : Int) + n) ≤ b.dataSize := by rw [hwp]; omega
  have hw : wrap32 (b.dataSize + n) = b.dataSize + n :=
    wrap32_of_range _ (by omega) (by omega)
  have ht : Int.tdiv (3 * (b.dataSize + n)) 2 = (3 * (b.dataSize + n)) / 2 :=
    Int.tdiv_eq_ediv (by omega) (by omega)
  have hfit : 3 * (b.dataSize + n) / 2 ≤ 2147483647 →
      bson_ensure_space b n
        = (BSON_OK, { b with data_null := false, dataSize := 3 * (b.dataSize + n) / 2 }) := by
    intro hfit
    have hval : double_to_int_half (3 * (b.dataSize + n)) = (3 * (b.dataSize + n)) / 2 := by
      unfold double_to_int_half
      simp only [ht, INT_MIN, INT_MAX]
      rw [if_neg (by omega)]
    unfold bson_ensure_space
    simp only [if_neg hng, hw, hval]
    rw [if_neg (by omega)]
  have hval : 2147483647 < 3 * (b.dataSize + n) / 2 →
      double_to_int_half (3 * (b.dataSize + n)) = INT_MIN := by
    intro hbig
    unfold double_to_int_half
    simp only [ht, INT_MIN, INT_MAX]
    rw [if_pos (by omega)]
  have hclamp : 2147483647 < 3 * (b.dataSize + n) / 2 → b.dataSize + n < 2147483647 →
      bson_ensure_space b n
        = (BSON_OK, { b with data_null := false, dataSize := 2147483647 }) := by
    intro hbig hlt
    unfold bson_ensure_space
    simp only [if_neg hng, hw, hval hbig, INT_MIN, INT_MAX]
    rw [if_pos (by omega), if_pos hlt]
  have hfail : ¬ (b.dataSize + n < 2147483647) →
      bson_ensure_space b n = (BSON_ERROR, { b with err := BSON_SIZE_OVERFLOW }) := by
    intro hge
    unfold bson_ensure_space
    simp only [if_neg hng, hw, hval (by omega), INT_MIN, INT_MAX]
    rw [if_pos (by omega), if_neg hge]
  have hne : ¬ (BSON_OK = BSON_ERROR) := by decide
  refine ⟨hfit, hclamp, hfail, ?_⟩
  constructor
  · intro herr hlt
    by_cases hf : 3 * (b.dataSize + n) / 2 ≤ 2147483647
    · rw [hfit hf] at herr
      exact hne herr
    · rw [hclamp (by omega) hlt] at herr
      exact hne herr
  · intro hge
    rw [hfail hge]

/-- The three cases of growth on `bson_init`: for 200 bytes the capacity 492, for
1500000000 bytes the capacity `INT_MAX`, for `INT_MAX - 128` bytes the error. -/
theorem ensure_space_growth_witness :
    bson_ensure_space bson_init 200
        = (BSON_OK, { bson_init with data_null := false, dataSize := 3 * (128 + 200) / 2 }) ∧
      bson_ensure_space bson_init 1500000000
        = (BSON_OK, { bson_init with data_null := false, dataSize := INT_MAX }) ∧
      bson_ensure_space bson_init 2147483519
        = (BSON_ERROR, { bson_init with err := BSON_SIZE_OVERFLOW }) :=
  ⟨(ensure_space_growth bson_init 200 (by decide) (by decide) (by decide) (by decide)
      (by decide)).1 (by decide),
    (ensure_space_growth bson_init 1500000000 (by decide) (by decide) (by decide) (by decide)
      (by decide)).2.1 (by decide) (by decide),
    (ensure_space_growth bson_init 2147483519 (by decide) (by decide) (by decide) (by decide)
      (by decide)).2.2.1 (by decide)⟩

/-! ## The frame stack and the error flags -/

/-- C28 (code bug): `bson_append_finish_object` has no test of the stack index.
On every builder with no open frame (`stackPos = 0`) and room for one byte, it
and `bson_append_finish_array` return `BSON_OK`, leave the stack index at `-1`,
append a zero byte and write a length of four bytes at the offset they read from
the slot in front of the frame stack. -/
theorem unmatched_finish_succeeds (b : bson) (h0 : b.stackPos = 0)
    (hroom : (bson_ensure_space b 1).1 = BSON_OK) :
    (bson_append_finish_object b).1 = BSON_OK ∧
      (bson_append_finish_object b).2.stackPos = -1 ∧
      (bson_append_finish_object b).2.data
        = write_le32 (b.data ++ [0]) (stack_get b.stack (-1))
            ((b.cur : Int) + 1 - stack_get b.stack (-1)) ∧
      bson_append_finish_array b = bson_append_finish_object b := by
  have hr : (bson_append_finish_object b).1 = BSON_OK := by
    unfold bson_append_finish_object
    rcases hes : bson_ensure_space b 1 with ⟨r1, b1⟩
    rw [hes] at hroom
    simp only at hroom
    subst hroom
    simp [BSON_OK, BSON_ERROR]
  obtain ⟨hd, -, hsp, -⟩ := finish_object_ok b (bson_append_finish_object b).2
    (bson_append_finish_object b).1 rfl (by rw [hr]; decide)
  refine ⟨hr, by rw [hsp, h0]; rfl, ?_, rfl⟩
  rw [hd, h0]
  rfl

/-- On the fresh builder `bson_init` an unmatched finish returns `BSON_OK`: the
slot in front of the frame stack reads as `0` in this model, and the four bytes
at the offset `0` become the length `5`. -/
theorem unmatched_finish_succeeds_witness :
    bson_init.stackPos = 0 ∧ (bson_append_finish_object bson_init).1 = BSON_OK ∧
      (bson_append_finish_object bson_init).2.stackPos = -1 ∧
      (bson_append_finish_object bson_init).2.data = [5, 0, 0, 0, 0] :=
  ⟨by decide,
    (unmatched_finish_succeeds bson_init (by decide) (by decide)).1,
    (unmatched_finish_succeeds bson_init (by decide) (by decide)).2.1,
    ((unmatched_finish_succeeds bson_init (by decide) (by decide)).2.2.1).trans (by decide)⟩

/-- C29 (code bug): `bson_append_start_object` and `bson_append_start_array`
store the frame offset at `stack[stackPos++]` without comparing the index with
any capacity and call no fatal handler.  Whenever the element header is accepted,
whatever the number of open frames, they return `BSON_OK`, write the slot
`stackPos` and leave the index at `stackPos + 1`. -/
theorem start_beyond_stack (b : bson) (name : List Nat) (h0 : 0 ≤ b.stackPos)
    (hobj : (bson_append_estart b BSON_OBJECT name 5).1 = BSON_OK)
    (harr : (bson_append_estart b BSON_ARRAY name 5).1 = BSON_OK) :
    ((bson_append_start_object b name).1 = BSON_OK ∧
      (bson_append_start_object b name).2.stackPos = b.stackPos + 1 ∧
      stack_get (bson_append_start_object b name).2.stack b.stackPos
        = ((b.data ++ BSON_OBJECT :: (cstr name ++ [0])).length : Nat)) ∧
    ((bson_append_start_array b name).1 = BSON_OK ∧
      (bson_append_start_array b name).2.stackPos = b.stackPos + 1 ∧
      stack_get (bson_append_start_array b name).2.stack b.stackPos
        = ((b.data ++ BSON_ARRAY :: (cstr name ++ [0])).length : Nat)) := by
  have ho : (bson_append_start_object b name).1 ≠ BSON_ERROR := by
    unfold bson_append_start_object
    rcases hes : bson_append_estart b BSON_OBJECT name 5 with ⟨r1, b1⟩
    rw [hes] at hobj
    simp only at hobj
    subst hobj
    simp [BSON_OK, BSON_ERROR]
  have ha : (bson_append_start_array b name).1 ≠ BSON_ERROR := by
    unfold bson_append_start_array
    rcases hes : bson_append_estart b BSON_ARRAY name 5 with ⟨r1, b1⟩
    rw [hes] at harr
    simp only at harr
    subst harr
    simp [BSON_OK, BSON_ERROR]
  obtain ⟨⟨-, -, -, hsp, hst, -⟩, hr⟩ := bson_append_start_object_ok b
    (bson_append_start_object b name).2 name (bson_append_start_object b name).1 rfl ho
  obtain ⟨⟨-, -, -, hsp2, hst2, -⟩, hr2⟩ := bson_append_start_array_ok b
    (bson_append_start_array b name).2 name (bson_append_start_array b name).1 rfl ha
  refine ⟨⟨hr, hsp, ?_⟩, ⟨hr2, hsp2, ?_⟩⟩
  · rw [hst, stack_get_set_eq _ _ _ h0]
  · rw [hst2, stack_get_set_eq _ _ _ h0]

set_option maxRecDepth 100000 in
/-- After 32 nested `bson_append_start_object` calls on `bson_init`, the number
of slots of the frame stack in the library header, the next call returns
`BSON_OK`, stores the offset 231 into the slot of index 32 and leaves the stack
index at 33. -/
theorem start_beyond_stack_witness :
    (sample_nested 32).stackPos = 32 ∧
      (bson_append_start_object (sample_nested 32) [97]).1 = BSON_OK ∧
      (bson_append_start_object (sample_nested 32) [97]).2.stackPos = 32 + 1 ∧
      stack_get (bson_append_start_object (sample_nested 32) [97]).2.stack 32 = 231 :=
  ⟨by decide!,
    (start_beyond_stack (sample_nested 32) [97] (by decide!) (by decide!) (by decide!)).1.1,
    ((start_beyond_stack (sample_nested 32) [97] (by decide!) (by decide!)
      (by decide!)).1.2.1).trans (by decide!),
    ((start_beyond_stack (sample_nested 32) [97] (by decide!) (by decide!)
      (by decide!)).1.2.2).trans (by decide!)⟩

/-- C30 (code bug): `bson_ensure_space` reports an overflow with the assignment
`b->err = BSON_SIZE_OVERFLOW`, which clears every other flag.  On a builder whose
`err` holds `BSON_FIELD_HAS_DOT` (after the rejected name `a.b`) or
`BSON_NOT_UTF8` (after a rejected string value), `bson_ensure_space` for
`INT_MAX - 128` bytes returns `BSON_ERROR` and leaves `err = BSON_SIZE_OVERFLOW`
only; so does the typed append `bson_append_binary` of `INT_MAX - 136` bytes,
which reaches the same branch through `bson_append_estart`. -/
theorem size_overflow_clears_flags :
    sample_flagged.err = BSON_FIELD_HAS_DOT ∧
      bson_ensure_space sample_flagged 2147483519
        = (BSON_ERROR, { sample_flagged with err := BSON_SIZE_OVERFLOW }) ∧
      (bson_ensure_space sample_flagged 2147483519).2.err &&& BSON_FIELD_HAS_DOT = 0 ∧
      (bson_append_binary sample_flagged [97] 0 [] 2147483511).1 = BSON_ERROR ∧
      (bson_append_binary sample_flagged [97] 0 [] 2147483511).2.err = BSON_SIZE_OVERFLOW ∧
      sample_flagged_value.err = BSON_NOT_UTF8 ∧
      (bson_ensure_space sample_flagged_value 2147483519).1 = BSON_ERROR ∧
      (bson_ensure_space sample_flagged_value 2147483519).2.err &&& BSON_NOT_UTF8 = 0 := by
  decide

/-! ## Copying the other leaf types -/

/-- `bson_append_double` succeeds on an open builder with room. -/
theorem append_double_succeeds (b : bson) (key rest : List Nat) (v : Nat) (N : Int)
    (hk : ∀ c ∈ key, c ≠ 0) (hleg : key_legal key) (hopen : b.finished = false)
    (hD : 0 ≤ b.dataSize) (hD2 : b.dataSize ≤ INT_MAX)
    (hN : (b.cur : Int) + (1 + ((key.length : Int) + 1) + 8) ≤ N) (h3 : 3 * N ≤ INT_MAX) :
    ∃ b1, bson_append_double b (key ++ 0 :: rest) v = (BSON_OK, b1) ∧
      Grown b b1 (BSON_DOUBLE :: (key ++ 0 :: le64_bytes v)) := by
  obtain ⟨b1, hes, hg⟩ := estart_succeeds b BSON_DOUBLE key rest 8 N hk hleg hopen (by omega)
    hD hD2 hN h3
  have hne : BSON_OK ≠ BSON_ERROR := by decide
  refine ⟨bson_append64 b1 v, by simp only [bson_append_double, hes, if_neg hne], ?_⟩
  have := hg.more (le64_bytes v) (bson_append64 b1 v) rfl
  simpa using this

/-- `bson_append_timestamp` succeeds on an open builder with room. -/
theorem append_timestamp_succeeds (b : bson) (key rest : List Nat) (i t N : Int)
    (hk : ∀ c ∈ key, c ≠ 0) (hleg : key_legal key) (hopen : b.finished = false)
    (hD : 0 ≤ b.dataSize) (hD2 : b.dataSize ≤ INT_MAX)
    (hN : (b.cur : Int) + (1 + ((key.length : Int) + 1) + 8) ≤ N) (h3 : 3 * N ≤ INT_MAX) :
    ∃ b1, bson_append_timestamp b (key ++ 0 :: rest) i t = (BSON_OK, b1) ∧
      Grown b b1 (BSON_TIMESTAMP :: (key ++ 0 :: (le32_bytes i ++ le32_bytes t))) := by
  obtain ⟨b1, hes, hg⟩ := estart_succeeds b BSON_TIMESTAMP key rest 8 N hk hleg hopen
    (by omega) hD hD2 hN h3
  have hne : BSON_OK ≠ BSON_ERROR := by decide
  refine ⟨bson_append32 (bson_append32 b1 i) t,
    by simp only [bson_append_timestamp, hes, if_neg hne], ?_⟩
  have h1 := hg.more (le32_bytes i) (bson_append32 b1 i) rfl
  have h2 := h1.more (le32_bytes t) (bson_append32 (bson_append32 b1 i) t) rfl
  simpa using h2

/-- `bson_append_code` succeeds on an open builder with room for a value that is
valid UTF-8. -/
theorem append_code_succeeds (b : bson) (key rest s srest : List Nat) (N : Int)
    (hk : ∀ c ∈ key, c ≠ 0) (hleg : key_legal key) (hs : ∀ c ∈ s, c ≠ 0)
    (hu : utf8_valid s = true) (hopen : b.finished = false)
    (hD : 0 ≤ b.dataSize) (hD2 : b.dataSize ≤ INT_MAX)
    (hN : (b.cur : Int) + (1 + ((key.length : Int) + 1) + (4 + ((s.length : Int) + 1))) ≤ N)
    (h3 : 3 * N ≤ INT_MAX) :
    ∃ b1, bson_append_code b (key ++ 0 :: rest) (s ++ 0 :: srest) = (BSON_OK, b1) ∧
      Grown b b1 (BSON_CODE :: (key ++ 0 ::
        (le32_bytes ((s.length : Int) + 1) ++ s ++ [0]))) := by
  obtain ⟨b1, hes, hg⟩ := estart_succeeds b BSON_CODE key rest (4 + ((s.length : Int) + 1)) N
    hk hleg hopen (by omega) hD hD2 hN h3
  have hne : BSON_OK ≠ BSON_ERROR := by decide
  have hsl : strlen (s ++ 0 :: srest) = s.length := strlen_append_zero s srest hs
  have hmt : mem_take (s ++ 0 :: srest) s.length = s := mem_take_append_left s _
  have hck : bson_check_string b (s ++ 0 :: srest) s.length = (BSON_OK, b) := by
    unfold bson_check_string
    rw [hmt]
    simp [hu]
  have htn : ((s.length : Int) + 1 - 1).toNat = s.length := by
    simp
  refine ⟨bson_append (bson_append (bson_append32 b1 ((s.length : Int) + 1)) (s ++ 0 :: srest)
      s.length) [0] 1, ?_, ?_⟩
  · simp only [bson_append_code, bson_append_string_base, hsl, htn, hck, if_neg hne, hes]
  · have h1 := hg.more (le32_bytes ((s.length : Int) + 1)) (bson_append32 b1 _) rfl
    have h2 := h1.more s (bson_append (bson_append32 b1 ((s.length : Int) + 1))
      (s ++ 0 :: srest) s.length) (by simp only [bson_append, hmt])
    have h3' := h2.more [0] (bson_append (bson_append (bson_append32 b1 ((s.length : Int) + 1))
      (s ++ 0 :: srest) s.length) [0] 1) (by simp [bson_append, mem_take])
    simpa using h3'

/-- `bson_append_regex` succeeds on an open builder with room for a pattern that
is valid UTF-8. -/
theorem append_regex_succeeds (b : bson) (key rest a arest o orest : List Nat) (N : Int)
    (hk : ∀ c ∈ key, c ≠ 0) (hleg : key_legal key) (ha : ∀ c ∈ a, c ≠ 0)
    (ho : ∀ c ∈ o, c ≠ 0) (hu : utf8_valid a = true) (hopen : b.finished = false)
    (hD : 0 ≤ b.dataSize) (hD2 : b.dataSize ≤ INT_MAX)
    (hN : (b.cur : Int) + (1 + ((key.length : Int) + 1)
      + (((a.length : Int) + 1) + ((o.length : Int) + 1))) ≤ N)
    (h3 : 3 * N ≤ INT_MAX) :
    ∃ b1, bson_append_regex b (key ++ 0 :: rest) (a ++ 0 :: arest) (o ++ 0 :: orest)
        = (BSON_OK, b1) ∧
      Grown b b1 (BSON_REGEX :: (key ++ 0 :: (a ++ 0 :: (o ++ [0])))) := by
  obtain ⟨b1, hes, hg⟩ := estart_succeeds b BSON_REGEX key rest
    (((a.length : Int) + 1) + ((o.length : Int) + 1)) N hk hleg hopen (by omega) hD hD2 hN h3
  have hne : BSON_OK ≠ BSON_ERROR := by decide
  have hsa : strlen (a ++ 0 :: arest) = a.length := strlen_append_zero a arest ha
  have hso : strlen (o ++ 0 :: orest) = o.length := strlen_append_zero o orest ho
  have hmt : mem_take (a ++ 0 :: arest) a.length = a := mem_take_append_left a _
  have hck : bson_check_string b1 (a ++ 0 :: arest) a.length = (BSON_OK, b1) := by
    unfold bson_check_string
    rw [hmt]
    simp [hu]
  refine ⟨bson_append (bson_append b1 (a ++ 0 :: arest) (a.length + 1)) (o ++ 0 :: orest)
      (o.length + 1), ?_, ?_⟩
  · simp only [bson_append_regex, hsa, hso, Nat.cast_add, Nat.cast_one, hes, if_neg hne,
      Nat.add_sub_cancel, hck]
  · have h1 := hg.more (a ++ [0]) (bson_append b1 (a ++ 0 :: arest) (a.length + 1))
      (by simp only [bson_append, mem_take_key])
    have h2 := h1.more (o ++ [0]) (bson_append (bson_append b1 (a ++ 0 :: arest)
      (a.length + 1)) (o ++ 0 :: orest) (o.length + 1))
      (by simp only [bson_append, mem_take_key])
    simpa using h2

theorem field_from_iterator_double (fuel : Nat) (src : bson_iterator) (into : bson)
    (h : bson_iterator_type src = BSON_DOUBLE) :
    bson_append_field_from_iterator (fuel + 1) src into
      = some (bson_append_double into (src.buf.drop (bson_iterator_key src))
          (bson_iterator_double_raw src)).2 := by
  simp [bson_append_field_from_iterator, h, BSON_INT, BSON_EOO, BSON_STRING, BSON_SYMBOL,
    BSON_CODE, BSON_DOUBLE]

theorem field_from_iterator_timestamp (fuel : Nat) (src : bson_iterator) (into : bson)
    (h : bson_iterator_type src = BSON_TIMESTAMP) :
    bson_append_field_from_iterator (fuel + 1) src into
      = some (bson_append_timestamp into (src.buf.drop (bson_iterator_key src))
          (bson_iterator_timestamp src).1 (bson_iterator_timestamp src).2).2 := by
  simp [bson_append_field_from_iterator, h, BSON_INT, BSON_EOO, BSON_STRING, BSON_SYMBOL,
    BSON_CODE, BSON_LONG, BSON_DOUBLE, BSON_UNDEFINED, BSON_NULL, BSON_BOOL, BSON_TIMESTAMP]

theorem field_from_iterator_code (fuel : Nat) (src : bson_iterator) (into : bson)
    (h : bson_iterator_type src = BSON_CODE) :
    bson_append_field_from_iterator (fuel + 1) src into
      = some (bson_append_code into (src.buf.drop (bson_iterator_key src))
          ((bson_iterator_code src).getD [])).2 := by
  simp [bson_append_field_from_iterator, h, BSON_EOO, BSON_STRING, BSON_SYMBOL, BSON_CODE]

theorem field_from_iterator_regex (fuel : Nat) (src : bson_iterator) (into : bson)
    (h : bson_iterator_type src = BSON_REGEX) :
    bson_append_field_from_iterator (fuel + 1) src into
      = some (bson_append_regex into (src.buf.drop (bson_iterator_key src))
          (bson_iterator_regex src) (bson_iterator_regex_opts src)).2 := by
  simp [bson_append_field_from_iterator, h, BSON_INT, BSON_EOO, BSON_STRING, BSON_SYMBOL,
    BSON_CODE, BSON_LONG, BSON_DOUBLE, BSON_DATE, BSON_UNDEFINED, BSON_NULL, BSON_BOOL,
    BSON_TIMESTAMP, BSON_REGEX]

theorem le64_bytes_read_u64 (v : Int) (suf : List Nat) :
    le64_bytes ((read_u64 (le64_bytes v ++ suf) 0 : Nat) : Int) = le64_bytes v := by
  rw [read_u64_le64_bytes]
  have h0 : (0 : Int) ≤ v % 18446744073709551616 := Int.emod_nonneg _ (by decide)
  have : (((v % 18446744073709551616).toNat : Nat) : Int) % 18446744073709551616
      = v % 18446744073709551616 := by
    rw [Int.toNat_of_nonneg h0]
    exact Int.emod_emod_of_dvd _ (dvd_refl _)
  simp only [le64_bytes, this]

/-- `bson_append_field_from_iterator` on a leaf element of `copy_payload` under a
legal key, into an open builder with room: the element is appended as it is. -/
theorem append_field_leaf (buf suf : List Nat) (off : Nat) (f : Bool) (t : Nat)
    (key p : List Nat) (hw : (Elt.leaf t key p).WF) (hleg : key_legal key)
    (hp : copy_payload t p) (h : buf.drop off = (Elt.leaf t key p).bytes ++ suf) (into : bson)
    (N : Int) (fuel : Nat) (hopen : into.finished = false) (hD : 0 ≤ into.dataSize)
    (hD2 : into.dataSize ≤ INT_MAX)
    (hN : (into.cur : Int) + (Elt.leaf t key p).bytes.length ≤ N) (h3 : 3 * N ≤ INT_MAX) :
    ∃ into', bson_append_field_from_iterator (fuel + 1) ⟨buf, off, f⟩ into = some into' ∧
      Grown into into' (Elt.leaf t key p).bytes := by
  rcases hp with hsc | hp
  · exact append_field_scalar buf suf off f _ hw ⟨hleg, hsc⟩ h into N fuel hopen hD hD2 hN h3
  obtain ⟨-, hk, -⟩ := hw
  have h' : buf.drop off = t :: (key ++ 0 :: (p ++ suf)) := by
    simpa [Elt.bytes] using h
  obtain ⟨hty, -, -, hv, hd, -⟩ := elem_layout buf key p suf off t h' hk f
  have hkey : buf.drop (off + 1) = key ++ 0 :: (p ++ suf) :=
    drop_of_drop_append buf [t] _ off h'
  have hlen : (Elt.leaf t key p).bytes.length = 1 + (key.length + 1) + p.length := by
    simp [Elt.bytes]; omega
  rw [hlen] at hN
  push_cast at hN
  have hkk : (⟨buf, off, f⟩ : bson_iterator).buf.drop (bson_iterator_key ⟨buf, off, f⟩)
      = key ++ 0 :: (p ++ suf) := hkey
  rcases hp with ⟨rfl, v, rfl⟩ | ⟨rfl, i, ts, rfl⟩ | ⟨rfl, s, hsn, hsu, rfl⟩ |
    ⟨rfl, a, o, han, hon, hau, rfl⟩
  · -- DOUBLE
    have hraw : bson_iterator_double_raw ⟨buf, off, f⟩ = read_u64 (le64_bytes v ++ suf) 0 := by
      unfold bson_iterator_double_raw
      rw [hv, ← read_u64_drop, hd]
    have hl8 : (le64_bytes v).length = 8 := le64_bytes_length v
    rw [hl8] at hN
    obtain ⟨b1, ha, hg⟩ := append_double_succeeds into key (le64_bytes v ++ suf)
      (read_u64 (le64_bytes v ++ suf) 0) N hk hleg hopen hD hD2 (by omega) h3
    refine ⟨b1, ?_, ?_⟩
    · rw [field_from_iterator_double fuel _ into hty, hkk, hraw, ha]
    · rw [le64_bytes_read_u64] at hg
      simpa [Elt.bytes] using hg
  · -- TIMESTAMP
    have hd1 : buf.drop (off + 1 + (key.length + 1)) = le32_bytes i ++ (le32_bytes ts ++ suf) := by
      rw [hd]; simp
    have hd2 : buf.drop (off + 1 + (key.length + 1) + 4) = le32_bytes ts ++ suf := by
      have := drop_of_drop_append buf _ _ _ hd1
      rw [le32_bytes_length] at this
      exact this
    have hraw : bson_iterator_timestamp ⟨buf, off, f⟩ = (wrap32 i, wrap32 ts) := by
      unfold bson_iterator_timestamp
      rw [hv, read_le32_of_drop_le32 buf _ _ i hd1, read_le32_of_drop_le32 buf _ _ ts hd2]
    simp only [List.length_append, le32_bytes_length] at hN
    obtain ⟨b1, ha, hg⟩ := append_timestamp_succeeds into key
      (le32_bytes i ++ le32_bytes ts ++ suf) (wrap32 i) (wrap32 ts) N hk hleg hopen hD hD2
      (by push_cast at hN; omega) h3
    refine ⟨b1, ?_, ?_⟩
    · rw [field_from_iterator_timestamp fuel _ into hty, hkk, hraw, ha]
    · rw [le32_bytes_wrap32, le32_bytes_wrap32] at hg
      simpa [Elt.bytes] using hg
  · -- CODE
    have hstr : (bson_iterator_code ⟨buf, off, f⟩).getD [] = s ++ 0 :: suf := by
      unfold bson_iterator_code
      rw [hty, hv]
      simp only [or_true, if_true, Option.getD_some]
      have hd' : buf.drop (off + 1 + (key.length + 1))
          = le32_bytes ((s.length : Int) + 1) ++ (s ++ 0 :: suf) := by
        rw [hd]; simp
      have := drop_of_drop_append buf _ _ _ hd'
      rw [le32_bytes_length] at this
      exact this
    obtain ⟨b1, ha, hg⟩ := append_code_succeeds into key
      (le32_bytes ((s.length : Int) + 1) ++ s ++ [0] ++ suf) s suf N hk hleg hsn hsu hopen
      hD hD2 (by simp [le32_bytes_length] at hN; omega) h3
    refine ⟨b1, ?_, ?_⟩
    · rw [field_from_iterator_code fuel _ into hty, hkk, hstr, ha]
    · simpa [Elt.bytes] using hg
  · -- REGEX
    have hd' : buf.drop (off + 1 + (key.length + 1)) = a ++ 0 :: (o ++ 0 :: suf) := by
      rw [hd]; simp
    have hre : bson_iterator_regex ⟨buf, off, f⟩ = a ++ 0 :: (o ++ 0 :: suf) := by
      unfold bson_iterator_regex
      rw [hv]
      exact hd'
    have hsl : strlen_at buf (off + 1 + (key.length + 1)) = a.length := by
      rw [strlen_at, hd', strlen_append_zero a _ han]
    have hro : bson_iterator_regex_opts ⟨buf, off, f⟩ = o ++ 0 :: suf := by
      unfold bson_iterator_regex_opts
      simp only
      rw [hv, hsl]
      have hd'' : buf.drop (off + 1 + (key.length + 1)) = (a ++ [0]) ++ (o ++ 0 :: suf) := by
        rw [hd']; simp
      have := drop_of_drop_append buf _ _ _ hd''
      simpa [Nat.add_assoc] using this
    obtain ⟨b1, hap, hg⟩ := append_regex_succeeds into key (a ++ 0 :: (o ++ [0]) ++ suf) a
      (o ++ 0 :: suf) o suf N hk hleg han hon hau hopen hD hD2
      (by simp at hN; omega) h3
    refine ⟨b1, ?_, ?_⟩
    · rw [field_from_iterator_regex fuel _ into hty, hkk, hre, hro, hap]
    · simpa [Elt.bytes] using hg

/-! ## The frame stack during a copy -/

theorem check_field_name_frame (b : bson) (name : List Nat) (len : Nat) (cd cs : Bool) :
    (bson_check_field_name b name len cd cs).2.stack = b.stack ∧
      (bson_check_field_name b name len cd cs).2.stackPos = b.stackPos ∧
      (bson_check_field_name b name len cd cs).2.flags = b.flags := by
  unfold bson_check_field_name
  split_ifs <;> exact ⟨rfl, rfl, rfl⟩

theorem check_string_frame (b : bson) (value : List Nat) (len : Nat) :
    (bson_check_string b value len).2.stack = b.stack ∧
      (bson_check_string b value len).2.stackPos = b.stackPos ∧
      (bson_check_string b value len).2.flags = b.flags := by
  unfold bson_check_string
  split_ifs <;> exact ⟨rfl, rfl, rfl⟩

/-- `bson_append_estart` never touches the frame stack nor the flags. -/
theorem estart_frame (b : bson) (t : Nat) (name : List Nat) (ds : Int) :
    (bson_append_estart b t name ds).2.stack = b.stack ∧
      (bson_append_estart b t name ds).2.stackPos = b.stackPos ∧
      (bson_append_estart b t name ds).2.flags = b.flags := by
  unfold bson_append_estart
  simp only
  split
  · exact ⟨rfl, rfl, rfl⟩
  · rcases hes : bson_ensure_space b (1 + ((strlen name + 1 : Nat) : Int) + ds) with ⟨r1, b2⟩
    obtain ⟨-, -, hs, hsp, hfl⟩ := bson_ensure_space_frame b b2 _ r1 hes
    simp only
    split
    · exact ⟨hs, hsp, hfl⟩
    · rcases hck : bson_check_field_name b2 name (strlen name + 1 - 1)
        (decide (b2.flags &&& BSON_FLAG_QUERY_MODE = 0))
        (decide (b2.flags &&& BSON_FLAG_QUERY_MODE = 0)) with ⟨r2, b3⟩
      have hcf := check_field_name_frame b2 name (strlen name + 1 - 1)
        (decide (b2.flags &&& BSON_FLAG_QUERY_MODE = 0))
        (decide (b2.flags &&& BSON_FLAG_QUERY_MODE = 0))
      rw [hck] at hcf
      simp only at hcf
      obtain ⟨h1, h2, h3⟩ := hcf
      simp only
      split
      · exact ⟨by simp [bson_builder_error, h1, hs], by simp [bson_builder_error, h2, hsp],
          by simp [bson_builder_error, h3, hfl]⟩
      · exact ⟨by simp [bson_append, bson_append_byte, h1, hs],
          by simp [bson_append, bson_append_byte, h2, hsp],
          by simp [bson_append, bson_append_byte, h3, hfl]⟩

/-- The common shape of the typed appends: `bson_append_estart`, then writes that
leave the frame stack and the flags alone. -/
theorem estart_then_frame (b : bson) (t : Nat) (name : List Nat) (ds : Int) (g : bson → bson)
    (hg : ∀ x : bson, (g x).stack = x.stack ∧ (g x).stackPos = x.stackPos ∧
      (g x).flags = x.flags) :
    (match bson_append_estart b t name ds with
      | (r, b1) => if r = BSON_ERROR then (BSON_ERROR, b1) else (BSON_OK, g b1)).2.stack
        = b.stack ∧
    (match bson_append_estart b t name ds with
      | (r, b1) => if r = BSON_ERROR then (BSON_ERROR, b1) else (BSON_OK, g b1)).2.stackPos
        = b.stackPos ∧
    (match bson_append_estart b t name ds with
      | (r, b1) => if r = BSON_ERROR then (BSON_ERROR, b1) else (BSON_OK, g b1)).2.flags
        = b.flags := by
  have hf := estart_frame b t name ds
  rcases hes : bson_append_estart b t name ds with ⟨r, b1⟩
  rw [hes] at hf
  simp only at hf
  obtain ⟨h1, h2, h3⟩ := hf
  simp only
  split
  · exact ⟨h1, h2, h3⟩
  · obtain ⟨g1, g2, g3⟩ := hg b1
    exact ⟨by simp only [g1, h1], by simp only [g2, h2], by simp only [g3, h3]⟩

theorem string_base_frame (b : bson) (name value : List Nat) (len t : Nat) :
    (bson_append_string_base b name value len t).2.stack = b.stack ∧
      (bson_append_string_base b name value len t).2.stackPos = b.stackPos ∧
      (bson_append_string_base b name value len t).2.flags = b.flags := by
  unfold bson_append_string_base
  simp only
  rcases hck : bson_check_string b value ((len : Int) + 1 - 1).toNat with ⟨r0, b0⟩
  have hcf := check_string_frame b value ((len : Int) + 1 - 1).toNat
  rw [hck] at hcf
  simp only at hcf
  obtain ⟨h1, h2, h3⟩ := hcf
  simp only
  split
  · exact ⟨h1, h2, h3⟩
  · have := estart_then_frame b0 t name (4 + ((len : Int) + 1))
      (fun b1 => bson_append (bson_append (bson_append32 b1 ((len : Int) + 1)) value
        ((len : Int) + 1 - 1).toNat) [0] 1)
      (fun x => ⟨rfl, rfl, rfl⟩)
    rw [h1, h2, h3] at this
    exact this

theorem regex_frame (b : bson) (name pattern opts : List Nat) :
    (bson_append_regex b name pattern opts).2.stack = b.stack ∧
      (bson_append_regex b name pattern opts).2.stackPos = b.stackPos ∧
      (bson_append_regex b name pattern opts).2.flags = b.flags := by
  unfold bson_append_regex
  simp only
  have hf := estart_frame b BSON_REGEX name
    (((strlen pattern + 1 : Nat) : Int) + ((strlen opts + 1 : Nat) : Int))
  rcases hes : bson_append_estart b BSON_REGEX name
    (((strlen pattern + 1 : Nat) : Int) + ((strlen opts + 1 : Nat) : Int)) with ⟨r, b1⟩
  rw [hes] at hf
  simp only at hf
  obtain ⟨h1, h2, h3⟩ := hf
  simp only
  split
  · exact ⟨h1, h2, h3⟩
  · have hcf := check_string_frame b1 pattern (strlen pattern + 1 - 1)
    rcases hck : bson_check_string b1 pattern (strlen pattern + 1 - 1) with ⟨r2, b2⟩
    rw [hck] at hcf
    simp only at hcf
    obtain ⟨c1, c2, c3⟩ := hcf
    simp only
    split
    · exact ⟨by rw [c1, h1], by rw [c2, h2], by rw [c3, h3]⟩
    · exact ⟨by simp [bson_append, c1, h1], by simp [bson_append, c2, h2],
        by simp [bson_append, c3, h3]⟩

theorem field_from_iterator_symbol (fuel : Nat) (src : bson_iterator) (into : bson)
    (h : bson_iterator_type src = BSON_SYMBOL) :
    bson_append_field_from_iterator (fuel + 1) src into
      = some (bson_append_string into (src.buf.drop (bson_iterator_key src))
          (bson_iterator_string src)).2 := by
  simp [bson_append_field_from_iterator, h, BSON_EOO, BSON_STRING, BSON_SYMBOL]

/-- The types `bson_append_field_from_iterator` passes over: the terminator,
BINDATA, DBREF, CODEWSCOPE and the unknown tags. -/
theorem field_from_iterator_skip (fuel : Nat) (src : bson_iterator) (into : bson)
    (h : bson_iterator_type src = BSON_EOO ∨ bson_iterator_type src = BSON_BINDATA ∨
      bson_iterator_type src = BSON_DBREF ∨ bson_iterator_type src = BSON_CODEWSCOPE ∨
      18 < bson_iterator_type src) :
    bson_append_field_from_iterator (fuel + 1) src into = some into := by
  rw [bson_append_field_from_iterator]
  simp only [BSON_INT, BSON_EOO, BSON_STRING, BSON_SYMBOL,
    BSON_CODE, BSON_LONG, BSON_DOUBLE, BSON_DATE, BSON_UNDEFINED, BSON_NULL, BSON_BOOL,
    BSON_TIMESTAMP, BSON_REGEX, BSON_OID, BSON_OBJECT, BSON_ARRAY, BSON_BINDATA, BSON_DBREF,
    BSON_CODEWSCOPE] at h ⊢
  by_cases h0 : bson_iterator_type src = 0
  · rw [if_pos h0]
  · rw [if_neg h0]
    repeat rw [if_neg (by omega)]

/-- `bson_append_field_from_iterator` on an element that is no container leaves
the frame stack and the flags alone. -/
theorem field_from_iterator_frame (fuel : Nat) (src : bson_iterator) (into into' : bson)
    (h : bson_append_field_from_iterator fuel src into = some into')
    (hobj : bson_iterator_type src ≠ BSON_OBJECT) (harr : bson_iterator_type src ≠ BSON_ARRAY) :
    into'.stack = into.stack ∧ into'.stackPos = into.stackPos ∧ into'.flags = into.flags := by
  cases fuel with
  | zero => simp [bson_append_field_from_iterator] at h
  | succ fuel =>
    simp only [BSON_OBJECT, BSON_ARRAY] at hobj harr
    have hcases : bson_iterator_type src = BSON_DOUBLE ∨ bson_iterator_type src = BSON_STRING ∨
        bson_iterator_type src = BSON_UNDEFINED ∨ bson_iterator_type src = BSON_OID ∨
        bson_iterator_type src = BSON_BOOL ∨ bson_iterator_type src = BSON_DATE ∨
        bson_iterator_type src = BSON_NULL ∨ bson_iterator_type src = BSON_REGEX ∨
        bson_iterator_type src = BSON_CODE ∨ bson_iterator_type src = BSON_SYMBOL ∨
        bson_iterator_type src = BSON_INT ∨ bson_iterator_type src = BSON_TIMESTAMP ∨
        bson_iterator_type src = BSON_LONG ∨
        (bson_iterator_type src = BSON_EOO ∨ bson_iterator_type src = BSON_BINDATA ∨
          bson_iterator_type src = BSON_DBREF ∨ bson_iterator_type src = BSON_CODEWSCOPE ∨
          18 < bson_iterator_type src) := by
      simp only [BSON_INT, BSON_EOO, BSON_STRING, BSON_SYMBOL,
        BSON_CODE, BSON_LONG, BSON_DOUBLE, BSON_DATE, BSON_UNDEFINED, BSON_NULL, BSON_BOOL,
        BSON_TIMESTAMP, BSON_REGEX, BSON_OID, BSON_BINDATA, BSON_DBREF, BSON_CODEWSCOPE]
      omega
    rcases hcases with ht | ht | ht | ht | ht | ht | ht | ht | ht | ht | ht | ht | ht | ht
    · rw [field_from_iterator_double fuel src into ht] at h
      cases h
      exact estart_then_frame into BSON_DOUBLE _ 8 (fun b1 => bson_append64 b1 _)
        (fun x => ⟨rfl, rfl, rfl⟩)
    · rw [field_from_iterator_string fuel src into ht] at h
      cases h
      exact string_base_frame _ _ _ _ _
    · rw [field_from_iterator_undefined fuel src into ht] at h
      cases h
      exact estart_then_frame into BSON_UNDEFINED _ 0 (fun b1 => b1) (fun x => ⟨rfl, rfl, rfl⟩)
    · rw [field_from_iterator_oid fuel src into ht] at h
      cases h
      exact estart_then_frame into BSON_OID _ 12 (fun b1 => bson_append b1 _ 12)
        (fun x => ⟨rfl, rfl, rfl⟩)
    · rw [field_from_iterator_bool fuel src into ht] at h
      cases h
      exact estart_then_frame into BSON_BOOL _ 1 (fun b1 => bson_append_byte b1 _)
        (fun x => ⟨rfl, rfl, rfl⟩)
    · rw [field_from_iterator_date fuel src into ht] at h
      cases h
      exact estart_then_frame into BSON_DATE _ 8 (fun b1 => bson_append64 b1 _)
        (fun x => ⟨rfl, rfl, rfl⟩)
    · rw [field_from_iterator_null fuel src into ht] at h
      cases h
      exact estart_then_frame into BSON_NULL _ 0 (fun b1 => b1) (fun x => ⟨rfl, rfl, rfl⟩)
    · rw [field_from_iterator_regex fuel src into ht] at h
      cases h
      exact regex_frame _ _ _ _
    · rw [field_from_iterator_code fuel src into ht] at h
      cases h
      exact string_base_frame _ _ _ _ _
    · rw [field_from_iterator_symbol fuel src into ht] at h
      cases h
      exact string_base_frame _ _ _ _ _
    · rw [field_from_iterator_int fuel src into ht] at h
      cases h
      exact estart_then_frame into BSON_INT _ 4 (fun b1 => bson_append32 b1 _)
        (fun x => ⟨rfl, rfl, rfl⟩)
    · rw [field_from_iterator_timestamp fuel src into ht] at h
      cases h
      exact estart_then_frame into BSON_TIMESTAMP _ 8
        (fun b1 => bson_append32 (bson_append32 b1 _) _) (fun x => ⟨rfl, rfl, rfl⟩)
    · rw [field_from_iterator_long fuel src into ht] at h
      cases h
      exact estart_then_frame into BSON_LONG _ 8 (fun b1 => bson_append64 b1 _)
        (fun x => ⟨rfl, rfl, rfl⟩)
    · rw [field_from_iterator_skip fuel src into ht] at h
      cases h
      exact ⟨rfl, rfl, rfl⟩

/-- `bson_append_field_from_iterator` on a leaf element of `copy_payload` under a
legal key, into an open builder with room: a balanced piece that adds the bytes
of the element. -/
theorem append_field_leaf_copied (buf suf : List Nat) (off : Nat) (f : Bool) (t : Nat)
    (key p : List Nat) (hw : (Elt.leaf t key p).WF) (hleg : key_legal key)
    (hp : copy_payload t p) (h : buf.drop off = (Elt.leaf t key p).bytes ++ suf) (into : bson)
    (N : Int) (fuel : Nat) (hopen : into.finished = false) (hD : 0 ≤ into.dataSize)
    (hD2 : into.dataSize ≤ INT_MAX)
    (hN : (into.cur : Int) + (Elt.leaf t key p).bytes.length ≤ N) (h3 : 3 * N ≤ INT_MAX) :
    ∃ into', bson_append_field_from_iterator (fuel + 1) ⟨buf, off, f⟩ into = some into' ∧
      Copied into into' (Elt.leaf t key p).bytes := by
  obtain ⟨into', hr, hd, h0, h1, hf, he⟩ := append_field_leaf buf suf off f t key p hw hleg hp
    h into N fuel hopen hD hD2 hN h3
  have h' : buf.drop off = t :: (key ++ 0 :: (p ++ suf)) := by
    simpa [Elt.bytes] using h
  have hty : bson_iterator_type ⟨buf, off, f⟩ = t := byteAt_of_drop _ _ _ _ h'
  have hnot : t ≠ BSON_OBJECT ∧ t ≠ BSON_ARRAY := by
    rcases hp with hsc | ⟨rfl, -⟩ | ⟨rfl, -⟩ | ⟨rfl, -⟩ | ⟨rfl, -⟩
    · rcases hsc with ⟨rfl, -⟩ | ⟨rfl | rfl, -⟩ | ⟨rfl, -⟩ | ⟨rfl | rfl, -⟩ | ⟨rfl, -⟩ |
        ⟨rfl, -⟩ <;> decide
    all_goals decide
  obtain ⟨hs, hsp, hfl⟩ := field_from_iterator_frame (fuel + 1) _ into into' hr
    (by rw [hty]; exact hnot.1) (by rw [hty]; exact hnot.2)
  exact ⟨into', hr, ⟨hopen, hd, hf, hsp, fun j _ => by rw [hs], he, hfl⟩, h0, h1⟩

/-! ## Copying containers -/

theorem field_from_iterator_object (fuel : Nat) (src : bson_iterator) (into : bson)
    (h : bson_iterator_type src = BSON_OBJECT) :
    bson_append_field_from_iterator (fuel + 1) src into
      = (bson_append_fields_from_iterator fuel (bson_iterator_subiterator src)
          (bson_append_start_object into (src.buf.drop (bson_iterator_key src))).2).map
        (fun into1 => (bson_append_finish_object into1).2) := by
  rw [bson_append_field_from_iterator]
  simp only [BSON_INT, BSON_EOO, BSON_STRING, BSON_SYMBOL,
    BSON_CODE, BSON_LONG, BSON_DOUBLE, BSON_DATE, BSON_UNDEFINED, BSON_NULL, BSON_BOOL,
    BSON_TIMESTAMP, BSON_REGEX, BSON_OID, BSON_OBJECT, BSON_ARRAY] at h ⊢
  repeat rw [if_neg (by omega)]
  rw [if_pos h]
  cases bson_append_fields_from_iterator fuel (bson_iterator_subiterator src)
    (bson_append_start_object into (src.buf.drop (bson_iterator_key src))).2 <;> rfl

theorem field_from_iterator_array (fuel : Nat) (src : bson_iterator) (into : bson)
    (h : bson_iterator_type src = BSON_ARRAY) :
    bson_append_field_from_iterator (fuel + 1) src into
      = (bson_append_fields_from_iterator fuel (bson_iterator_subiterator src)
          (bson_append_start_array into (src.buf.drop (bson_iterator_key src))).2).map
        (fun into1 => (bson_append_finish_array into1).2) := by
  rw [bson_append_field_from_iterator]
  simp only [BSON_INT, BSON_EOO, BSON_STRING, BSON_SYMBOL,
    BSON_CODE, BSON_LONG, BSON_DOUBLE, BSON_DATE, BSON_UNDEFINED, BSON_NULL, BSON_BOOL,
    BSON_TIMESTAMP, BSON_REGEX, BSON_OID, BSON_OBJECT, BSON_ARRAY] at h ⊢
  repeat rw [if_neg (by omega)]
  rw [if_pos h]
  cases bson_append_fields_from_iterator fuel (bson_iterator_subiterator src)
    (bson_append_start_array into (src.buf.drop (bson_iterator_key src))).2 <;> rfl

/-- One turn of the loop of `bson_append_field_from_iterator`. -/
theorem fields_from_iterator_step (fuel : Nat) (sit sit1 : bson_iterator) (into : bson)
    (t : Nat) (hn : bson_iterator_next sit = some (t, sit1)) :
    bson_append_fields_from_iterator (fuel + 1) sit into
      = if t = BSON_EOO then some into
        else (bson_append_field_from_iterator fuel sit1 into).bind
          (fun into1 => bson_append_fields_from_iterator fuel sit1 into1) := by
  rw [bson_append_fields_from_iterator, hn]
  simp only
  split
  · rfl
  · cases bson_append_field_from_iterator fuel sit1 into <;> rfl

theorem Copied.start (b : bson) (hopen : b.finished = false) (hD : 0 ≤ b.dataSize)
    (hD2 : b.dataSize ≤ INT_MAX) : Copied b b [] :=
  ⟨Built.refl b hopen, hD, hD2⟩

theorem Copied.join {b b1 b2 : bson} {x y : List Nat} (h1 : Copied b b1 x)
    (h2 : Copied b1 b2 y) : Copied b b2 (x ++ y) :=
  ⟨h1.1.trans h2.1, h2.2.1, h2.2.2⟩

theorem Copied.cursor {b b1 : bson} {bytes : List Nat} (h : Copied b b1 bytes) :
    b1.cur = b.cur + bytes.length := by
  simp [bson.cur, h.1.2.1]

/-- A container copied by a start, a copy of its elements and a finish. -/
theorem container_copied (into : bson) (t : Nat) (key rest kb : List Nat) (N : Int)
    (ht : t = BSON_OBJECT ∨ t = BSON_ARRAY)
    (hk : ∀ c ∈ key, c ≠ 0) (hleg : key_legal key) (hopen : into.finished = false)
    (hD : 0 ≤ into.dataSize) (hD2 : into.dataSize ≤ INT_MAX) (h0 : 0 ≤ into.stackPos)
    (hN : (into.cur : Int) + (1 + ((key.length : Int) + 1) + (4 + ((kb.length : Int) + 1))) ≤ N)
    (h3 : 3 * N ≤ INT_MAX) :
    ∃ b1, (if t = BSON_OBJECT then bson_append_start_object into (key ++ 0 :: rest)
        else bson_append_start_array into (key ++ 0 :: rest)) = (BSON_OK, b1) ∧
      b1.finished = false ∧ 0 ≤ b1.dataSize ∧ b1.dataSize ≤ INT_MAX ∧ 0 ≤ b1.stackPos ∧
      b1.cur = into.cur + (1 + (key.length + 1) + 4) ∧
      ∀ b2, Copied b1 b2 kb →
        Copied into (bson_append_finish_object b2).2
          (t :: (key ++ 0 :: (le32_bytes ((kb.length : Int) + 5) ++ (kb ++ [0])))) := by
  obtain ⟨b1e, hes, hg⟩ := estart_succeeds into t key rest 5 N hk hleg hopen (by omega) hD hD2
    (by omega) h3
  have hne : BSON_OK ≠ BSON_ERROR := by decide
  have hck : cstr (key ++ 0 :: rest) = key := cstr_append_zero key rest hk
  have hstart : ∃ b1, (if t = BSON_OBJECT then bson_append_start_object into (key ++ 0 :: rest)
        else bson_append_start_array into (key ++ 0 :: rest)) = (BSON_OK, b1) ∧
      b1.dataSize = b1e.dataSize ∧ Started into b1 t (key ++ 0 :: rest) := by
    rcases ht with rfl | rfl
    · rw [if_pos rfl]
      have heq : bson_append_start_object into (key ++ 0 :: rest)
          = (BSON_OK, bson_append32
              { b1e with stack := stack_set b1e.stack b1e.stackPos b1e.cur,
                         stackPos := b1e.stackPos + 1 } 0) := by
        simp only [bson_append_start_object, hes, if_neg hne]
      exact ⟨_, heq, rfl, (bson_append_start_object_ok into _ _ BSON_OK heq hne).1⟩
    · rw [if_neg (by decide)]
      have heq : bson_append_start_array into (key ++ 0 :: rest)
          = (BSON_OK, bson_append32
              { b1e with stack := stack_set b1e.stack b1e.stackPos b1e.cur,
                         stackPos := b1e.stackPos + 1 } 0) := by
        simp only [bson_append_start_array, hes, if_neg hne]
      exact ⟨_, heq, rfl, (bson_append_start_array_ok into _ _ BSON_OK heq hne).1⟩
  obtain ⟨b1, heq, hds, hst⟩ := hstart
  have hst' := hst
  obtain ⟨-, hd1, hf1, hsp1, -, -, -⟩ := hst'
  rw [hck] at hd1
  have hcur1 : b1.cur = into.cur + (1 + (key.length + 1) + 4) := by
    simp only [bson.cur, hd1, List.length_append, List.length_cons, List.length_nil]
    omega
  refine ⟨b1, heq, hf1, by rw [hds]; exact hg.2.1, by rw [hds]; exact hg.2.2.1,
    by rw [hsp1]; omega, hcur1, ?_⟩
  intro b2 hc2
  have hcur2 : b2.cur = b1.cur + kb.length := hc2.cursor
  obtain ⟨b3, hes3, h30, h31, -, -, -⟩ := bson_ensure_space_room b2 1 N (by omega) hc2.2.1
    hc2.2.2 (by rw [hcur2, hcur1]; push_cast; omega) h3
  have hr : (bson_append_finish_object b2).1 = BSON_OK := by
    simp [bson_append_finish_object, hes3, BSON_OK, BSON_ERROR]
  have hds2 : (bson_append_finish_object b2).2.dataSize = b3.dataSize := by
    simp [bson_append_finish_object, hes3, BSON_OK, BSON_ERROR, bson_append_byte]
  have hb := container_ok into b1 b2 (bson_append_finish_object b2).2 t (key ++ 0 :: rest) kb
    (bson_append_finish_object b2).1 h0 hst hc2.1 rfl (by rw [hr]; exact hne)
  rw [hck] at hb
  exact ⟨hb, by rw [hds2]; exact h30, by rw [hds2]; exact h31⟩

/-! ## Copying a field and a sequence of fields -/

mutual
/-- `bson_append_field_from_iterator` on a well-formed element that is copied as
it is, into an open builder with room, with enough fuel: a balanced piece that
adds the bytes of the element. -/
theorem append_field_copyable : ∀ (e : Elt), e.WF → e.copyable →
    ∀ (buf suf : List Nat) (off : Nat) (f : Bool) (into : bson) (N : Int) (fuel : Nat),
    buf.drop off = e.bytes ++ suf → into.finished = false → 0 ≤ into.dataSize →
    into.dataSize ≤ INT_MAX → 0 ≤ into.stackPos →
    (into.cur : Int) + e.bytes.length ≤ N → 3 * N ≤ INT_MAX → e.cost ≤ fuel →
    ∃ into', bson_append_field_from_iterator fuel ⟨buf, off, f⟩ into = some into' ∧
      Copied into into' e.bytes
  | .leaf t key p => by
    intro hw hc buf suf off f into N fuel h hopen hD hD2 _ hN h3 hfuel
    simp only [Elt.cost] at hfuel
    obtain ⟨fuel', rfl⟩ : ∃ f', fuel = f' + 1 := ⟨fuel - 1, by omega⟩
    exact append_field_leaf_copied buf suf off f t key p hw hc.1 hc.2 h into N fuel' hopen hD
      hD2 hN h3
  | .node t key kids => by
    intro hw hc buf suf off f into N fuel h hopen hD hD2 h0 hN h3 hfuel
    simp only [Elt.cost] at hfuel
    obtain ⟨fuel', rfl⟩ : ∃ f', fuel = f' + 1 := ⟨fuel - 1, by omega⟩
    simp only [Elt.WF] at hw
    obtain ⟨ht, hk, -, hwk⟩ := hw
    simp only [Elt.copyable] at hc
    obtain ⟨hleg, hck⟩ := hc
    have h' : buf.drop off = t :: (key ++ 0 ::
        ((le32_bytes (((Elt.bytesList kids).length : Int) + 5)
          ++ (Elt.bytesList kids ++ [0])) ++ suf)) := by
      simpa [Elt.bytes] using h
    obtain ⟨hty, -, -, hv, hd, -⟩ := elem_layout buf key _ suf off t h' hk f
    have hkey : buf.drop (off + 1) = key ++ 0 ::
        ((le32_bytes (((Elt.bytesList kids).length : Int) + 5)
          ++ (Elt.bytesList kids ++ [0])) ++ suf) :=
      drop_of_drop_append buf [t] _ off h'
    have hkk : (⟨buf, off, f⟩ : bson_iterator).buf.drop (bson_iterator_key ⟨buf, off, f⟩)
        = key ++ 0 :: ((le32_bytes (((Elt.bytesList kids).length : Int) + 5)
          ++ (Elt.bytesList kids ++ [0])) ++ suf) := hkey
    have hlen : (Elt.node t key kids).bytes.length
        = 1 + (key.length + 1) + (4 + ((Elt.bytesList kids).length + 1)) := by
      simp [Elt.bytes, le32_bytes_length]; omega
    rw [hlen] at hN
    push_cast at hN
    have hsub : bson_iterator_subiterator ⟨buf, off, f⟩
        = ⟨buf, off + 1 + (key.length + 1) + 4, true⟩ := by
      simp only [bson_iterator_subiterator, bson_iterator_from_buffer, hv]
    have hdk : buf.drop (off + 1 + (key.length + 1) + 4) = Elt.bytesList kids ++ 0 :: suf := by
      have hd' : buf.drop (off + 1 + (key.length + 1))
          = le32_bytes (((Elt.bytesList kids).length : Int) + 5)
            ++ (Elt.bytesList kids ++ 0 :: suf) := by
        rw [hd]; simp
      have := drop_of_drop_append buf _ _ _ hd'
      rw [le32_bytes_length] at this
      exact this
    have hnx : bson_iterator_next ⟨buf, off + 1 + (key.length + 1) + 4, true⟩
        = some (byteAt buf (off + 1 + (key.length + 1) + 4),
            ⟨buf, off + 1 + (key.length + 1) + 4, false⟩) := by
      simp [bson_iterator_next]
    obtain ⟨b1, hstart, hf1, hD1, hD1', hsp1, hcur1, hfin⟩ := container_copied into t key _
      (Elt.bytesList kids) N ht hk hleg hopen hD hD2 h0 (by omega) h3
    obtain ⟨b2, hloop, hc2⟩ := append_fields_copyable kids hwk hck buf suf
      (off + 1 + (key.length + 1) + 4) ⟨buf, off + 1 + (key.length + 1) + 4, true⟩ b1 N fuel'
      hdk hnx hf1 hD1 hD1' hsp1 (by rw [hcur1]; push_cast; omega) h3 (by omega)
    refine ⟨(bson_append_finish_object b2).2, ?_, ?_⟩
    · rcases ht with rfl | rfl
      · rw [if_pos rfl] at hstart
        rw [field_from_iterator_object fuel' _ into hty, hkk, hsub, hstart]
        simp only [hloop, Option.map_some']
      · rw [if_neg (by decide)] at hstart
        rw [field_from_iterator_array fuel' _ into hty, hkk, hsub, hstart]
        simp only [hloop, Option.map_some', bson_append_finish_array]
    · simpa [Elt.bytes] using hfin b2 hc2
/-- The loop of `bson_append_field_from_iterator` over well-formed elements that
are copied as they are: a balanced piece that adds their bytes. -/
theorem append_fields_copyable : ∀ (es : List Elt), Elt.WFs es → Elt.copyables es →
    ∀ (buf suf : List Nat) (off : Nat) (it : bson_iterator) (into : bson) (N : Int)
      (fuel : Nat),
    buf.drop off = Elt.bytesList es ++ 0 :: suf →
    bson_iterator_next it = some (byteAt buf off, ⟨buf, off, false⟩) →
    into.finished = false → 0 ≤ into.dataSize →
    into.dataSize ≤ INT_MAX → 0 ≤ into.stackPos →
    (into.cur : Int) + (Elt.bytesList es).length ≤ N → 3 * N ≤ INT_MAX → Elt.costs es ≤ fuel →
    ∃ into', bson_append_fields_from_iterator fuel it into = some into' ∧
      Copied into into' (Elt.bytesList es)
  | [] => by
    intro _ _ buf suf off it into N fuel h hn hopen hD hD2 _ _ _ hfuel
    simp only [Elt.costs] at hfuel
    obtain ⟨fuel', rfl⟩ : ∃ f', fuel = f' + 1 := ⟨fuel - 1, by omega⟩
    have hz : byteAt buf off = 0 := byteAt_of_drop _ _ _ _ (by simpa [Elt.bytesList] using h)
    refine ⟨into, ?_, by simpa [Elt.bytesList] using Copied.start into hopen hD hD2⟩
    rw [fields_from_iterator_step fuel' it _ into _ hn, if_pos (by rw [hz]; rfl)]
  | e :: es => by
    intro hw hc buf suf off it into N fuel h hn hopen hD hD2 h0 hN h3 hfuel
    simp only [Elt.costs] at hfuel
    obtain ⟨fuel', rfl⟩ : ∃ f', fuel = f' + 1 := ⟨fuel - 1, by omega⟩
    simp only [Elt.WFs] at hw
    simp only [Elt.copyables] at hc
    rw [Elt.bytesList_cons, List.append_assoc] at h
    obtain ⟨hnx, hdn, hty, -⟩ := bson_iterator_next_elt buf _ off e hw.1 h
    have ht0 : byteAt buf off ≠ BSON_EOO := by
      have : byteAt buf off = e.type := hty
      rw [this]; exact hw.1.parts.1
    simp only [Elt.bytesList_cons, List.length_append] at hN
    push_cast at hN
    obtain ⟨into1, hr1, hc1⟩ := append_field_copyable e hw.1 hc.1 buf _ off false into N fuel'
      h hopen hD hD2 h0 (by omega) h3 (by omega)
    obtain ⟨into2, hr2, hc2⟩ := append_fields_copyable es hw.2 hc.2 buf suf
      (off + e.bytes.length) ⟨buf, off, false⟩ into1 N fuel' hdn hnx hc1.1.2.2.1 hc1.2.1
      hc1.2.2 (by rw [hc1.1.2.2.2.1]; exact h0) (by rw [hc1.cursor]; push_cast; omega) h3
      (by omega)
    refine ⟨into2, ?_, by simpa [Elt.bytesList_cons] using hc1.join hc2⟩
    rw [fields_from_iterator_step fuel' it _ into _ hn, if_neg ht0, hr1]
    exact hr2
end

/-! ## The two loops of `bson_merge` over copied fields -/

theorem Elt.cost_le_costs (es : List Elt) : ∀ e ∈ es, e.cost ≤ Elt.costs es := by
  induction es with
  | nil => intro e he; simp at he
  | cons a as ih =>
    intro e he
    simp only [Elt.costs]
    rcases List.mem_cons.mp he with rfl | h
    · omega
    · have := ih e h
      omega

set_option maxRecDepth 100000 in
theorem hex_of_byte : ∀ b, b < 256 →
    ((hexbyte (byteAt oid_hex ((b &&& 240) >>> 4)) <<< 4)
        ||| hexbyte (byteAt oid_hex (b &&& 15))) % 256 = b ∧
      is_lower_hex (byteAt oid_hex ((b &&& 240) >>> 4)) = true ∧
      is_lower_hex (byteAt oid_hex (b &&& 15)) = true := by
  decide

set_option maxRecDepth 100000 in
theorem byte_of_nibbles : ∀ h, h < 16 → ∀ l, l < 16 →
    (((h <<< 4) ||| l) % 256 &&& 240) >>> 4 = h ∧ ((h <<< 4) ||| l) % 256 &&& 15 = l := by
  decide

set_option maxRecDepth 100000 in
theorem hex_of_digit : ∀ c, c < 103 → is_hex_digit c = true →
    hexbyte c < 16 ∧ byteAt oid_hex (hexbyte c) = ascii_lower c := by
  decide

theorem map_byteAt_range (l : List Nat) : (List.range l.length).map (byteAt l) = l := by
  apply List.ext_getElem
  · simp
  · intro i h1 h2
    simp [byteAt, List.getD_eq_getElem?_getD, List.getElem?_eq_getElem h2]

theorem byteAt_lt_of_all (l : List Nat) (n : Nat) (h : ∀ c ∈ l, c < n) (hn : 0 < n) (i : Nat) :
    byteAt l i < n := by
  unfold byteAt
  by_cases hi : i < l.length
  · rw [List.getD_eq_getElem?_getD, List.getElem?_eq_getElem hi]
    exact h _ (List.getElem_mem hi)
  · rw [List.getD_eq_getElem?_getD, List.getElem?_eq_none (by omega)]
    exact hn

theorem hex_digit_lt (c : Nat) (h : is_hex_digit c = true) : c < 103 := by
  simp only [is_hex_digit, decide_eq_true_eq] at h
  omega

/-- The two characters `bson_oid_to_string` writes for a byte, read back by
`hexbyte`. -/
theorem hex_pair_back (b : Nat) (hb : b < 256) :
    ((hexbyte (byteAt oid_hex ((b &&& 240) >>> 4)) <<< 4)
        ||| hexbyte (byteAt oid_hex (b &&& 15))) % 256 = b :=
  (hex_of_byte b hb).1

/-- The byte `bson_oid_from_string` makes of two hexadecimal digits, written
again by `bson_oid_to_string`. -/
theorem hex_pair_forth (c d : Nat) (hc : is_hex_digit c = true) (hd : is_hex_digit d = true) :
    byteAt oid_hex (((((hexbyte c <<< 4) ||| hexbyte d) % 256) &&& 240) >>> 4) = ascii_lower c ∧
      byteAt oid_hex ((((hexbyte c <<< 4) ||| hexbyte d) % 256) &&& 15) = ascii_lower d := by
  obtain ⟨h1, h2⟩ := hex_of_digit c (hex_digit_lt c hc) hc
  obtain ⟨h3, h4⟩ := hex_of_digit d (hex_digit_lt d hd) hd
  obtain ⟨h5, h6⟩ := byte_of_nibbles _ h1 _ h3
  rw [h5, h6]
  exact ⟨h2, h4⟩

theorem oid_to_string_bytes (o : List Nat) :
    bson_oid_to_string o
      = [byteAt oid_hex ((byteAt o 0 &&& 240) >>> 4), byteAt oid_hex (byteAt o 0 &&& 15),
          byteAt oid_hex ((byteAt o 1 &&& 240) >>> 4), byteAt oid_hex (byteAt o 1 &&& 15),
          byteAt oid_hex ((byteAt o 2 &&& 240) >>> 4), byteAt oid_hex (byteAt o 2 &&& 15),
          byteAt oid_hex ((byteAt o 3 &&& 240) >>> 4), byteAt oid_hex (byteAt o 3 &&& 15),
          byteAt oid_hex ((byteAt o 4 &&& 240) >>> 4), byteAt oid_hex (byteAt o 4 &&& 15),
          byteAt oid_hex ((byteAt o 5 &&& 240) >>> 4), byteAt oid_hex (byteAt o 5 &&& 15),
          byteAt oid_hex ((byteAt o 6 &&& 240) >>> 4), byteAt oid_hex (byteAt o 6 &&& 15),
          byteAt oid_hex ((byteAt o 7 &&& 240) >>> 4), byteAt oid_hex (byteAt o 7 &&& 15),
          byteAt oid_hex ((byteAt o 8 &&& 240) >>> 4), byteAt oid_hex (byteAt o 8 &&& 15),
          byteAt oid_hex ((byteAt o 9 &&& 240) >>> 4), byteAt oid_hex (byteAt o 9 &&& 15),
          byteAt oid_hex ((byteAt o 10 &&& 240) >>> 4), byteAt oid_hex (byteAt o 10 &&& 15),
          byteAt oid_hex ((byteAt o 11 &&& 240) >>> 4), byteAt oid_hex (byteAt o 11 &&& 15),
          0] := rfl

theorem oid_from_string_bytes (s : List Nat) :
    bson_oid_from_string s
      = [((hexbyte (byteAt s 0) <<< 4) ||| hexbyte (byteAt s 1)) % 256,
          ((hexbyte (byteAt s 2) <<< 4) ||| hexbyte (byteAt s 3)) % 256,
          ((hexbyte (byteAt s 4) <<< 4) ||| hexbyte (byteAt s 5)) % 256,
          ((hexbyte (byteAt s 6) <<< 4) ||| hexbyte (byteAt s 7)) % 256,
          ((hexbyte (byteAt s 8) <<< 4) ||| hexbyte (byteAt s 9)) % 256,
          ((hexbyte (byteAt s 10) <<< 4) ||| hexbyte (byteAt s 11)) % 256,
          ((hexbyte (byteAt s 12) <<< 4) ||| hexbyte (byteAt s 13)) % 256,
          ((hexbyte (byteAt s 14) <<< 4) ||| hexbyte (byteAt s 15)) % 256,
          ((hexbyte (byteAt s 16) <<< 4) ||| hexbyte (byteAt s 17)) % 256,
          ((hexbyte (byteAt s 18) <<< 4) ||| hexbyte (byteAt s 19)) % 256,
          ((hexbyte (byteAt s 20) <<< 4) ||| hexbyte (byteAt s 21)) % 256,
          ((hexbyte (byteAt s 22) <<< 4) ||| hexbyte (byteAt s 23)) % 256] := rfl

theorem list_of_length_12 (o : List Nat) (h : o.length = 12) :
    o = [byteAt o 0, byteAt o 1, byteAt o 2, byteAt o 3, byteAt o 4, byteAt o 5, byteAt o 6,
      byteAt o 7, byteAt o 8, byteAt o 9, byteAt o 10, byteAt o 11] := by
  have := map_byteAt_range o
  rw [h] at this
  exact this.symm.trans rfl

theorem list_of_length_24 (s : List Nat) (h : s.length = 24) (g : Nat → Nat) :
    s.map g = [g (byteAt s 0), g (byteAt s 1), g (byteAt s 2), g (byteAt s 3), g (byteAt s 4),
      g (byteAt s 5), g (byteAt s 6), g (byteAt s 7), g (byteAt s 8), g (byteAt s 9),
      g (byteAt s 10), g (byteAt s 11), g (byteAt s 12), g (byteAt s 13), g (byteAt s 14),
      g (byteAt s 15), g (byteAt s 16), g (byteAt s 17), g (byteAt s 18), g (byteAt s 19),
      g (byteAt s 20), g (byteAt s 21), g (byteAt s 22), g (byteAt s 23)] := by
  have := map_byteAt_range s
  rw [h] at this
  conv_lhs => rw [← this]
  rfl

theorem hex_digit_at (s : List Nat) (h : s.length = 24) (hs : s.all is_hex_digit = true)
    (i : Nat) (hi : i < 24) : is_hex_digit (byteAt s i) = true := by
  rw [List.all_eq_true] at hs
  unfold byteAt
  rw [List.getD_eq_getElem?_getD, List.getElem?_eq_getElem (by omega)]
  exact hs _ (List.getElem_mem _)

/-- C38: for every OID `o` of twelve bytes, `bson_oid_to_string` writes 24
lowercase hexadecimal characters and a zero byte, and `bson_oid_from_string` on
that string gives `o` back byte for byte; and for every string `s` of 24
hexadecimal digits in either case, `bson_oid_to_string` on the bytes
`bson_oid_from_string` makes of `s` writes `s` in lower case and a zero byte. -/
theorem oid_hex_round_trip :
    (∀ o : List Nat, o.length = 12 → (∀ c ∈ o, c < 256) →
      (bson_oid_to_string o).length = 25 ∧
        ((bson_oid_to_string o).take 24).all is_lower_hex = true ∧
        byteAt (bson_oid_to_string o) 24 = 0 ∧
        bson_oid_from_string (bson_oid_to_string o) = o) ∧
    (∀ s : List Nat, s.length = 24 → s.all is_hex_digit = true →
      bson_oid_to_string (bson_oid_from_string s) = s.map ascii_lower ++ [0]) := by
  constructor
  · intro o ho hb
    have hlt : ∀ i, byteAt o i < 256 := byteAt_lt_of_all o 256 hb (by decide)
    refine ⟨by rw [oid_to_string_bytes]; rfl, ?_, by rw [oid_to_string_bytes]; rfl, ?_⟩
    · rw [oid_to_string_bytes]
      simp only [List.take_succ_cons, List.take_zero, List.all_cons, List.all_nil,
        Bool.and_true, Bool.and_eq_true, (hex_of_byte _ (hlt _)).2.1, (hex_of_byte _ (hlt _)).2.2,
        and_self]
    · rw [oid_from_string_bytes, oid_to_string_bytes]
      simp only [byteAt, List.getD_cons_zero, List.getD_cons_succ]
      have hp := fun i => hex_pair_back (byteAt o i) (hlt i)
      simp only [byteAt] at hp
      rw [hp 0, hp 1, hp 2, hp 3, hp 4, hp 5, hp 6, hp 7, hp 8, hp 9, hp 10, hp 11]
      exact (list_of_length_12 o ho).symm
  · intro s hl hs
    have hd := hex_digit_at s hl hs
    rw [oid_to_string_bytes, oid_from_string_bytes, list_of_length_24 s hl]
    simp only [byteAt, List.getD_cons_zero, List.getD_cons_succ]
    have hp := fun i j (hi : i < 24) (hj : j < 24) =>
      hex_pair_forth (byteAt s i) (byteAt s j) (hd i hi) (hd j hj)
    simp only [byteAt] at hp
    simp only [(hp 0 1 (by omega) (by omega)).1, (hp 0 1 (by omega) (by omega)).2,
      (hp 2 3 (by omega) (by omega)).1, (hp 2 3 (by omega) (by omega)).2,
      (hp 4 5 (by omega) (by omega)).1, (hp 4 5 (by omega) (by omega)).2,
      (hp 6 7 (by omega) (by omega)).1, (hp 6 7 (by omega) (by omega)).2,
      (hp 8 9 (by omega) (by omega)).1, (hp 8 9 (by omega) (by omega)).2,
      (hp 10 11 (by omega) (by omega)).1, (hp 10 11 (by omega) (by omega)).2,
      (hp 12 13 (by omega) (by omega)).1, (hp 12 13 (by omega) (by omega)).2,
      (hp 14 15 (by omega) (by omega)).1, (hp 14 15 (by omega) (by omega)).2,
      (hp 16 17 (by omega) (by omega)).1, (hp 16 17 (by omega) (by omega)).2,
      (hp 18 19 (by omega) (by omega)).1, (hp 18 19 (by omega) (by omega)).2,
      (hp 20 21 (by omega) (by omega)).1, (hp 20 21 (by omega) (by omega)).2,
      (hp 22 23 (by omega) (by omega)).1, (hp 22 23 (by omega) (by omega)).2]
    rfl

/-- The OID `00 01 02 ff ab 10 09 0a 0b 0c 0d 0e` is written as
`000102ffab10090a0b0c0d0e` and read back; the string `ABCDEF0123456789abcdefAB`
comes back in lower case. -/
theorem oid_hex_round_trip_witness :
    bson_oid_to_string [0, 1, 2, 255, 171, 16, 9, 10, 11, 12, 13, 14]
        = [48, 48, 48, 49, 48, 50, 102, 102, 97, 98, 49, 48, 48, 57, 48, 97, 48, 98, 48, 99,
            48, 100, 48, 101, 0] ∧
      bson_oid_from_string (bson_oid_to_string [0, 1, 2, 255, 171, 16, 9, 10, 11, 12, 13, 14])
        = [0, 1, 2, 255, 171, 16, 9, 10, 11, 12, 13, 14] ∧
      bson_oid_to_string (bson_oid_from_string
          [65, 66, 67, 68, 69, 70, 48, 49, 50, 51, 52, 53, 54, 55, 56, 57, 97, 98, 99, 100,
            101, 102, 65, 66])
        = [97, 98, 99, 100, 101, 102, 48, 49, 50, 51, 52, 53, 54, 55, 56, 57, 97, 98, 99, 100,
            101, 102, 97, 98, 0] :=
  ⟨by decide,
    (oid_hex_round_trip.1 [0, 1, 2, 255, 171, 16, 9, 10, 11, 12, 13, 14] (by decide)
      (by decide)).2.2.2,
    (oid_hex_round_trip.2 [65, 66, 67, 68, 69, 70, 48, 49, 50, 51, 52, 53, 54, 55, 56, 57, 97,
      98, 99, 100, 101, 102, 65, 66] (by decide) (by decide)).trans (by decide)⟩

/-! ## Capacity, failing appends, copies, binary values -/

/-- When the cursor is inside the capacity, a successful `bson_ensure_space`
leaves room for the bytes asked for. -/
theorem ensure_space_enough (b b1 : bson) (n : Int) (hcur : (b.cur : Int) ≤ b.dataSize)
    (hD : b.dataSize ≤ INT_MAX) (hn : 0 ≤ n) (hsum : (b.cur : Int) + n ≤ INT_MAX)
    (h : bson_ensure_space b n = (BSON_OK, b1)) :
    (b1.cur : Int) + n ≤ b1.dataSize := by
  simp only [INT_MAX] at hD hsum
  have hw1 : wrap32 ((b.cur : Int) + n) = (b.cur : Int) + n :=
    wrap32_of_range _ (by omega) (by omega)
  unfold bson_ensure_space at h
  simp only [hw1] at h
  by_cases hfit : (b.cur : Int) + n ≤ b.dataSize
  · rw [if_pos hfit] at h
    cases h
    exact hfit
  · rw [if_neg hfit] at h
    have hne : BSON_ERROR ≠ BSON_OK := by decide
    by_cases hbig : double_to_int_half (3 * wrap32 (b.dataSize + n)) < b.dataSize
    · rw [if_pos hbig] at h
      by_cases hs : wrap32 (b.dataSize + n) < INT_MAX
      · rw [if_pos hs] at h
        cases h
        simp only [bson.cur, INT_MAX] at hsum ⊢
        exact hsum
      · rw [if_neg hs] at h
        simp only [Prod.mk.injEq] at h
        exact absurd h.1 hne
    · rw [if_neg hbig] at h
      cases h
      simp only [bson.cur] at hcur hfit hbig ⊢
      -- the capacity did not shrink, so the product was in range
      by_cases hr : b.dataSize + n < 2147483648
      · have hw : wrap32 (b.dataSize + n) = b.dataSize + n :=
          wrap32_of_range _ (by omega) (by omega)
        rw [hw] at hbig ⊢
        unfold double_to_int_half at hbig ⊢
        simp only [INT_MIN, INT_MAX] at hbig ⊢
        have ht : Int.tdiv (3 * (b.dataSize + n)) 2 = (3 * (b.dataSize + n)) / 2 :=
          Int.tdiv_eq_ediv (by omega) (by omega)
        rw [ht] at hbig ⊢
        split
        · rename_i hc
          rw [if_pos hc] at hbig
          omega
        · omega
      · exfalso
        have hw : wrap32 (b.dataSize + n) = b.dataSize + n - 4294967296 := by
          unfold wrap32; omega
        rw [hw] at hbig
        unfold double_to_int_half at hbig
        simp only [INT_MIN, INT_MAX] at hbig
        have hm : 3 * (b.dataSize + n - 4294967296)
            = -(3 * (4294967296 - (b.dataSize + n))) := by ring
        rw [hm, Int.neg_tdiv, Int.tdiv_eq_ediv (by omega) (by omega)] at hbig
        split at hbig <;> omega

/-- C35 (code bug): `bson_ensure_space` sizes the new buffer from the capacity
and not from the cursor.  On the builder of `bson_init_size(b, 0)`, whose cursor
offset is 4 and capacity 0, a request for one byte returns `BSON_OK` with the
capacity 1, below the 5 bytes the write needs; and `bson_append_int` with the
name `a` returns `BSON_OK` with the capacity 10 after writing 11 bytes. -/
theorem ensure_space_short_capacity :
    sample_zero_size.cur = 4 ∧ sample_zero_size.dataSize = 0 ∧
      bson_ensure_space sample_zero_size 1
        = (BSON_OK, { sample_zero_size with data_null := false, dataSize := 1 }) ∧
      (bson_ensure_space sample_zero_size 1).2.dataSize
        < ((bson_ensure_space sample_zero_size 1).2.cur : Int) + 1 ∧
      (bson_append_int sample_zero_size [97] 1).1 = BSON_OK ∧
      (bson_append_int sample_zero_size [97] 1).2.dataSize = 10 ∧
      (bson_append_int sample_zero_size [97] 1).2.cur = 11 := by
  decide

theorem check_string_data (b : bson) (value : List Nat) (len : Nat) :
    (bson_check_string b value len).2.data = b.data := by
  unfold bson_check_string
  split_ifs <;> rfl

/-- C31 (code bug): `bson_append_regex` calls `bson_append_estart`, which writes
the type tag and the name, before it checks the pattern.  Whenever the header is
accepted and `bson_check_string` rejects the pattern, the call returns
`BSON_ERROR` and the buffer holds the type tag and the name of an element without
payload, the cursor behind them. -/
theorem regex_failure_leaves_header (b b1 : bson) (name pattern opts : List Nat)
    (hes : bson_append_estart b BSON_REGEX name
      (((strlen pattern + 1 : Nat) : Int) + ((strlen opts + 1 : Nat) : Int)) = (BSON_OK, b1))
    (hck : (bson_check_string b1 pattern (strlen pattern + 1 - 1)).1 = BSON_ERROR) :
    (bson_append_regex b name pattern opts).1 = BSON_ERROR ∧
      (bson_append_regex b name pattern opts).2.data
        = b.data ++ BSON_REGEX :: (cstr name ++ [0]) ∧
      (bson_append_regex b name pattern opts).2.cur = b.cur + (strlen name + 2) := by
  have hA := bson_append_estart_ok b b1 BSON_REGEX name _ BSON_OK hes (by decide)
  have hne : BSON_OK ≠ BSON_ERROR := by decide
  have hcd := check_string_data b1 pattern (strlen pattern + 1 - 1)
  rcases hc : bson_check_string b1 pattern (strlen pattern + 1 - 1) with ⟨r2, b2⟩
  rw [hc] at hck hcd
  simp only at hck hcd
  subst hck
  have hres : bson_append_regex b name pattern opts = (BSON_ERROR, b2) := by
    simp only [bson_append_regex, hes, if_neg hne, hc, if_true]
  rw [hres]
  refine ⟨rfl, by simp only [hcd, hA.2.1], ?_⟩
  simp only [bson.cur, hcd, hA.2.1, List.length_append, List.length_cons, cstr_length,
    List.length_nil]

/-- On the fresh builder `bson_init`, the regex `r` with the pattern of the
single byte 255, which is no valid UTF-8, returns `BSON_ERROR` and leaves the
three bytes `0b 72 00` behind the cursor offset 4; `bson_append_string` with the
same value checks first and leaves the buffer as it was. -/
theorem regex_failure_leaves_header_witness :
    (bson_append_regex bson_init [114] [255] []).1 = BSON_ERROR ∧
      (bson_append_regex bson_init [114] [255] []).2.data = [0, 0, 0, 0, 11, 114, 0] ∧
      (bson_append_regex bson_init [114] [255] []).2.cur = 7 ∧
      bson_init.cur = 4 ∧
      (bson_append_string bson_init [114] [255]).1 = BSON_ERROR ∧
      (bson_append_string bson_init [114] [255]).2.data = [0, 0, 0, 0] :=
  ⟨(regex_failure_leaves_header bson_init
      (bson_append_estart bson_init BSON_REGEX [114] 3).2 [114] [255] [] (by decide)
      (by decide)).1,
    ((regex_failure_leaves_header bson_init
      (bson_append_estart bson_init BSON_REGEX [114] 3).2 [114] [255] [] (by decide)
      (by decide)).2.1).trans (by decide),
    ((regex_failure_leaves_header bson_init
      (bson_append_estart bson_init BSON_REGEX [114] 3).2 [114] [255] [] (by decide)
      (by decide)).2.2).trans (by decide),
    by decide, by decide, by decide⟩

/-- `bson_finish` on an open builder without error flag whose capacity holds one
more byte. -/
theorem finish_exact (b : bson) (body : List Nat) (hopen : b.finished = false)
    (herr : b.err = 0) (hfit : (b.cur : Int) + 1 ≤ b.dataSize) (hD : b.dataSize ≤ INT_MAX)
    (hd : b.data = [0, 0, 0, 0] ++ body) :
    bson_finish b = (BSON_OK,
      { b with data := le32_bytes ((b.cur : Int) + 1) ++ (body ++ [0]), finished := true }) := by
  simp only [INT_MAX] at hD
  have hes : bson_ensure_space b 1 = (BSON_OK, b) := by
    unfold bson_ensure_space
    simp only
    rw [wrap32_of_range _ (by omega) (by omega), if_pos hfit]
  have hne : BSON_OK ≠ BSON_ERROR := by decide
  have hcur : (((bson_append_byte b 0).cur : Nat) : Int) = (b.cur : Int) + 1 := by
    simp [bson_append_byte, bson.cur]
  have hw : write_le32 (bson_append_byte b 0).data 0 ((b.cur : Int) + 1)
      = le32_bytes ((b.cur : Int) + 1) ++ (body ++ [0]) := by
    simp only [bson_append_byte, hd, List.append_assoc]
    exact write_le32_zero _ _ (by rfl) _
  unfold bson_finish
  rw [herr]
  simp only [hopen, hes, if_neg hne, hcur, hw]
  simp [BSON_NOT_UTF8, bson_append_byte, herr]

/-- The calls `bson_dup` and `bson_create_from_buffer` make on a builder of
capacity `n`, in the embedding of the bytes before the cursor: they leave the
`n` bytes of the document. -/
theorem copy_of_document (body rest : List Nat) (hsz : (body.length : Int) + 5 ≤ INT_MAX) :
    (bson_finish (bson_append
        (bson_ensure_space (bson_init_size ((body.length : Int) + 5))
          ((body.length : Int) + 5 - 4)).2
        (body ++ 0 :: rest) ((body.length : Int) + 5 - (4 + 1)).toNat)).2
      = { data := le32_bytes ((body.length : Int) + 5) ++ (body ++ [0]), data_null := false,
          dataSize := (body.length : Int) + 5, finished := true, stack := [], stackPos := 0,
          err := 0, flags := 0 } := by
  have hs := hsz
  simp only [INT_MAX] at hs
  have hz : ¬ ((body.length : Int) + 5 = 0) := by omega
  have h1 : bson_ensure_space (bson_init_size ((body.length : Int) + 5))
      ((body.length : Int) + 5 - 4) = (BSON_OK, bson_init_size ((body.length : Int) + 5)) := by
    unfold bson_ensure_space
    have hc : ((bson_init_size ((body.length : Int) + 5)).cur : Int) = 4 := rfl
    have hd : (bson_init_size ((body.length : Int) + 5)).dataSize = (body.length : Int) + 5 :=
      rfl
    simp only [hc, hd]
    rw [wrap32_of_range _ (by omega) (by omega), if_pos (by omega)]
  have htn : ((body.length : Int) + 5 - (4 + 1)).toNat = body.length := by omega
  have hmt : mem_take (body ++ 0 :: rest) body.length = body := mem_take_append_left body _
  rw [h1, htn]
  have hb : bson_append (bson_init_size ((body.length : Int) + 5)) (body ++ 0 :: rest)
      body.length
      = bson.mk ([0, 0, 0, 0] ++ body) false ((body.length : Int) + 5) false [] 0 0 0 := by
    simp [bson_append, hmt, bson_init_size, _bson_init_size, _bson_reset, hz]
  rw [hb]
  have hcur : (((bson.mk ([0, 0, 0, 0] ++ body) false ((body.length : Int) + 5) false [] 0 0
      0).cur : Nat) : Int) = (body.length : Int) + 4 := by
    simp only [bson.cur, List.length_append, List.length_cons, List.length_nil]
    push_cast
    omega
  have hfit : (((bson.mk ([0, 0, 0, 0] ++ body) false ((body.length : Int) + 5) false [] 0 0
      0).cur : Nat) : Int) + 1
      ≤ (bson.mk ([0, 0, 0, 0] ++ body) false ((body.length : Int) + 5) false [] 0 0
        0).dataSize := by
    rw [hcur]
    show (body.length : Int) + 4 + 1 ≤ (body.length : Int) + 5
    omega
  have hfin := finish_exact (bson.mk ([0, 0, 0, 0] ++ body) false ((body.length : Int) + 5)
    false [] 0 0 0) body rfl rfl hfit hsz rfl
  rw [hfin, hcur]
  have e : (body.length : Int) + 4 + 1 = (body.length : Int) + 5 := by omega
  rw [e]

/-! ## Binary values read back -/

/-- The subtype byte the iterator reads at an element `bson_append_binary`
wrote. -/
theorem bin_type_at (buf key suf x : List Nat) (off ty : Nat) (f : Bool)
    (h : buf.drop off
      = BSON_BINDATA :: (key ++ 0 :: (Field.payload (.binary [] ty x x.length) ++ suf)))
    (hk : ∀ c ∈ key, c ≠ 0) : bson_iterator_bin_type ⟨buf, off, f⟩ = ty := by
  obtain ⟨-, -, -, hv, hd, -⟩ := elem_layout buf key _ suf off BSON_BINDATA h hk f
  unfold bson_iterator_bin_type
  rw [hv]
  by_cases hty : ty = BSON_BIN_BINARY_OLD
  · simp only [Field.payload, if_pos hty, List.append_assoc] at hd
    have hd4 := drop_of_drop_append buf _ _ _ hd
    rw [le32_bytes_length] at hd4
    exact byteAt_of_drop _ _ _ _ hd4
  · simp only [Field.payload, if_neg hty, List.append_assoc] at hd
    have hd4 := drop_of_drop_append buf _ _ _ hd
    rw [le32_bytes_length] at hd4
    exact byteAt_of_drop _ _ _ _ hd4

/-- C33: after a `bson_append_binary(b, name, s, payload, len)` that returns
`BSON_OK`, for every subtype byte `s` (the legacy subtype included) and every
payload of `len` bytes with `len + 4` in the range of a C int, the iterator on
the element the call wrote (at the cursor offset the builder had before the
call, whatever is appended later) stands on a BINDATA under the name and reports
`bson_iterator_bin_type = s`, `bson_iterator_bin_len = len` and a
`bson_iterator_bin_data` that points at the bytes of the payload. -/
theorem binary_round_trip (b b' : bson) (name x suf : List Nat) (s : Nat) (f : Bool)
    (h : bson_append_binary b name s x x.length = (BSON_OK, b'))
    (hsz : (x.length : Int) + 4 ≤ INT_MAX) :
    bson_iterator_type ⟨b'.data ++ suf, b.cur, f⟩ = BSON_BINDATA ∧
      bson_iterator_key_str ⟨b'.data ++ suf, b.cur, f⟩ = cstr name ∧
      bson_iterator_bin_type ⟨b'.data ++ suf, b.cur, f⟩ = s ∧
      bson_iterator_bin_len ⟨b'.data ++ suf, b.cur, f⟩ = (x.length : Int) ∧
      bson_iterator_bin_data ⟨b'.data ++ suf, b.cur, f⟩ = x ++ suf ∧
      (bson_iterator_bin_data ⟨b'.data ++ suf, b.cur, f⟩).take x.length = x := by
  have hA := Field.append_ok (.binary name s x x.length) b b' BSON_OK h (by decide)
  have hdrop : (b'.data ++ suf).drop b.cur
      = BSON_BINDATA :: (cstr name ++ 0
          :: (Field.payload (.binary [] s x x.length) ++ suf)) := by
    rw [hA.2.1]
    simp only [bson.cur, Field.type, Field.name, List.append_assoc]
    rw [List.drop_left]
    simp [Field.payload]
  obtain ⟨hty, -, hks, -, -, -⟩ := elem_layout (b'.data ++ suf) (cstr name) _ suf b.cur
    BSON_BINDATA hdrop (cstr_nonzero name) f
  obtain ⟨hlen, hdata⟩ := bin_accessors (b'.data ++ suf) (cstr name) suf x b.cur s f hdrop
    (cstr_nonzero name) hsz
  refine ⟨hty, hks, bin_type_at _ _ _ _ _ _ f hdrop (cstr_nonzero name), hlen, hdata, ?_⟩
  rw [hdata, List.take_left]

/-- The payload `01 02 03` under the legacy subtype 2 and under the subtype 128
on the fresh builder `bson_init`, the element at the offset 4: subtype, length
and bytes come back. -/
theorem binary_round_trip_witness :
    (bson_append_binary bson_init [122] 2 [1, 2, 3] 3).2.data
        = [0, 0, 0, 0, 5, 122, 0, 7, 0, 0, 0, 2, 3, 0, 0, 0, 1, 2, 3] ∧
      bson_iterator_bin_type ⟨(bson_append_binary bson_init [122] 2 [1, 2, 3] 3).2.data ++ [],
        4, false⟩ = 2 ∧
      bson_iterator_bin_len ⟨(bson_append_binary bson_init [122] 2 [1, 2, 3] 3).2.data ++ [],
        4, false⟩ = 3 ∧
      bson_iterator_bin_data ⟨(bson_append_binary bson_init [122] 2 [1, 2, 3] 3).2.data ++ [],
        4, false⟩ = [1, 2, 3] ∧
      bson_iterator_bin_type ⟨(bson_append_binary bson_init [122] 128 [1, 2, 3] 3).2.data
        ++ [0], 4, false⟩ = 128 ∧
      bson_iterator_bin_data ⟨(bson_append_binary bson_init [122] 128 [1, 2, 3] 3).2.data
        ++ [0], 4, false⟩ = [1, 2, 3, 0] :=
  ⟨by decide,
    (binary_round_trip bson_init (bson_append_binary bson_init [122] 2 [1, 2, 3] 3).2 [122]
      [1, 2, 3] [] 2 false (by decide) (by decide)).2.2.1,
    (binary_round_trip bson_init (bson_append_binary bson_init [122] 2 [1, 2, 3] 3).2 [122]
      [1, 2, 3] [] 2 false (by decide) (by decide)).2.2.2.1,
    (binary_round_trip bson_init (bson_append_binary bson_init [122] 2 [1, 2, 3] 3).2 [122]
      [1, 2, 3] [] 2 false (by decide) (by decide)).2.2.2.2.1,
    (binary_round_trip bson_init (bson_append_binary bson_init [122] 128 [1, 2, 3] 3).2 [122]
      [1, 2, 3] [0] 128 false (by decide) (by decide)).2.2.1,
    (binary_round_trip bson_init (bson_append_binary bson_init [122] 128 [1, 2, 3] 3).2 [122]
      [1, 2, 3] [0] 128 false (by decide) (by decide)).2.2.2.2.1⟩

/-! ## Iterating inside a container -/

/-- The sub-iterator of a container element and the step of the outer iterator
over it. -/
theorem container_iteration (buf suf : List Nat) (off t : Nat) (key : List Nat)
    (kids : List Elt) (hw : (Elt.node t key kids).WF)
    (h : buf.drop off = (Elt.node t key kids).bytes ++ suf) (f : Bool) :
    bson_iterator_type ⟨buf, off, f⟩ = t ∧
      bson_iterator_key_str ⟨buf, off, f⟩ = key ∧
      bson_iterator_subiterator ⟨buf, off, f⟩ = ⟨buf, off + 1 + (key.length + 1) + 4, true⟩ ∧
      buf.drop (off + 1 + (key.length + 1) + 4) = Elt.bytesList kids ++ 0 :: suf ∧
      (∀ k, bson_iterator_trace (kids.length + k) (bson_iterator_subiterator ⟨buf, off, f⟩)
        = some (kids.map (fun x => (x.type, x.key)) ++ List.replicate k (BSON_EOO, []))) ∧
      bson_iterator_next ⟨buf, off, false⟩
        = some (byteAt buf (off + (Elt.node t key kids).bytes.length),
            ⟨buf, off + (Elt.node t key kids).bytes.length, false⟩) ∧
      buf.drop (off + (Elt.node t key kids).bytes.length) = suf := by
  have hw' := hw
  simp only [Elt.WF] at hw'
  obtain ⟨-, hk, -, hwk⟩ := hw'
  have h' : buf.drop off = t :: (key ++ 0 ::
      ((le32_bytes (((Elt.bytesList kids).length : Int) + 5)
        ++ (Elt.bytesList kids ++ [0])) ++ suf)) := by
    simpa [Elt.bytes] using h
  obtain ⟨hty, -, hks, hv, hd, -⟩ := elem_layout buf key _ suf off t h' hk f
  have hsub : bson_iterator_subiterator ⟨buf, off, f⟩
      = ⟨buf, off + 1 + (key.length + 1) + 4, true⟩ := by
    simp only [bson_iterator_subiterator, bson_iterator_from_buffer, hv]
  have hdk : buf.drop (off + 1 + (key.length + 1) + 4) = Elt.bytesList kids ++ 0 :: suf := by
    have hd' : buf.drop (off + 1 + (key.length + 1))
        = le32_bytes (((Elt.bytesList kids).length : Int) + 5)
          ++ (Elt.bytesList kids ++ 0 :: suf) := by
      rw [hd]; simp
    have := drop_of_drop_append buf _ _ _ hd'
    rw [le32_bytes_length] at this
    exact this
  obtain ⟨hnx, hdn, -, -⟩ := bson_iterator_next_elt buf suf off _ hw h
  refine ⟨hty, hks, hsub, hdk, ?_, hnx, hdn⟩
  intro k
  rw [hsub]
  exact (trace_elts kids buf suf _ hwk hdk).2 k

theorem sample_tree_args : Item.args_ok_list sample_tree_items := by
  simp [sample_tree_items, Item.args_ok_list, Item.args_ok, Field.args_ok]

/-- One turn of the `while` loop of the resolver with its record. -/
theorem bson_find_fieldpath_value_impl_log_unfold (M fuel : Nat) (pstack : List Nat)
    (curr : Nat) (fpath : List Nat) (fplen : Nat) (it : bson_iterator) :
  bson_find_fieldpath_value_impl_log M (fuel+1) pstack curr fpath fplen it =
    match bson_iterator_next it with
    | none => ([], none)
    | some (t, it1) =>
      if t = BSON_EOO then ([], some (BSON_EOO, pstack, it1))
      else
        let key := bson_iterator_key it1
        let klen := strlen_at it1.buf key
        if curr + klen > fplen ∨ curr + klen + 1 ≥ M then
          bson_find_fieldpath_value_impl_log M fuel pstack curr fpath fplen it1
        else
          let pstack1 := if curr > 0 then mem_write pstack curr [46] else pstack
          let curr1 := if curr > 0 then curr + 1 else curr
          let pstack2 := mem_write pstack1 curr1 (mem_take (it1.buf.drop key) klen)
          let curr2 := curr1 + klen
          let ev := fpath_event.push curr
            ((if curr > 0 then [curr] else []) ++ List.range' curr1 klen) curr2
          let i := fpath_match pstack2 fpath curr2 fplen curr2 0
          if i = curr2 ∧ i = fplen then ([ev], some (t, pstack2, it1))
          else
            let pop (n : Nat) : Nat := if n - klen > 0 then n - klen - 1 else n - klen
            if i = curr2 ∧ i < fplen ∧ (t = BSON_OBJECT ∨ t = BSON_ARRAY) then
              match bson_find_fieldpath_value_impl_log M fuel pstack2 curr2
                  fpath fplen (bson_iterator_subiterator it1) with
              | (log1, none) => (ev :: log1, none)
              | (log1, some (st, pstack3, sit)) =>
                if st ≠ BSON_EOO then (ev :: log1, some (st, pstack3, sit))
                else
                  match bson_find_fieldpath_value_impl_log M fuel pstack3
                      (pop curr2) fpath fplen it1 with
                  | (log2, r) =>
                    (ev :: (log1 ++ fpath_event.pop curr curr2 (pop curr2) :: log2), r)
            else
              match bson_find_fieldpath_value_impl_log M fuel pstack2
                  (pop curr2) fpath fplen it1 with
              | (log2, r) => (ev :: fpath_event.pop curr curr2 (pop curr2) :: log2, r) := by
  rfl

/-- A push that passed the length test stays inside the buffer. -/
theorem push_safe (M fplen curr klen : Nat)
    (h : ¬ (curr + klen > fplen ∨ curr + klen + 1 ≥ M)) :
    fpath_event.safe M fplen (.push curr
      ((if curr > 0 then [curr] else []) ++ List.range' (if curr > 0 then curr + 1 else curr)
        klen) ((if curr > 0 then curr + 1 else curr) + klen)) = true := by
  simp only [fpath_event.safe, Bool.and_eq_true, decide_eq_true_eq, List.all_eq_true,
    List.mem_append, List.mem_range']
  refine ⟨by split <;> omega, ?_⟩
  intro i hi
  rcases hi with hi | ⟨j, hj, rfl⟩
  · split at hi
    · simp only [List.mem_singleton] at hi; omega
    · simp at hi
  · split <;> omega

/-- A pop gives the index back that the push found. -/
theorem pop_safe (M fplen curr klen : Nat)
    (h : ¬ (curr + klen > fplen ∨ curr + klen + 1 ≥ M)) :
    fpath_event.safe M fplen (.pop curr ((if curr > 0 then curr + 1 else curr) + klen)
      (if (if curr > 0 then curr + 1 else curr) + klen - klen > 0
        then (if curr > 0 then curr + 1 else curr) + klen - klen - 1
        else (if curr > 0 then curr + 1 else curr) + klen - klen)) = true := by
  simp only [fpath_event.safe, decide_eq_true_eq]
  split_ifs <;> omega

/-- Every event of the record of `bson_find_fieldpath_value_impl_log` stays
inside the path buffer. -/
theorem impl_log_safe (M : Nat) (fpath : List Nat) (fplen : Nat) : ∀ (fuel : Nat)
    (pstack : List Nat) (curr : Nat) (it : bson_iterator),
    (bson_find_fieldpath_value_impl_log M fuel pstack curr fpath fplen it).1.all
      (fpath_event.safe M fplen) = true := by
  intro fuel
  induction fuel with
  | zero => intro pstack curr it; rfl
  | succ fuel ih =>
    intro pstack curr it
    rw [bson_find_fieldpath_value_impl_log_unfold]
    cases hn : bson_iterator_next it with
    | none => rfl
    | some p =>
      obtain ⟨t, it1⟩ := p
      simp only
      have hpush := push_safe M fplen curr (strlen_at it1.buf (bson_iterator_key it1))
      have hpop := pop_safe M fplen curr (strlen_at it1.buf (bson_iterator_key it1))
      generalize strlen_at it1.buf (bson_iterator_key it1) = klen at hpush hpop ⊢
      generalize (if curr > 0 then curr + 1 else curr) = curr1 at hpush hpop ⊢
      generalize (if curr > 0 then [curr] else ([] : List Nat)) = w0 at hpush hpop ⊢
      generalize (if curr > 0 then mem_write pstack curr [46] else pstack) = pstack1
      generalize (if curr1 + klen - klen > 0 then curr1 + klen - klen - 1
        else curr1 + klen - klen) = popped at hpush hpop ⊢
      split
      · rfl
      · split
        · exact ih _ _ _
        · rename_i hns
          replace hpush := hpush hns
          replace hpop := hpop hns
          split
          · simp only [List.all_cons, List.all_nil, Bool.and_true]
            exact hpush
          · split
            · split
              · rename_i log1 heq
                have h1 : log1.all (fpath_event.safe M fplen) = true :=
                  (congrArg (fun x => x.1.all (fpath_event.safe M fplen)) heq).symm.trans (ih _ _ _)
                simp only [List.all_cons, Bool.and_eq_true]
                exact ⟨hpush, h1⟩
              · rename_i log1 st pstack3 sit heq
                have h1 : log1.all (fpath_event.safe M fplen) = true :=
                  (congrArg (fun x => x.1.all (fpath_event.safe M fplen)) heq).symm.trans (ih _ _ _)
                split
                · simp only [List.all_cons, Bool.and_eq_true]
                  exact ⟨hpush, h1⟩
                · simp only [List.all_cons, List.all_append, Bool.and_eq_true]
                  exact ⟨hpush, h1, hpop, ih _ _ _⟩
            · simp only [List.all_cons, Bool.and_eq_true]
              exact ⟨hpush, hpop, ih _ _ _⟩

/-- The record does not change the result of the resolver. -/
theorem impl_log_result (M : Nat) (fpath : List Nat) (fplen : Nat) : ∀ (fuel : Nat)
    (pstack : List Nat) (curr : Nat) (it : bson_iterator),
    (bson_find_fieldpath_value_impl_log M fuel pstack curr fpath fplen it).2
      = bson_find_fieldpath_value_impl M fuel pstack curr fpath fplen it := by
  intro fuel
  induction fuel with
  | zero => intro pstack curr it; rfl
  | succ fuel ih =>
    intro pstack curr it
    rw [bson_find_fieldpath_value_impl_log_unfold, bson_find_fieldpath_value_impl_unfold]
    cases hn : bson_iterator_next it with
    | none => rfl
    | some p =>
      obtain ⟨t, it1⟩ := p
      simp only
      generalize strlen_at it1.buf (bson_iterator_key it1) = klen
      generalize (if curr > 0 then curr + 1 else curr) = curr1
      generalize (if curr > 0 then [curr] else ([] : List Nat)) = w0
      generalize (if curr > 0 then mem_write pstack curr [46] else pstack) = pstack1
      generalize (if curr1 + klen - klen > 0 then curr1 + klen - klen - 1
        else curr1 + klen - klen) = popped
      split
      · rfl
      · split
        · exact ih _ _ _
        · split
          · rfl
          · split
            · rw [← ih]
              split
              · rename_i log1 heq
                rw [heq]
              · rename_i log1 st pstack3 sit heq
                rw [heq]
                simp only
                split
                · rfl
                · exact ih _ _ _
            · exact ih _ _ _

/-- C36: for every document, every path, every `fplen` and every limit
`BSON_MAX_FPATH_LEN`, during `bson_find_fieldpath_value2` every key pushed on the
path buffer leaves the index `curr` between the value it found and `fplen + 1`,
every byte written to `pstack` (the dot and the key bytes) lies at an index
below `BSON_MAX_FPATH_LEN`, and every pop gives `curr` the value it had before
that key was pushed; this holds for every prefix of a run (every fuel), and the
record does not change the result of the resolver. -/
theorem fieldpath_buffer_safe (M fuel : Nat) (fpath : List Nat) (fplen : Nat)
    (it : bson_iterator) :
    (bson_find_fieldpath_value2_log M fuel fpath fplen it).1.all (fpath_event.safe M fplen)
        = true ∧
      (bson_find_fieldpath_value2_log M fuel fpath fplen it).2
        = bson_find_fieldpath_value2 M fuel fpath fplen it := by
  unfold bson_find_fieldpath_value2_log bson_find_fieldpath_value2
  split
  · exact ⟨rfl, rfl⟩
  · have h1 := impl_log_safe M fpath fplen fuel (List.replicate M 0) 0 it
    have h2 := impl_log_result M fpath fplen fuel (List.replicate M 0) 0 it
    rcases hr : bson_find_fieldpath_value_impl_log M fuel (List.replicate M 0) 0 fpath fplen it
      with ⟨log, r⟩
    rw [hr] at h1 h2
    simp only at h1 h2
    exact ⟨h1, by rw [← h2]⟩

set_option maxRecDepth 100000 in
/-- The search for `a.y.z` in `{a: {x: 1, y: {z: "s"}}, g: true}`: `a` is pushed
at the index 0, `x` is pushed behind a dot at the indices 1 and 2 and popped
again, then `y` and `z` are pushed, the last write at the index 4. -/
theorem fieldpath_log_sample :
    (bson_find_fieldpath_value2_log 255 20 [97, 46, 121, 46, 122] 5
        (bson_iterator_init sample_tree_doc)).1
      = [.push 0 [0] 1, .push 1 [1, 2] 3, .pop 1 3 1, .push 1 [1, 2] 3, .push 3 [3, 4] 5] := by
  decide!

/-! ## The resolver returns -/

theorem Elt.exposeds_mem (es : List Elt) (h : Elt.exposeds es) : ∀ e ∈ es, e.exposed := by
  induction es with
  | nil => intro e he; simp at he
  | cons a as ih =>
    intro e he
    simp only [Elt.exposeds] at h
    rcases List.mem_cons.mp he with rfl | h'
    · exact h.1
    · exact ih h.2 e h'

/-- On a document of well-formed elements whose containers are given by their
elements, the resolver returns, whatever the path and the path buffer are. -/
theorem impl_total (M : Nat) (fpath : List Nat) (fplen : Nat) : ∀ (fuel : Nat)
    (es : List Elt) (buf suf : List Nat) (off : Nat) (it : bson_iterator) (pstack : List Nat)
    (curr : Nat), Elt.WFs es → Elt.exposeds es →
    buf.drop off = Elt.bytesList es ++ 0 :: suf →
    bson_iterator_next it = some (byteAt buf off, ⟨buf, off, false⟩) →
    Elt.costs es ≤ fuel →
    ∃ r, bson_find_fieldpath_value_impl M fuel pstack curr fpath fplen it = some r := by
  intro fuel
  induction fuel with
  | zero =>
    intro es buf suf off it pstack curr _ _ _ _ hfuel
    cases es <;> simp [Elt.costs] at hfuel
  | succ fuel ih =>
    intro es buf suf off it pstack curr hwf hex h hn hfuel
    cases es with
    | nil =>
      have hz : byteAt buf off = 0 := byteAt_of_drop _ _ _ _ (by simpa [Elt.bytesList] using h)
      rw [hz] at hn
      exact ⟨_, impl_eoo M fuel pstack curr fpath fplen it _ hn⟩
    | cons e es =>
      simp only [Elt.WFs] at hwf
      simp only [Elt.exposeds] at hex
      simp only [Elt.costs] at hfuel
      rw [Elt.bytesList_cons, List.append_assoc] at h
      obtain ⟨hnx, hdn, hty, -⟩ := bson_iterator_next_elt buf _ off e hwf.1 h
      have htb : byteAt buf off = e.type := hty
      have ht0 : e.type ≠ BSON_EOO := hwf.1.parts.1
      rw [htb] at hn
      -- the rest of the loop, from the element `e` on
      have hrest : ∀ ps c, ∃ r, bson_find_fieldpath_value_impl M fuel ps c fpath fplen
          ⟨buf, off, false⟩ = some r :=
        fun ps c => ih es buf suf (off + e.bytes.length) ⟨buf, off, false⟩ ps c hwf.2 hex.2 hdn
          hnx (by omega)
      -- the nested call
      have hsub : (e.type = BSON_OBJECT ∨ e.type = BSON_ARRAY) →
          ∀ ps c, ∃ r, bson_find_fieldpath_value_impl M fuel ps c fpath fplen
            (bson_iterator_subiterator ⟨buf, off, false⟩) = some r := by
        intro hcont ps c
        cases e with
        | leaf t key p =>
          simp only [Elt.exposed] at hex
          simp only [Elt.type] at hcont
          rcases hcont with hc | hc
          · exact absurd hc hex.1.1
          · exact absurd hc hex.1.2
        | node t key kids =>
          have hw1 := hwf.1
          simp only [Elt.WF] at hw1
          simp only [Elt.exposed] at hex
          simp only [Elt.cost] at hfuel
          obtain ⟨-, -, hs, hdk, -, -, -⟩ := container_iteration buf _ off t key kids hwf.1 h false
          rw [hs]
          exact ih kids buf _ _ _ ps c hw1.2.2.2 hex.1 hdk (by simp [bson_iterator_next])
            (by omega)
      rw [bson_find_fieldpath_value_impl_unfold, hn]
      simp only [if_neg ht0]
      generalize strlen_at buf (bson_iterator_key ⟨buf, off, false⟩) = klen
      generalize (if curr > 0 then curr + 1 else curr) = curr1
      generalize (if curr > 0 then mem_write pstack curr [46] else pstack) = pstack1
      generalize (if curr1 + klen - klen > 0 then curr1 + klen - klen - 1
        else curr1 + klen - klen) = popped
      split
      · exact hrest _ _
      · split
        · exact ⟨_, rfl⟩
        · split
          · rename_i hd
            obtain ⟨r, hr⟩ := hsub hd.2.2 (mem_write pstack1 curr1
              (mem_take (List.drop (bson_iterator_key ⟨buf, off, false⟩) buf) klen))
              (curr1 + klen)
            rw [hr]
            obtain ⟨st, ps3, sit⟩ := r
            simp only
            split
            · exact ⟨_, rfl⟩
            · exact hrest _ _
          · exact hrest _ _

/-- `bson_find_fieldpath_value2` returns on such a document. -/
theorem value2_total (M : Nat) (fpath : List Nat) (fplen : Nat) (fuel : Nat) (es : List Elt)
    (bs : List Nat) (hwf : Elt.WFs es) (hex : Elt.exposeds es) (hd : bs = doc_bytes es)
    (hfuel : Elt.costs es ≤ fuel) :
    ∃ r, bson_find_fieldpath_value2 M fuel fpath fplen (bson_iterator_from_buffer bs 0)
      = some r := by
  unfold bson_find_fieldpath_value2
  split
  · exact ⟨_, rfl⟩
  · have hdrop : bs.drop 4 = Elt.bytesList es ++ 0 :: [] := by
      rw [hd]; exact doc_bytes_drop _
    obtain ⟨r, hr⟩ := impl_total M fpath fplen fuel es bs [] 4 (bson_iterator_from_buffer bs 0)
      (List.replicate M 0) 0 hwf hex hdrop
      (by simp [bson_iterator_next, bson_iterator_from_buffer]) hfuel
    rw [hr]
    exact ⟨_, rfl⟩

theorem double_lt_irrefl (a : Nat) : double_lt a a = false := by
  simp [double_lt]

theorem TCCMPLEXICAL_self (v : List Nat) (l : Int) : TCCMPLEXICAL v l v l = 0 := by
  simp [TCCMPLEXICAL, first_diff_self]

theorem memcmp_self (a : List Nat) (n : Nat) : memcmp a a n = 0 := by
  simp [memcmp, first_diff_self]

/-- C37: for every finished document `d` of well-formed elements whose
containers are given by their elements (what the builder produces), every path
`p`, every `fplen`, every limit `BSON_MAX_FPATH_LEN` and enough fuel,
`bson_compare(d, d, p, fplen)` returns `0`, whichever type the path resolves to
and also when it resolves to nothing. -/
theorem compare_reflexive (M fuel : Nat) (es : List Elt) (bs fpath : List Nat) (fplen : Nat)
    (hwf : Elt.WFs es) (hex : Elt.exposeds es) (hd : bs = doc_bytes es)
    (hfuel : Elt.costs es ≤ fuel) :
    bson_compare M fuel bs bs fpath fplen = some 0 := by
  obtain ⟨⟨t, it⟩, hr⟩ := value2_total M fpath fplen fuel es bs hwf hex hd hfuel
  unfold bson_compare bson_compare_fpaths
  rw [hr]
  simp only
  split
  · simp
  · split
    · simp
    · split
      · rename_i htd
        have hlen : fplen < M := value2_found_len M fuel fpath fplen _ it t
          (by rw [htd]; decide) hr
        have hty := value2_type M fuel fpath fplen _ it t hlen hr
        have hv : bson_iterator_double it = bson_iterator_double_raw it := by
          simp [bson_iterator_double, hty, htd, BSON_DOUBLE, BSON_INT, BSON_LONG]
        simp only [hv, double_lt_irrefl]
        simp
      · split
        · rename_i hts
          simp only [if_pos hts, TCCMPLEXICAL_self]
        · split
          · simp only [memcmp_self]
          · rfl

theorem sample_tree_exposed : Elt.exposeds (Item.elts sample_tree_items) := by
  have hl : Item.elts sample_tree_items
      = [.node BSON_OBJECT [97]
            [.leaf BSON_INT [120] (le32_bytes 1),
              .node BSON_OBJECT [121]
                [.leaf BSON_STRING [122]
                  (le32_bytes (((([115] : List Nat).length : Nat) : Int) + 1) ++ [115] ++ [0])]],
          .leaf BSON_BOOL [103] [1]] := rfl
  rw [hl]
  simp only [Elt.exposeds, Elt.exposed, and_true]
  decide

set_option maxRecDepth 100000 in
/-- The document `{a: {x: 1, y: {z: "s"}}, g: true}` compared with itself at the
paths `a.y.z` (a STRING), `a.x` (an INT), `g` (a BOOL), `a` (an OBJECT) and `q`
(nothing): the result is `0`. -/
theorem compare_reflexive_witness :
    bson_compare 255 20 sample_tree_doc.data sample_tree_doc.data [97, 46, 121, 46, 122] 5
        = some 0 ∧
      bson_compare 255 20 sample_tree_doc.data sample_tree_doc.data [97, 46, 120] 3 = some 0 ∧
      bson_compare 255 20 sample_tree_doc.data sample_tree_doc.data [103] 1 = some 0 ∧
      bson_compare 255 20 sample_tree_doc.data sample_tree_doc.data [97] 1 = some 0 ∧
      bson_compare 255 20 sample_tree_doc.data sample_tree_doc.data [113] 1 = some 0 :=
  ⟨compare_reflexive 255 20 (Item.elts sample_tree_items) sample_tree_doc.data
      [97, 46, 121, 46, 122] 5 (Item.elts_wf _ sample_tree_args (by decide!))
      sample_tree_exposed (by decide!) (by decide!),
    compare_reflexive 255 20 (Item.elts sample_tree_items) sample_tree_doc.data
      [97, 46, 120] 3 (Item.elts_wf _ sample_tree_args (by decide!))
      sample_tree_exposed (by decide!) (by decide!),
    compare_reflexive 255 20 (Item.elts sample_tree_items) sample_tree_doc.data
      [103] 1 (Item.elts_wf _ sample_tree_args (by decide!))
      sample_tree_exposed (by decide!) (by decide!),
    compare_reflexive 255 20 (Item.elts sample_tree_items) sample_tree_doc.data
      [97] 1 (Item.elts_wf _ sample_tree_args (by decide!))
      sample_tree_exposed (by decide!) (by decide!),
    compare_reflexive 255 20 (Item.elts sample_tree_items) sample_tree_doc.data
      [113] 1 (Item.elts_wf _ sample_tree_args (by decide!))
      sample_tree_exposed (by decide!) (by decide!)⟩

/-! ## Appends never finish a builder -/

theorem check_field_name_keeps_finished (b : bson) (name : List Nat) (len : Nat) (cd cs : Bool) :
    (bson_check_field_name b name len cd cs).2.finished = b.finished := by
  unfold bson_check_field_name
  split_ifs <;> rfl

theorem check_string_keeps_finished (b : bson) (value : List Nat) (len : Nat) :
    (bson_check_string b value len).2.finished = b.finished := by
  unfold bson_check_string
  split_ifs <;> rfl

theorem estart_keeps_finished (b : bson) (t : Nat) (name : List Nat) (ds : Int) :
    (bson_append_estart b t name ds).2.finished = b.finished := by
  unfold bson_append_estart
  simp only
  split
  · rfl
  · rcases hes : bson_ensure_space b (1 + ((strlen name + 1 : Nat) : Int) + ds) with ⟨r1, b2⟩
    obtain ⟨-, hf, -, -, -⟩ := bson_ensure_space_frame b b2 _ r1 hes
    simp only
    split
    · exact hf
    · rcases hck : bson_check_field_name b2 name (strlen name + 1 - 1)
        (decide (b2.flags &&& BSON_FLAG_QUERY_MODE = 0))
        (decide (b2.flags &&& BSON_FLAG_QUERY_MODE = 0)) with ⟨r2, b3⟩
      have hcf := check_field_name_keeps_finished b2 name (strlen name + 1 - 1)
        (decide (b2.flags &&& BSON_FLAG_QUERY_MODE = 0))
        (decide (b2.flags &&& BSON_FLAG_QUERY_MODE = 0))
      rw [hck] at hcf
      simp only at hcf
      simp only
      split
      · simp [bson_builder_error, hcf, hf]
      · simp [bson_append, bson_append_byte, hcf, hf]

theorem estart_then_keeps_finished (b : bson) (t : Nat) (name : List Nat) (ds : Int)
    (g : bson → bson) (hg : ∀ x : bson, (g x).finished = x.finished) :
    (match bson_append_estart b t name ds with
      | (r, b1) => if r = BSON_ERROR then (BSON_ERROR, b1) else (BSON_OK, g b1)).2.finished
        = b.finished := by
  have hf := estart_keeps_finished b t name ds
  rcases hes : bson_append_estart b t name ds with ⟨r, b1⟩
  rw [hes] at hf
  simp only at hf
  simp only
  split
  · exact hf
  · simp only [hg b1, hf]

theorem string_base_keeps_finished (b : bson) (name value : List Nat) (len t : Nat) :
    (bson_append_string_base b name value len t).2.finished = b.finished := by
  unfold bson_append_string_base
  simp only
  rcases hck : bson_check_string b value ((len : Int) + 1 - 1).toNat with ⟨r0, b0⟩
  have hcf := check_string_keeps_finished b value ((len : Int) + 1 - 1).toNat
  rw [hck] at hcf
  simp only at hcf
  simp only
  split
  · exact hcf
  · have := estart_then_keeps_finished b0 t name (4 + ((len : Int) + 1))
      (fun b1 => bson_append (bson_append (bson_append32 b1 ((len : Int) + 1)) value
        ((len : Int) + 1 - 1).toNat) [0] 1)
      (fun _ => rfl)
    rw [hcf] at this
    exact this

theorem regex_keeps_finished (b : bson) (name pattern opts : List Nat) :
    (bson_append_regex b name pattern opts).2.finished = b.finished := by
  unfold bson_append_regex
  simp only
  have hf := estart_keeps_finished b BSON_REGEX name
    (((strlen pattern + 1 : Nat) : Int) + ((strlen opts + 1 : Nat) : Int))
  rcases hes : bson_append_estart b BSON_REGEX name
    (((strlen pattern + 1 : Nat) : Int) + ((strlen opts + 1 : Nat) : Int)) with ⟨r, b1⟩
  rw [hes] at hf
  simp only at hf
  simp only
  split
  · exact hf
  · have hcf := check_string_keeps_finished b1 pattern (strlen pattern + 1 - 1)
    rcases hck : bson_check_string b1 pattern (strlen pattern + 1 - 1) with ⟨r2, b2⟩
    rw [hck] at hcf
    simp only at hcf
    simp only
    split
    · rw [hcf, hf]
    · simp [bson_append, hcf, hf]

theorem start_object_keeps_finished (b : bson) (name : List Nat) :
    (bson_append_start_object b name).2.finished = b.finished :=
  estart_then_keeps_finished b BSON_OBJECT name 5
    (fun b1 => bson_append32
      { b1 with stack := stack_set b1.stack b1.stackPos b1.cur, stackPos := b1.stackPos + 1 } 0)
    (fun _ => rfl)

theorem start_array_keeps_finished (b : bson) (name : List Nat) :
    (bson_append_start_array b name).2.finished = b.finished :=
  estart_then_keeps_finished b BSON_ARRAY name 5
    (fun b1 => bson_append32
      { b1 with stack := stack_set b1.stack b1.stackPos b1.cur, stackPos := b1.stackPos + 1 } 0)
    (fun _ => rfl)

theorem finish_object_keeps_finished (b : bson) :
    (bson_append_finish_object b).2.finished = b.finished := by
  unfold bson_append_finish_object
  rcases hes : bson_ensure_space b 1 with ⟨r1, b1⟩
  obtain ⟨-, hf, -, -, -⟩ := bson_ensure_space_frame b b1 _ r1 hes
  simp only
  split
  · exact hf
  · simp [bson_append_byte, hf]

/-- `bson_append_field_from_iterator` on an element that is no container
returns and leaves the builder unfinished or finished as it was. -/
theorem field_from_iterator_leaf_total (fuel : Nat) (src : bson_iterator) (into : bson)
    (hobj : bson_iterator_type src ≠ BSON_OBJECT) (harr : bson_iterator_type src ≠ BSON_ARRAY) :
    ∃ into', bson_append_field_from_iterator (fuel + 1) src into = some into' ∧
      into'.finished = into.finished := by
  simp only [BSON_OBJECT, BSON_ARRAY] at hobj harr
  have hcases : bson_iterator_type src = BSON_DOUBLE ∨ bson_iterator_type src = BSON_STRING ∨
      bson_iterator_type src = BSON_UNDEFINED ∨ bson_iterator_type src = BSON_OID ∨
      bson_iterator_type src = BSON_BOOL ∨ bson_iterator_type src = BSON_DATE ∨
      bson_iterator_type src = BSON_NULL ∨ bson_iterator_type src = BSON_REGEX ∨
      bson_iterator_type src = BSON_CODE ∨ bson_iterator_type src = BSON_SYMBOL ∨
      bson_iterator_type src = BSON_INT ∨ bson_iterator_type src = BSON_TIMESTAMP ∨
      bson_iterator_type src = BSON_LONG ∨
      (bson_iterator_type src = BSON_EOO ∨ bson_iterator_type src = BSON_BINDATA ∨
        bson_iterator_type src = BSON_DBREF ∨ bson_iterator_type src = BSON_CODEWSCOPE ∨
        18 < bson_iterator_type src) := by
    simp only [BSON_INT, BSON_EOO, BSON_STRING, BSON_SYMBOL,
      BSON_CODE, BSON_LONG, BSON_DOUBLE, BSON_DATE, BSON_UNDEFINED, BSON_NULL, BSON_BOOL,
      BSON_TIMESTAMP, BSON_REGEX, BSON_OID, BSON_BINDATA, BSON_DBREF, BSON_CODEWSCOPE]
    omega
  rcases hcases with ht | ht | ht | ht | ht | ht | ht | ht | ht | ht | ht | ht | ht | ht
  · exact ⟨_, field_from_iterator_double fuel src into ht,
      estart_then_keeps_finished into BSON_DOUBLE _ 8 (fun b1 => bson_append64 b1 _) (fun _ => rfl)⟩
  · exact ⟨_, field_from_iterator_string fuel src into ht, string_base_keeps_finished _ _ _ _ _⟩
  · exact ⟨_, field_from_iterator_undefined fuel src into ht,
      estart_then_keeps_finished into BSON_UNDEFINED _ 0 (fun b1 => b1) (fun _ => rfl)⟩
  · exact ⟨_, field_from_iterator_oid fuel src into ht,
      estart_then_keeps_finished into BSON_OID _ 12 (fun b1 => bson_append b1 _ 12) (fun _ => rfl)⟩
  · exact ⟨_, field_from_iterator_bool fuel src into ht,
      estart_then_keeps_finished into BSON_BOOL _ 1 (fun b1 => bson_append_byte b1 _) (fun _ => rfl)⟩
  · exact ⟨_, field_from_iterator_date fuel src into ht,
      estart_then_keeps_finished into BSON_DATE _ 8 (fun b1 => bson_append64 b1 _) (fun _ => rfl)⟩
  · exact ⟨_, field_from_iterator_null fuel src into ht,
      estart_then_keeps_finished into BSON_NULL _ 0 (fun b1 => b1) (fun _ => rfl)⟩
  · exact ⟨_, field_from_iterator_regex fuel src into ht, regex_keeps_finished _ _ _ _⟩
  · exact ⟨_, field_from_iterator_code fuel src into ht, string_base_keeps_finished _ _ _ _ _⟩
  · exact ⟨_, field_from_iterator_symbol fuel src into ht, string_base_keeps_finished _ _ _ _ _⟩
  · exact ⟨_, field_from_iterator_int fuel src into ht,
      estart_then_keeps_finished into BSON_INT _ 4 (fun b1 => bson_append32 b1 _) (fun _ => rfl)⟩
  · exact ⟨_, field_from_iterator_timestamp fuel src into ht,
      estart_then_keeps_finished into BSON_TIMESTAMP _ 8
        (fun b1 => bson_append32 (bson_append32 b1 _) _) (fun _ => rfl)⟩
  · exact ⟨_, field_from_iterator_long fuel src into ht,
      estart_then_keeps_finished into BSON_LONG _ 8 (fun b1 => bson_append64 b1 _) (fun _ => rfl)⟩
  · exact ⟨_, field_from_iterator_skip fuel src into ht, rfl⟩

mutual
/-- `bson_append_field_from_iterator` returns on every well-formed element whose
containers are given by their elements, whether its appends succeed or not, and
never finishes the builder. -/
theorem append_field_total : ∀ (e : Elt), e.WF → e.exposed →
    ∀ (buf suf : List Nat) (off : Nat) (f : Bool) (into : bson) (fuel : Nat),
    buf.drop off = e.bytes ++ suf → e.cost ≤ fuel →
    ∃ into', bson_append_field_from_iterator fuel ⟨buf, off, f⟩ into = some into' ∧
      into'.finished = into.finished
  | .leaf t key p => by
    intro hw hex buf suf off f into fuel h hfuel
    simp only [Elt.cost] at hfuel
    obtain ⟨fuel', rfl⟩ : ∃ f', fuel = f' + 1 := ⟨fuel - 1, by omega⟩
    simp only [Elt.exposed] at hex
    have h' : buf.drop off = t :: (key ++ 0 :: (p ++ suf)) := by
      simpa [Elt.bytes] using h
    have hty : bson_iterator_type ⟨buf, off, f⟩ = t := byteAt_of_drop _ _ _ _ h'
    exact field_from_iterator_leaf_total fuel' _ into (by rw [hty]; exact hex.1)
      (by rw [hty]; exact hex.2)
  | .node t key kids => by
    intro hw hex buf suf off f into fuel h hfuel
    simp only [Elt.cost] at hfuel
    obtain ⟨fuel', rfl⟩ : ∃ f', fuel = f' + 1 := ⟨fuel - 1, by omega⟩
    have hw' := hw
    simp only [Elt.WF] at hw'
    obtain ⟨ht, -, -, hwk⟩ := hw'
    simp only [Elt.exposed] at hex
    obtain ⟨hty, -, hsub, hdk, -, -, -⟩ := container_iteration buf suf off t key kids hw h f
    have hnx : bson_iterator_next ⟨buf, off + 1 + (key.length + 1) + 4, true⟩
        = some (byteAt buf (off + 1 + (key.length + 1) + 4),
            ⟨buf, off + 1 + (key.length + 1) + 4, false⟩) := by
      simp [bson_iterator_next]
    rcases ht with rfl | rfl
    · obtain ⟨b2, hloop, hf2⟩ := append_fields_total kids hwk hex buf suf _ _
        (bson_append_start_object into
          ((⟨buf, off, f⟩ : bson_iterator).buf.drop (bson_iterator_key ⟨buf, off, f⟩))).2
        fuel' hdk hnx (by omega)
      refine ⟨(bson_append_finish_object b2).2, ?_, ?_⟩
      · rw [field_from_iterator_object fuel' _ into hty, hsub, hloop]
        rfl
      · rw [finish_object_keeps_finished, hf2, start_object_keeps_finished]
    · obtain ⟨b2, hloop, hf2⟩ := append_fields_total kids hwk hex buf suf _ _
        (bson_append_start_array into
          ((⟨buf, off, f⟩ : bson_iterator).buf.drop (bson_iterator_key ⟨buf, off, f⟩))).2
        fuel' hdk hnx (by omega)
      refine ⟨(bson_append_finish_array b2).2, ?_, ?_⟩
      · rw [field_from_iterator_array fuel' _ into hty, hsub, hloop]
        rfl
      · rw [bson_append_finish_array, finish_object_keeps_finished, hf2, start_array_keeps_finished]
/-- The loop of `bson_append_field_from_iterator` returns on such elements and
never finishes the builder. -/
theorem append_fields_total : ∀ (es : List Elt), Elt.WFs es → Elt.exposeds es →
    ∀ (buf suf : List Nat) (off : Nat) (it : bson_iterator) (into : bson) (fuel : Nat),
    buf.drop off = Elt.bytesList es ++ 0 :: suf →
    bson_iterator_next it = some (byteAt buf off, ⟨buf, off, false⟩) →
    Elt.costs es ≤ fuel →
    ∃ into', bson_append_fields_from_iterator fuel it into = some into' ∧
      into'.finished = into.finished
  | [] => by
    intro _ _ buf suf off it into fuel h hn hfuel
    simp only [Elt.costs] at hfuel
    obtain ⟨fuel', rfl⟩ : ∃ f', fuel = f' + 1 := ⟨fuel - 1, by omega⟩
    have hz : byteAt buf off = 0 := byteAt_of_drop _ _ _ _ (by simpa [Elt.bytesList] using h)
    refine ⟨into, ?_, rfl⟩
    rw [fields_from_iterator_step fuel' it _ into _ hn, if_pos (by rw [hz]; rfl)]
  | e :: es => by
    intro hw hex buf suf off it into fuel h hn hfuel
    simp only [Elt.costs] at hfuel
    obtain ⟨fuel', rfl⟩ : ∃ f', fuel = f' + 1 := ⟨fuel - 1, by omega⟩
    simp only [Elt.WFs] at hw
    simp only [Elt.exposeds] at hex
    rw [Elt.bytesList_cons, List.append_assoc] at h
    obtain ⟨hnx, hdn, hty, -⟩ := bson_iterator_next_elt buf _ off e hw.1 h
    have ht0 : byteAt buf off ≠ BSON_EOO := by
      have : byteAt buf off = e.type := hty
      rw [this]; exact hw.1.parts.1
    obtain ⟨into1, hr1, hf1⟩ := append_field_total e hw.1 hex.1 buf _ off false into fuel' h
      (by omega)
    obtain ⟨into2, hr2, hf2⟩ := append_fields_total es hw.2 hex.2 buf suf
      (off + e.bytes.length) ⟨buf, off, false⟩ into1 fuel' hdn hnx (by omega)
    refine ⟨into2, ?_, by rw [hf2, hf1]⟩
    rw [fields_from_iterator_step fuel' it _ into _ hn, if_neg ht0, hr1]
    exact hr2
end

/-! ## `bson_merge` returns -/

/-- The first loop of `bson_merge` returns on documents of well-formed elements
whose containers are given by their elements, and never finishes `out`. -/
theorem merge_first_total (b2 : bson) (es2 : List Elt) (suf2 : List Nat) (hes2 : Elt.WFs es2)
    (C : Nat) (hs2 : ∀ e ∈ es2, e.exposed ∧ e.cost ≤ C)
    (hd2 : b2.data.drop 4 = Elt.bytesList es2 ++ 0 :: suf2)
    (ow : Bool) (buf1 suf1 : List Nat) (rest : List Elt) :
    ∀ (off : Nat) (it1 : bson_iterator) (out : bson) (fuel : Nat),
    Elt.WFs rest → (∀ e ∈ rest, e.exposed ∧ e.cost ≤ C) →
    buf1.drop off = Elt.bytesList rest ++ 0 :: suf1 →
    bson_iterator_next it1 = some (byteAt buf1 off, ⟨buf1, off, false⟩) →
    rest.length + es2.length + 2 + C ≤ fuel →
    ∃ out', bson_merge_first b2 ow fuel it1 out = some out' ∧
      out'.finished = out.finished := by
  induction rest with
  | nil =>
    intro off it1 out fuel _ _ h hn hfuel
    have h0 : byteAt buf1 off = 0 := byteAt_of_drop _ _ _ _ (by simpa [Elt.bytesList] using h)
    cases fuel with
    | zero => omega
    | succ fuel =>
      refine ⟨out, ?_, rfl⟩
      simp only [bson_merge_first, hn, h0, BSON_EOO, if_true]
  | cons e rest ih =>
    intro off it1 out fuel hwf hsc h hn hfuel
    simp only [Elt.WFs] at hwf
    rw [Elt.bytesList_cons, List.append_assoc] at h
    obtain ⟨hnx, hdn, hty, hkey⟩ := bson_iterator_next_elt buf1 _ off e hwf.1 h
    have ht0 : byteAt buf1 off ≠ BSON_EOO := by
      have : byteAt buf1 off = e.type := hty
      rw [this]; exact hwf.1.parts.1
    have hkm : cstr (buf1.drop (off + 1)) = e.key := hkey
    cases fuel with
    | zero => omega
    | succ fuel =>
      simp only [List.length_cons] at hfuel
      -- the field the loop emits
      have hstep : ∃ out1, (if ow = true then
            match bson_find fuel b2 (buf1.drop (off + 1)) with
            | none => none
            | some (bt2, it2) =>
              bson_append_field_from_iterator fuel
                (if bt2 ≠ BSON_EOO then it2 else ⟨buf1, off, false⟩) out
          else bson_append_field_from_iterator fuel ⟨buf1, off, false⟩ out) = some out1 ∧
          out1.finished = out.finished := by
        obtain ⟨fuel', rfl⟩ : ∃ f', fuel = f' + 1 := ⟨fuel - 1, by omega⟩
        have hce := hsc e (by simp)
        cases ow with
        | false =>
          simp only [Bool.false_eq_true, if_false]
          exact append_field_total e hwf.1 hce.1 buf1 _ off false out (fuel' + 1) h (by omega)
        | true =>
          simp only [if_true]
          rcases find_for_key b2 es2 suf2 hes2 hd2 (buf1.drop (off + 1)) e.key hkm (fuel' + 1)
              (by omega) with
            ⟨pre, e2, post, hsplit, hke, -, hfind, hbf, hdrop⟩ | ⟨-, hfind, it, hbf⟩
          · have he2mem : e2 ∈ es2 := by rw [hsplit]; simp
            have he2wf : e2.WF := Elt.WFs_mem es2 hes2 e2 he2mem
            have hc2 := hs2 e2 he2mem
            rw [hbf]
            simp only [ne_eq, he2wf.parts.1, not_false_eq_true, if_true]
            exact append_field_total e2 he2wf hc2.1 b2.data _ _ false out (fuel' + 1) hdrop
              (by omega)
          · rw [hbf]
            simp only [ne_eq, not_true_eq_false, if_false]
            exact append_field_total e hwf.1 hce.1 buf1 _ off false out (fuel' + 1) h
              (by omega)
      obtain ⟨out1, hs1, hf1⟩ := hstep
      obtain ⟨out2, hr, hf2⟩ := ih (off + e.bytes.length) ⟨buf1, off, false⟩ out1 fuel hwf.2
        (fun x hx => hsc x (by simp [hx])) hdn hnx (by omega)
      refine ⟨out2, ?_, by rw [hf2, hf1]⟩
      rw [← hr]
      cases ow with
      | false =>
        simp only [Bool.false_eq_true, if_false] at hs1
        simp only [bson_merge_first, hn, if_neg ht0, bson_iterator_key, Bool.false_eq_true,
          if_false, hs1]
      | true =>
        simp only [if_true] at hs1
        cases hbf : bson_find fuel b2 (buf1.drop (off + 1)) with
        | none => rw [hbf] at hs1; simp at hs1
        | some r =>
          obtain ⟨bt2, it2⟩ := r
          rw [hbf] at hs1
          simp only at hs1
          simp only [bson_merge_first, hn, if_neg ht0, bson_iterator_key, if_true, hbf, hs1]

/-- The second loop of `bson_merge` returns on such documents and never finishes
`out`. -/
theorem merge_second_total (b1 : bson) (es1 : List Elt) (suf1 : List Nat)
    (hes1 : Elt.WFs es1) (hd1 : b1.data.drop 4 = Elt.bytesList es1 ++ 0 :: suf1)
    (buf2 suf2 : List Nat) (C : Nat) (rest : List Elt) :
    ∀ (off : Nat) (it2 : bson_iterator) (out : bson) (fuel : Nat),
    Elt.WFs rest → (∀ e ∈ rest, e.exposed ∧ e.cost ≤ C) →
    buf2.drop off = Elt.bytesList rest ++ 0 :: suf2 →
    bson_iterator_next it2 = some (byteAt buf2 off, ⟨buf2, off, false⟩) →
    rest.length + es1.length + 2 + C ≤ fuel →
    ∃ out', bson_merge_second b1 fuel it2 out = some out' ∧
      out'.finished = out.finished := by
  induction rest with
  | nil =>
    intro off it2 out fuel _ _ h hn hfuel
    have h0 : byteAt buf2 off = 0 := byteAt_of_drop _ _ _ _ (by simpa [Elt.bytesList] using h)
    cases fuel with
    | zero => omega
    | succ fuel =>
      refine ⟨out, ?_, rfl⟩
      simp only [bson_merge_second, hn, h0, BSON_EOO, if_true]
  | cons e rest ih =>
    intro off it2 out fuel hwf hsc h hn hfuel
    simp only [Elt.WFs] at hwf
    rw [Elt.bytesList_cons, List.append_assoc] at h
    obtain ⟨hnx, hdn, hty, hkey⟩ := bson_iterator_next_elt buf2 _ off e hwf.1 h
    have ht0 : byteAt buf2 off ≠ BSON_EOO := by
      have : byteAt buf2 off = e.type := hty
      rw [this]; exact hwf.1.parts.1
    have hkm : cstr (buf2.drop (off + 1)) = e.key := hkey
    cases fuel with
    | zero => omega
    | succ fuel =>
      simp only [List.length_cons] at hfuel
      obtain ⟨fuel', rfl⟩ : ∃ f', fuel = f' + 1 := ⟨fuel - 1, by omega⟩
      rcases find_for_key b1 es1 suf1 hes1 hd1 (buf2.drop (off + 1)) e.key hkm (fuel' + 1)
          (by omega) with
        ⟨pre, e1, post, hsplit, hke, -, -, hbf, -⟩ | ⟨hall, -, it, hbf⟩
      · have he1mem : e1 ∈ es1 := by rw [hsplit]; simp
        have he1wf : e1.WF := Elt.WFs_mem es1 hes1 e1 he1mem
        obtain ⟨out2, hr, hf2⟩ := ih (off + e.bytes.length) ⟨buf2, off, false⟩ out (fuel' + 1)
          hwf.2 (fun x hx => hsc x (by simp [hx])) hdn hnx (by omega)
        refine ⟨out2, ?_, hf2⟩
        rw [merge_second_step b1 (fuel' + 1) it2 _ out _ hn ht0]
        simp only [bson_iterator_key, hbf, if_neg he1wf.parts.1]
        exact hr
      · have hce := hsc e (by simp)
        obtain ⟨out1, hs1, hf1⟩ := append_field_total e hwf.1 hce.1 buf2 _ off false out
          (fuel' + 1) h (by omega)
        obtain ⟨out2, hr, hf2⟩ := ih (off + e.bytes.length) ⟨buf2, off, false⟩ out1 (fuel' + 1)
          hwf.2 (fun x hx => hsc x (by simp [hx])) hdn hnx (by omega)
        refine ⟨out2, ?_, by rw [hf2, hf1]⟩
        rw [merge_second_step b1 (fuel' + 1) it2 _ out _ hn ht0]
        simp only [bson_iterator_key, hbf, if_true, hs1]
        exact hr

/-- C39: `bson_merge` returns `BSON_ERROR` and leaves `out` as it was (bytes,
cursor, flags and every other field) whenever `b1` is not finished, `b2` is not
finished or `out` is finished already; in every other case, for documents `b1`
and `b2` of well-formed elements whose containers are given by their elements
and enough fuel, it returns `BSON_OK` and leaves `out` unfinished, whether the
appends it makes succeed or not.  The documents `b1` and `b2` are only read. -/
theorem merge_precondition (fuel : Nat) (b1 b2 out : bson) (ow : Bool) :
    ((b1.finished = false ∨ b2.finished = false ∨ out.finished = true) →
      bson_merge fuel b1 b2 ow out = some (BSON_ERROR, out)) ∧
    (∀ es1 es2 : List Elt, b1.finished = true → b2.finished = true → out.finished = false →
      b1.data = doc_bytes es1 → b2.data = doc_bytes es2 → Elt.WFs es1 → Elt.WFs es2 →
      Elt.exposeds es1 → Elt.exposeds es2 →
      es1.length + es2.length + 2 + (Elt.costs es1 + Elt.costs es2) ≤ fuel →
      ∃ out', bson_merge fuel b1 b2 ow out = some (BSON_OK, out') ∧ out'.finished = false) := by
  constructor
  · intro h
    unfold bson_merge
    rw [if_pos h]
  · intro es1 es2 hf1 hf2 hfo hd1 hd2 hw1 hw2 hx1 hx2 hfuel
    have hd1' : b1.data.drop 4 = Elt.bytesList es1 ++ 0 :: [] := by
      rw [hd1]; exact doc_bytes_drop _
    have hd2' : b2.data.drop 4 = Elt.bytesList es2 ++ 0 :: [] := by
      rw [hd2]; exact doc_bytes_drop _
    have hs1 : ∀ e ∈ es1, e.exposed ∧ e.cost ≤ Elt.costs es1 + Elt.costs es2 := by
      intro e he
      have := Elt.cost_le_costs es1 e he
      exact ⟨Elt.exposeds_mem es1 hx1 e he, by omega⟩
    have hs2 : ∀ e ∈ es2, e.exposed ∧ e.cost ≤ Elt.costs es1 + Elt.costs es2 := by
      intro e he
      have := Elt.cost_le_costs es2 e he
      exact ⟨Elt.exposeds_mem es2 hx2 e he, by omega⟩
    have hn1 : bson_iterator_next (bson_iterator_init b1)
        = some (byteAt b1.data 4, ⟨b1.data, 4, false⟩) := by
      simp [bson_iterator_next, bson_iterator_init]
    have hn2 : bson_iterator_next (bson_iterator_init b2)
        = some (byteAt b2.data 4, ⟨b2.data, 4, false⟩) := by
      simp [bson_iterator_next, bson_iterator_init]
    obtain ⟨out1, hr1, hg1⟩ := merge_first_total b2 es2 [] hw2 _ hs2 hd2' ow b1.data [] es1 4
      (bson_iterator_init b1) out fuel hw1 hs1 hd1' hn1 (by omega)
    obtain ⟨out2, hr2, hg2⟩ := merge_second_total b1 es1 [] hw1 hd1' b2.data [] _ es2 4
      (bson_iterator_init b2) out1 fuel hw2 hs2 hd2' hn2 (by omega)
    refine ⟨out2, ?_, by rw [hg2, hg1, hfo]⟩
    simp only [bson_merge, hf1, hf2, hfo, Bool.true_eq_false, Bool.false_eq_true, or_self,
      if_false, hr1, hr2]

theorem sample_exotic_args : ∀ f ∈ sample_exotic_fields, f.args_ok := by
  intro f hf
  simp only [sample_exotic_fields, List.mem_cons, List.mem_singleton, List.not_mem_nil,
    or_false] at hf
  rcases hf with rfl | rfl | rfl | rfl
  · trivial
  · trivial
  · show (0 : Int) ≤ bson_size (some sample_empty)
    decide
  · trivial

theorem sample_exotic_exposed :
    Elt.exposeds (Item.elts (sample_exotic_fields.map Item.field)) := by
  have hl : Item.elts (sample_exotic_fields.map Item.field)
      = [.leaf BSON_BINDATA [98] (Field.payload (.binary [98] 0 [1, 2] 2)),
          .leaf BSON_SYMBOL [115] (Field.payload (.symbol [115] [104, 105])),
          .leaf BSON_CODEWSCOPE [99] (Field.payload (.code_w_scope [99] [120] (some sample_empty))),
          .leaf BSON_STRING [116] (Field.payload (.string_n [116] [97, 0, 98] 3))] := rfl
  rw [hl]
  simp only [Elt.exposeds, Elt.exposed, and_true]
  decide

set_option maxRecDepth 100000 in
/-- The merge of the unfinished builder `bson_init` as `b1` fails and leaves
`out` as it was; the merge of `{a: {x: 1, y: {z: "s"}}, g: true}` with the
document of a BINDATA, a SYMBOL, a CODEWSCOPE and a STRING returns `BSON_OK`
and leaves `out` unfinished. -/
theorem merge_precondition_witness :
    bson_merge 40 bson_init sample_tree_doc true bson_init = some (BSON_ERROR, bson_init) ∧
      bson_merge 40 sample_tree_doc sample_tree_doc false sample_tree_doc
        = some (BSON_ERROR, sample_tree_doc) ∧
      (∃ out', bson_merge 40 sample_tree_doc sample_exotic_doc true bson_init
        = some (BSON_OK, out') ∧ out'.finished = false) :=
  ⟨(merge_precondition 40 bson_init sample_tree_doc bson_init true).1 (Or.inl (by decide)),
    (merge_precondition 40 sample_tree_doc sample_tree_doc sample_tree_doc false).1
      (Or.inr (Or.inr (by decide!))),
    (merge_precondition 40 sample_tree_doc sample_exotic_doc bson_init true).2
      (Item.elts sample_tree_items) (Item.elts (sample_exotic_fields.map Item.field))
      (by decide!) (by decide!) (by decide) (by decide!) (by decide!)
      (Item.elts_wf _ sample_tree_args (by decide!))
      (Item.elts_wf _ (args_ok_map_field _ sample_exotic_args) (by decide!))
      sample_tree_exposed sample_exotic_exposed (by decide!)⟩

/-! ## Merging with the empty document -/

theorem mem_write_split (bs m : List Nat) (off : Nat) (h : off + bs.length ≤ m.length) :
    mem_write m off bs = m.take off ++ bs ++ m.drop (off + bs.length) := by
  have hm : m = m.take off ++ (m.drop off).take bs.length ++ m.drop (off + bs.length) := by
    rw [List.append_assoc, ← List.drop_drop, List.take_append_drop, List.take_append_drop]
  have hl : (m.take off).length = off := by
    rw [List.length_take]; omega
  have hk : ((m.drop off).take bs.length).length = bs.length := by
    rw [List.length_take, List.length_drop]; omega
  have := mem_write_append bs (m.take off) ((m.drop off).take bs.length)
    (m.drop (off + bs.length)) hk
  rw [hl, ← hm] at this
  exact this

theorem take_mem_write (bs m : List Nat) (off n : Nat) (h : off + bs.length ≤ n)
    (hn : n ≤ m.length) :
    (mem_write m off bs).take n = mem_write (m.take n) off bs := by
  have hl : (m.take n).length = n := by rw [List.length_take]; omega
  rw [mem_write_split bs m off (by omega), mem_write_split bs (m.take n) off (by omega)]
  have h1 : (m.take off ++ bs).length = off + bs.length := by
    rw [List.length_append, List.length_take]; omega
  rw [List.take_append_eq_append_take, h1, List.take_of_length_le (by omega),
    List.take_take, Nat.min_eq_left (by omega), List.drop_take]

theorem take_mem_write_end (bs m : List Nat) (off : Nat) (h : off + bs.length ≤ m.length) :
    (mem_write m off bs).take (off + bs.length) = m.take off ++ bs := by
  rw [mem_write_split bs m off h]
  have h1 : (m.take off ++ bs).length = off + bs.length := by
    rw [List.length_append, List.length_take]; omega
  rw [List.take_append_eq_append_take, h1, List.take_of_length_le (by omega)]
  simp

theorem Mem.bson.Room.mono {m : Mem.bson} {r r' : Int} (h : m.Room r) (hr : r' ≤ r) :
    m.Room r' := by
  obtain ⟨h1, h2, h3, h4, h5, h6⟩ := h
  exact ⟨h1, h2, h3, by omega, h5, h6⟩

theorem abs_cur (m : Mem.bson) (r : Int) (h : m.Room r) (hr : 0 ≤ r) :
    m.abs.cur = m.cur - m.data := by
  obtain ⟨-, -, -, h4, -, -⟩ := h
  simp only [bson.cur, Mem.bson.abs, List.length_take]
  omega

/-- A store of `n` bytes at the cursor that has room for them: the bytes go
behind the bytes before the cursor, and the room shrinks by `n`. -/
theorem store_at_cursor (m : Mem.bson) (bs : List Nat) (n : Nat) (r : Int)
    (hn : bs.length = n) (h : m.Room r) (hr : (n : Int) ≤ r) :
    ({ m.store m.cur bs with cur := m.cur + n } : Mem.bson).Room (r - n) ∧
      ({ m.store m.cur bs with cur := m.cur + n } : Mem.bson).abs
        = { m.abs with data := m.abs.data ++ bs } := by
  obtain ⟨h1, h2, h3, h4, h5, h6⟩ := h
  have hin : m.data ≠ 0 ∧ m.data ≤ m.cur ∧ m.cur - m.data + bs.length ≤ m.block.length := by
    refine ⟨h2, h3, ?_⟩
    rw [hn]; omega
  have hs : m.store m.cur bs = { m with block := mem_write m.block (m.cur - m.data) bs } := by
    unfold Mem.bson.store
    rw [if_pos hin]
  rw [hs]
  constructor
  · refine ⟨h1, h2, ?_, ?_, ?_, h6⟩
    · show m.data ≤ m.cur + n
      omega
    · show ((m.cur + n - m.data : Nat) : Int) + (r - n)
        ≤ ((mem_write m.block (m.cur - m.data) bs).length : Nat)
      rw [mem_write_length]
      omega
    · show (((mem_write m.block (m.cur - m.data) bs).length : Nat) : Int) = m.dataSize
      rw [mem_write_length]; exact h5
  · simp only [Mem.bson.abs]
    have hc : m.cur + n - m.data = (m.cur - m.data) + bs.length := by rw [hn]; omega
    rw [hc, take_mem_write_end bs m.block (m.cur - m.data) hin.2.2]

theorem append_byte_room (m : Mem.bson) (c : Nat) (r : Int) (h : m.Room r) (hr : 1 ≤ r) :
    (Mem.bson_append_byte m c).Room (r - 1) ∧
      (Mem.bson_append_byte m c).abs = bson_append_byte m.abs c :=
  store_at_cursor m [c] 1 r rfl h hr

theorem append_room (m : Mem.bson) (data : List Nat) (len : Nat) (r : Int) (h : m.Room r)
    (hr : (len : Int) ≤ r) :
    (Mem.bson_append m data len).Room (r - len) ∧
      (Mem.bson_append m data len).abs = bson_append m.abs data len :=
  store_at_cursor m (mem_take data len) len r (mem_take_length _ _) h hr

theorem append32_room (m : Mem.bson) (v : Int) (r : Int) (h : m.Room r) (hr : 4 ≤ r) :
    (Mem.bson_append32 m v).Room (r - 4) ∧
      (Mem.bson_append32 m v).abs = bson_append32 m.abs v :=
  store_at_cursor m (le32_bytes v) 4 r (le32_bytes_length v) h hr

theorem append64_room (m : Mem.bson) (v : Int) (r : Int) (h : m.Room r) (hr : 8 ≤ r) :
    (Mem.bson_append64 m v).Room (r - 8) ∧
      (Mem.bson_append64 m v).abs = bson_append64 m.abs v :=
  store_at_cursor m (le64_bytes v) 8 r (le64_bytes_length v) h hr

/-! ## `bson_ensure_space` in memory -/

theorem mem_take_take_left (old fill : List Nat) (k n : Nat) (h1 : n ≤ old.length)
    (h2 : n ≤ k) : (mem_take (old ++ fill) k).take n = old.take n := by
  unfold mem_take
  rw [List.take_append_eq_append_take, List.take_take, Nat.min_eq_left h2,
    List.take_append_of_le_length h1]
  have : n - ((old ++ fill).take k).length = 0 := by
    rw [List.length_take, List.length_append]; omega
  rw [this]
  simp

/-- What a `bson_realloc` of a block that returns hands back: a block of the size
asked for at an address that is not `NULL`, its bytes those of the old block as
far as they go. -/
theorem realloc_some (a a1 : allocator) (ptr p : Nat) (old blk : List Nat) (sz : Int)
    (hptr : ptr ≠ 0) (h : Mem.bson_realloc a ptr old sz = some (p, blk, a1)) :
    p ≠ 0 ∧ 0 ≤ sz ∧ blk.length = sz.toNat ∧
      ∀ n, n ≤ old.length → n ≤ sz.toNat → blk.take n = old.take n := by
  unfold Mem.bson_realloc at h
  rcases hr : libc_realloc a ptr old sz with ⟨p0, blk0, a0⟩
  rw [hr] at h
  simp only at h
  split at h
  · cases h
  · rename_i hp
    cases h
    refine ⟨hp, ?_⟩
    unfold libc_realloc at hr
    rw [if_neg hptr] at hr
    split_ifs at hr with h2 h3 h4
    · cases hr; exact absurd rfl hp
    · cases hr
      exact ⟨by omega, mem_take_length _ _, fun n hn hk => mem_take_take_left _ _ _ _ hn hk⟩
    · cases hr; exact absurd rfl hp
    · cases hr
      exact ⟨by omega, mem_take_length _ _, fun n hn hk => mem_take_take_left _ _ _ _ hn hk⟩

/-- A call of `bson_ensure_space` in memory that returns `BSON_OK` on a builder
whose cursor lies inside its allocation: the bytes before the cursor and the
cursor offset are as before, whether the block moved or not, the allocation has
the new capacity, and nothing else changed. -/
theorem ensure_space_moves (a a1 : allocator) (m m1 : Mem.bson) (n : Int)
    (hov : m.overrun = false) (hd : m.data ≠ 0) (hc : m.data ≤ m.cur)
    (hpos : m.cur - m.data ≤ m.block.length) (hlen : (m.block.length : Int) = m.dataSize)
    (hD : m.dataSize ≤ INT_MAX)
    (h : Mem.bson_ensure_space a m n = some (BSON_OK, m1, a1)) :
    m1.block.take (m.cur - m.data) = m.block.take (m.cur - m.data) ∧
      m1.cur - m1.data = m.cur - m.data ∧ m1.data ≤ m1.cur ∧ m1.data ≠ 0 ∧
      (m1.block.length : Int) = m1.dataSize ∧ m.dataSize ≤ m1.dataSize ∧
      m1.dataSize ≤ INT_MAX ∧ m1.overrun = false ∧
      m1.stack = m.stack ∧ m1.stackPos = m.stackPos ∧ m1.finished = m.finished ∧
      m1.err = m.err ∧ m1.flags = m.flags := by
  unfold Mem.bson_ensure_space at h
  simp only at h
  split at h
  · cases h
    exact ⟨rfl, rfl, hc, hd, hlen, le_refl _, hD, hov, rfl, rfl, rfl, rfl, rfl⟩
  · have hsz : ∀ sz : Int,
        (if double_to_int_half (3 * wrap32 (m.dataSize + n)) < m.dataSize then
            if wrap32 (m.dataSize + n) < INT_MAX then some INT_MAX else none
          else some (double_to_int_half (3 * wrap32 (m.dataSize + n)))) = some sz →
        m.dataSize ≤ sz ∧ sz ≤ INT_MAX := by
      intro sz hs
      split_ifs at hs with h1 h2
      · cases hs; exact ⟨hD, le_refl _⟩
      · cases hs
        refine ⟨by omega, ?_⟩
        unfold double_to_int_half
        simp only [INT_MIN, INT_MAX]
        split_ifs with h3
        · omega
        · omega
    split at h
    · cases h
    · rename_i sz hs
      obtain ⟨hge, hle⟩ := hsz sz hs
      split at h
      · cases h
      · rename_i p blk a2 hr
        cases h
        obtain ⟨hp, h0, hbl, htk⟩ := realloc_some a a1 m.data p m.block blk sz hd hr
        refine ⟨htk _ hpos (by omega), ?_, ?_, hp, ?_, hge, hle, hov, rfl, rfl, rfl, rfl, rfl⟩
        · show m.cur + p - m.data - p = m.cur - m.data
          omega
        · show p ≤ m.cur + p - m.data
          omega
        · show ((blk.length : Nat) : Int) = sz
          rw [hbl]; omega

theorem abs_moved (m : Mem.bson) (p : Nat) (blk : List Nat) (sz : Int) (hp : p ≠ 0)
    (hc : m.data ≤ m.cur) (ht : blk.take (m.cur - m.data) = m.block.take (m.cur - m.data)) :
    ({ m with data := p, block := blk, dataSize := sz, cur := m.cur + p - m.data } : Mem.bson).abs
      = { m.abs with data_null := false, dataSize := sz } := by
  have h1 : m.cur + p - m.data - p = m.cur - m.data := by omega
  simp only [Mem.bson.abs, h1, ht, hp, decide_False]

/-- `bson_ensure_space` in memory on a builder whose cursor lies inside its
allocation does what `bson_ensure_space` of the embedding above does on the
builder it stands for, and after `BSON_OK` the cursor has the room asked for. -/
theorem ensure_space_sim (a a1 : allocator) (m m1 : Mem.bson) (n r : Int)
    (hroom : m.Room 0) (hn : 0 ≤ n) (hsum : ((m.cur - m.data : Nat) : Int) + n ≤ INT_MAX)
    (h : Mem.bson_ensure_space a m n = some (r, m1, a1)) :
    bson_ensure_space m.abs n = (r, m1.abs) ∧ m1.Room (if r = BSON_ERROR then 0 else n) ∧
      (r = BSON_OK ∨ r = BSON_ERROR) := by
  have hroom0 := hroom
  obtain ⟨hov, hd, hc, hpos, hlen, hD⟩ := hroom
  have hcur : m.abs.cur = m.cur - m.data := abs_cur m 0 hroom0 (le_refl _)
  have hB : bson_ensure_space m.abs n = (r, m1.abs) := by
    unfold Mem.bson_ensure_space at h
    have hposeq : (m.cur : Int) - (m.data : Int) = ((m.abs.cur : Nat) : Int) := by
      rw [hcur]; omega
    simp only [hposeq] at h
    unfold bson_ensure_space
    have hds : m.abs.dataSize = m.dataSize := rfl
    simp only [hds]
    split at h
    · rename_i hfit
      cases h
      rw [if_pos hfit]
    · rename_i hfit
      rw [if_neg hfit]
      split at h
      · rename_i hs
        cases h
        split_ifs at hs with h1 h2
        rw [if_pos h1, if_neg h2]
        rfl
      · rename_i sz hs
        split at h
        · cases h
        · rename_i p blk a2 hr
          cases h
          obtain ⟨hp, h0, hbl, htk⟩ := realloc_some a a1 m.data p m.block blk sz hd hr
          have hge : m.cur - m.data ≤ sz.toNat := by
            split_ifs at hs with h1 h2
            · cases hs
              simp only [INT_MAX] at hD ⊢
              omega
            · cases hs
              omega
          rw [abs_moved m p blk sz hp hc (htk _ (by omega) hge)]
          split_ifs at hs with h1 h2
          · cases hs
            rw [if_pos h1, if_pos h2]
          · cases hs
            rw [if_neg h1]
  have hrr : r = BSON_OK ∨ r = BSON_ERROR := by
    unfold Mem.bson_ensure_space at h
    simp only at h
    split at h
    · cases h; exact Or.inl rfl
    · split at h
      · cases h; exact Or.inr rfl
      · split at h
        · cases h
        · cases h; exact Or.inl rfl
  refine ⟨hB, ?_, hrr⟩
  rcases hrr with rfl | rfl
  · rw [if_neg (by decide)]
    obtain ⟨-, hp1, hc1, hd1, hl1, hge1, hD1, hov1, -⟩ :=
      ensure_space_moves a a1 m m1 n hov hd hc (by omega) hlen hD h
    have henough := ensure_space_enough m.abs m1.abs n (by rw [hcur]; show _ ≤ m.dataSize; omega)
      hD hn (by rw [hcur]; exact hsum) hB
    have hcur1 : m1.abs.cur = m1.cur - m1.data := by
      simp only [bson.cur, Mem.bson.abs, List.length_take]
      have : (m1.block.length : Int) = m1.dataSize := hl1
      omega
    rw [hcur1] at henough
    exact ⟨hov1, hd1, hc1, by rw [hl1]; exact henough, hl1, hD1⟩
  · rw [if_pos rfl]
    unfold Mem.bson_ensure_space at h
    simp only at h
    split at h
    · cases h
    · split at h
      · cases h
        exact ⟨hov, hd, hc, hpos, hlen, hD⟩
      · split at h
        · cases h
        · cases h

/-- A store into the bytes before the cursor: it overwrites them in place and
leaves the cursor and the room behind it alone. -/
theorem store_patch (m : Mem.bson) (off : Nat) (bs : List Nat) (r : Int) (hroom : m.Room r)
    (hr : 0 ≤ r) (hin : off + bs.length ≤ m.cur - m.data) :
    (m.store (m.data + off) bs).Room r ∧
      (m.store (m.data + off) bs).abs = { m.abs with data := mem_write m.abs.data off bs } := by
  obtain ⟨h1, h2, h3, h4, h5, h6⟩ := hroom
  have ho : m.data + off - m.data = off := by omega
  have hin2 : m.data ≠ 0 ∧ m.data ≤ m.data + off ∧
      m.data + off - m.data + bs.length ≤ m.block.length := ⟨h2, by omega, by omega⟩
  have hs : m.store (m.data + off) bs = { m with block := mem_write m.block off bs } := by
    unfold Mem.bson.store
    rw [if_pos hin2, ho]
  rw [hs]
  constructor
  · refine ⟨h1, h2, h3, ?_, ?_, h6⟩
    · show ((m.cur - m.data : Nat) : Int) + r ≤ ((mem_write m.block off bs).length : Nat)
      rw [mem_write_length]; exact h4
    · show (((mem_write m.block off bs).length : Nat) : Int) = m.dataSize
      rw [mem_write_length]; exact h5
  · simp only [Mem.bson.abs]
    rw [take_mem_write bs m.block off (m.cur - m.data) hin (by omega)]

/-- `bson_finish` in memory does what `bson_finish` of the embedding above does
on the builder it stands for. -/
theorem finish_sim (a a1 : allocator) (m d : Mem.bson) (r : Int) (hroom : m.Room 0)
    (h4 : 4 ≤ m.cur - m.data) (hsum : ((m.cur - m.data : Nat) : Int) + 1 ≤ INT_MAX)
    (h : Mem.bson_finish a m = some (r, d, a1)) :
    bson_finish m.abs = (r, d.abs) ∧ d.Room 0 := by
  unfold Mem.bson_finish at h
  unfold bson_finish
  have he : m.abs.err = m.err := rfl
  have hf : m.abs.finished = m.finished := rfl
  rw [he, hf]
  split at h
  · rename_i hu
    cases h
    rw [if_pos hu]
    exact ⟨rfl, hroom⟩
  · rename_i hu
    rw [if_neg hu]
    split at h
    · rename_i hfin
      rw [if_pos hfin]
      split at h
      · cases h
      · rename_i r1 m1 a2 hes
        obtain ⟨hB, hroom1, hr1⟩ := ensure_space_sim a a2 m m1 1 r1 hroom (by decide) hsum hes
        rw [hB]
        dsimp only at h ⊢
        split at h
        · rename_i herr
          cases h
          rw [if_pos herr]
          rw [if_pos herr] at hroom1
          exact ⟨rfl, hroom1⟩
        · rename_i herr
          cases h
          rw [if_neg herr]
          rw [if_neg herr] at hroom1
          obtain ⟨hroom2, habs2⟩ := append_byte_room m1 0 1 hroom1 (le_refl _)
          have hroom2 : (Mem.bson_append_byte m1 0).Room 0 := hroom2.mono (by omega)
          have hpos1 : m1.cur - m1.data = m.cur - m.data := by
            have h1 := abs_cur m 0 hroom (le_refl _)
            have h2 := abs_cur m1 1 hroom1 (by decide)
            have h3 := (bson_ensure_space_ok m.abs m1.abs 1 r1 hB herr).1
            simp only [bson.cur] at h1 h2
            rw [← h1, ← h2, h3]
          have hc1 : m1.data ≤ m1.cur := hroom1.2.2.1
          have hcur2 : (Mem.bson_append_byte m1 0).cur = m1.cur + 1 := rfl
          have hdata2 : (Mem.bson_append_byte m1 0).data = m1.data := by
            unfold Mem.bson_append_byte Mem.bson.store
            split <;> rfl
          have hin : 0 + (le32_bytes (((Mem.bson_append_byte m1 0).cur : Int)
              - ((Mem.bson_append_byte m1 0).data : Int))).length
              ≤ (Mem.bson_append_byte m1 0).cur - (Mem.bson_append_byte m1 0).data := by
            rw [le32_bytes_length, hcur2, hdata2]
            omega
          obtain ⟨hroom3, habs3⟩ := store_patch (Mem.bson_append_byte m1 0) 0 _ 0 hroom2
            (le_refl _) hin
          rw [Nat.add_zero] at hroom3 habs3
          refine ⟨?_, hroom3⟩
          have hi : (((Mem.bson_append_byte m1 0).cur : Int)
              - ((Mem.bson_append_byte m1 0).data : Int))
              = (((bson_append_byte m1.abs 0).cur : Nat) : Int) := by
            rw [← habs2, abs_cur _ 0 hroom2 (le_refl _), hcur2, hdata2]
            omega
          have hfinal : ({ (Mem.bson_append_byte m1 0).store (Mem.bson_append_byte m1 0).data
                (le32_bytes (((Mem.bson_append_byte m1 0).cur : Int)
                  - ((Mem.bson_append_byte m1 0).data : Int))) with finished := true }
                  : Mem.bson).abs
              = { ((Mem.bson_append_byte m1 0).store (Mem.bson_append_byte m1 0).data
                (le32_bytes (((Mem.bson_append_byte m1 0).cur : Int)
                  - ((Mem.bson_append_byte m1 0).data : Int)))).abs with finished := true } :=
            rfl
          rw [hfinal, habs3, habs2, hi]
          simp [write_le32]
    · rename_i hfin
      cases h
      rw [if_neg hfin]
      exact ⟨rfl, hroom⟩

/-! ## Copies of a document, in memory -/

theorem store_in (m : Mem.bson) (p : Nat) (bs : List Nat)
    (h : m.data ≠ 0 ∧ m.data ≤ p ∧ p - m.data + bs.length ≤ m.block.length) :
    m.store p bs = { m with block := mem_write m.block (p - m.data) bs } := by
  unfold Mem.bson.store
  rw [if_pos h]

/-- The three stores of a copy into a fresh block of `n` bytes: the body behind
the first four bytes, the terminator, the length in front. -/
theorem copy_stores (pre body : List Nat) (v : Int) (hpre : pre.length = body.length + 5) :
    mem_write (mem_write (mem_write pre 4 body) (4 + body.length) [0]) 0 (le32_bytes v)
      = le32_bytes v ++ (body ++ [0]) := by
  obtain ⟨p4, pb, pz, rfl, h4, hb, hz⟩ : ∃ p4 pb pz : List Nat, pre = p4 ++ pb ++ pz ∧
      p4.length = 4 ∧ pb.length = body.length ∧ pz.length = 1 := by
    refine ⟨pre.take 4, (pre.drop 4).take body.length, pre.drop (4 + body.length), ?_, ?_, ?_, ?_⟩
    · rw [List.append_assoc, ← List.drop_drop, List.take_append_drop, List.take_append_drop]
    · rw [List.length_take]; omega
    · rw [List.length_take, List.length_drop]; omega
    · rw [List.length_drop]; omega
  have h1 := mem_write_append body p4 pb pz hb
  rw [h4] at h1
  rw [h1]
  have h2 := mem_write_append [0] (p4 ++ body) pz [] (by simp [hz])
  rw [List.length_append, h4, List.append_nil] at h2
  rw [h2]
  have h3 := mem_write_append (le32_bytes v) [] p4 (body ++ [0] ++ [])
    (by rw [h4, le32_bytes_length])
  simp only [List.nil_append, List.length_nil, List.append_nil, List.append_assoc] at h3 ⊢
  exact h3

theorem ensure_space_fits (a : allocator) (m : Mem.bson) (n : Int)
    (hfit : wrap32 ((m.cur : Int) - (m.data : Int) + n) ≤ m.dataSize) :
    Mem.bson_ensure_space a m n = some (BSON_OK, m, a) := by
  unfold Mem.bson_ensure_space
  dsimp only
  rw [if_pos hfit]

theorem finish_fits (a : allocator) (m : Mem.bson) (herr : m.err &&& BSON_NOT_UTF8 = 0)
    (hopen : m.finished = false)
    (hfit : wrap32 ((m.cur : Int) - (m.data : Int) + 1) ≤ m.dataSize) :
    Mem.bson_finish a m
      = some (BSON_OK,
          { (Mem.bson_append_byte m 0).store (Mem.bson_append_byte m 0).data
              (le32_bytes (((Mem.bson_append_byte m 0).cur : Int)
                - ((Mem.bson_append_byte m 0).data : Int))) with finished := true }, a) := by
  unfold Mem.bson_finish
  have hne : ¬ (BSON_OK = BSON_ERROR) := by decide
  rw [if_neg (by rw [herr]; exact fun h => h rfl), if_pos (by rw [hopen]; decide),
    ensure_space_fits a m 1 hfit]
  dsimp only
  rw [if_neg hne]

theorem copy_step_body (p : Nat) (pre body rest : List Nat) (hp : p ≠ 0)
    (hpre : pre.length = body.length + 5) :
    Mem.bson_append (Mem.bson.mk p pre (p + 4) ((body.length : Int) + 5) false [] 0 0 0 false)
        (body ++ 0 :: rest) ((body.length : Int) + 5 - (4 + 1)).toNat
      = Mem.bson.mk p (mem_write pre 4 body) (p + 4 + body.length) ((body.length : Int) + 5)
          false [] 0 0 0 false := by
  have htn : ((body.length : Int) + 5 - (4 + 1)).toNat = body.length := by omega
  have hmt : mem_take (body ++ 0 :: rest) body.length = body := mem_take_append_left body _
  unfold Mem.bson_append
  rw [htn, hmt]
  have hin : (Mem.bson.mk p pre (p + 4) ((body.length : Int) + 5) false [] 0 0 0 false).data ≠ 0 ∧
      (Mem.bson.mk p pre (p + 4) ((body.length : Int) + 5) false [] 0 0 0 false).data
        ≤ (Mem.bson.mk p pre (p + 4) ((body.length : Int) + 5) false [] 0 0 0 false).cur ∧
      (Mem.bson.mk p pre (p + 4) ((body.length : Int) + 5) false [] 0 0 0 false).cur
        - (Mem.bson.mk p pre (p + 4) ((body.length : Int) + 5) false [] 0 0 0 false).data + body.length
        ≤ (Mem.bson.mk p pre (p + 4) ((body.length : Int) + 5) false [] 0 0 0 false).block.length := by
    dsimp only
    exact ⟨hp, by omega, by omega⟩
  rw [store_in _ _ _ hin]
  have : p + 4 - p = 4 := by omega
  dsimp only
  rw [this]

theorem copy_step_byte (p : Nat) (pre body : List Nat) (hp : p ≠ 0)
    (hpre : pre.length = body.length + 5) :
    Mem.bson_append_byte
      (Mem.bson.mk p (mem_write pre 4 body) (p + 4 + body.length) ((body.length : Int) + 5)
        false [] 0 0 0 false) 0
      = Mem.bson.mk p (mem_write (mem_write pre 4 body) (4 + body.length) [0])
          (p + 4 + body.length + 1) ((body.length : Int) + 5) false [] 0 0 0 false := by
  unfold Mem.bson_append_byte
  have hin : (Mem.bson.mk p (mem_write pre 4 body) (p + 4 + body.length) ((body.length : Int) + 5)
        false [] 0 0 0 false).data ≠ 0 ∧
      (Mem.bson.mk p (mem_write pre 4 body) (p + 4 + body.length) ((body.length : Int) + 5)
        false [] 0 0 0 false).data
        ≤ (Mem.bson.mk p (mem_write pre 4 body) (p + 4 + body.length) ((body.length : Int) + 5)
        false [] 0 0 0 false).cur ∧
      (Mem.bson.mk p (mem_write pre 4 body) (p + 4 + body.length) ((body.length : Int) + 5)
        false [] 0 0 0 false).cur
        - (Mem.bson.mk p (mem_write pre 4 body) (p + 4 + body.length) ((body.length : Int) + 5)
        false [] 0 0 0 false).data + [0].length
        ≤ (Mem.bson.mk p (mem_write pre 4 body) (p + 4 + body.length) ((body.length : Int) + 5)
        false [] 0 0 0 false).block.length := by
    dsimp only
    rw [mem_write_length, List.length_singleton]
    exact ⟨hp, by omega, by omega⟩
  rw [store_in _ _ _ hin]
  have : p + 4 + body.length - p = 4 + body.length := by omega
  dsimp only
  rw [this]

theorem copy_step_length (p : Nat) (pre body : List Nat) (hp : p ≠ 0)
    (hpre : pre.length = body.length + 5) :
    (Mem.bson.mk p (mem_write (mem_write pre 4 body) (4 + body.length) [0])
        (p + 4 + body.length + 1) ((body.length : Int) + 5) false [] 0 0 0 false).store p
        (le32_bytes ((body.length : Int) + 5))
      = Mem.bson.mk p (le32_bytes ((body.length : Int) + 5) ++ (body ++ [0]))
          (p + 4 + body.length + 1) ((body.length : Int) + 5) false [] 0 0 0 false := by
  have hin : (Mem.bson.mk p (mem_write (mem_write pre 4 body) (4 + body.length) [0])
        (p + 4 + body.length + 1) ((body.length : Int) + 5) false [] 0 0 0 false).data ≠ 0 ∧
      (Mem.bson.mk p (mem_write (mem_write pre 4 body) (4 + body.length) [0])
        (p + 4 + body.length + 1) ((body.length : Int) + 5) false [] 0 0 0 false).data ≤ p ∧
      p - (Mem.bson.mk p (mem_write (mem_write pre 4 body) (4 + body.length) [0])
        (p + 4 + body.length + 1) ((body.length : Int) + 5) false [] 0 0 0 false).data
        + (le32_bytes ((body.length : Int) + 5)).length
        ≤ (Mem.bson.mk p (mem_write (mem_write pre 4 body) (4 + body.length) [0])
        (p + 4 + body.length + 1) ((body.length : Int) + 5) false [] 0 0 0 false).block.length := by
    dsimp only
    rw [mem_write_length, mem_write_length, le32_bytes_length]
    exact ⟨hp, le_refl _, by omega⟩
  rw [store_in _ _ _ hin]
  have : p - p = 0 := by omega
  dsimp only
  rw [this, copy_stores pre body _ hpre]

/-- The builder `bson_dup` and `bson_create_from_buffer` fill in a fresh block of
`n` bytes at the address `p`: no growth, no store outside the block, and the
block ends up as the `n` bytes of the document. -/
theorem copy_in_memory (a1 : allocator) (p : Nat) (pre body rest : List Nat) (hp : p ≠ 0)
    (hpre : pre.length = body.length + 5) (hsz : (body.length : Int) + 5 ≤ INT_MAX) :
    Mem.bson_ensure_space a1
        (Mem._bson_reset
          { data := p, block := pre, cur := p + 4, dataSize := (body.length : Int) + 5,
            finished := false, stack := [], stackPos := 0, err := 0, flags := 0,
            overrun := false }) ((body.length : Int) + 5 - 4)
      = some (BSON_OK,
          Mem.bson.mk p pre (p + 4) ((body.length : Int) + 5) false [] 0 0 0 false, a1) ∧
    Mem.bson_finish a1
        (Mem.bson_append
          (Mem.bson.mk p pre (p + 4) ((body.length : Int) + 5) false [] 0 0 0 false)
          (body ++ 0 :: rest) ((body.length : Int) + 5 - (4 + 1)).toNat)
      = some (BSON_OK,
          Mem.bson.mk p (le32_bytes ((body.length : Int) + 5) ++ (body ++ [0]))
            (p + 4 + body.length + 1) ((body.length : Int) + 5) true [] 0 0 0 false, a1) := by
  have hs := hsz
  simp only [INT_MAX] at hs
  have hreset : Mem._bson_reset
      { data := p, block := pre, cur := p + 4, dataSize := (body.length : Int) + 5,
        finished := false, stack := [], stackPos := 0, err := 0, flags := 0,
        overrun := false }
      = Mem.bson.mk p pre (p + 4) ((body.length : Int) + 5) false [] 0 0 0 false := rfl
  rw [hreset]
  have hw0 : wrap32 (((p + 4 : Nat) : Int) - (p : Int) + ((body.length : Int) + 5 - 4))
      = (body.length : Int) + 5 := by
    rw [wrap32_of_range _ (by omega) (by omega)]
    push_cast
    omega
  refine ⟨ensure_space_fits a1 _ _ (by dsimp only; rw [hw0]), ?_⟩
  rw [copy_step_body p pre body rest hp hpre]
  have hw1 : wrap32 (((p + 4 + body.length : Nat) : Int) - (p : Int) + 1)
      = (body.length : Int) + 5 := by
    rw [wrap32_of_range _ (by omega) (by omega)]
    push_cast
    omega
  rw [finish_fits a1
    (Mem.bson.mk p (mem_write pre 4 body) (p + 4 + body.length) ((body.length : Int) + 5)
      false [] 0 0 0 false) (show (0 : Nat) &&& BSON_NOT_UTF8 = 0 by decide) rfl
    (by dsimp only; rw [hw1])]
  dsimp only
  rw [copy_step_byte p pre body hp hpre]
  dsimp only
  have hi : (((p + 4 + body.length + 1 : Nat) : Int) - (p : Int)) = (body.length : Int) + 5 := by
    push_cast; omega
  rw [hi, copy_step_length p pre body hp hpre]

theorem malloc_grants (a : allocator) (size : Int) (h0 : 0 ≤ size) (hb : a.brk ≠ 0)
    (hfit : a.brk + size.toNat ≤ a.limit) :
    Mem.bson_malloc a size
      = some (a.brk, mem_take a.fill size.toNat, { a with brk := a.brk + size.toNat + 1 }) := by
  unfold Mem.bson_malloc libc_malloc
  rw [if_neg (by omega)]
  dsimp only
  rw [if_neg hb]

/-- C34: for every finished document `src` of `n >= 5` bytes in memory (a length
prefix `n`, `n - 5` bytes of elements and the terminator, in a buffer that may
be larger) and an allocator with room for a struct and `n` bytes, `bson_dup(src)`
and `bson_create_from_buffer(bson_data(src), n)` each return a new struct at a
fresh address whose buffer is a fresh block of exactly `n` bytes above the whole
buffer of `src`, finished, without error flag, with no store outside the block,
holding the first `n` bytes of `src` byte for byte, and `bson_size` of it is
`n`. -/
theorem dup_copies_document (sizeof_bson : Int) (a : allocator) (src : Mem.bson)
    (body slack : List Nat)
    (hblk : src.block = le32_bytes ((body.length : Int) + 5) ++ (body ++ 0 :: slack))
    (hnn : src.data ≠ 0) (hsz : (body.length : Int) + 5 ≤ INT_MAX)
    (hlive : src.data + src.block.length < a.brk) (hs0 : 0 ≤ sizeof_bson)
    (hmem : a.brk + sizeof_bson.toNat + 1 + (body.length + 5) ≤ a.limit) :
    ∃ (d : Mem.bson) (a1 : allocator),
      Mem.bson_dup sizeof_bson a src = some (a.brk, d, a1) ∧
      Mem.bson_create_from_buffer sizeof_bson a (Mem.bson_data src).2 ((body.length : Int) + 5)
        = some (a.brk, d, a1) ∧
      d.finished = true ∧ d.err = 0 ∧ d.overrun = false ∧ d.stackPos = 0 ∧ d.flags = 0 ∧
      d.data = a.brk + sizeof_bson.toNat + 1 ∧ src.data + src.block.length < d.data ∧
      d.block = src.block.take (body.length + 5) ∧ d.block.length = body.length + 5 ∧
      d.dataSize = (body.length : Int) + 5 ∧ d.cur = d.data + (body.length + 5) ∧
      Mem.bson_size (some d) = (body.length : Int) + 5 ∧
      a1.brk = d.data + (body.length + 5) + 1 := by
  have hs := hsz
  simp only [INT_MAX] at hs
  have htn : ((body.length : Int) + 5).toNat = body.length + 5 := by omega
  have hcreate : Mem.bson_create a sizeof_bson
      = some (a.brk, { a with brk := a.brk + sizeof_bson.toNat + 1 }) := by
    unfold Mem.bson_create
    rw [malloc_grants a sizeof_bson hs0 (by omega) (by omega)]
  have hsize : Mem.bson_size (some src) = (body.length : Int) + 5 := by
    simp only [Mem.bson_size, if_neg hnn, hblk]
    rw [read_le32_le32_bytes_zero, wrap32_of_range _ (by omega) (by omega)]
  have hdrop : src.block.drop 4 = body ++ 0 :: slack := by
    rw [hblk]
    have : (le32_bytes ((body.length : Int) + 5)).length = 4 := le32_bytes_length _
    rw [← this, List.drop_left]
  have hinit : Mem.bson_init_size { a with brk := a.brk + sizeof_bson.toNat + 1 }
      ((body.length : Int) + 5)
      = some (Mem._bson_reset
          { data := a.brk + sizeof_bson.toNat + 1,
            block := mem_take a.fill (body.length + 5),
            cur := a.brk + sizeof_bson.toNat + 1 + 4, dataSize := (body.length : Int) + 5,
            finished := false, stack := [], stackPos := 0, err := 0, flags := 0,
            overrun := false },
          { a with brk := a.brk + sizeof_bson.toNat + 1 + (body.length + 5) + 1 }) := by
    unfold Mem.bson_init_size Mem._bson_init_size
    rw [if_neg (by omega), malloc_grants _ _ (by omega) (by dsimp only; omega)
      (by dsimp only; omega)]
    dsimp only
    rw [htn]
  obtain ⟨hc1, hc2⟩ := copy_in_memory
    { a with brk := a.brk + sizeof_bson.toNat + 1 + (body.length + 5) + 1 }
    (a.brk + sizeof_bson.toNat + 1) (mem_take a.fill (body.length + 5)) body slack (by omega)
    (mem_take_length _ _) hsz
  have htake : src.block.take (body.length + 5)
      = le32_bytes ((body.length : Int) + 5) ++ (body ++ [0]) := by
    rw [hblk]
    have hl : (le32_bytes ((body.length : Int) + 5) ++ (body ++ [0])).length
        = body.length + 5 := by
      simp [le32_bytes_length]; omega
    have he : le32_bytes ((body.length : Int) + 5) ++ (body ++ 0 :: slack)
        = (le32_bytes ((body.length : Int) + 5) ++ (body ++ [0])) ++ slack := by simp
    rw [he, ← hl, List.take_left]
  refine ⟨Mem.bson.mk (a.brk + sizeof_bson.toNat + 1)
      (le32_bytes ((body.length : Int) + 5) ++ (body ++ [0]))
      (a.brk + sizeof_bson.toNat + 1 + 4 + body.length + 1) ((body.length : Int) + 5) true [] 0
      0 0 false,
    { a with brk := a.brk + sizeof_bson.toNat + 1 + (body.length + 5) + 1 }, ?_, ?_, rfl, rfl,
    rfl, rfl, rfl, rfl, ?_, htake.symm, ?_, rfl, ?_, ?_, rfl⟩
  · unfold Mem.bson_dup
    rw [hcreate]
    dsimp only
    rw [hsize, hinit]
    dsimp only
    rw [hc1]
    dsimp only
    simp only [Mem.bson_data, hdrop]
    rw [hc2]
  · unfold Mem.bson_create_from_buffer
    rw [if_pos (by omega), hcreate]
    dsimp only
    rw [hinit]
    dsimp only
    rw [hc1]
    dsimp only
    simp only [Mem.bson_data, hdrop]
    rw [hc2]
  · show src.data + src.block.length < a.brk + sizeof_bson.toNat + 1
    omega
  · simp [le32_bytes_length]; omega
  · show a.brk + sizeof_bson.toNat + 1 + 4 + body.length + 1
      = a.brk + sizeof_bson.toNat + 1 + (body.length + 5)
    omega
  · simp only [Mem.bson_size]
    rw [if_neg (by show a.brk + sizeof_bson.toNat + 1 ≠ 0; omega), read_le32_le32_bytes_zero,
      wrap32_of_range _ (by omega) (by omega)]

set_option maxRecDepth 100000 in
/-- The document `{a: {x: 1, y: {z: "s"}}, g: true}` of 41 bytes, held in a
buffer of 44 bytes at the address 1024, with an allocator whose next free
address is 4096 and a struct of 64 bytes: both copies are the struct at 4096
with a buffer of 41 bytes at 4161 that holds the 41 bytes of the document. -/
theorem dup_copies_document_witness :
    ∃ (d : Mem.bson) (a1 : allocator),
      Mem.bson_dup 64 sample_moving sample_tree_src = some (4096, d, a1) ∧
      Mem.bson_create_from_buffer 64 sample_moving (Mem.bson_data sample_tree_src).2 41
        = some (4096, d, a1) ∧
      d.finished = true ∧ d.data = 4161 ∧ d.block = sample_tree_doc.data ∧
      sample_tree_src.data = 1024 ∧ sample_tree_src.block.length = 44 := by
  obtain ⟨d, a1, h1, h2, h3, -, -, -, -, h8, -, h10, -⟩ :=
    dup_copies_document 64 sample_moving sample_tree_src
      ((sample_tree_doc.data.drop 4).take 36) [7, 7, 7] (by decide!) (by decide) (by decide!)
      (by decide!) (by decide) (by decide!)
  have hlen : ((((sample_tree_doc.data.drop 4).take 36).length : Nat) : Int) + 5 = 41 := by
    decide!
  rw [hlen] at h2
  exact ⟨d, a1, h1, h2, h3, h8.trans (by decide), h10.trans (by decide!), rfl, by decide!⟩

/-! ## The typed appends in memory -/

theorem check_field_name_sim (m : Mem.bson) (name : List Nat) (len : Nat) (cd cdl : Bool) :
    (Mem.bson_check_field_name m name len cd cdl).1
        = (bson_check_field_name m.abs name len cd cdl).1 ∧
      (Mem.bson_check_field_name m name len cd cdl).2.abs
        = (bson_check_field_name m.abs name len cd cdl).2 ∧
      (∀ r, m.Room r → (Mem.bson_check_field_name m name len cd cdl).2.Room r) ∧
      (Mem.bson_check_field_name m name len cd cdl).2.cur = m.cur ∧
      (Mem.bson_check_field_name m name len cd cdl).2.data = m.data := by
  unfold Mem.bson_check_field_name bson_check_field_name
  split_ifs <;> exact ⟨rfl, rfl, fun _ h => h, rfl, rfl⟩

theorem check_string_sim (m : Mem.bson) (value : List Nat) (len : Nat) :
    (Mem.bson_check_string m value len).1 = (bson_check_string m.abs value len).1 ∧
      (Mem.bson_check_string m value len).2.abs = (bson_check_string m.abs value len).2 ∧
      (∀ r, m.Room r → (Mem.bson_check_string m value len).2.Room r) ∧
      (Mem.bson_check_string m value len).2.cur = m.cur ∧
      (Mem.bson_check_string m value len).2.data = m.data := by
  unfold Mem.bson_check_string bson_check_string
  split_ifs <;> exact ⟨rfl, rfl, fun _ h => h, rfl, rfl⟩

/-- `bson_append_estart` in memory does what `bson_append_estart` of the
embedding above does on the builder it stands for, and after `BSON_OK` the
cursor has room for the `dataSize` bytes of the payload. -/
theorem estart_sim (a a1 : allocator) (m m1 : Mem.bson) (t : Nat) (name : List Nat)
    (ds r : Int) (hroom : m.Room 0) (hds : 0 ≤ ds)
    (hsum : ((m.cur - m.data : Nat) : Int) + (1 + ((strlen name + 1 : Nat) : Int) + ds)
      ≤ INT_MAX)
    (h : Mem.bson_append_estart a m t name ds = some (r, m1, a1)) :
    bson_append_estart m.abs t name ds = (r, m1.abs) ∧
      m1.Room (if r = BSON_ERROR then 0 else ds) := by
  unfold Mem.bson_append_estart at h
  unfold bson_append_estart
  have hf : m.abs.finished = m.finished := rfl
  dsimp only at h ⊢
  rw [hf]
  split at h
  · rename_i hfin
    cases h
    rw [if_pos hfin, if_pos rfl]
    exact ⟨rfl, hroom⟩
  · rename_i hfin
    rw [if_neg hfin]
    split at h
    · cases h
    · rename_i r1 m2 a2 hes
      obtain ⟨hB, hroom2, hr1⟩ := ensure_space_sim a a2 m m2 _ r1 hroom (by omega) hsum hes
      rw [hB]
      dsimp only
      split at h
      · rename_i herr
        cases h
        rw [if_pos herr, if_pos rfl]
        rw [if_pos herr] at hroom2
        exact ⟨rfl, hroom2⟩
      · rename_i herr
        rw [if_neg herr]
        rw [if_neg herr] at hroom2
        have hfl : m2.abs.flags = m2.flags := rfl
        obtain ⟨hc1, hc2, hc3, -, -⟩ := check_field_name_sim m2 name (strlen name + 1 - 1)
          (decide (m2.flags &&& BSON_FLAG_QUERY_MODE = 0))
          (decide (m2.flags &&& BSON_FLAG_QUERY_MODE = 0))
        rw [hfl, ← hc1, ← hc2]
        have hroom3 := hc3 _ hroom2
        rcases hck : Mem.bson_check_field_name m2 name (strlen name + 1 - 1)
          (decide (m2.flags &&& BSON_FLAG_QUERY_MODE = 0))
          (decide (m2.flags &&& BSON_FLAG_QUERY_MODE = 0)) with ⟨r2, m3⟩
        rw [hck] at h hroom3
        dsimp only at h hroom3 ⊢
        split at h
        · rename_i herr2
          cases h
          rw [if_pos herr2, if_pos rfl]
          exact ⟨rfl, hroom3.mono (by omega)⟩
        · rename_i herr2
          cases h
          rw [if_neg herr2, if_neg (by decide)]
          obtain ⟨hr4, ha4⟩ := append_byte_room m3 t _ hroom3 (by omega)
          obtain ⟨hr5, ha5⟩ := append_room (Mem.bson_append_byte m3 t) name (strlen name + 1) _
            hr4 (by omega)
          refine ⟨?_, hr5.mono (by omega)⟩
          rw [ha5, ha4]

/-- A typed append of the shape "`bson_append_estart`, then stores of the
payload": the two embeddings agree when the stores `k` use up no more than the
room reserved for the payload. -/
theorem estart_then_sim (a a1 : allocator) (m m1 : Mem.bson) (t : Nat) (name : List Nat)
    (ds r : Int) (k : Mem.bson → Mem.bson) (kB : bson → bson) (hroom : m.Room 0)
    (hds : 0 ≤ ds)
    (hsum : ((m.cur - m.data : Nat) : Int) + (1 + ((strlen name + 1 : Nat) : Int) + ds)
      ≤ INT_MAX)
    (hk : ∀ m2 : Mem.bson, m2.Room ds → (k m2).Room 0 ∧ (k m2).abs = kB m2.abs)
    (h : (match Mem.bson_append_estart a m t name ds with
      | none => none
      | some (r, b1, a1) =>
        if r = BSON_ERROR then some (BSON_ERROR, b1, a1) else some (BSON_OK, k b1, a1))
      = some (r, m1, a1)) :
    (match bson_append_estart m.abs t name ds with
      | (r, b1) => if r = BSON_ERROR then (BSON_ERROR, b1) else (BSON_OK, kB b1))
        = (r, m1.abs) ∧ m1.Room 0 := by
  split at h
  · cases h
  · rename_i r1 m2 a2 hes
    obtain ⟨hB, hroom2⟩ := estart_sim a a2 m m2 t name ds r1 hroom hds hsum hes
    rw [hB]
    dsimp only
    split at h
    · rename_i herr
      cases h
      rw [if_pos herr] at hroom2
      rw [if_pos herr]
      exact ⟨rfl, hroom2⟩
    · rename_i herr
      cases h
      rw [if_neg herr] at hroom2
      rw [if_neg herr]
      obtain ⟨h1, h2⟩ := hk m2 hroom2
      exact ⟨by rw [h2], h1⟩

theorem string_base_sim (a a1 : allocator) (m m1 : Mem.bson) (name value : List Nat)
    (len type : Nat) (r : Int) (hroom : m.Room 0)
    (hsum : ((m.cur - m.data : Nat) : Int)
      + (1 + ((strlen name + 1 : Nat) : Int) + (4 + ((len : Int) + 1))) ≤ INT_MAX)
    (h : Mem.bson_append_string_base a m name value len type = some (r, m1, a1)) :
    bson_append_string_base m.abs name value len type = (r, m1.abs) ∧ m1.Room 0 := by
  unfold Mem.bson_append_string_base at h
  unfold bson_append_string_base
  dsimp only at h ⊢
  obtain ⟨hc1, hc2, hc3, hc4, hc5⟩ := check_string_sim m value ((len : Int) + 1 - 1).toNat
  rcases hck : Mem.bson_check_string m value ((len : Int) + 1 - 1).toNat with ⟨r0, m0⟩
  rw [hck] at h hc1 hc2 hc3 hc4 hc5
  dsimp only at h hc1 hc2 hc3 hc4 hc5
  rw [← hc1, ← hc2]
  split at h
  · rename_i herr
    cases h
    rw [if_pos herr]
    exact ⟨rfl, hc3 _ hroom⟩
  · rename_i herr
    rw [if_neg herr]
    have htn : ((len : Int) + 1 - 1).toNat = len := by omega
    rw [htn] at h ⊢
    refine estart_then_sim a a1 m0 m1 type name (4 + ((len : Int) + 1)) r
      (fun b1 => Mem.bson_append (Mem.bson_append (Mem.bson_append32 b1 ((len : Int) + 1))
        value len) [0] 1)
      (fun b1 => bson_append (bson_append (bson_append32 b1 ((len : Int) + 1)) value len) [0] 1)
      (hc3 _ hroom) (by omega) (by rw [hc4, hc5]; exact hsum) ?_ h
    intro m2 h2
    obtain ⟨x1, y1⟩ := append32_room m2 ((len : Int) + 1) _ h2 (by omega)
    obtain ⟨x2, y2⟩ := append_room _ value len _ x1 (by omega)
    obtain ⟨x3, y3⟩ := append_room _ [0] 1 _ x2 (by push_cast; omega)
    exact ⟨x3.mono (by push_cast; omega), by rw [y3, y2, y1]⟩

theorem code_w_scope_n_sim (a a1 : allocator) (m m1 : Mem.bson) (name code : List Nat)
    (len : Nat) (scope : Option bson) (r : Int) (hroom : m.Room 0)
    (hsc : 0 ≤ bson_size scope)
    (hsum : ((m.cur - m.data : Nat) : Int)
      + (1 + ((strlen name + 1 : Nat) : Int) + (4 + 4 + ((len : Int) + 1) + bson_size scope))
      ≤ INT_MAX)
    (h : Mem.bson_append_code_w_scope_n a m name code len scope = some (r, m1, a1)) :
    bson_append_code_w_scope_n m.abs name code len scope = (r, m1.abs) ∧ m1.Room 0 := by
  unfold Mem.bson_append_code_w_scope_n at h
  unfold bson_append_code_w_scope_n
  cases scope with
  | none =>
    dsimp only at h ⊢
    cases h
    exact ⟨rfl, hroom⟩
  | some sc =>
    dsimp only at h ⊢
    refine estart_then_sim a a1 m m1 BSON_CODEWSCOPE name
      (4 + 4 + ((len : Int) + 1) + bson_size (some sc)) r
      (fun b1 => Mem.bson_append
        (Mem.bson_append
          (Mem.bson_append32
            (Mem.bson_append32 b1 (4 + 4 + ((len : Int) + 1) + bson_size (some sc)))
            ((len : Int) + 1)) code ((len : Int) + 1).toNat)
        sc.data (bson_size (some sc)).toNat)
      (fun b1 => bson_append
        (bson_append
          (bson_append32 (bson_append32 b1 (4 + 4 + ((len : Int) + 1) + bson_size (some sc)))
            ((len : Int) + 1)) code ((len : Int) + 1).toNat)
        sc.data (bson_size (some sc)).toNat)
      hroom (by omega) hsum ?_ h
    intro m2 h2
    obtain ⟨x1, y1⟩ := append32_room m2 (4 + 4 + ((len : Int) + 1) + bson_size (some sc)) _ h2
      (by omega)
    obtain ⟨x2, y2⟩ := append32_room _ ((len : Int) + 1) _ x1 (by omega)
    obtain ⟨x3, y3⟩ := append_room _ code ((len : Int) + 1).toNat _ x2 (by omega)
    obtain ⟨x4, y4⟩ := append_room _ sc.data (bson_size (some sc)).toNat _ x3 (by omega)
    exact ⟨x4.mono (by omega), by rw [y4, y3, y2, y1]⟩

theorem append_date_sim (a a1 : allocator) (m m1 : Mem.bson) (name : List Nat)
    (millis r : Int) (hroom : m.Room 0)
    (hsum : ((m.cur - m.data : Nat) : Int) + (1 + ((strlen name + 1 : Nat) : Int) + 8)
      ≤ INT_MAX)
    (h : Mem.bson_append_date a m name millis = some (r, m1, a1)) :
    bson_append_date m.abs name millis = (r, m1.abs) ∧ m1.Room 0 := by
  unfold Mem.bson_append_date at h
  unfold bson_append_date
  exact estart_then_sim a a1 m m1 BSON_DATE name 8 r (fun b => Mem.bson_append64 b millis)
    (fun b => bson_append64 b millis) hroom (by decide) hsum
    (fun m2 h2 => ⟨(append64_room m2 millis 8 h2 (le_refl _)).1.mono (by omega),
      (append64_room m2 millis 8 h2 (le_refl _)).2⟩) h

theorem append_binary_sim (a a1 : allocator) (m m1 : Mem.bson) (name : List Nat) (type : Nat)
    (str : List Nat) (len : Nat) (r : Int) (hroom : m.Room 0)
    (hsum : ((m.cur - m.data : Nat) : Int) + (1 + ((strlen name + 1 : Nat) : Int)
      + (if type = BSON_BIN_BINARY_OLD then 4 + 1 + 4 + (len : Int) else 4 + 1 + (len : Int)))
      ≤ INT_MAX)
    (h : Mem.bson_append_binary a m name type str len = some (r, m1, a1)) :
    bson_append_binary m.abs name type str len = (r, m1.abs) ∧ m1.Room 0 := by
  unfold Mem.bson_append_binary at h
  unfold bson_append_binary
  by_cases ht : type = BSON_BIN_BINARY_OLD
  · rw [if_pos ht] at h hsum ⊢
    dsimp only at h ⊢
    refine estart_then_sim a a1 m m1 BSON_BINDATA name (4 + 1 + 4 + (len : Int)) r
      (fun b1 => Mem.bson_append
        (Mem.bson_append32 (Mem.bson_append_byte (Mem.bson_append32 b1 ((len : Int) + 4)) type)
          len) str len)
      (fun b1 => bson_append
        (bson_append32 (bson_append_byte (bson_append32 b1 ((len : Int) + 4)) type) len) str len)
      hroom (by omega) hsum ?_ h
    intro m2 h2
    obtain ⟨x1, y1⟩ := append32_room m2 ((len : Int) + 4) _ h2 (by omega)
    obtain ⟨x2, y2⟩ := append_byte_room _ type _ x1 (by omega)
    obtain ⟨x3, y3⟩ := append32_room _ (len : Int) _ x2 (by omega)
    obtain ⟨x4, y4⟩ := append_room _ str len _ x3 (by omega)
    exact ⟨x4.mono (by omega), by rw [y4, y3, y2, y1]⟩
  · rw [if_neg ht] at h hsum ⊢
    refine estart_then_sim a a1 m m1 BSON_BINDATA name (4 + 1 + (len : Int)) r
      (fun b1 => Mem.bson_append (Mem.bson_append_byte (Mem.bson_append32 b1 (len : Int)) type)
        str len)
      (fun b1 => bson_append (bson_append_byte (bson_append32 b1 (len : Int)) type) str len)
      hroom (by omega) hsum ?_ h
    intro m2 h2
    obtain ⟨x1, y1⟩ := append32_room m2 (len : Int) _ h2 (by omega)
    obtain ⟨x2, y2⟩ := append_byte_room _ type _ x1 (by omega)
    obtain ⟨x3, y3⟩ := append_room _ str len _ x2 (by omega)
    exact ⟨x3.mono (by omega), by rw [y3, y2, y1]⟩

theorem append_regex_sim (a a1 : allocator) (m m1 : Mem.bson) (name pattern opts : List Nat)
    (r : Int) (hroom : m.Room 0)
    (hsum : ((m.cur - m.data : Nat) : Int) + (1 + ((strlen name + 1 : Nat) : Int)
      + (((strlen pattern + 1 : Nat) : Int) + ((strlen opts + 1 : Nat) : Int))) ≤ INT_MAX)
    (h : Mem.bson_append_regex a m name pattern opts = some (r, m1, a1)) :
    bson_append_regex m.abs name pattern opts = (r, m1.abs) ∧ m1.Room 0 := by
  unfold Mem.bson_append_regex at h
  unfold bson_append_regex
  dsimp only at h ⊢
  split at h
  · cases h
  · rename_i r1 m2 a2 hes
    obtain ⟨hB, hroom2⟩ := estart_sim a a2 m m2 BSON_REGEX name _ r1 hroom (by omega) hsum hes
    rw [hB]
    dsimp only
    split at h
    · rename_i herr
      cases h
      rw [if_pos herr] at hroom2
      rw [if_pos herr]
      exact ⟨rfl, hroom2⟩
    · rename_i herr
      rw [if_neg herr] at hroom2
      rw [if_neg herr]
      obtain ⟨hc1, hc2, hc3, -, -⟩ := check_string_sim m2 pattern (strlen pattern + 1 - 1)
      rcases hck : Mem.bson_check_string m2 pattern (strlen pattern + 1 - 1) with ⟨r2, m3⟩
      rw [hck] at h hc1 hc2 hc3
      dsimp only at h hc1 hc2 hc3
      rw [← hc1, ← hc2]
      have hroom3 := hc3 _ hroom2
      split at h
      · rename_i herr2
        cases h
        rw [if_pos herr2]
        exact ⟨rfl, hroom3.mono (by omega)⟩
      · rename_i herr2
        cases h
        rw [if_neg herr2]
        obtain ⟨x1, y1⟩ := append_room m3 pattern (strlen pattern + 1) _ hroom3 (by omega)
        obtain ⟨x2, y2⟩ := append_room _ opts (strlen opts + 1) _ x1 (by omega)
        exact ⟨by rw [y2, y1], x2.mono (by omega)⟩

/-- Every typed append in memory does what the typed append of the embedding
above does on the builder it stands for, and keeps every store inside the
allocation. -/
theorem field_sim (f : Field) (a a1 : allocator) (m m1 : Mem.bson) (r : Int)
    (hroom : m.Room 0) (hargs : f.args_ok)
    (hsum : ((m.cur - m.data : Nat) : Int)
      + (1 + ((strlen f.name + 1 : Nat) : Int) + f.dsize) ≤ INT_MAX)
    (h : Mem.Field.append a m f = some (r, m1, a1)) :
    f.append m.abs = (r, m1.abs) ∧ m1.Room 0 := by
  cases f with
  | int name i =>
    simp only [Field.name, Field.dsize] at hsum
    simp only [Mem.Field.append, Mem.bson_append_int] at h
    simp only [Field.append, bson_append_int]
    exact estart_then_sim a a1 m m1 BSON_INT name 4 r (fun b => Mem.bson_append32 b i)
      (fun b => bson_append32 b i) hroom (by decide) hsum
      (fun m2 h2 => ⟨(append32_room m2 i 4 h2 (le_refl _)).1.mono (by omega),
        (append32_room m2 i 4 h2 (le_refl _)).2⟩) h
  | long name i =>
    simp only [Field.name, Field.dsize] at hsum
    simp only [Mem.Field.append, Mem.bson_append_long] at h
    simp only [Field.append, bson_append_long]
    exact estart_then_sim a a1 m m1 BSON_LONG name 8 r (fun b => Mem.bson_append64 b i)
      (fun b => bson_append64 b i) hroom (by decide) hsum
      (fun m2 h2 => ⟨(append64_room m2 i 8 h2 (le_refl _)).1.mono (by omega),
        (append64_room m2 i 8 h2 (le_refl _)).2⟩) h
  | double name d =>
    simp only [Field.name, Field.dsize] at hsum
    simp only [Mem.Field.append, Mem.bson_append_double] at h
    simp only [Field.append, bson_append_double]
    exact estart_then_sim a a1 m m1 BSON_DOUBLE name 8 r (fun b => Mem.bson_append64 b d)
      (fun b => bson_append64 b d) hroom (by decide) hsum
      (fun m2 h2 => ⟨(append64_room m2 d 8 h2 (le_refl _)).1.mono (by omega),
        (append64_room m2 d 8 h2 (le_refl _)).2⟩) h
  | bool name i =>
    simp only [Field.name, Field.dsize] at hsum
    simp only [Mem.Field.append, Mem.bson_append_bool] at h
    simp only [Field.append, bson_append_bool]
    exact estart_then_sim a a1 m m1 BSON_BOOL name 1 r
      (fun b => Mem.bson_append_byte b (if i ≠ 0 then 1 else 0))
      (fun b => bson_append_byte b (if i ≠ 0 then 1 else 0)) hroom (by decide) hsum
      (fun m2 h2 => ⟨(append_byte_room m2 _ 1 h2 (le_refl _)).1.mono (by omega),
        (append_byte_room m2 _ 1 h2 (le_refl _)).2⟩) h
  | null name =>
    simp only [Field.name, Field.dsize] at hsum
    simp only [Mem.Field.append, Mem.bson_append_null] at h
    simp only [Field.append, bson_append_null]
    exact estart_then_sim a a1 m m1 BSON_NULL name 0 r (fun b => b) (fun b => b) hroom
      (le_refl _) hsum (fun m2 h2 => ⟨h2, rfl⟩) h
  | undefined name =>
    simp only [Field.name, Field.dsize] at hsum
    simp only [Mem.Field.append, Mem.bson_append_undefined] at h
    simp only [Field.append, bson_append_undefined]
    exact estart_then_sim a a1 m m1 BSON_UNDEFINED name 0 r (fun b => b) (fun b => b) hroom
      (le_refl _) hsum (fun m2 h2 => ⟨h2, rfl⟩) h
  | string name value =>
    simp only [Field.name, Field.dsize] at hsum
    exact string_base_sim a a1 m m1 name value (strlen value) BSON_STRING r hroom hsum h
  | symbol name value =>
    simp only [Field.name, Field.dsize] at hsum
    exact string_base_sim a a1 m m1 name value (strlen value) BSON_SYMBOL r hroom hsum h
  | code name value =>
    simp only [Field.name, Field.dsize] at hsum
    exact string_base_sim a a1 m m1 name value (strlen value) BSON_CODE r hroom hsum h
  | string_n name value len =>
    simp only [Field.name, Field.dsize] at hsum
    exact string_base_sim a a1 m m1 name value len BSON_STRING r hroom hsum h
  | symbol_n name value len =>
    simp only [Field.name, Field.dsize] at hsum
    exact string_base_sim a a1 m m1 name value len BSON_SYMBOL r hroom hsum h
  | code_n name value len =>
    simp only [Field.name, Field.dsize] at hsum
    exact string_base_sim a a1 m m1 name value len BSON_CODE r hroom hsum h
  | code_w_scope name js scope =>
    simp only [Field.name, Field.dsize] at hsum
    exact code_w_scope_n_sim a a1 m m1 name js (strlen js) scope r hroom hargs hsum h
  | code_w_scope_n name js len scope =>
    simp only [Field.name, Field.dsize] at hsum
    exact code_w_scope_n_sim a a1 m m1 name js len scope r hroom hargs hsum h
  | binary name type str len =>
    simp only [Field.name, Field.dsize] at hsum
    exact append_binary_sim a a1 m m1 name type str len r hroom hsum h
  | oid name bytes =>
    simp only [Field.name, Field.dsize] at hsum
    simp only [Mem.Field.append, Mem.bson_append_oid] at h
    simp only [Field.append, bson_append_oid]
    exact estart_then_sim a a1 m m1 BSON_OID name 12 r (fun b => Mem.bson_append b bytes 12)
      (fun b => bson_append b bytes 12) hroom (by decide) hsum
      (fun m2 h2 => ⟨(append_room m2 bytes 12 12 h2 (le_refl _)).1.mono (by omega),
        (append_room m2 bytes 12 12 h2 (le_refl _)).2⟩) h
  | regex name pattern opts =>
    simp only [Field.name, Field.dsize] at hsum
    exact append_regex_sim a a1 m m1 name pattern opts r hroom hsum h
  | subdoc name sub =>
    simp only [Field.name, Field.dsize] at hsum
    simp only [Mem.Field.append, Mem.bson_append_bson] at h
    simp only [Field.append, bson_append_bson]
    cases sub with
    | none =>
      dsimp only at h ⊢
      cases h
      exact ⟨rfl, hroom⟩
    | some sb =>
      dsimp only at h ⊢
      have h4 : 4 ≤ bson_size (some sb) := hargs
      refine estart_then_sim a a1 m m1 BSON_OBJECT name (bson_size (some sb)) r
        (fun b => Mem.bson_append b sb.data (bson_size (some sb)).toNat)
        (fun b => bson_append b sb.data (bson_size (some sb)).toNat) hroom (by omega) hsum ?_ h
      intro m2 h2
      obtain ⟨x1, y1⟩ := append_room m2 sb.data (bson_size (some sb)).toNat _ h2 (by omega)
      exact ⟨x1.mono (by omega), y1⟩
  | timestamp name i t =>
    simp only [Field.name, Field.dsize] at hsum
    simp only [Mem.Field.append, Mem.bson_append_timestamp] at h
    simp only [Field.append, bson_append_timestamp]
    refine estart_then_sim a a1 m m1 BSON_TIMESTAMP name 8 r
      (fun b => Mem.bson_append32 (Mem.bson_append32 b i) t)
      (fun b => bson_append32 (bson_append32 b i) t) hroom (by decide) hsum ?_ h
    intro m2 h2
    obtain ⟨x1, y1⟩ := append32_room m2 i _ h2 (by decide)
    obtain ⟨x2, y2⟩ := append32_room _ t _ x1 (by decide)
    exact ⟨x2.mono (by decide), by rw [y2, y1]⟩
  | timestamp2 name time increment =>
    simp only [Field.name, Field.dsize] at hsum
    simp only [Mem.Field.append, Mem.bson_append_timestamp2] at h
    simp only [Field.append, bson_append_timestamp2]
    refine estart_then_sim a a1 m m1 BSON_TIMESTAMP name 8 r
      (fun b => Mem.bson_append32 (Mem.bson_append32 b increment) time)
      (fun b => bson_append32 (bson_append32 b increment) time) hroom (by decide) hsum ?_ h
    intro m2 h2
    obtain ⟨x1, y1⟩ := append32_room m2 increment _ h2 (by decide)
    obtain ⟨x2, y2⟩ := append32_room _ time _ x1 (by decide)
    exact ⟨x2.mono (by decide), by rw [y2, y1]⟩
  | date name millis =>
    simp only [Field.name, Field.dsize] at hsum
    exact append_date_sim a a1 m m1 name millis r hroom hsum h
  | time_t name secs =>
    simp only [Field.name, Field.dsize] at hsum
    exact append_date_sim a a1 m m1 name (wrap64 (secs * 1000)) r hroom hsum h

/-! ## Builder programs in memory -/

theorem Field.dsize_le (f : Field) : f.dsize ≤ (f.payload.length : Int) := by
  cases f <;>
    simp only [Field.dsize, Field.payload, List.length_append, le32_bytes_length,
      le64_bytes_length, mem_take_length, cstr_length, List.length_cons, List.length_nil] <;>
    first
      | omega
      | (split <;> simp only [List.length_append, le32_bytes_length, mem_take_length,
          List.length_cons, List.length_nil] <;> omega)

theorem store_frame (m : Mem.bson) (p : Nat) (bs : List Nat) :
    (m.store p bs).data = m.data ∧ (m.store p bs).cur = m.cur ∧
      (m.store p bs).stack = m.stack ∧ (m.store p bs).stackPos = m.stackPos ∧
      (m.store p bs).finished = m.finished := by
  unfold Mem.bson.store
  split <;> exact ⟨rfl, rfl, rfl, rfl, rfl⟩

/-- `bson_append_start_object` and `bson_append_start_array` in memory. -/
theorem start_container_sim (a a1 : allocator) (m m1 : Mem.bson) (t : Nat) (name : List Nat)
    (r : Int) (hroom : m.Room 0)
    (hsum : ((m.cur - m.data : Nat) : Int) + (1 + ((strlen name + 1 : Nat) : Int) + 5)
      ≤ INT_MAX)
    (h : (match Mem.bson_append_estart a m t name 5 with
      | none => none
      | some (r, b1, a1) =>
        if r = BSON_ERROR then some (BSON_ERROR, b1, a1)
        else
          some (BSON_OK,
            Mem.bson_append32
              { b1 with stack := stack_set b1.stack b1.stackPos ((b1.cur : Int) - (b1.data : Int)),
                        stackPos := b1.stackPos + 1 } 0, a1)) = some (r, m1, a1)) :
    (match bson_append_estart m.abs t name 5 with
      | (r, b1) =>
        if r = BSON_ERROR then (BSON_ERROR, b1)
        else
          (BSON_OK,
            bson_append32
              { b1 with stack := stack_set b1.stack b1.stackPos b1.cur,
                        stackPos := b1.stackPos + 1 } 0)) = (r, m1.abs) ∧ m1.Room 0 := by
  refine estart_then_sim a a1 m m1 t name 5 r
    (fun b1 => Mem.bson_append32
      { b1 with stack := stack_set b1.stack b1.stackPos ((b1.cur : Int) - (b1.data : Int)),
                stackPos := b1.stackPos + 1 } 0)
    (fun b1 => bson_append32
      { b1 with stack := stack_set b1.stack b1.stackPos b1.cur, stackPos := b1.stackPos + 1 } 0)
    hroom (by decide) hsum ?_ h
  intro m2 h2
  have hc := abs_cur m2 5 h2 (by decide)
  have hle : m2.data ≤ m2.cur := h2.2.2.1
  have h2' : ({ m2 with stack := stack_set m2.stack m2.stackPos ((m2.cur : Int) - (m2.data : Int)),
                        stackPos := m2.stackPos + 1 } : Mem.bson).Room 5 := h2
  obtain ⟨x1, y1⟩ := append32_room _ 0 5 h2' (by decide)
  refine ⟨x1.mono (by decide), ?_⟩
  dsimp only
  rw [y1]
  have he : ((m2.cur : Int) - (m2.data : Int)) = ((m2.abs.cur : Nat) : Int) := by
    rw [hc]; omega
  rw [he]
  rfl

/-- The length patch of `bson_append_finish_object`: a store of four bytes at an
offset before the cursor. -/
theorem frame_patch (b : Mem.bson) (sp off : Int) (hroom : b.Room 0) (h0 : 0 ≤ off)
    (h1 : off + 4 ≤ ((b.cur - b.data : Nat) : Int)) :
    (if (b.data : Int) + off < 0 then ({ b with stackPos := sp, overrun := true } : Mem.bson)
      else ({ b with stackPos := sp } : Mem.bson).store ((b.data : Int) + off).toNat
        (le32_bytes ((b.cur : Int) - ((b.data : Int) + off)))).Room 0 ∧
    (if (b.data : Int) + off < 0 then ({ b with stackPos := sp, overrun := true } : Mem.bson)
      else ({ b with stackPos := sp } : Mem.bson).store ((b.data : Int) + off).toNat
        (le32_bytes ((b.cur : Int) - ((b.data : Int) + off)))).abs
      = { b.abs with stackPos := sp,
                     data := write_le32 b.abs.data off ((b.abs.cur : Int) - off) } := by
  have hneg : ¬ ((b.data : Int) + off < 0) := by omega
  rw [if_neg hneg]
  have hto : ((b.data : Int) + off).toNat = b.data + off.toNat := by omega
  rw [hto]
  have hle : b.data ≤ b.cur := hroom.2.2.1
  have hc : ((b.abs.cur : Nat) : Int) = (b.cur : Int) - (b.data : Int) := by
    have h2 := abs_cur b 0 hroom (le_refl _)
    rw [h2]
    omega
  have e1 : (b.cur : Int) - ((b.data : Int) + off) = ((b.abs.cur : Nat) : Int) - off := by
    rw [hc]; omega
  rw [e1]
  have x2 : ({ b with stackPos := sp } : Mem.bson).Room 0 := hroom
  have hin : off.toNat + (le32_bytes (((b.abs.cur : Nat) : Int) - off)).length
      ≤ b.cur - b.data := by
    rw [le32_bytes_length]
    omega
  obtain ⟨x3, y3⟩ := store_patch ({ b with stackPos := sp } : Mem.bson) off.toNat
    (le32_bytes (((b.abs.cur : Nat) : Int) - off)) 0 x2 (le_refl _) hin
  refine ⟨x3, y3.trans ?_⟩
  have hw : write_le32 b.abs.data off (((b.abs.cur : Nat) : Int) - off)
      = mem_write b.abs.data off.toNat (le32_bytes (((b.abs.cur : Nat) : Int) - off)) := by
    unfold write_le32
    rw [if_neg (not_lt.mpr h0)]
  rw [hw]
  rfl

/-- `bson_append_finish_object` in memory, when the offset on top of the frame
stack designates four bytes before the cursor. -/
theorem finish_object_sim (a a1 : allocator) (m m1 : Mem.bson) (r : Int) (hroom : m.Room 0)
    (hsum : ((m.cur - m.data : Nat) : Int) + 1 ≤ INT_MAX)
    (hs0 : 0 ≤ stack_get m.stack (m.stackPos - 1))
    (hs1 : stack_get m.stack (m.stackPos - 1) + 4 ≤ ((m.cur - m.data : Nat) : Int))
    (h : Mem.bson_append_finish_object a m = some (r, m1, a1)) :
    bson_append_finish_object m.abs = (r, m1.abs) ∧ m1.Room 0 := by
  unfold Mem.bson_append_finish_object at h
  unfold bson_append_finish_object
  split at h
  · cases h
  · rename_i r1 m2 a2 hes
    obtain ⟨hB, hroom2, -⟩ := ensure_space_sim a a2 m m2 1 r1 hroom (by decide) hsum hes
    rw [hB]
    dsimp only at h ⊢
    split at h
    · rename_i herr
      cases h
      rw [if_pos herr] at hroom2
      rw [if_pos herr]
      exact ⟨rfl, hroom2⟩
    · rename_i herr
      cases h
      rw [if_neg herr] at hroom2
      rw [if_neg herr]
      obtain ⟨hfr1, hfr2, hfr3, hfr4, -⟩ := bson_ensure_space_ok m.abs m2.abs 1 r1 hB herr
      have hst : m2.stack = m.stack := hfr3
      have hsp : m2.stackPos = m.stackPos := hfr4
      have hpos2 : m2.cur - m2.data = m.cur - m.data := by
        have h1 := abs_cur m 0 hroom (le_refl _)
        have h2 := abs_cur m2 1 hroom2 (by decide)
        simp only [bson.cur] at h1 h2
        rw [← h1, ← h2, hfr1]
      obtain ⟨x1, y1⟩ := append_byte_room m2 0 1 hroom2 (le_refl _)
      have x1 : (Mem.bson_append_byte m2 0).Room 0 := x1.mono (by decide)
      obtain ⟨f1, f2, f3, f4, -⟩ := store_frame m2 m2.cur [0]
      have hd3 : (Mem.bson_append_byte m2 0).data = m2.data := f1
      have hc3 : (Mem.bson_append_byte m2 0).cur = m2.cur + 1 := rfl
      have hst3 : (Mem.bson_append_byte m2 0).stack = m.stack := by
        rw [← hst]; exact f3
      have hsp3 : (Mem.bson_append_byte m2 0).stackPos = m.stackPos := by
        rw [← hsp]; exact f4
      have hle2 : m2.data ≤ m2.cur := hroom2.2.2.1
      have g0 : 0 ≤ stack_get (Mem.bson_append_byte m2 0).stack
          ((Mem.bson_append_byte m2 0).stackPos - 1) := by
        rw [hst3, hsp3]; exact hs0
      have g1 : stack_get (Mem.bson_append_byte m2 0).stack
          ((Mem.bson_append_byte m2 0).stackPos - 1) + 4
          ≤ (((Mem.bson_append_byte m2 0).cur - (Mem.bson_append_byte m2 0).data : Nat) : Int) := by
        rw [hst3, hsp3, hd3, hc3]
        omega
      obtain ⟨k1, k2⟩ := frame_patch (Mem.bson_append_byte m2 0)
        ((Mem.bson_append_byte m2 0).stackPos - 1)
        (stack_get (Mem.bson_append_byte m2 0).stack ((Mem.bson_append_byte m2 0).stackPos - 1))
        x1 g0 g1
      rw [← y1]
      exact ⟨congrArg (Prod.mk BSON_OK) k2.symm, k1⟩

theorem abs_length (m : Mem.bson) (h : m.Room 0) : m.abs.data.length = m.cur - m.data :=
  abs_cur m 0 h (le_refl _)

/-- The closing call of a container in memory, after a start and a balanced body
that the embedding above has followed. -/
theorem close_container_sim (a a1 : allocator) (m b1 b2 m1 : Mem.bson) (t : Nat)
    (name kids : List Nat) (r : Int) (h0 : 0 ≤ m.stackPos)
    (hsum : (m.abs.data.length : Int)
      + ((t :: (cstr name ++ 0 :: ([0, 0, 0, 0] ++ (kids ++ [0])))).length : Nat) ≤ INT_MAX)
    (hstart : Started m.abs b1.abs t name) (hbody : Built b1.abs b2.abs kids)
    (hroom2 : b2.Room 0) (h : Mem.bson_append_finish_object a b2 = some (r, m1, a1)) :
    bson_append_finish_object b2.abs = (r, m1.abs) ∧ m1.Room 0 := by
  obtain ⟨hf, hd1, hf1, hsp1, hst1, he1, hfl1⟩ := hstart
  obtain ⟨-, hd2, hf2, hsp2, hst2, he2, hfl2⟩ := hbody
  have h0' : 0 ≤ m.abs.stackPos := h0
  have hslot : stack_get b2.abs.stack (b2.abs.stackPos - 1)
      = ((m.abs.data ++ t :: (cstr name ++ [0])).length : Nat) := by
    rw [hsp2, hsp1, hst2 _ (by omega), hst1]
    have : m.abs.stackPos + 1 - 1 = m.abs.stackPos := by omega
    rw [this, stack_get_set_eq _ _ _ h0']
  have hslot2 : stack_get b2.stack (b2.stackPos - 1)
      = ((m.abs.data ++ t :: (cstr name ++ [0])).length : Nat) := hslot
  have hlen := abs_length b2 hroom2
  rw [hd2, hd1] at hlen
  simp only [List.length_append, List.length_cons, List.length_nil] at hlen hsum hslot2
  refine finish_object_sim a a1 b2 m1 r hroom2 ?_ ?_ ?_ h
  · rw [← hlen]; push_cast at hsum ⊢; omega
  · rw [hslot2]; omega
  · rw [hslot2, ← hlen]; push_cast; omega

mutual
/-- A balanced piece of a builder program run in memory, from a cursor inside
the allocation: when it succeeds, the embedding above makes the same calls with
the same results on the builder it stands for, and every store stayed inside
the allocation. -/
theorem Item.build_sim : ∀ (i : Item) (a a1 : allocator) (m m1 : Mem.bson) (r : Int),
    m.Room 0 → 0 ≤ m.stackPos → Item.args_ok i →
    (m.abs.data.length : Int) + ((Item.elt i).bytes.length : Nat) ≤ INT_MAX →
    Mem.Item.build a i m = some (r, m1, a1) → r ≠ BSON_ERROR →
    Item.build i m.abs = (r, m1.abs) ∧ m1.Room 0
  | .field f, a, a1, m, m1, r, hroom, _, hargs, hsum, h, _ => by
    simp only [Mem.Item.build] at h
    simp only [Item.build]
    simp only [Item.args_ok] at hargs
    refine field_sim f a a1 m m1 r hroom hargs ?_ h
    have hl := abs_length m hroom
    have hd := Field.dsize_le f
    simp only [Item.elt, Elt.bytes, List.length_append, List.length_cons, cstr_length] at hsum
    rw [← hl]
    push_cast at hsum ⊢
    omega
  | .object name items, a, a1, m, m1, r, hroom, h0, hargs, hsum, h, hr => by
    simp only [Mem.Item.build] at h
    simp only [Item.build]
    simp only [Item.args_ok] at hargs
    simp only [Item.elt, Elt.bytes] at hsum
    have hl := abs_length m hroom
    rcases hs : Mem.bson_append_start_object a m name with _ | ⟨r1, b1, a2⟩
    · rw [hs] at h; cases h
    rw [hs] at h
    simp only at h
    have hs1 := hs
    unfold Mem.bson_append_start_object at hs1
    obtain ⟨hB, hroom1⟩ := start_container_sim a a2 m b1 BSON_OBJECT name r1 hroom
      (by
        simp only [List.length_append, List.length_cons, List.length_nil, cstr_length,
          le32_bytes_length] at hsum
        rw [← hl]; push_cast at hsum ⊢; omega) hs1
    have hB1 : bson_append_start_object m.abs name = (r1, b1.abs) := hB
    rw [hB1]
    simp only
    split at h
    · cases h; exact absurd rfl hr
    · rename_i hr1
      rw [if_neg hr1]
      obtain ⟨hst, -⟩ := bson_append_start_object_ok m.abs b1.abs name r1 hB1 hr1
      rcases hb : Mem.Item.buildList a2 items b1 with _ | ⟨r2, b2, a3⟩
      · rw [hb] at h; cases h
      rw [hb] at h
      simp only at h
      split at h
      · cases h; exact absurd rfl hr
      · rename_i hr2
        have hsp1 : 0 ≤ b1.stackPos := by
          have := hst.2.2.2.1
          have h0' : 0 ≤ m.abs.stackPos := h0
          show 0 ≤ b1.abs.stackPos
          omega
        have hd1 := hst.2.1
        obtain ⟨hB2, hroom2⟩ := Item.buildList_sim items a2 a3 b1 b2 r2 hroom1 hsp1 hargs
          (by
            rw [hd1]
            simp only [List.length_append, List.length_cons, List.length_nil, cstr_length,
              le32_bytes_length] at hsum ⊢
            push_cast at hsum ⊢; omega) hb hr2
        rw [hB2]
        simp only
        rw [if_neg hr2]
        have hbody := Item.buildList_ok items b1.abs b2.abs r2 hsp1 hB2 hr2 hst.2.2.1
        refine close_container_sim a3 a1 m b1 b2 m1 BSON_OBJECT name _ r h0 ?_ hst hbody
          hroom2 h
        simp only [List.length_append, List.length_cons, List.length_nil, cstr_length,
          le32_bytes_length] at hsum ⊢
        push_cast at hsum ⊢; omega
  | .array name items, a, a1, m, m1, r, hroom, h0, hargs, hsum, h, hr => by
    simp only [Mem.Item.build, Mem.bson_append_finish_array] at h
    simp only [Item.build, bson_append_finish_array]
    simp only [Item.args_ok] at hargs
    simp only [Item.elt, Elt.bytes] at hsum
    have hl := abs_length m hroom
    rcases hs : Mem.bson_append_start_array a m name with _ | ⟨r1, b1, a2⟩
    · rw [hs] at h; cases h
    rw [hs] at h
    simp only at h
    have hs1 := hs
    unfold Mem.bson_append_start_array at hs1
    obtain ⟨hB, hroom1⟩ := start_container_sim a a2 m b1 BSON_ARRAY name r1 hroom
      (by
        simp only [List.length_append, List.length_cons, List.length_nil, cstr_length,
          le32_bytes_length] at hsum
        rw [← hl]; push_cast at hsum ⊢; omega) hs1
    have hB1 : bson_append_start_array m.abs name = (r1, b1.abs) := hB
    rw [hB1]
    simp only
    split at h
    · cases h; exact absurd rfl hr
    · rename_i hr1
      rw [if_neg hr1]
      obtain ⟨hst, -⟩ := bson_append_start_array_ok m.abs b1.abs name r1 hB1 hr1
      rcases hb : Mem.Item.buildList a2 items b1 with _ | ⟨r2, b2, a3⟩
      · rw [hb] at h; cases h
      rw [hb] at h
      simp only at h
      split at h
      · cases h; exact absurd rfl hr
      · rename_i hr2
        have hsp1 : 0 ≤ b1.stackPos := by
          have := hst.2.2.2.1
          have h0' : 0 ≤ m.abs.stackPos := h0
          show 0 ≤ b1.abs.stackPos
          omega
        have hd1 := hst.2.1
        obtain ⟨hB2, hroom2⟩ := Item.buildList_sim items a2 a3 b1 b2 r2 hroom1 hsp1 hargs
          (by
            rw [hd1]
            simp only [List.length_append, List.length_cons, List.length_nil, cstr_length,
              le32_bytes_length] at hsum ⊢
            push_cast at hsum ⊢; omega) hb hr2
        rw [hB2]
        simp only
        rw [if_neg hr2]
        have hbody := Item.buildList_ok items b1.abs b2.abs r2 hsp1 hB2 hr2 hst.2.2.1
        refine close_container_sim a3 a1 m b1 b2 m1 BSON_ARRAY name _ r h0 ?_ hst hbody
          hroom2 h
        simp only [List.length_append, List.length_cons, List.length_nil, cstr_length,
          le32_bytes_length] at hsum ⊢
        push_cast at hsum ⊢; omega
/-- A sequence of balanced pieces run in memory from a cursor inside the
allocation, with room left in a C `int` for the terminator behind them. -/
theorem Item.buildList_sim : ∀ (is : List Item) (a a1 : allocator) (m m1 : Mem.bson) (r : Int),
    m.Room 0 → 0 ≤ m.stackPos → Item.args_ok_list is →
    (m.abs.data.length : Int) + ((Elt.bytesList (Item.elts is)).length : Nat) + 1 ≤ INT_MAX →
    Mem.Item.buildList a is m = some (r, m1, a1) → r ≠ BSON_ERROR →
    Item.buildList is m.abs = (r, m1.abs) ∧ m1.Room 0
  | [], a, a1, m, m1, r, hroom, _, _, _, h, _ => by
    simp only [Mem.Item.buildList] at h
    simp only [Item.buildList]
    cases h
    exact ⟨rfl, hroom⟩
  | i :: is, a, a1, m, m1, r, hroom, h0, hargs, hsum, h, hr => by
    simp only [Mem.Item.buildList] at h
    simp only [Item.buildList]
    simp only [Item.args_ok_list] at hargs
    simp only [Item.elts, Elt.bytesList, List.length_append] at hsum
    rcases hb : Mem.Item.build a i m with _ | ⟨r1, b1, a2⟩
    · rw [hb] at h; cases h
    rw [hb] at h
    simp only at h
    split at h
    · cases h; exact absurd rfl hr
    · rename_i hr1
      obtain ⟨hB, hroom1⟩ := Item.build_sim i a a2 m b1 r1 hroom h0 hargs.1
        (by push_cast at hsum ⊢; omega) hb hr1
      rw [hB]
      simp only
      rw [if_neg hr1]
      have h1 := Item.build_ok i m.abs b1.abs r1 h0 hB hr1
      have hsp1 : 0 ≤ b1.stackPos := by
        have := h1.2.2.2.1
        have h0' : 0 ≤ m.abs.stackPos := h0
        show 0 ≤ b1.abs.stackPos
        omega
      exact Item.buildList_sim is a2 a1 b1 m1 r hroom1 hsp1 hargs.2
        (by
          rw [h1.2.1]
          simp only [List.length_append]
          push_cast at hsum ⊢; omega) h hr
end

/-! ## Growth keeps the content -/

theorem byteAt_of_take_eq (l1 l2 : List Nat) (n i : Nat) (h : l1.take n = l2.take n)
    (hi : i < n) : byteAt l1 i = byteAt l2 i := by
  unfold byteAt
  simp only [List.getD_eq_getElem?_getD]
  have h1 : (l1.take n)[i]? = l1[i]? := List.getElem?_take_of_lt hi
  have h2 : (l2.take n)[i]? = l2[i]? := List.getElem?_take_of_lt hi
  rw [← h1, ← h2, h]

theorem malloc_some (a a1 : allocator) (size : Int) (p : Nat) (blk : List Nat)
    (h : Mem.bson_malloc a size = some (p, blk, a1)) :
    p ≠ 0 ∧ blk.length = size.toNat ∧ 0 ≤ size := by
  unfold Mem.bson_malloc libc_malloc at h
  by_cases hc : size < 0 ∨ a.limit < a.brk + size.toNat
  · rw [if_pos hc] at h
    simp at h
  · rw [if_neg hc] at h
    dsimp only at h
    split at h
    · cases h
    · rename_i hp
      cases h
      exact ⟨hp, mem_take_length _ _, by omega⟩

/-- The builder `_bson_init_size` makes for a size of four bytes or more: the
cursor, at the offset 4, is inside the allocation. -/
theorem init_size_room (a a0 : allocator) (S : Int) (m0 : Mem.bson) (h4 : 4 ≤ S)
    (hS : S ≤ INT_MAX) (h : Mem._bson_init_size a S = some (m0, a0)) :
    m0.Room 0 ∧ m0.cur - m0.data = 4 ∧ m0.finished = false ∧ m0.stackPos = 0 := by
  unfold Mem._bson_init_size at h
  rw [if_neg (by omega)] at h
  rcases hm : Mem.bson_malloc a S with _ | ⟨p, blk, a1⟩
  · rw [hm] at h; cases h
  rw [hm] at h
  cases h
  obtain ⟨hp, hl, h0⟩ := malloc_some a a0 S p blk hm
  refine ⟨⟨rfl, hp, ?_, ?_, ?_, hS⟩, ?_, rfl, rfl⟩
  · show p ≤ p + 4
    omega
  · show ((p + 4 - p : Nat) : Int) + 0 ≤ (blk.length : Nat)
    rw [hl]; omega
  · show ((blk.length : Nat) : Int) = S
    rw [hl]; omega
  · show p + 4 - p = 4
    omega

/-- The document a balanced builder program and `bson_finish` leave in memory,
from a builder of any initial capacity of four bytes or more: no store outside
the allocation, and the bytes before the cursor are the length prefix, the
elements and the terminator. -/
theorem run_layout (items : List Item) (a a0 ab ad : allocator) (S : Int) (m0 mb d : Mem.bson)
    (hargs : Item.args_ok_list items)
    (hsz : ((Elt.bytesList (Item.elts items)).length : Int) + 5 ≤ INT_MAX)
    (h4 : 4 ≤ S) (hS : S ≤ INT_MAX)
    (hi : Mem._bson_init_size a S = some (m0, a0))
    (hb : Mem.Item.buildList a0 items m0 = some (BSON_OK, mb, ab))
    (hf : Mem.bson_finish ab mb = some (BSON_OK, d, ad)) :
    d.Room 0 ∧ d.finished = true ∧
      d.cur - d.data = (Elt.bytesList (Item.elts items)).length + 5 ∧
      d.block.take ((Elt.bytesList (Item.elts items)).length + 5)
        = le32_bytes (((Elt.bytesList (Item.elts items)).length : Int) + 5)
            ++ (Elt.bytesList (Item.elts items) ++ [0]) := by
  obtain ⟨hroom0, hpos0, hopen0, hsp0⟩ := init_size_room a a0 S m0 h4 hS hi
  have hl0 := abs_length m0 hroom0
  have hne : BSON_OK ≠ BSON_ERROR := by decide
  have hsp0' : 0 ≤ m0.stackPos := by rw [hsp0]
  obtain ⟨hB, hroom1⟩ := Item.buildList_sim items a0 ab m0 mb BSON_OK hroom0 hsp0' hargs
    (by rw [hl0, hpos0]; push_cast; omega) hb hne
  have hbuilt := Item.buildList_ok items m0.abs mb.abs BSON_OK hsp0' hB hne hopen0
  obtain ⟨-, hd, hfin, -⟩ := hbuilt
  have hl1 := abs_length mb hroom1
  have hlen : mb.abs.data.length = (Elt.bytesList (Item.elts items)).length + 4 := by
    rw [hd, List.length_append, hl0, hpos0]; omega
  obtain ⟨hF, hroomd⟩ := finish_sim ab ad mb d BSON_OK hroom1 (by rw [← hl1, hlen]; omega)
    (by rw [← hl1, hlen]; push_cast; omega) hf
  have h4b : 4 ≤ mb.abs.cur := by
    show 4 ≤ mb.abs.data.length
    omega
  obtain ⟨hdd, hfd, -⟩ := bson_finish_open mb.abs d.abs hfin h4b hF
  have hdrop : mb.abs.data.drop 4 = Elt.bytesList (Item.elts items) := by
    rw [hd]
    exact List.drop_left' (by rw [hl0, hpos0])
  have hcur : ((mb.abs.cur : Nat) : Int) + 1
      = ((Elt.bytesList (Item.elts items)).length : Int) + 5 := by
    show ((mb.abs.data.length : Nat) : Int) + 1 = _
    rw [hlen]; push_cast; omega
  rw [hcur, hdrop] at hdd
  have hld := abs_length d hroomd
  have hdl : d.abs.data.length = (Elt.bytesList (Item.elts items)).length + 5 := by
    rw [hdd]
    simp only [List.length_append, le32_bytes_length, List.length_cons, List.length_nil]
    omega
  have hcd : d.cur - d.data = (Elt.bytesList (Item.elts items)).length + 5 := by
    rw [← hld, hdl]
  refine ⟨hroomd, hfd, hcd, ?_⟩
  rw [← hdd, ← hcd]
  rfl

/-- C26: a call of `bson_ensure_space` that returns `BSON_OK` on a builder whose
cursor lies inside its allocation, whether `realloc` moved the buffer or grew it
in place, leaves every byte at the offsets `[0, cur - data)` and the cursor
offset as they were, keeps the frame stack and its index, so that the four bytes
at every offset on the stack are the same placeholder bytes, and keeps the
cursor inside the allocation, which did not shrink; hence a balanced builder
program that succeeds on `bson_init` (capacity 128, whatever the growth it goes
through) and on `bson_init_size` with any capacity of four bytes or more, on any
two allocators, leaves after `bson_finish` the same finished bytes in both
buffers: the length prefix, the elements and the terminator, with no store
outside an allocation. -/
theorem growth_preserves_content :
    (∀ (a a1 : allocator) (m m1 : Mem.bson) (n : Int), m.Room 0 →
      Mem.bson_ensure_space a m n = some (BSON_OK, m1, a1) →
        (∀ i, i < m.cur - m.data → byteAt m1.block i = byteAt m.block i) ∧
        m1.cur - m1.data = m.cur - m.data ∧
        m1.stack = m.stack ∧ m1.stackPos = m.stackPos ∧
        (∀ j : Int, 0 ≤ stack_get m.stack j →
          stack_get m.stack j + 4 ≤ ((m.cur - m.data : Nat) : Int) →
          ∀ k, k < 4 → byteAt m1.block ((stack_get m1.stack j).toNat + k)
            = byteAt m.block ((stack_get m.stack j).toNat + k)) ∧
        m1.Room 0 ∧ m.dataSize ≤ m1.dataSize ∧ m1.finished = m.finished ∧
        m1.err = m.err ∧ m1.flags = m.flags) ∧
    (∀ (items : List Item) (a a0 ab ad a' a0' ab' ad' : allocator) (S : Int)
      (m0 mb d m0' mb' d' : Mem.bson), Item.args_ok_list items →
      ((Elt.bytesList (Item.elts items)).length : Int) + 5 ≤ INT_MAX →
      4 ≤ S → S ≤ INT_MAX →
      Mem.bson_init a = some (m0, a0) →
      Mem.Item.buildList a0 items m0 = some (BSON_OK, mb, ab) →
      Mem.bson_finish ab mb = some (BSON_OK, d, ad) →
      Mem.bson_init_size a' S = some (m0', a0') →
      Mem.Item.buildList a0' items m0' = some (BSON_OK, mb', ab') →
      Mem.bson_finish ab' mb' = some (BSON_OK, d', ad') →
        d.overrun = false ∧ d'.overrun = false ∧ d.finished = true ∧ d'.finished = true ∧
        d.cur - d.data = (Elt.bytesList (Item.elts items)).length + 5 ∧
        d'.cur - d'.data = (Elt.bytesList (Item.elts items)).length + 5 ∧
        d.block.take ((Elt.bytesList (Item.elts items)).length + 5)
          = le32_bytes (((Elt.bytesList (Item.elts items)).length : Int) + 5)
              ++ (Elt.bytesList (Item.elts items) ++ [0]) ∧
        d'.block.take ((Elt.bytesList (Item.elts items)).length + 5)
          = d.block.take ((Elt.bytesList (Item.elts items)).length + 5)) := by
  constructor
  · intro a a1 m m1 n hroom h
    obtain ⟨hov, hd, hc, hpos, hlen, hD⟩ := hroom
    obtain ⟨h1, h2, h3, h4, h5, h6, h7, h8, h9, h10, h11, h12, h13⟩ :=
      ensure_space_moves a a1 m m1 n hov hd hc (by omega) hlen hD h
    have hb : ∀ i, i < m.cur - m.data → byteAt m1.block i = byteAt m.block i :=
      fun i hi => byteAt_of_take_eq _ _ _ i h1 hi
    refine ⟨hb, h2, h9, h10, ?_, ⟨h8, h4, h3, ?_, h5, h7⟩, h6, h11, h12, h13⟩
    · intro j hj0 hj4 k hk
      rw [h9]
      exact hb _ (by omega)
    · rw [h2]
      have : (m.dataSize : Int) ≤ m1.dataSize := h6
      omega
  · intro items a a0 ab ad a' a0' ab' ad' S m0 mb d m0' mb' d' hargs hsz h4 hS hi hb hf hi' hb'
      hf'
    obtain ⟨r1, r2, r3, r4⟩ := run_layout items a a0 ab ad initialBufferSize m0 mb d hargs hsz
      (by decide) (by decide) hi hb hf
    obtain ⟨s1, s2, s3, s4⟩ := run_layout items a' a0' ab' ad' S m0' mb' d' hargs hsz h4 hS hi'
      hb' hf'
    exact ⟨r1.1, s1.1, r2, s2, r3, s3, r4, by rw [s4, r4]⟩

theorem sample_many_args : Item.args_ok_list sample_many_items := by
  simp [sample_many_items, List.range, List.range.loop, Item.args_ok_list, Item.args_ok,
    Field.args_ok]

set_option maxRecDepth 1000000 in
/-- On an allocator that moves every block, `bson_ensure_space(b, 200)` takes the
builder with one open frame from the address 4096 and the capacity 128 to the
address 4225 and the capacity 492: the eleven bytes before the cursor, the
cursor offset, the stack `[7]` and the placeholder bytes at the offset 7 are
the same.  Twenty INT fields make a document of 145 bytes: built from
`bson_init` on that allocator the buffer moves to 4225 with the capacity 202,
built from 256 bytes on an allocator that does not move it stays at 4096, and
the 145 finished bytes are the same. -/
theorem growth_preserves_content_witness :
    (sample_open.2.1.data = 4096 ∧ sample_open.2.1.dataSize = 128 ∧
      sample_open.2.1.stack = [7] ∧ sample_open.2.1.stackPos = 1 ∧
      sample_open.2.1.cur - sample_open.2.1.data = 11 ∧
      sample_regrown.2.1.data = 4225 ∧ sample_regrown.2.1.dataSize = 492 ∧
      sample_regrown.2.1.stack = [7] ∧
      sample_regrown.2.1.cur - sample_regrown.2.1.data = 11 ∧
      (∀ i, i < sample_open.2.1.cur - sample_open.2.1.data →
        byteAt sample_regrown.2.1.block i = byteAt sample_open.2.1.block i) ∧
      (∀ k, k < 4 → byteAt sample_regrown.2.1.block ((stack_get sample_regrown.2.1.stack 0).toNat + k)
        = byteAt sample_open.2.1.block ((stack_get sample_open.2.1.stack 0).toNat + k))) ∧
    ((sample_start sample_moving 128).1.data = 4096 ∧
      (sample_end sample_moving 128).2.1.data = 4225 ∧
      (sample_end sample_moving 128).2.1.dataSize = 202 ∧
      (sample_end sample_staying 256).2.1.data = 4096 ∧
      (sample_end sample_staying 256).2.1.dataSize = 256 ∧
      (Elt.bytesList (Item.elts sample_many_items)).length + 5 = 145 ∧
      (sample_end sample_moving 128).2.1.overrun = false ∧
      (sample_end sample_staying 256).2.1.block.take
          ((Elt.bytesList (Item.elts sample_many_items)).length + 5)
        = (sample_end sample_moving 128).2.1.block.take
          ((Elt.bytesList (Item.elts sample_many_items)).length + 5)) :=
  ⟨⟨by decide!, by decide!, by decide!, by decide!, by decide!, by decide!, by decide!,
      by decide!, by decide!,
      (growth_preserves_content.1 sample_open.2.2 sample_regrown.2.2 sample_open.2.1
        sample_regrown.2.1 200 (by unfold Mem.bson.Room; decide!) (by decide!)).1,
      (growth_preserves_content.1 sample_open.2.2 sample_regrown.2.2 sample_open.2.1
        sample_regrown.2.1 200 (by unfold Mem.bson.Room; decide!) (by decide!)).2.2.2.2.1 0
        (by decide!) (by decide!)⟩,
    by decide!, by decide!, by decide!, by decide!, by decide!, by decide!,
    (growth_preserves_content.2 sample_many_items
      sample_moving (sample_start sample_moving 128).2 (sample_body sample_moving 128).2.2
      (sample_end sample_moving 128).2.2
      sample_staying (sample_start sample_staying 256).2 (sample_body sample_staying 256).2.2
      (sample_end sample_staying 256).2.2 256
      (sample_start sample_moving 128).1 (sample_body sample_moving 128).2.1
      (sample_end sample_moving 128).2.1
      (sample_start sample_staying 256).1 (sample_body sample_staying 256).2.1
      (sample_end sample_staying 256).2.1
      sample_many_args (by decide!) (by decide) (by decide)
      (by decide!) (by decide!) (by decide!) (by decide!) (by decide!) (by decide!)).1,
    (growth_preserves_content.2 sample_many_items
      sample_moving (sample_start sample_moving 128).2 (sample_body sample_moving 128).2.2
      (sample_end sample_moving 128).2.2
      sample_staying (sample_start sample_staying 256).2 (sample_body sample_staying 256).2.2
      (sample_end sample_staying 256).2.2 256
      (sample_start sample_moving 128).1 (sample_body sample_moving 128).2.1
      (sample_end sample_moving 128).2.1
      (sample_start sample_staying 256).1 (sample_body sample_staying 256).2.1
      (sample_end sample_staying 256).2.1
      sample_many_args (by decide!) (by decide) (by decide)
      (by decide!) (by decide!) (by decide!) (by decide!) (by decide!) (by decide!)).2.2.2.2.2.2.2⟩

end Bson
